import Mathlib

/-!
# Log-Parser: capture-file decoder and analysis (`src/App.js`)

A shallow embedding of the binary PCAP / PCAPNG parser of `src/App.js`
(`parseMAC`, `parseIPv4`, `parseIPv6`, `parseEthernet`, `parsePCAP`,
`parsePCAPNG`, `parseFile`) and of its analysis functions (`computeStats`,
`detectAnomalies`, `matchesFilter`), together with theorems about them.

Modelling conventions.

* An `ArrayBuffer` is a list of bytes (`Fin 256`); `buffer.byteLength` is the
  length of the list.
* A `DataView` read outside the buffer throws a `RangeError` in JavaScript.
  Every read of the embedding therefore returns `Except Fault _`, and
  `Fault.rangeError` is that exception.
* The two `while` loops are structural recursions on a bound (`fuel`).  The
  bound is `byteLength + 1`; `Fault.fuel` is what the embedding returns when the
  bound is exhausted.  It never is: `parsePCAP_isOk`, `parsePCAP_short` and
  `parsePCAPNG_onlyRange` show that both parsers end with a list or with the
  `RangeError`.
* A JavaScript object with optional keys is the structure `Packet`, all of
  whose fields are options; object spread `{...a, ...b}` is `Packet.spread`.
* The timestamp is an IEEE double computed from two unsigned 32-bit words.  The
  embedding keeps the two operands of that expression (`Timestamp`) instead of a
  floating-point value.
-/

namespace LogParser

/-! ## Data model -/

/-- What a call can end with other than a value. -/
inductive Fault where
  /-- The `RangeError` a `DataView` getter throws for an offset outside the view. -/
  | rangeError
  /-- The loop bound of the embedding was used up. -/
  | fuel
deriving DecidableEq, Repr

abbrev Byte := Fin 256

abbrev Buffer := List Byte

/-- The operands of the floating-point expression that computes `ts`. -/
inductive Timestamp where
  /-- Classic PCAP: `tsSec + tsUsec / 1e6`. -/
  | pcap (tsSec tsUsec : Nat)
  /-- PCAPNG: `(tsHigh * 4294967296 + tsLow) / 1e6`. -/
  | pcapng (tsHigh tsLow : Nat)
deriving DecidableEq, Repr

/-- A packet object.  A key that the JavaScript object does not have is `none`. -/
structure Packet where
  ts : Option Timestamp := none
  orig_len : Option Nat := none
  incl_len : Option Nat := none
  protocol : Option String := none
  src_mac : Option String := none
  dst_mac : Option String := none
  ethertype : Option Nat := none
  src_ip : Option String := none
  dst_ip : Option String := none
  ttl : Option Nat := none
  ip_len : Option Nat := none
  ip_version : Option Nat := none
  src_port : Option Nat := none
  dst_port : Option Nat := none
  flags : Option String := none
  payload_len : Option Int := none
deriving DecidableEq, Repr

/-- Object spread `{...a, ...b}`: the keys of `b` override those of `a`. -/
def Packet.spread (a b : Packet) : Packet :=
  { ts := b.ts <|> a.ts
    orig_len := b.orig_len <|> a.orig_len
    incl_len := b.incl_len <|> a.incl_len
    protocol := b.protocol <|> a.protocol
    src_mac := b.src_mac <|> a.src_mac
    dst_mac := b.dst_mac <|> a.dst_mac
    ethertype := b.ethertype <|> a.ethertype
    src_ip := b.src_ip <|> a.src_ip
    dst_ip := b.dst_ip <|> a.dst_ip
    ttl := b.ttl <|> a.ttl
    ip_len := b.ip_len <|> a.ip_len
    ip_version := b.ip_version <|> a.ip_version
    src_port := b.src_port <|> a.src_port
    dst_port := b.dst_port <|> a.dst_port
    flags := b.flags <|> a.flags
    payload_len := b.payload_len <|> a.payload_len }

/-! ## `DataView` getters -/

/-- `view.getUint8(o)`. -/
def getUint8 (view : Buffer) (o : Nat) : Except Fault Nat :=
  match view[o]? with
  | some x => .ok x.val
  | none => .error .rangeError

/-- `view.getUint16(o, le)`. -/
def getUint16 (view : Buffer) (o : Nat) (le : Bool) : Except Fault Nat := do
  let b0 ← getUint8 view o
  let b1 ← getUint8 view (o + 1)
  pure (if le then b1 * 256 + b0 else b0 * 256 + b1)

/-- `view.getUint32(o, le)`. -/
def getUint32 (view : Buffer) (o : Nat) (le : Bool) : Except Fault Nat := do
  let b0 ← getUint8 view o
  let b1 ← getUint8 view (o + 1)
  let b2 ← getUint8 view (o + 2)
  let b3 ← getUint8 view (o + 3)
  pure (if le then b3 * 16777216 + b2 * 65536 + b1 * 256 + b0
        else b0 * 16777216 + b1 * 65536 + b2 * 256 + b3)

/-! ## Text helpers -/

/-- `n.toString(16)`: lowercase hexadecimal numeral without leading zeros. -/
def toString16 (n : Nat) : String := String.mk (Nat.toDigits 16 n)

/-- `s.padStart(n, c)` for a one-character pad string. -/
def padStart (s : String) (n : Nat) (c : Char) : String :=
  String.mk (List.replicate (n - s.length) c) ++ s

/-- `parts.join(sep)`. -/
def join (parts : List String) (sep : String) : String := sep.intercalate parts

/-- `parseMAC(view, o)`. -/
def parseMAC (view : Buffer) (o : Nat) : Except Fault String := do
  let parts ← [0, 1, 2, 3, 4, 5].mapM fun i => do
    let v ← getUint8 view (o + i)
    pure (padStart (toString16 v) 2 '0')
  pure (join parts ":")

/-- `parseIPv4(view, o)`. -/
def parseIPv4 (view : Buffer) (o : Nat) : Except Fault String := do
  let parts ← [0, 1, 2, 3].mapM fun i => do
    let v ← getUint8 view (o + i)
    pure (toString v)
  pure (join parts ".")

/-- `parseIPv6(view, o)`. -/
def parseIPv6 (view : Buffer) (o : Nat) : Except Fault String := do
  let p ← [0, 2, 4, 6, 8, 10, 12, 14].mapM fun i => do
    let hi ← getUint8 view (o + i)
    let lo ← getUint8 view (o + i + 1)
    pure (toString16 ((hi <<< 8) ||| lo))
  pure (join p ":")

/-- The table `PROTO_MAP`. -/
def PROTO_MAP : Nat → Option String
  | 1 => some "ICMP"
  | 2 => some "IGMP"
  | 6 => some "TCP"
  | 17 => some "UDP"
  | 58 => some "ICMPv6"
  | 89 => some "OSPF"
  | 132 => some "SCTP"
  | _ => none

/-- `PROTO_MAP[proto] || String(proto)`. -/
def protoName (proto : Nat) : String := (PROTO_MAP proto).getD (toString proto)

/-- The table `TCP_FLAGS_LIST`. -/
def TCP_FLAGS_LIST : List String := ["FIN", "SYN", "RST", "PSH", "ACK", "URG"]

/-- `TCP_FLAGS_LIST.filter((_, i) => fB & (1 << i)).join("+")`. -/
def tcpFlags (fB : Nat) : String :=
  join ((TCP_FLAGS_LIST.enum.filter fun p => fB &&& (1 <<< p.1) ≠ 0).map Prod.snd) "+"

/-! ## Frame decoder -/

/-- `parseEthernet(view, o, pktLen)`; `none` is the JavaScript `null`. -/
def parseEthernet (view : Buffer) (o pktLen : Nat) : Except Fault (Option Packet) :=
  if pktLen < 14 then pure none else do
    let dst ← parseMAC view o
    let src ← parseMAC view (o + 6)
    let et ← getUint16 view (o + 12) false
    let pl : Packet := { src_mac := some src, dst_mac := some dst, ethertype := some et }
    if et = 0x0800 ∧ pktLen ≥ 34 then do
      let b0 ← getUint8 view (o + 14)
      let ihl := (b0 &&& 0x0F) * 4
      let proto ← getUint8 view (o + 14 + 9)
      let srcIP ← parseIPv4 view (o + 14 + 12)
      let dstIP ← parseIPv4 view (o + 14 + 16)
      let ttl ← getUint8 view (o + 14 + 8)
      let ipLen ← getUint16 view (o + 14 + 2) false
      let pl : Packet :=
        { pl with protocol := some (protoName proto), src_ip := some srcIP, dst_ip := some dstIP,
                  ttl := some ttl, ip_len := some ipLen }
      let tb := o + 14 + ihl
      if proto = 6 ∧ pktLen ≥ tb - o + 20 then do
        let sp ← getUint16 view tb false
        let dp ← getUint16 view (tb + 2) false
        let fB ← getUint8 view (tb + 13)
        let flags := tcpFlags fB
        let b12 ← getUint8 view (tb + 12)
        let dOff := (b12 >>> 4) * 4
        pure (some { pl with src_port := some sp, dst_port := some dp, flags := some flags,
                             payload_len := some (max 0 ((ipLen : Int) - ihl - dOff)) })
      else if proto = 17 ∧ pktLen ≥ tb - o + 8 then do
        let sp ← getUint16 view tb false
        let dp ← getUint16 view (tb + 2) false
        let ul ← getUint16 view (tb + 4) false
        pure (some { pl with src_port := some sp, dst_port := some dp,
                             payload_len := some ((ul : Int) - 8) })
      else pure (some pl)
    else if et = 0x86DD ∧ pktLen ≥ 54 then do
      let proto ← getUint8 view (o + 14 + 6)
      let srcIP ← parseIPv6 view (o + 14 + 8)
      let dstIP ← parseIPv6 view (o + 14 + 24)
      let plen ← getUint16 view (o + 14 + 4) false
      let pl : Packet :=
        { pl with protocol := some (protoName proto), src_ip := some srcIP, dst_ip := some dstIP,
                  ip_version := some 6, ip_len := some plen }
      let tb := o + 14 + 40
      if (proto = 6 ∨ proto = 17) ∧ pktLen ≥ tb - o + 4 then do
        let sp ← getUint16 view tb false
        let dp ← getUint16 view (tb + 2) false
        pure (some { pl with src_port := some sp, dst_port := some dp })
      else pure (some pl)
    else if et = 0x0806 then pure (some { pl with protocol := some "ARP" })
    else pure (some pl)

/-! ## Classic PCAP -/

/-- The part of the body of the `while` loop of `parsePCAP` that builds the
object `parsed` of one record, once the length checks have passed. -/
def pcapRecord (view : Buffer) (linkType offset tsSec tsUsec inclLen origLen : Nat) :
    Except Fault Packet :=
  let parsed : Packet :=
    { ts := some (.pcap tsSec tsUsec), orig_len := some origLen, incl_len := some inclLen,
      protocol := some "RAW" }
  if linkType = 1 then do
    let eth ← parseEthernet view offset inclLen
    match eth with
    | some e => pure (parsed.spread e)
    | none => pure parsed
  else if linkType = 101 ∧ inclLen ≥ 20 then do
    let proto ← getUint8 view (offset + 9)
    let srcIP ← parseIPv4 view (offset + 12)
    let dstIP ← parseIPv4 view (offset + 16)
    pure (parsed.spread
      { protocol := some (protoName proto), src_ip := some srcIP, dst_ip := some dstIP })
  else pure parsed

/-- The `while` loop of `parsePCAP`; `packets` is the array built so far. -/
def parsePCAP.loop (view : Buffer) (le : Bool) (linkType : Nat) :
    Nat → Nat → List Packet → Except Fault (List Packet)
  | 0, _, _ => .error .fuel
  | fuel + 1, offset, packets =>
    if offset + 16 ≤ view.length then do
      let tsSec ← getUint32 view offset le
      let tsUsec ← getUint32 view (offset + 4) le
      let inclLen ← getUint32 view (offset + 8) le
      let origLen ← getUint32 view (offset + 12) le
      let offset := offset + 16
      if inclLen > 65535 ∨ offset + inclLen > view.length then pure packets
      else do
        let parsed ← pcapRecord view linkType offset tsSec tsUsec inclLen origLen
        parsePCAP.loop view le linkType fuel (offset + inclLen) (packets ++ [parsed])
    else pure packets

/-- `parsePCAP(buffer)`. -/
def parsePCAP (buffer : Buffer) : Except Fault (List Packet) := do
  let magic ← getUint32 buffer 0 false
  let le := decide (magic = 0xd4c3b2a1)
  let linkType ← getUint32 buffer 20 le
  parsePCAP.loop buffer le linkType (buffer.length + 1) 24 []

/-! ## PCAPNG -/

/-- The object pushed for an Enhanced Packet Block whose frame starts at
`pktOff`: `eth ? {...base, ...eth} : base`. -/
def epbRecord (view : Buffer) (pktOff tsHigh tsLow captLen origLen : Nat) :
    Except Fault Packet := do
  let eth ← parseEthernet view pktOff captLen
  let base : Packet :=
    { ts := some (.pcapng tsHigh tsLow), orig_len := some origLen, incl_len := some captLen,
      protocol := some "RAW" }
  match eth with
  | some e => pure (base.spread e)
  | none => pure base

/-- The Enhanced Packet Block branch of `parsePCAPNG`: the array `packets`
after the block at `offset` has been looked at. -/
def epbBlock (view : Buffer) (offset : Nat) (le : Bool) (packets : List Packet) :
    Except Fault (List Packet) := do
  let tsHigh ← getUint32 view (offset + 12) le
  let tsLow ← getUint32 view (offset + 16) le
  let captLen ← getUint32 view (offset + 20) le
  let origLen ← getUint32 view (offset + 24) le
  let pktOff := offset + 28
  if pktOff + captLen ≤ view.length ∧ captLen < 65535 then do
    let parsed ← epbRecord view pktOff tsHigh tsLow captLen origLen
    pure (packets ++ [parsed])
  else pure packets

/-- The `while` loop of `parsePCAPNG`. -/
def parsePCAPNG.loop (view : Buffer) :
    Nat → Nat → Bool → List Packet → Except Fault (List Packet)
  | 0, _, _, _ => .error .fuel
  | fuel + 1, offset, le, packets =>
    if offset + 8 ≤ view.length then do
      let bt ← getUint32 view offset le
      let bl ← getUint32 view (offset + 4) le
      if bl < 12 ∨ offset + bl > view.length then pure packets
      else if bt = 0x0A0D0D0A then do
        let bom ← getUint32 view (offset + 8) true
        let le := decide (bom = 0x1A2B3C4D)
        let bl ← getUint32 view (offset + 4) le
        parsePCAPNG.loop view fuel (offset + bl) le packets
      else if bt = 0x00000006 then do
        let packets ← epbBlock view offset le packets
        parsePCAPNG.loop view fuel (offset + bl) le packets
      else parsePCAPNG.loop view fuel (offset + bl) le packets
    else pure packets

/-- `parsePCAPNG(buffer)`. -/
def parsePCAPNG (buffer : Buffer) : Except Fault (List Packet) :=
  parsePCAPNG.loop buffer (buffer.length + 1) 0 true []

/-! ## Format detection -/

/-- `parseFile(buffer)`; `none` is the JavaScript `null`. -/
def parseFile (buffer : Buffer) : Except Fault (Option (List Packet)) :=
  if buffer.length < 4 then pure none else do
    let m ← getUint32 buffer 0 false
    if m = 0xa1b2c3d4 ∨ m = 0xd4c3b2a1 then do
      let r ← parsePCAP buffer
      pure (some r)
    else if m = 0x0A0D0D0A then do
      let r ← parsePCAPNG buffer
      pure (some r)
    else pure none

/-! ## Doubles

The analysis computes the mean, the standard deviation and the ratio `z` of the
size rule, and the sum `total_bytes`, with IEEE 754 doubles.  Every finite
double is a whole multiple of 2⁻¹⁰⁷⁴, the smallest positive one; `F64.fin k` is
the double `k · 2⁻¹⁰⁷⁴`.  The finite doubles are the `k` whose absolute value has
at most 53 significant binary digits and is below 2²⁰⁹⁸ (the value 2¹⁰²⁴).  The
result of an operation is the exact result rounded to the nearest such number,
ties to the one with an even last digit, and an infinity from 2²⁰⁹⁸ on.

The sign of a zero is not kept: no result of the analysis depends on it.
`x ** 2` is the rounded product `x * x` and `Math.sqrt` the rounded root. -/

/-- The number of steps of 2⁻¹⁰⁷⁴ in 1. -/
@[irreducible]
def F64.scale : Nat := 2 ^ 1074

/-- The loop of `ilog2`. -/
def log2Loop : Nat → Nat → Nat → Nat
  | 0, _, acc => acc
  | fuel + 1, n, acc =>
    if 2 ^ 64 ≤ n then log2Loop fuel (n / 2 ^ 64) (acc + 64)
    else if 2 ≤ n then log2Loop fuel (n / 2) (acc + 1)
    else acc

/-- The position of the leading binary digit of `n`; 0 for 0. -/
def ilog2 (n : Nat) : Nat := log2Loop n n 0

/-- The natural number with at most 53 significant binary digits nearest to
`p / q`, ties to the even one. -/
@[irreducible]
def roundRat (p q : Nat) : Nat :=
  let sh := ilog2 (p / q) - 52
  let q' := q * 2 ^ sh
  let m := p / q'
  let r := p % q'
  (if 2 * r < q' then m else if q' < 2 * r then m + 1 else m + m % 2) * 2 ^ sh

/-- Newton's iteration for the integer square root, from a guess above the root. -/
def sqrtLoop : Nat → Nat → Nat → Nat
  | 0, _, g => g
  | fuel + 1, n, g =>
    let next := (g + n / g) / 2
    if next < g then sqrtLoop fuel n next else g

/-- The integer part of the square root of `n`. -/
def isqrt (n : Nat) : Nat := sqrtLoop (2 ^ (ilog2 n / 2 + 1)) n (2 ^ (ilog2 n / 2 + 1))

/-- The natural number with at most 53 significant binary digits nearest to the
square root of `n`, ties to the even one. -/
@[irreducible]
def roundSqrt (n : Nat) : Nat :=
  let sh := ilog2 (isqrt n) - 52
  let m := isqrt n / 2 ^ sh
  let c := (2 * m + 1) * 2 ^ sh
  (if 4 * n < c * c then m else if c * c < 4 * n then m + 1 else m + m % 2) * 2 ^ sh

/-- A double: a finite one, `Infinity` or `-Infinity`, or `NaN`. -/
inductive F64 where
  | fin (k : Int)
  | inf (neg : Bool)
  | nan
deriving DecidableEq, Repr

/-- The double nearest to `p / q` steps, with the sign `neg`. -/
@[irreducible]
def F64.round (neg : Bool) (p q : Nat) : F64 :=
  if 2 ^ 2098 ≤ roundRat p q then .inf neg
  else .fin (if neg then -(roundRat p q : Int) else (roundRat p q : Int))

/-- The double nearest to the natural number `n`. -/
def F64.ofNat (n : Nat) : F64 := F64.round false (n * F64.scale) 1

/-- `-a`. -/
def F64.neg (a : F64) : F64 :=
  match a with
  | .fin k => .fin (-k)
  | .inf s => .inf (!s)
  | .nan => .nan

/-- `a + b`. -/
def F64.add (a b : F64) : F64 :=
  match a, b with
  | .fin x, .fin y => F64.round (decide (x + y < 0)) (x + y).natAbs 1
  | .fin _, .inf t => .inf t
  | .inf s, .fin _ => .inf s
  | .inf s, .inf t => if s = t then .inf s else .nan
  | _, _ => .nan

/-- `a - b`. -/
def F64.sub (a b : F64) : F64 := a.add b.neg

/-- `a * b`. -/
def F64.mul (a b : F64) : F64 :=
  match a, b with
  | .fin x, .fin y => F64.round (decide (x * y < 0)) (x * y).natAbs F64.scale
  | .fin x, .inf t => if x = 0 then .nan else .inf (decide (x < 0) != t)
  | .inf s, .fin y => if y = 0 then .nan else .inf (s != decide (y < 0))
  | .inf s, .inf t => .inf (s != t)
  | _, _ => .nan

/-- `a / b`. -/
def F64.div (a b : F64) : F64 :=
  match a, b with
  | .fin x, .fin y =>
    if y = 0 then (if x = 0 then .nan else .inf (decide (x < 0)))
    else F64.round (decide (x < 0) != decide (y < 0)) (x.natAbs * F64.scale) y.natAbs
  | .fin _, .inf _ => .fin 0
  | .inf s, .fin y => .inf (s != decide (y < 0))
  | _, _ => .nan

/-- `Math.sqrt(a)`. -/
def F64.sqrt (a : F64) : F64 :=
  match a with
  | .fin k => if k < 0 then .nan else .fin (roundSqrt (k.natAbs * F64.scale))
  | .inf s => if s then .nan else .inf false
  | .nan => .nan

/-- `Math.abs(a)`. -/
def F64.abs (a : F64) : F64 :=
  match a with
  | .fin k => .fin k.natAbs
  | .inf _ => .inf false
  | .nan => .nan

/-- `a > b`. -/
def F64.gt (a b : F64) : Bool :=
  match a, b with
  | .fin x, .fin y => decide (y < x)
  | .fin _, .inf t => t
  | .inf s, .fin _ => !s
  | .inf s, .inf t => !s && t
  | _, _ => false

/-- A numeral as a double. -/
instance (n : Nat) : OfNat F64 n := ⟨F64.ofNat n⟩

/-! ## Analysis

The analysis functions compute with IEEE doubles.

* The sum `total_bytes`, and the mean, the standard deviation and the ratio `z`
  of the size rule, are computed with the doubles of the section above, one
  operation after the other in the order of the source (`sumF64`, `meanF64`,
  `stdF64`, `zScore`, `zAbove3`).  A length is a natural number; `F64.ofNat`
  makes a double of it, which changes nothing below 2⁵³, and a length read from
  a capture file is below 2³².
* A score is kept in thousandths: the weights 0.25, 0.3, 0.4, 0.35, 0.3, 0.2 are
  250, 300, 400, 350, 300, 200, `Math.min(score, 1)` is `min score 1000`, the
  thresholds 0.7, 0.5, 0.3 are 700, 500, 300, and `parseFloat(score.toFixed(3))`
  leaves a number of thousandths as it is.
* `Math.floor(n * .95)` is `n * 19 / 20` and `x > maxIP * 0.6` is
  `10 * x > 6 * maxIP`.
* The texts `mean.toFixed(1)` and `std.toFixed(1)` are kept as their operands.

A JavaScript object used as a dictionary is an association list (`Dict`), a
`Set` of numbers a list without repetition, both in insertion order.  A lookup
in an object also finds the properties inherited from `Object.prototype`
(`inheritedNames`, such as `constructor`).  The keys of `synPerDst` contain "→"
and are never such a name.  `ipCounts` is read and written with the source text
of a record: `CountCell`, `bumpCount`, `maxCell` and `highVolume` are what the
source does with the function or the object that the lookup finds for an
inherited name, `maxIP` being `NaN` (`none`) once a value of `ipCounts` is a
text.  For `ipPorts` a record with such a source and a destination port makes
`ipPorts[p.src_ip].add` throw a `TypeError`; likewise `Math.max(...lens)` throws
a `RangeError` when there are more lengths than the engine takes arguments.
Such a call returns nothing, and `detectAnomalies` and `computeStats` are the
results of the calls that return.
`String.prototype.trim` and `String.prototype.toLowerCase` are parameters of
`matchesFilter`. -/

/-- `p.orig_len || 0`. -/
def origLenOr0 (p : Packet) : Nat := p.orig_len.getD 0

/-- `s.includes(q)`: `q` occurs in `s` as a contiguous piece. -/
def includes (s q : String) : Bool := decide (q.data <:+: s.data)

/-- `!v` for a text-valued key: the key is absent or holds the empty text. -/
def isFalsy (v : Option String) : Bool :=
  match v with
  | none => true
  | some t => decide (t = "")

/-- A value of the summary: the placeholder "—", a number, or `undefined`. -/
inductive StatValue where
  | dash
  | num (n : Nat)
  | undefined
deriving DecidableEq, Repr

/-- A text of the summary: the placeholder "—", `(sum / n).toFixed(1)`, or
`Math.sqrt(lens.reduce((a, b) => a + (b - mean) ** 2, 0) / n).toFixed(1)`. -/
inductive StatText where
  | dash
  | meanFixed1 (sum n : Nat)
  | stdFixed1 (lens : List Nat)
deriving DecidableEq, Repr

/-- The object returned by `computeStats`. -/
structure StatsSummary where
  mean : StatText
  std : StatText
  p95 : StatValue
  median : StatValue
  max : StatValue
  total_bytes : F64
deriving DecidableEq, Repr

/-- An array element that may be `undefined`, as a value of the summary. -/
def StatValue.ofElem (v : Option Nat) : StatValue :=
  match v with
  | some n => .num n
  | none => .undefined

/-- `lens.reduce((a, b) => a + b, 0)`. -/
def sumF64 (lens : List Nat) : F64 := lens.foldl (fun a b => a.add (F64.ofNat b)) (F64.ofNat 0)

/-- `computeStats(packets)`. -/
def computeStats (packets : List Packet) : StatsSummary :=
  if packets.length = 0 then
    { mean := .dash, std := .dash, p95 := .dash, median := .dash, max := .dash, total_bytes := 0 }
  else
    let lens := packets.map origLenOr0
    let sorted := lens.insertionSort (· ≤ ·)
    let n := lens.length
    { mean := .meanFixed1 (lens.foldl (· + ·) 0) n
      std := .stdFixed1 lens
      p95 := StatValue.ofElem (sorted[n * 19 / 20]? <|> sorted[n - 1]?)
      median := StatValue.ofElem sorted[n / 2]?
      max := .num (lens.foldl max 0)
      total_bytes := sumF64 lens }

/-- The set `SUSPICIOUS_PORTS`. -/
def SUSPICIOUS_PORTS : List Nat :=
  [4444, 1337, 31337, 6666, 6667, 4899, 5900, 512, 513, 514, 1080, 3128, 8888]

/-- `REASON_TEXT.size_outlier`. -/
def REASON_TEXT.size_outlier : String := "Unusually large packet — much bigger than normal"

/-- `REASON_TEXT.high_volume(n)`. -/
def REASON_TEXT.high_volume (n : Nat) : String :=
  "This device sent a lot of messages (" ++ toString n ++ " total)"

/-- `REASON_TEXT.port_scan(n)`. -/
def REASON_TEXT.port_scan (n : Nat) : String :=
  "Tried connecting to " ++ toString n ++ " different services — possible scanning"

/-- `REASON_TEXT.syn_flood`. -/
def REASON_TEXT.syn_flood : String :=
  "Sent many connection requests without finishing — possible flood attack"

/-- `REASON_TEXT.bad_port(p)`. -/
def REASON_TEXT.bad_port (p : Nat) : String :=
  "Connected to port " ++ toString p ++ ", which is commonly used by attackers"

/-- `REASON_TEXT.big_icmp`. -/
def REASON_TEXT.big_icmp : String := "Sent an oversized ping — could indicate a ping flood"

/-- A JavaScript object used as a dictionary with text keys. -/
abbrev Dict (α : Type) := List (String × α)

/-- `d[k]`; `none` is `undefined`. -/
def Dict.get {α : Type} (d : Dict α) (k : String) : Option α :=
  match d with
  | [] => none
  | (k', v) :: rest => if k' = k then some v else Dict.get rest k

/-- `d[k] = v`: the value of an existing key is replaced, a new key is added at the end. -/
def Dict.set {α : Type} (d : Dict α) (k : String) (v : α) : Dict α :=
  match d with
  | [] => [(k, v)]
  | (k', v') :: rest => if k' = k then (k, v) :: rest else (k', v') :: Dict.set rest k v

/-- `s.add(x)` for a `Set`. -/
def setAdd (s : List Nat) (x : Nat) : List Nat := if x ∈ s then s else s ++ [x]

/-- A value held by `ipCounts`: a count, or the text that `+ 1` makes of a property
inherited from `Object.prototype` (a function, which is neither `undefined` nor 0). -/
inductive CountCell where
  | num (n : Nat)
  | text
deriving DecidableEq, Repr

/-- The property names every object inherits from `Object.prototype`. -/
def inheritedNames : List String :=
  ["constructor", "__defineGetter__", "__defineSetter__", "hasOwnProperty", "__lookupGetter__",
   "__lookupSetter__", "isPrototypeOf", "propertyIsEnumerable", "toString", "valueOf",
   "__proto__", "toLocaleString"]

/-- `ipCounts[src] = (ipCounts[src] || 0) + 1`.  A count is incremented and a text gets
longer.  For a name that is not a key yet the lookup finds `undefined`, and the count is 1,
unless the name is inherited: then the lookup finds a function or, for `__proto__`, the
prototype object, `+ 1` makes a text of it, and the assignment stores the text, except for
`__proto__`, whose setter ignores a text. -/
def bumpCount (d : Dict CountCell) (src : String) : Dict CountCell :=
  match d.get src with
  | some (.num n) => d.set src (.num (n + 1))
  | some .text => d.set src .text
  | none =>
    if src = "__proto__" then d
    else if src ∈ inheritedNames then d.set src .text
    else d.set src (.num 1)

/-- `Math.max(m, c)` for `m` a number or `NaN` (`none`) and `c` a value of `ipCounts`: a
text is not a numeral, so that it counts as `NaN`. -/
def maxCell (m : Option Nat) (c : CountCell) : Option Nat :=
  match m, c with
  | some a, .num b => some (max a b)
  | _, _ => none

/-- `maxIP > 5 && ipCounts[p.src_ip] > maxIP * 0.6` for `maxIP` a number or `NaN` (`none`)
and `cnt` what the lookup `ipCounts[p.src_ip]` finds among the keys of `ipCounts`: a
comparison with `NaN`, with a text that is not a numeral or with an inherited property is
false. -/
def highVolume (maxIP : Option Nat) (cnt : Option CountCell) : Bool :=
  match maxIP, cnt with
  | some m, some (.num c) => decide (m > 5 ∧ 10 * c > 6 * m)
  | _, _ => false

/-- The count held by `ipCounts[p.src_ip]` when the high-volume rule fires. -/
def cellNum (cnt : Option CountCell) : Nat :=
  match cnt with
  | some (.num c) => c
  | _ => 0

/-- The three dictionaries built by the first pass of `detectAnomalies`. -/
structure Aggregates where
  ipCounts : Dict CountCell := []
  ipPorts : Dict (List Nat) := []
  synPerDst : Dict Nat := []
deriving DecidableEq, Repr

/-- `p.flags?.includes("SYN") && !p.flags?.includes("ACK")`. -/
def synNoAck (p : Packet) : Bool :=
  match p.flags with
  | some f => includes f "SYN" && !includes f "ACK"
  | none => false

/-- The template text of `p.src_ip` followed by "→" and `p.dst_ip`; an absent key is printed
as "undefined". -/
def synKey (p : Packet) : String :=
  p.src_ip.getD "undefined" ++ "→" ++ p.dst_ip.getD "undefined"

/-- The body of `packets.forEach` in `detectAnomalies`. -/
def aggregate (a : Aggregates) (p : Packet) : Aggregates :=
  if isFalsy p.src_ip then a
  else
    let src := p.src_ip.getD ""
    { ipCounts := bumpCount a.ipCounts src
      ipPorts :=
        match p.dst_port with
        | some port => a.ipPorts.set src (setAdd ((a.ipPorts.get src).getD []) port)
        | none => a.ipPorts
      synPerDst :=
        if synNoAck p then a.synPerDst.set (synKey p) ((a.synPerDst.get (synKey p)).getD 0 + 1)
        else a.synPerDst }

/-- `mean` of the analysis: `lens.reduce((a, b) => a + b, 0) / lens.length`. -/
def meanF64 (lens : List Nat) : F64 := (sumF64 lens).div (F64.ofNat lens.length)

/-- `std` of the analysis:
`Math.sqrt(lens.reduce((a, b) => a + (b - mean) ** 2, 0) / lens.length)`. -/
def stdF64 (lens : List Nat) : F64 :=
  ((lens.foldl (fun a b => a.add (((F64.ofNat b).sub (meanF64 lens)).mul
      ((F64.ofNat b).sub (meanF64 lens)))) (F64.ofNat 0)).div (F64.ofNat lens.length)).sqrt

/-- `z` of the record of length `x`:
`std > 0 ? Math.abs((x - mean) / std) : 0`. -/
def zScore (lens : List Nat) (x : Nat) : F64 :=
  if (stdF64 lens).gt (F64.ofNat 0) then
    (((F64.ofNat x).sub (meanF64 lens)).div (stdF64 lens)).abs
  else F64.ofNat 0

/-- `z > 3` for a record of length `x`, where `mean` and `std` are those of `lens`. -/
def zAbove3 (lens : List Nat) (x : Nat) : Bool := (zScore lens x).gt (F64.ofNat 3)

/-- One `if (c) { reasons.push(text); score += w; }`. -/
def addRule (c : Bool) (text : String) (w : Nat) (st : List String × Nat) : List String × Nat :=
  if c then (st.1 ++ [text], st.2 + w) else st

/-- The six rules of `detectAnomalies` run on one record: `reasons` and `score`
(in thousandths) before `Math.min`. -/
def applyRules (agg : Aggregates) (lens : List Nat) (maxIP : Option Nat) (p : Packet) :
    List String × Nat :=
  let src := p.src_ip.getD ""
  let st : List String × Nat := ([], 0)
  let st := addRule (zAbove3 lens (origLenOr0 p)) REASON_TEXT.size_outlier 250 st
  let cnt := agg.ipCounts.get src
  let st := addRule (highVolume maxIP cnt) (REASON_TEXT.high_volume (cellNum cnt)) 300 st
  let uP := ((agg.ipPorts.get src).map List.length).getD 0
  let st := addRule (decide (uP > 15)) (REASON_TEXT.port_scan uP) 400 st
  let st := addRule (decide ((agg.synPerDst.get (synKey p)).getD 0 > 10)) REASON_TEXT.syn_flood 350 st
  let st :=
    match p.dst_port with
    | some port => addRule (decide (port ∈ SUSPICIOUS_PORTS)) (REASON_TEXT.bad_port port) 300 st
    | none => st
  addRule (decide (p.protocol = some "ICMP" ∧ origLenOr0 p > 512)) REASON_TEXT.big_icmp 200 st

/-- An element of the array returned by `detectAnomalies`: the record (`...p`),
`_idx`, `score` in thousandths, `reasons` and `severity`. -/
structure Finding where
  packet : Packet
  idx : Nat
  score : Nat
  reasons : List String
  severity : String
deriving DecidableEq, Repr

/-- The severity of a score (in thousandths). -/
def severityOf (score : Nat) : String :=
  if score ≥ 700 then "critical" else if score ≥ 500 then "high"
  else if score ≥ 300 then "medium" else "low"

/-- The callback of `packets.map` in `detectAnomalies`; `none` is `null`. -/
def evalPacket (agg : Aggregates) (lens : List Nat) (maxIP : Option Nat) (p : Packet) (i : Nat) :
    Option Finding :=
  if isFalsy p.src_ip then none
  else
    let st := applyRules agg lens maxIP p
    let score := min st.2 1000
    if score = 0 then none
    else some { packet := p, idx := i, score := score, reasons := st.1,
                severity := severityOf score }

/-- `detectAnomalies(packets)`. -/
def detectAnomalies (packets : List Packet) : List Finding :=
  if packets.length = 0 then []
  else
    let agg := packets.foldl aggregate {}
    let lens := packets.map origLenOr0
    let maxIP := (agg.ipCounts.map Prod.snd).foldl maxCell (some 0)
    (packets.enum.filterMap fun ip => evalPacket agg lens maxIP ip.2 ip.1).insertionSort
      fun a b => a.score ≥ b.score

/-- `safe(v)` for a text-valued key. -/
def safeText (toLowerCase : String → String) (v : Option String) : String :=
  match v with
  | none => ""
  | some s => toLowerCase s

/-- `safe(v)` for a number-valued key. -/
def safeNum (toLowerCase : String → String) (v : Option Nat) : String :=
  match v with
  | none => ""
  | some n => toLowerCase (toString n)

/-- `matchesFilter(p, raw)`. -/
def matchesFilter (trim toLowerCase : String → String) (p : Packet) (raw : String) : Bool :=
  let q := toLowerCase (trim raw)
  if q = "" then true
  else
    [safeText toLowerCase p.src_ip, safeText toLowerCase p.dst_ip,
     safeText toLowerCase p.protocol, safeNum toLowerCase p.src_port,
     safeNum toLowerCase p.dst_port, safeText toLowerCase p.flags,
     safeText toLowerCase p.src_mac, safeText toLowerCase p.dst_mac].any fun v => includes v q

/-! ## Auxiliary definitions

Total versions of the reads, the record and block walks the theorems are stated
with, encoders of well-formed buffers, and sample buffers. -/

/-- A classic-PCAP capture (magic `A1 B2 C3 D4`, link type 1) with one record:
an Ethernet / IPv4 / TCP frame of 54 captured bytes, original length 74, source
port 52341, destination port 443, flag byte `0x02`. -/
def samplePcap : Buffer :=
  [0xA1, 0xB2, 0xC3, 0xD4, 0, 2, 0, 4, 0, 0, 0, 0, 0, 0, 0, 0, 0, 0, 0xFF, 0xFF, 0, 0, 0, 1,
   0, 0, 0, 1, 0, 0, 0, 2, 0, 0, 0, 54, 0, 0, 0, 74,
   1, 2, 3, 4, 5, 6, 7, 8, 9, 10, 11, 0xAB, 8, 0,
   0x45, 0, 0, 40, 0, 0, 0, 0, 64, 6, 0, 0, 192, 168, 1, 10, 142, 250, 80, 46,
   0xCC, 0x75, 0x01, 0xBB, 0, 0, 0, 0, 0, 0, 0, 0, 0x50, 0x02, 0, 0, 0, 0, 0, 0]

/-- The object `parseFile` returns for the record of `samplePcap`. -/
def samplePacket : Packet :=
  { ts := some (.pcap 1 2), orig_len := some 74, incl_len := some 54, protocol := some "TCP",
    src_mac := some "07:08:09:0a:0b:ab", dst_mac := some "01:02:03:04:05:06",
    ethertype := some 2048, src_ip := some "192.168.1.10", dst_ip := some "142.250.80.46",
    ttl := some 64, ip_len := some 40, src_port := some 52341, dst_port := some 443,
    flags := some "SYN", payload_len := some 0 }

/-- Four bytes: the classic-PCAP magic and nothing else. -/
def magicOnly : Buffer := [0xA1, 0xB2, 0xC3, 0xD4]

/-- A little-endian PCAPNG buffer: a 28-byte Section Header Block followed by a
12-byte block of type 6 (Enhanced Packet Block) that ends the buffer. -/
def shortEpb : Buffer :=
  [0x0A, 0x0D, 0x0D, 0x0A, 28, 0, 0, 0, 0x4D, 0x3C, 0x2B, 0x1A, 1, 0, 0, 0,
   0xFF, 0xFF, 0xFF, 0xFF, 0xFF, 0xFF, 0xFF, 0xFF, 28, 0, 0, 0,
   6, 0, 0, 0, 12, 0, 0, 0, 12, 0, 0, 0]

/-- A big-endian PCAPNG buffer: a 28-byte Section Header Block (byte-order
magic bytes `1A 2B 3C 4D`, block length 28 stored big-endian) followed by one
48-byte big-endian Enhanced Packet Block that wholly contains its 16-byte frame
(captured length 16, original length 16). -/
def sampleNgBE : Buffer :=
  [0x0A, 0x0D, 0x0D, 0x0A, 0, 0, 0, 28, 0x1A, 0x2B, 0x3C, 0x4D, 0, 1, 0, 0,
   0xFF, 0xFF, 0xFF, 0xFF, 0xFF, 0xFF, 0xFF, 0xFF, 0, 0, 0, 28,
   0, 0, 0, 6, 0, 0, 0, 48, 0, 0, 0, 0, 0, 0, 0, 0, 0, 0, 0, 1, 0, 0, 0, 16, 0, 0, 0, 16,
   1, 2, 3, 4, 5, 6, 7, 8, 9, 10, 11, 12, 8, 6, 0, 0, 0, 0, 0, 48]

/-- The little-endian counterpart of `sampleNgBE`: every 32-bit word byte-reversed. -/
def sampleNgLE : Buffer :=
  [0x0A, 0x0D, 0x0D, 0x0A, 28, 0, 0, 0, 0x4D, 0x3C, 0x2B, 0x1A, 1, 0, 0, 0,
   0xFF, 0xFF, 0xFF, 0xFF, 0xFF, 0xFF, 0xFF, 0xFF, 28, 0, 0, 0,
   6, 0, 0, 0, 48, 0, 0, 0, 0, 0, 0, 0, 0, 0, 0, 0, 1, 0, 0, 0, 16, 0, 0, 0, 16, 0, 0, 0,
   1, 2, 3, 4, 5, 6, 7, 8, 9, 10, 11, 12, 8, 6, 0, 0, 48, 0, 0, 0]

/-- A little-endian PCAPNG buffer of three blocks: a Section Header Block at 0,
an Enhanced Packet Block at 28 (block length 32) whose declared captured length
is 70000, and the Enhanced Packet Block of `sampleNgLE` at 60, its frame at 88. -/
def skipCapture : Buffer :=
  [0x0A, 0x0D, 0x0D, 0x0A, 28, 0, 0, 0, 0x4D, 0x3C, 0x2B, 0x1A, 1, 0, 0, 0,
   0xFF, 0xFF, 0xFF, 0xFF, 0xFF, 0xFF, 0xFF, 0xFF, 28, 0, 0, 0,
   6, 0, 0, 0, 32, 0, 0, 0, 0, 0, 0, 0, 0, 0, 0, 0, 0, 0, 0, 0, 0x70, 0x11, 1, 0,
   0x70, 0x11, 1, 0, 32, 0, 0, 0,
   6, 0, 0, 0, 48, 0, 0, 0, 0, 0, 0, 0, 0, 0, 0, 0, 1, 0, 0, 0, 16, 0, 0, 0, 16, 0, 0, 0,
   1, 2, 3, 4, 5, 6, 7, 8, 9, 10, 11, 12, 8, 6, 0, 0, 48, 0, 0, 0]

/-- The object decoded from the 16-byte frame of `sampleNgLE` and `skipCapture`. -/
def arpPacket : Packet :=
  { ts := some (.pcapng 0 1), orig_len := some 16, incl_len := some 16, protocol := some "ARP",
    src_mac := some "07:08:09:0a:0b:0c", dst_mac := some "01:02:03:04:05:06",
    ethertype := some 2054 }

/-- Results can be compared, so that the parsers can be evaluated on concrete buffers. -/
instance {ε α : Type} [DecidableEq ε] [DecidableEq α] : DecidableEq (Except ε α)
  | .ok a, .ok b => if h : a = b then isTrue (by rw [h]) else isFalse (fun e => h (by cases e; rfl))
  | .error a, .error b =>
    if h : a = b then isTrue (by rw [h]) else isFalse (fun e => h (by cases e; rfl))
  | .ok _, .error _ => isFalse (fun e => by cases e)
  | .error _, .ok _ => isFalse (fun e => by cases e)

/-- Total byte read: the byte at `o`, `0` outside the buffer. -/
def byteAt (view : Buffer) (o : Nat) : Nat :=
  match view[o]? with
  | some x => x.val
  | none => 0

/-- Total version of `getUint16`. -/
def u16 (view : Buffer) (o : Nat) (le : Bool) : Nat :=
  if le then byteAt view (o + 1) * 256 + byteAt view o
  else byteAt view o * 256 + byteAt view (o + 1)

/-- Total version of `getUint32`. -/
def u32 (view : Buffer) (o : Nat) (le : Bool) : Nat :=
  if le then
    byteAt view (o + 3) * 16777216 + byteAt view (o + 2) * 65536 + byteAt view (o + 1) * 256
      + byteAt view o
  else
    byteAt view o * 16777216 + byteAt view (o + 1) * 65536 + byteAt view (o + 2) * 256
      + byteAt view (o + 3)

/-- The two views hold the same `n` bytes, at `o1` in the first and at `o2` in the second. -/
def Agree (v1 : Buffer) (o1 : Nat) (v2 : Buffer) (o2 : Nat) (n : Nat) : Prop :=
  ∀ k, k < n → v1[o1 + k]? = v2[o2 + k]?

/-- The record whose 16-byte header starts at `off` fits: the header is inside
the buffer, the captured length is at most 65535 and the captured bytes are
inside the buffer. -/
def recordFits (view : Buffer) (le : Bool) (off : Nat) : Prop :=
  off + 16 ≤ view.length ∧ u32 view (off + 8) le ≤ 65535 ∧
    off + 16 + u32 view (off + 8) le ≤ view.length

instance (view : Buffer) (le : Bool) (off : Nat) : Decidable (recordFits view le off) := by
  unfold recordFits; infer_instance

/-- Where the record after the one at `off` starts. -/
def nextRecord (view : Buffer) (le : Bool) (off : Nat) : Nat :=
  off + 16 + u32 view (off + 8) le

/-- Where the `k`-th record after the one at `off` starts, following the declared lengths. -/
def recordOffset (view : Buffer) (le : Bool) : Nat → Nat → Nat
  | off, 0 => off
  | off, k + 1 => recordOffset view le (nextRecord view le off) k

/-- The object decoded from the record whose header starts at `off`. -/
def recordAt (view : Buffer) (le : Bool) (linkType off : Nat) : Except Fault Packet :=
  pcapRecord view linkType (off + 16) (u32 view off le) (u32 view (off + 4) le)
    (u32 view (off + 8) le) (u32 view (off + 12) le)

/-- Byte order of a classic-PCAP buffer: `le = (magic === 0xd4c3b2a1)`. -/
def pcapLE (buffer : Buffer) : Bool := decide (u32 buffer 0 false = 0xd4c3b2a1)

/-- The link type of a classic-PCAP buffer, read at offset 20 in the detected byte order. -/
def pcapLinkType (buffer : Buffer) : Nat := u32 buffer 20 (pcapLE buffer)

/-- The four bytes of the 32-bit word `x` in the given byte order. -/
def encU32 (le : Bool) (x : Nat) : List Byte :=
  if le then [Fin.ofNat x, Fin.ofNat (x / 256), Fin.ofNat (x / 65536), Fin.ofNat (x / 16777216)]
  else [Fin.ofNat (x / 16777216), Fin.ofNat (x / 65536), Fin.ofNat (x / 256), Fin.ofNat x]

/-- One record of a classic-PCAP file: the header words and the captured frame. -/
structure PcapRecord where
  tsSec : Nat
  tsUsec : Nat
  origLen : Nat
  frame : List Byte

/-- The bytes of a complete record: 16-byte header in the given byte order
(captured length = length of the frame), then the frame bytes as they are. -/
def encRecord (le : Bool) (r : PcapRecord) : List Byte :=
  encU32 le r.tsSec ++ (encU32 le r.tsUsec ++ (encU32 le r.frame.length ++
    (encU32 le r.origLen ++ r.frame)))

/-- The bytes of a sequence of complete records. -/
def encRecords (le : Bool) : List PcapRecord → List Byte
  | [] => []
  | r :: rs => encRecord le r ++ encRecords le rs

/-- A well-formed classic-PCAP buffer: the magic word `0xA1B2C3D4` written in
the file's byte order, 16 further header bytes `mid`, the link-type word, and
complete records. -/
def encPcap (le : Bool) (mid : List Byte) (linkType : Nat) (rs : List PcapRecord) : Buffer :=
  encU32 le 0xA1B2C3D4 ++ (mid ++ (encU32 le linkType ++ encRecords le rs))

/-- The object decoded from a complete record, as a function of the record alone. -/
def decodeRecord (linkType : Nat) (r : PcapRecord) : Except Fault Packet :=
  pcapRecord r.frame linkType 0 (r.tsSec % 4294967296) (r.tsUsec % 4294967296) r.frame.length
    (r.origLen % 4294967296)

/-- The 16 bytes between the magic word and the link-type word of `samplePcap`. -/
def sampleMid : List Byte := [0, 2, 0, 4, 0, 0, 0, 0, 0, 0, 0, 0, 0, 0, 0xFF, 0xFF]

/-- The frame of the record of `samplePcap`. -/
def sampleFrame : List Byte :=
  [1, 2, 3, 4, 5, 6, 7, 8, 9, 10, 11, 0xAB, 8, 0,
   0x45, 0, 0, 40, 0, 0, 0, 0, 64, 6, 0, 0, 192, 168, 1, 10, 142, 250, 80, 46,
   0xCC, 0x75, 0x01, 0xBB, 0, 0, 0, 0, 0, 0, 0, 0, 0x50, 0x02, 0, 0, 0, 0, 0, 0]

/-- The record of `samplePcap`. -/
def sampleRecord : PcapRecord := { tsSec := 1, tsUsec := 2, origLen := 74, frame := sampleFrame }

/-- The record loop run on the records themselves instead of on their bytes. -/
def walkRecords (linkType : Nat) : Nat → List PcapRecord → List Packet →
    Except Fault (List Packet)
  | 0, _, _ => .error .fuel
  | _ + 1, [], acc => pure acc
  | fuel + 1, r :: rs, acc =>
    if r.frame.length ≤ 65535 then
      decodeRecord linkType r >>= fun p => walkRecords linkType fuel rs (acc ++ [p])
    else pure acc

/-- The block that starts at `off` passes the check of the loop: its eight
header bytes are inside the buffer, its declared length is at least 12 and the
block ends inside the buffer. -/
def blockFits (view : Buffer) (le : Bool) (off : Nat) : Prop :=
  off + 8 ≤ view.length ∧ 12 ≤ u32 view (off + 4) le ∧ off + u32 view (off + 4) le ≤ view.length

instance (view : Buffer) (le : Bool) (off : Nat) : Decidable (blockFits view le off) := by
  unfold blockFits; infer_instance

/-- Offset and byte order after the block at `off`: a Section Header Block
sets the byte order from its byte-order magic and is stepped over by its
length re-read in that order; any other block is stepped over by its length. -/
def nextBlock (view : Buffer) (off : Nat) (le : Bool) : Nat × Bool :=
  if u32 view off le = 0x0A0D0D0A then
    (off + u32 view (off + 4) (decide (u32 view (off + 8) true = 0x1A2B3C4D)),
      decide (u32 view (off + 8) true = 0x1A2B3C4D))
  else (off + u32 view (off + 4) le, le)

/-- Offset and byte order `k` blocks after the state `s`. -/
def blockState (view : Buffer) : Nat → Nat × Bool → Nat × Bool
  | 0, s => s
  | k + 1, s => blockState view k (nextBlock view s.1 s.2)

/-- What the block at `off` adds to the result: the objects of an Enhanced
Packet Block, nothing for any other block. -/
def blockPackets (view : Buffer) (off : Nat) (le : Bool) : Except Fault (List Packet) :=
  if u32 view off le ≠ 0x0A0D0D0A ∧ u32 view off le = 0x00000006 then epbBlock view off le []
  else pure []

/-- A little-endian PCAPNG block: its type and the bytes that follow the
8-byte (type, total length) head of the block. -/
structure NgBlock where
  typ : Nat
  body : List Byte

/-- The bytes of a block: type and declared length (little-endian, the
declared length being the real size), then the body. -/
def encBlock (b : NgBlock) : List Byte :=
  encU32 true b.typ ++ (encU32 true (8 + b.body.length) ++ b.body)

/-- The bytes of a sequence of blocks. -/
def encBlocks : List NgBlock → List Byte
  | [] => []
  | b :: bs => encBlock b ++ encBlocks bs

/-- A well-formed block of a little-endian section: type and size are 32-bit
values, the size is at least 12, a Section Header Block carries the
little-endian byte-order magic, and an Enhanced Packet Block holds its 28-byte
head and wholly contains its frame. -/
def NgBlock.WellFormed (b : NgBlock) : Prop :=
  b.typ < 4294967296 ∧ 4 ≤ b.body.length ∧ 8 + b.body.length < 4294967296 ∧
    (b.typ = 0x0A0D0D0A → u32 b.body 0 true = 0x1A2B3C4D) ∧
    (b.typ = 0x00000006 → 20 ≤ b.body.length ∧ 20 + u32 b.body 12 true ≤ b.body.length)

/-- What a block adds to the result, as a function of the block alone. -/
def ngBlockPackets (b : NgBlock) : Except Fault (List Packet) :=
  if b.typ = 0x00000006 ∧ u32 b.body 12 true < 65535 then
    epbRecord b.body 20 (u32 b.body 4 true) (u32 b.body 8 true) (u32 b.body 12 true)
      (u32 b.body 16 true) >>= fun p => pure [p]
  else pure []

/-- The block loop run on the blocks themselves instead of on their bytes. -/
def walkBlocks : List NgBlock → List Packet → Except Fault (List Packet)
  | [], acc => pure acc
  | b :: bs, acc => ngBlockPackets b >>= fun ps => walkBlocks bs (acc ++ ps)

instance (b : NgBlock) : Decidable b.WellFormed := by
  unfold NgBlock.WellFormed; infer_instance

/-- The Section Header Block of `sampleNgLE`. -/
def sampleShb : NgBlock :=
  { typ := 0x0A0D0D0A
    body := [0x4D, 0x3C, 0x2B, 0x1A, 1, 0, 0, 0, 0xFF, 0xFF, 0xFF, 0xFF, 0xFF, 0xFF, 0xFF, 0xFF,
             28, 0, 0, 0] }

/-- The Enhanced Packet Block of `sampleNgLE`. -/
def sampleEpb : NgBlock :=
  { typ := 6
    body := [0, 0, 0, 0, 0, 0, 0, 0, 1, 0, 0, 0, 16, 0, 0, 0, 16, 0, 0, 0,
             1, 2, 3, 4, 5, 6, 7, 8, 9, 10, 11, 12, 8, 6, 0, 0, 48, 0, 0, 0] }

/-- An Interface Description Block (type 1), a block type the parser does not know. -/
def sampleIdb : NgBlock :=
  { typ := 1, body := [1, 0, 0, 0, 0, 0, 4, 0, 20, 0, 0, 0] }

/-- The only fault of `x` is the `RangeError`. -/
def OnlyRange {α : Type} (x : Except Fault α) : Prop := ∀ e, x = .error e → e = .rangeError

/-- The original lengths the summary is computed from, an absent one counting as 0. -/
def lengthsOf (packets : List Packet) : List Nat := packets.map origLenOr0

/-- The "no data" summary. -/
def noData : StatsSummary :=
  { mean := .dash, std := .dash, p95 := .dash, median := .dash, max := .dash, total_bytes := 0 }

/-- Five records with original lengths 60, 1500, 40, absent, 576. -/
def sampleStats : List Packet :=
  [{ orig_len := some 60 }, { orig_len := some 1500 }, { orig_len := some 40 }, {},
   { orig_len := some 576 }]

/-- `toLowerCase` on ASCII letters; other characters are left as they are. -/
def asciiLower (s : String) : String := String.mk (s.data.map Char.toLower)

/-- `trim` for the ASCII white space (space, tab, carriage return, line feed). -/
def asciiTrim (s : String) : String :=
  String.mk ((((s.data.dropWhile Char.isWhitespace).reverse).dropWhile Char.isWhitespace).reverse)

/-- The eight texts `matchesFilter` searches: `src_ip`, `dst_ip`, `protocol`,
`src_port`, `dst_port`, `flags`, `src_mac`, `dst_mac`, lower-cased, an absent
field being the empty text. -/
def filterTexts (toLowerCase : String → String) (p : Packet) : List String :=
  [(p.src_ip.map toLowerCase).getD "", (p.dst_ip.map toLowerCase).getD "",
   (p.protocol.map toLowerCase).getD "",
   (p.src_port.map fun n => toLowerCase (toString n)).getD "",
   (p.dst_port.map fun n => toLowerCase (toString n)).getD "",
   (p.flags.map toLowerCase).getD "", (p.src_mac.map toLowerCase).getD "",
   (p.dst_mac.map toLowerCase).getD ""]

/-- The dictionaries `detectAnomalies` builds from `packets`. -/
def aggOf (packets : List Packet) : Aggregates := packets.foldl aggregate {}

/-- `maxIP` of `detectAnomalies`: `Math.max(...Object.values(ipCounts), 0)`. -/
def maxIPOf (packets : List Packet) : Option Nat :=
  ((aggOf packets).ipCounts.map Prod.snd).foldl maxCell (some 0)

/-- What the callback of `packets.map` returns for the record `p` at index `i`. -/
def findingAt (packets : List Packet) (i : Nat) (p : Packet) : Option Finding :=
  evalPacket (aggOf packets) (lengthsOf packets) (maxIPOf packets) p i

/-- The findings before they are sorted: `packets.map(...).filter(Boolean)`. -/
def candidates (packets : List Packet) : List Finding :=
  packets.enum.filterMap fun ip => findingAt packets ip.1 ip.2

/-- The six rules as a table: whether the rule fires for the record, its text, its weight in
thousandths. -/
def ruleTable (agg : Aggregates) (lens : List Nat) (maxIP : Option Nat) (p : Packet) :
    List (Bool × String × Nat) :=
  [(zAbove3 lens (origLenOr0 p), REASON_TEXT.size_outlier, 250),
   (highVolume maxIP (agg.ipCounts.get (p.src_ip.getD "")),
     REASON_TEXT.high_volume (cellNum (agg.ipCounts.get (p.src_ip.getD ""))), 300),
   (decide (((agg.ipPorts.get (p.src_ip.getD "")).map List.length).getD 0 > 15),
     REASON_TEXT.port_scan (((agg.ipPorts.get (p.src_ip.getD "")).map List.length).getD 0), 400),
   (decide ((agg.synPerDst.get (synKey p)).getD 0 > 10), REASON_TEXT.syn_flood, 350),
   (match p.dst_port with
      | some port => decide (port ∈ SUSPICIOUS_PORTS)
      | none => false,
     REASON_TEXT.bad_port (p.dst_port.getD 0), 300),
   (decide (p.protocol = some "ICMP" ∧ origLenOr0 p > 512), REASON_TEXT.big_icmp, 200)]

/-- The address texts of the records are such that the template text of `synKey`
tells the pairs (source, destination) apart: no source text contains the
character "→" and no destination text is "undefined". -/
def AddressTexts (packets : List Packet) : Prop :=
  ∀ q ∈ packets, (∀ s, q.src_ip = some s → '→' ∉ s.data) ∧ q.dst_ip ≠ some "undefined"

/-- No source text of the records is a property name that `ipCounts` inherits from
`Object.prototype`.  So it is for the address texts the decoder prints: digits and dots,
or hexadecimal digits and colons. -/
def OwnNames (packets : List Packet) : Prop :=
  ∀ q ∈ packets, q.src_ip.getD "" ∉ inheritedNames

instance (packets : List Packet) : Decidable (OwnNames packets) := by
  unfold OwnNames; infer_instance

/-- The record `samplePacket` (a SYN from 192.168.1.10 to 142.250.80.46) sent `n` times. -/
def synBurst (n : Nat) : List Packet := List.replicate n samplePacket

/-- Sixteen records from 10.0.0.1 to 10.0.0.2, all with flags "SYN": fifteen of
60 bytes to the ports 1 to 15, then an ICMP record of 10000 bytes to the port 4444. -/
def sampleAllRules : List Packet :=
  (List.range 15).map (fun k =>
    ({ orig_len := some 60, protocol := some "TCP", src_ip := some "10.0.0.1",
       dst_ip := some "10.0.0.2", src_port := some 40000, dst_port := some (k + 1),
       flags := some "SYN" } : Packet)) ++
  [{ orig_len := some 10000, protocol := some "ICMP", src_ip := some "10.0.0.1",
     dst_ip := some "10.0.0.2", src_port := some 40000, dst_port := some 4444,
     flags := some "SYN" }]

/-- The last record of `sampleAllRules`. -/
def sampleAllRulesLast : Packet :=
  { orig_len := some 10000, protocol := some "ICMP", src_ip := some "10.0.0.1",
    dst_ip := some "10.0.0.2", src_port := some 40000, dst_port := some 4444,
    flags := some "SYN" }

/-- The rank of a severity text: "low" 0, "medium" 1, "high" 2, "critical" 3. -/
def severityRank (s : String) : Nat :=
  if s = "critical" then 3 else if s = "high" then 2 else if s = "medium" then 1 else 0

/-- The finding computed for the last record of `sampleAllRules`. -/
def sampleFinding : Finding :=
  { packet := sampleAllRulesLast, idx := 15, score := 1000,
    reasons := [REASON_TEXT.size_outlier, REASON_TEXT.high_volume 16, REASON_TEXT.port_scan 16,
      REASON_TEXT.syn_flood, REASON_TEXT.bad_port 4444, REASON_TEXT.big_icmp],
    severity := "critical" }

/-- The order of the ranking: a higher score first, and among equal scores the lower index
first. -/
def RankedBefore (a b : Finding) : Prop :=
  a.score > b.score ∨ (a.score = b.score ∧ a.idx < b.idx)

/-- The finding computed for the first record of `sampleAllRules`. -/
def sampleFindingFirst : Finding :=
  { packet := { orig_len := some 60, protocol := some "TCP", src_ip := some "10.0.0.1",
                dst_ip := some "10.0.0.2", src_port := some 40000, dst_port := some 1,
                flags := some "SYN" },
    idx := 0, score := 1000,
    reasons := [REASON_TEXT.high_volume 16, REASON_TEXT.port_scan 16, REASON_TEXT.syn_flood],
    severity := "critical" }

/-- Whether the record has a source address: the negation of `!p.src_ip`. -/
def hasSource (p : Packet) : Bool := !isFalsy p.src_ip

/-- What a finding says apart from its index: the record, the score, the reasons and the
severity. -/
def Finding.content (f : Finding) : Packet × Nat × List String × String :=
  (f.packet, f.score, f.reasons, f.severity)

/-- The findings of `packets` when the lengths that give the mean and the standard deviation
of the size rule are `lens` instead of those of `packets`; `detectAnomalies packets` is
`detectWith (lengthsOf packets) packets`. -/
def detectWith (lens : List Nat) (packets : List Packet) : List Finding :=
  (packets.enum.filterMap fun ip =>
      evalPacket (aggOf packets) lens (maxIPOf packets) ip.2 ip.1).insertionSort
    fun a b => a.score ≥ b.score

/-- A UDP record of 1500 bytes from 10.0.0.1. -/
def bigPacket : Packet :=
  { orig_len := some 1500, incl_len := some 1500, protocol := some "UDP",
    ethertype := some 2048, src_ip := some "10.0.0.1", dst_ip := some "10.0.0.2",
    src_port := some 5000, dst_port := some 5001 }

/-- The record `bigPacket` followed by ten ARP records, which have no source address. -/
def mixedCapture : List Packet := bigPacket :: List.replicate 10 arpPacket

/-- Eleven times the record `samplePacket`, then an ARP record, which has no source address. -/
def burstThenArp : List Packet := synBurst 11 ++ [arpPacket]

/-- The number of records of `packets` whose source address is `s`. -/
def sourceCount (packets : List Packet) (s : String) : Nat :=
  (packets.filter fun q => decide (q.src_ip = some s)).length

/-- The count of the busiest source: the largest `sourceCount` over the sources of the
records that have one, 0 when no record has a source. -/
def busiestCount (packets : List Packet) : Nat :=
  ((packets.filter hasSource).map fun q => sourceCount packets (q.src_ip.getD "")).foldl max 0

/-- The distinct destination ports (absent ones left out) of the records whose source address
is `s`. -/
def distinctPorts (packets : List Packet) (s : String) : List Nat :=
  ((packets.filter fun q => decide (q.src_ip = some s)).filterMap fun q => q.dst_port).dedup

/-- The number of records with the source and the destination of `p` whose flags contain
"SYN" and not "ACK". -/
def halfOpenCount (packets : List Packet) (p : Packet) : Nat :=
  (packets.filter fun q =>
    decide (q.src_ip = p.src_ip ∧ q.dst_ip = p.dst_ip) && synNoAck q).length
/-- The size test in exact arithmetic: with `n` the number of lengths, `S` their sum and `Q`
the sum of their squares, `n² · variance = n · Q - S²` and `n · (x - mean) = n · x - S`, so
that `std > 0` is `0 < n · Q - S²` and `|x - mean| / std > 3` is
`9 · (n · Q - S²) < (n · x - S)²`. -/
def exactAbove3 (lens : List Nat) (x : Nat) : Bool :=
  let n : Int := lens.length
  let S : Int := lens.foldl (· + ·) 0
  let Q : Int := (lens.map fun b => b * b).foldl (· + ·) 0
  decide (0 < n * Q - S * S ∧ 9 * (n * Q - S * S) < (n * x - S) * (n * x - S))

/-- The size rule in the words of the specification: with `mean` the mean of `lens` and `std`
their population standard deviation, `std > 0` and `|x - mean| / std > 3`. -/
def SizeOutlier (lens : List Nat) (x : Nat) : Prop :=
  0 < Real.sqrt ((lens.map fun (b : Nat) =>
      ((b : ℝ) - (lens.map fun (b : Nat) => (b : ℝ)).sum / lens.length) ^ 2).sum / lens.length) ∧
    |(x : ℝ) - (lens.map fun (b : Nat) => (b : ℝ)).sum / lens.length| /
      Real.sqrt ((lens.map fun (b : Nat) =>
        ((b : ℝ) - (lens.map fun (b : Nat) => (b : ℝ)).sum / lens.length) ^ 2).sum / lens.length)
      > 3
/-- The rule table in the words of the specification, for the record `r` of `packets`: the
condition of each rule, its text and its weight in thousandths.  The counts are those of
`sourceCount`, `busiestCount`, `distinctPorts` and `halfOpenCount`. -/
def specRules (packets : List Packet) (r : Packet) : List (Prop × String × Nat) :=
  [(SizeOutlier (lengthsOf packets) (origLenOr0 r), REASON_TEXT.size_outlier, 250),
   (busiestCount packets > 5 ∧
      (sourceCount packets (r.src_ip.getD "") : ℚ) > 60 / 100 * (busiestCount packets : ℚ),
     REASON_TEXT.high_volume (sourceCount packets (r.src_ip.getD "")), 300),
   ((distinctPorts packets (r.src_ip.getD "")).length > 15,
     REASON_TEXT.port_scan (distinctPorts packets (r.src_ip.getD "")).length, 400),
   (halfOpenCount packets r > 10, REASON_TEXT.syn_flood, 350),
   (∃ port, r.dst_port = some port ∧ port ∈ SUSPICIOUS_PORTS,
     REASON_TEXT.bad_port (r.dst_port.getD 0), 300),
   (r.protocol = some "ICMP" ∧ origLenOr0 r > 512, REASON_TEXT.big_icmp, 200)]

/-- The rows of a table whose condition is marked as holding in `fired`, in table order. -/
def firedRows (fired : List Bool) (table : List (Prop × String × Nat)) :
    List (Prop × String × Nat) :=
  ((fired.zip table).filter fun e => e.1).map fun e => e.2

/-- A check that implies `AddressTexts`. -/
def addressTextsCheck (packets : List Packet) : Bool :=
  packets.all fun q =>
    (match q.src_ip with
      | some s => decide ('→' ∉ s.data)
      | none => true) && decide (q.dst_ip ≠ some "undefined")
/-- One TCP record from 10.0.0.1 to each of the destination ports 1 to `k` of 10.0.0.2. -/
def portSweep (k : Nat) : List Packet :=
  (List.range k).map fun j =>
    { orig_len := some 60, protocol := some "TCP", src_ip := some "10.0.0.1",
      dst_ip := some "10.0.0.2", src_port := some 40000, dst_port := some (j + 1),
      flags := some "ACK" }

/-- The first record of a `portSweep`. -/
def portSweepFirst : Packet :=
  { orig_len := some 60, protocol := some "TCP", src_ip := some "10.0.0.1",
    dst_ip := some "10.0.0.2", src_port := some 40000, dst_port := some 1,
    flags := some "ACK" }

/-- Total version of `parseMAC`: the text of the six bytes at `o`. -/
def macText (view : Buffer) (o : Nat) : String :=
  join ([0, 1, 2, 3, 4, 5].map fun i => padStart (toString16 (byteAt view (o + i))) 2 '0') ":"

/-- Total version of `parseIPv4`: the text of the four bytes at `o`. -/
def ipv4Text (view : Buffer) (o : Nat) : String :=
  join ([0, 1, 2, 3].map fun i => toString (byteAt view (o + i))) "."

/-- Total version of `parseIPv6`: the text of the sixteen bytes at `o`. -/
def ipv6Text (view : Buffer) (o : Nat) : String :=
  join ([0, 2, 4, 6, 8, 10, 12, 14].map fun i =>
    toString16 ((byteAt view (o + i) <<< 8) ||| byteAt view (o + i + 1))) ":"

/-- Total version of `parseEthernet`: the same branches, with the total reads `byteAt` and
`u16` in place of the `DataView` getters. -/
def ethFields (view : Buffer) (o pktLen : Nat) : Option Packet :=
  if pktLen < 14 then none
  else
    let et := u16 view (o + 12) false
    let pl : Packet :=
      { src_mac := some (macText view (o + 6)), dst_mac := some (macText view o),
        ethertype := some et }
    if et = 0x0800 ∧ pktLen ≥ 34 then
      let ihl := (byteAt view (o + 14) &&& 0x0F) * 4
      let proto := byteAt view (o + 14 + 9)
      let ipLen := u16 view (o + 14 + 2) false
      let pl : Packet :=
        { pl with protocol := some (protoName proto), src_ip := some (ipv4Text view (o + 14 + 12)),
                  dst_ip := some (ipv4Text view (o + 14 + 16)),
                  ttl := some (byteAt view (o + 14 + 8)), ip_len := some ipLen }
      let tb := o + 14 + ihl
      if proto = 6 ∧ pktLen ≥ tb - o + 20 then
        some { pl with src_port := some (u16 view tb false),
                       dst_port := some (u16 view (tb + 2) false),
                       flags := some (tcpFlags (byteAt view (tb + 13))),
                       payload_len :=
                         some (max 0 ((ipLen : Int) - ihl - ((byteAt view (tb + 12) >>> 4) * 4))) }
      else if proto = 17 ∧ pktLen ≥ tb - o + 8 then
        some { pl with src_port := some (u16 view tb false),
                       dst_port := some (u16 view (tb + 2) false),
                       payload_len := some ((u16 view (tb + 4) false : Int) - 8) }
      else some pl
    else if et = 0x86DD ∧ pktLen ≥ 54 then
      let proto := byteAt view (o + 14 + 6)
      let pl : Packet :=
        { pl with protocol := some (protoName proto), src_ip := some (ipv6Text view (o + 14 + 8)),
                  dst_ip := some (ipv6Text view (o + 14 + 24)), ip_version := some 6,
                  ip_len := some (u16 view (o + 14 + 4) false) }
      let tb := o + 14 + 40
      if (proto = 6 ∨ proto = 17) ∧ pktLen ≥ tb - o + 4 then
        some { pl with src_port := some (u16 view tb false),
                       dst_port := some (u16 view (tb + 2) false) }
      else some pl
    else if et = 0x0806 then some { pl with protocol := some "ARP" }
    else some pl
/-- Total version of `pcapRecord`. -/
def pcapFields (view : Buffer) (linkType offset tsSec tsUsec inclLen origLen : Nat) : Packet :=
  let parsed : Packet :=
    { ts := some (.pcap tsSec tsUsec), orig_len := some origLen, incl_len := some inclLen,
      protocol := some "RAW" }
  if linkType = 1 then
    match ethFields view offset inclLen with
    | some e => parsed.spread e
    | none => parsed
  else if linkType = 101 ∧ inclLen ≥ 20 then
    parsed.spread
      { protocol := some (protoName (byteAt view (offset + 9))),
        src_ip := some (ipv4Text view (offset + 12)),
        dst_ip := some (ipv4Text view (offset + 16)) }
  else parsed

/-- Total version of `epbRecord`. -/
def epbFields (view : Buffer) (pktOff tsHigh tsLow captLen origLen : Nat) : Packet :=
  let base : Packet :=
    { ts := some (.pcapng tsHigh tsLow), orig_len := some origLen, incl_len := some captLen,
      protocol := some "RAW" }
  match ethFields view pktOff captLen with
  | some e => base.spread e
  | none => base

/-- A classic-PCAP capture (big-endian, link type 1) with one record of ten bytes. -/
def shortFrameCapture : Buffer :=
  [0xA1, 0xB2, 0xC3, 0xD4, 0, 2, 0, 4, 0, 0, 0, 0, 0, 0, 0, 0, 0, 0, 0xFF, 0xFF, 0, 0, 0, 1,
   0, 0, 0, 1, 0, 0, 0, 2, 0, 0, 0, 10, 0, 0, 0, 10,
   1, 2, 3, 4, 5, 6, 7, 8, 9, 10]

/-- The object decoded from the record of `shortFrameCapture`. -/
def shortFramePacket : Packet :=
  { ts := some (.pcap 1 2), orig_len := some 10, incl_len := some 10, protocol := some "RAW" }
/-- What the keys of a decoded record imply: flags come with protocol "TCP", the ports and
the payload length; a payload length comes with the ports; a port comes with the addresses;
a TTL comes with the source address; and a record of a frame shorter than 14 bytes has
protocol "RAW" and no MAC, address, port or flags key. -/
def DepthInvariant (p : Packet) : Prop :=
  (p.flags ≠ none →
    p.protocol = some "TCP" ∧ p.src_port ≠ none ∧ p.dst_port ≠ none ∧ p.payload_len ≠ none) ∧
  (p.payload_len ≠ none → p.src_port ≠ none ∧ p.dst_port ≠ none) ∧
  (p.src_port ≠ none ∨ p.dst_port ≠ none → p.src_ip ≠ none ∧ p.dst_ip ≠ none) ∧
  (p.ttl ≠ none → p.src_ip ≠ none) ∧
  ∀ incl, p.incl_len = some incl → incl < 14 →
    p.protocol = some "RAW" ∧ p.src_mac = none ∧ p.dst_mac = none ∧ p.src_ip = none ∧
      p.dst_ip = none ∧ p.src_port = none ∧ p.dst_port = none ∧ p.flags = none

/-- Four bytes that are none of the three magic words. -/
def unknownMagic : Buffer := [0, 0, 0, 0]

/-- The length of the IPv4 header of the frame at `o`: 4 times the low nibble of the first
IP byte. -/
def ipHeaderLen (view : Buffer) (o : Nat) : Nat := (byteAt view (o + 14) % 16) * 4

/-- Where the transport header of an IPv4 frame at `o` starts. -/
def transportBase (view : Buffer) (o : Nat) : Nat := o + 14 + ipHeaderLen view o

/-- An Ethernet/IPv4 frame of `n` bytes at `o`, inside the buffer: ethertype `0x0800` and at
least 34 bytes. -/
def IsIPv4Frame (view : Buffer) (o n : Nat) : Prop :=
  o + n ≤ view.length ∧ u16 view (o + 12) false = 0x0800 ∧ 34 ≤ n

/-- An Ethernet/IPv4/TCP frame long enough to be decoded as TCP: protocol 6 and 20 bytes
from the start of the transport header. -/
def IsTcpFrame (view : Buffer) (o n : Nat) : Prop :=
  IsIPv4Frame view o n ∧ byteAt view (o + 23) = 6 ∧ 14 + ipHeaderLen view o + 20 ≤ n

/-- An Ethernet/IPv4/UDP frame long enough to be decoded as UDP: protocol 17 and 8 bytes
from the start of the transport header. -/
def IsUdpFrame (view : Buffer) (o n : Nat) : Prop :=
  IsIPv4Frame view o n ∧ byteAt view (o + 23) = 17 ∧ 14 + ipHeaderLen view o + 8 ≤ n

/-- An Ethernet/IPv6 frame of `n` bytes at `o`, inside the buffer: ethertype `0x86DD` and at
least 54 bytes. -/
def IsIPv6Frame (view : Buffer) (o n : Nat) : Prop :=
  o + n ≤ view.length ∧ u16 view (o + 12) false = 0x86DD ∧ 54 ≤ n

instance (view : Buffer) (o n : Nat) : Decidable (IsIPv4Frame view o n) := by
  unfold IsIPv4Frame; infer_instance

instance (view : Buffer) (o n : Nat) : Decidable (IsTcpFrame view o n) := by
  unfold IsTcpFrame; infer_instance

instance (view : Buffer) (o n : Nat) : Decidable (IsUdpFrame view o n) := by
  unfold IsUdpFrame; infer_instance

instance (view : Buffer) (o n : Nat) : Decidable (IsIPv6Frame view o n) := by
  unfold IsIPv6Frame; infer_instance

/-- The names of the flags whose bit is set in `b`: bit 0 is FIN, bit 1 SYN, bit 2 RST,
bit 3 PSH, bit 4 ACK, bit 5 URG, in this order. -/
def flagNames (b : Nat) : List String :=
  [(0, "FIN"), (1, "SYN"), (2, "RST"), (3, "PSH"), (4, "ACK"), (5, "URG")].filterMap
    fun e => if b.testBit e.1 then some e.2 else none
/-- The frame of the sample capture with the IP total length 20 instead of 40: the two
headers alone are longer than the total length says. -/
def clampFrame : List Byte :=
  [1, 2, 3, 4, 5, 6, 7, 8, 9, 10, 11, 0xAB, 8, 0,
   0x45, 0, 0, 20, 0, 0, 0, 0, 64, 6, 0, 0, 192, 168, 1, 10, 142, 250, 80, 46,
   0xCC, 0x75, 0x01, 0xBB, 0, 0, 0, 0, 0, 0, 0, 0, 0x50, 0x02, 0, 0, 0, 0, 0, 0]
/-- An Ethernet/IPv4/UDP frame of 42 bytes whose UDP length field is 3. -/
def udpFrame : List Byte :=
  [1, 2, 3, 4, 5, 6, 7, 8, 9, 10, 11, 12, 8, 0,
   0x45, 0, 0, 28, 0, 0, 0, 0, 64, 17, 0, 0, 10, 0, 0, 1, 10, 0, 0, 2,
   0, 53, 0x30, 0x39, 0, 3, 0, 0]

/-- An Ethernet/IPv6 frame of 58 bytes with next header 6 (TCP), from `::1` to `::2`. -/
def ipv6Frame : List Byte :=
  [1, 2, 3, 4, 5, 6, 7, 8, 9, 10, 11, 12, 0x86, 0xDD,
   0x60, 0, 0, 0, 0, 4, 6, 64,
   0, 0, 0, 0, 0, 0, 0, 0, 0, 0, 0, 0, 0, 0, 0, 1,
   0, 0, 0, 0, 0, 0, 0, 0, 0, 0, 0, 0, 0, 0, 0, 2,
   0x01, 0xBB, 0x30, 0x39]

/-- The protocol text in the words of the specification: the name of the table for 1, 2, 6,
17, 58, 89, 132, the decimal numeral otherwise. -/
def protocolText (n : Nat) : String :=
  if n = 1 then "ICMP" else if n = 2 then "IGMP" else if n = 6 then "TCP"
  else if n = 17 then "UDP" else if n = 58 then "ICMPv6" else if n = 89 then "OSPF"
  else if n = 132 then "SCTP" else toString n
/-- The sixteen lowercase hexadecimal digits, in the order of their values. -/
def hexDigits : List Char :=
  ['0', '1', '2', '3', '4', '5', '6', '7', '8', '9', 'a', 'b', 'c', 'd', 'e', 'f']

/-- The number a list of hexadecimal digits stands for. -/
def hexValue (cs : List Char) : Nat := cs.foldl (fun acc c => acc * 16 + hexDigits.indexOf c) 0

/-- The text `s` is the lowercase hexadecimal numeral of `v`, of 1 to 4 digits and without
leading zeros ("0" for zero). -/
def IsHexNumeral (s : String) (v : Nat) : Prop :=
  s.data ≠ [] ∧ s.data.length ≤ 4 ∧ (∀ c ∈ s.data, c ∈ hexDigits) ∧
    (s.data.head? = some '0' → s.data = ['0']) ∧ hexValue s.data = v

instance (s : String) (v : Nat) : Decidable (IsHexNumeral s v) := by
  unfold IsHexNumeral; infer_instance

/-- The eight 16-bit groups of the sixteen bytes at `o`: the `i`-th is the big-endian value
of the bytes `2i` and `2i + 1`. -/
def ipv6Groups (view : Buffer) (o : Nat) : List Nat :=
  (List.range 8).map fun i => byteAt view (o + 2 * i) * 256 + byteAt view (o + 2 * i + 1)

/-- Sixteen bytes: the address `2001:db8:0:0:0:ff00:42:8329`. -/
def sampleV6 : List Byte :=
  [0x20, 0x01, 0x0d, 0xb8, 0, 0, 0, 0, 0, 0, 0xff, 0, 0, 0x42, 0x83, 0x29]

/-- Four numbers in dotted decimal. -/
def dottedDecimal (a b c d : Nat) : String :=
  toString a ++ "." ++ toString b ++ "." ++ toString c ++ "." ++ toString d

/-- The record that only has the timestamp and the two lengths, with protocol "RAW". -/
def rawRecord (ts : Timestamp) (incl orig : Nat) : Packet :=
  { ts := some ts, orig_len := some orig, incl_len := some incl, protocol := some "RAW" }

/-- A classic-PCAP capture (big-endian) with link type 101 and two records: the 28 bytes of
an IPv4 header followed by a UDP header, and a record of four bytes. -/
def rawIpCapture : Buffer :=
  [0xA1, 0xB2, 0xC3, 0xD4, 0, 2, 0, 4, 0, 0, 0, 0, 0, 0, 0, 0, 0, 0, 0xFF, 0xFF, 0, 0, 0, 101,
   0, 0, 0, 1, 0, 0, 0, 2, 0, 0, 0, 28, 0, 0, 0, 28,
   0x45, 0, 0, 28, 0, 0, 0, 0, 64, 17, 0, 0, 10, 0, 0, 1, 10, 0, 0, 2,
   0, 53, 0x30, 0x39, 0, 3, 0, 0,
   0, 0, 0, 3, 0, 0, 0, 4, 0, 0, 0, 4, 0, 0, 0, 4,
   0x45, 0, 0, 28]

/-- The first object decoded from `rawIpCapture`. -/
def rawIpPacket : Packet :=
  { ts := some (.pcap 1 2), orig_len := some 28, incl_len := some 28, protocol := some "UDP",
    src_ip := some "10.0.0.1", dst_ip := some "10.0.0.2" }

/-- `rawIpCapture` with link type 147, which the parser does not know. -/
def otherLinkCapture : Buffer :=
  [0xA1, 0xB2, 0xC3, 0xD4, 0, 2, 0, 4, 0, 0, 0, 0, 0, 0, 0, 0, 0, 0, 0xFF, 0xFF, 0, 0, 0, 147,
   0, 0, 0, 1, 0, 0, 0, 2, 0, 0, 0, 28, 0, 0, 0, 28,
   0x45, 0, 0, 28, 0, 0, 0, 0, 64, 17, 0, 0, 10, 0, 0, 1, 10, 0, 0, 2,
   0, 53, 0x30, 0x39, 0, 3, 0, 0]

/-- The text `s` is the two-digit lowercase hexadecimal numeral of `v`. -/
def IsHexPair (s : String) (v : Nat) : Prop :=
  s.data.length = 2 ∧ (∀ c ∈ s.data, c ∈ hexDigits) ∧ hexValue s.data = v

instance (s : String) (v : Nat) : Decidable (IsHexPair s v) := by
  unfold IsHexPair; infer_instance

/-- The first 20 bytes of the frame of the sample capture: an Ethernet/IPv4 frame cut
inside its IP header. -/
def shortIPv4Frame : List Byte :=
  [1, 2, 3, 4, 5, 6, 7, 8, 9, 10, 11, 0xAB, 8, 0, 0x45, 0, 0, 40, 0, 0]

/-- The global header of a classic-PCAP buffer (big-endian, link type 147) and the header of
one record that declares 65535 captured bytes. -/
def fullRecordHead : List Byte :=
  [0xA1, 0xB2, 0xC3, 0xD4, 0, 2, 0, 4, 0, 0, 0, 0, 0, 0, 0, 0, 0, 0, 0xFF, 0xFF, 0, 0, 0, 147,
   0, 0, 0, 1, 0, 0, 0, 2, 0, 0, 0xFF, 0xFF, 0, 0, 0xFF, 0xFF]

/-- A classic-PCAP buffer whose only record declares 65535 captured bytes, all of them
present. -/
def fullRecordCapture : Buffer := fullRecordHead ++ List.replicate 65535 0

/-- The Section Header Block of `sampleNgLE` and the 28-byte head of an Enhanced Packet Block
that declares 65535 captured bytes. -/
def fullBlockHead : List Byte :=
  [0x0A, 0x0D, 0x0D, 0x0A, 28, 0, 0, 0, 0x4D, 0x3C, 0x2B, 0x1A, 1, 0, 0, 0,
   0xFF, 0xFF, 0xFF, 0xFF, 0xFF, 0xFF, 0xFF, 0xFF, 28, 0, 0, 0,
   6, 0, 0, 0, 0x20, 0, 1, 0, 0, 0, 0, 0, 0, 0, 0, 0, 1, 0, 0, 0, 0xFF, 0xFF, 0, 0,
   0xFF, 0xFF, 0, 0]

/-- A little-endian PCAPNG buffer whose Enhanced Packet Block at 28 declares 65535 captured
bytes, all of them present. -/
def fullBlockCapture : Buffer := fullBlockHead ++ (List.replicate 65535 0 ++ [0, 0x20, 0, 1, 0])

/-- A Section Header Block whose length 28 is stored little-endian and whose byte-order
magic is stored big-endian: the length read again after the switch is 469762048. -/
def swapCapture : Buffer :=
  [0x0A, 0x0D, 0x0D, 0x0A, 28, 0, 0, 0, 0x1A, 0x2B, 0x3C, 0x4D, 1, 0, 0, 0,
   0xFF, 0xFF, 0xFF, 0xFF, 0xFF, 0xFF, 0xFF, 0xFF, 28, 0, 0, 0]

instance (v1 : Buffer) (o1 : Nat) (v2 : Buffer) (o2 n : Nat) : Decidable (Agree v1 o1 v2 o2 n) := by
  unfold Agree; infer_instance

/-- The `n` bytes at `o`, as a buffer of their own. -/
def frameOf (view : Buffer) (o n : Nat) : Buffer := (view.drop o).take n

/-- Ten records: one of 17 bytes from 10.0.0.1 and nine of 0 bytes without a source. -/
def tenBoundary : List Packet :=
  { orig_len := some 17, src_ip := some "10.0.0.1", dst_ip := some "10.0.0.2" } ::
    List.replicate 9 { orig_len := some 0 }

/-- The mean of `lens` in steps of 2⁻¹⁰⁷⁴, as `meanF64` computes it when nothing overflows. -/
def meanUnits (lens : List Nat) : Nat :=
  roundRat (lens.sum * F64.scale * F64.scale) (lens.length * F64.scale)

/-- The distance of `b` from the mean of `lens`, rounded, in steps of 2⁻¹⁰⁷⁴. -/
def devUnits (lens : List Nat) (b : Nat) : Nat :=
  roundRat ((b * F64.scale : Nat) - (meanUnits lens : Int)).natAbs 1

/-- The rounded square of the distance of `b` from the mean, in steps of 2⁻¹⁰⁷⁴. -/
def sqUnits (lens : List Nat) (b : Nat) : Nat :=
  roundRat (devUnits lens b * devUnits lens b) F64.scale

/-- The sum of the squares of `bs`, rounded at each addition, in steps of 2⁻¹⁰⁷⁴. -/
def accUnits (lens bs : List Nat) : Nat :=
  bs.foldl (fun a b => roundRat (a + sqUnits lens b) 1) 0

/-- The variance of `lens` in steps of 2⁻¹⁰⁷⁴. -/
def varUnits (lens : List Nat) : Nat :=
  roundRat (accUnits lens lens * F64.scale) (lens.length * F64.scale)

/-- The standard deviation of `lens` in steps of 2⁻¹⁰⁷⁴, as `stdF64` computes it when
nothing overflows. -/
def stdUnits (lens : List Nat) : Nat := roundSqrt (varUnits lens * F64.scale)

/-- The sequence has at most 1024 lengths, all below 2³². -/
def SmallLengths (lens : List Nat) : Prop := lens.length ≤ 1024 ∧ ∀ b ∈ lens, b < 2 ^ 32

instance (lens : List Nat) : Decidable (SmallLengths lens) := by
  unfold SmallLengths; infer_instance
/-- Two records, of 2⁵³ bytes and of 1 byte. -/
def twoBig : List Packet := [{ orig_len := some 9007199254740992 }, { orig_len := some 1 }]

/-- The record of 2³² - 1 bytes, the largest length the decoder reads, 2097153 times. -/
def fullLengths : List Packet := List.replicate 2097153 { orig_len := some 4294967295 }
/-- Six records of 60 bytes whose source text is "constructor", a name every object
inherits; they have no destination port. -/
def inheritedBurst : List Packet :=
  List.replicate 6 { orig_len := some 60, src_ip := some "constructor", dst_ip := some "10.0.0.2" }

/-- The numbers `x` and `y` are within the factor `c` of each other. -/
def Within (c x y : ℝ) : Prop := x ≤ c * y ∧ y ≤ c * x

/-- The size rule of the specification in exact arithmetic with the bound `c` in place of 3:
`std > 0` and `|x - mean| / std > c`, with the mean and the population standard deviation of
`lens`.  `SizeOutlier` is the case `c = 3`. -/
def SizeRatioAbove (c : ℝ) (lens : List Nat) (x : Nat) : Prop :=
  0 < Real.sqrt ((lens.map fun (b : Nat) =>
      ((b : ℝ) - (lens.map fun (b : Nat) => (b : ℝ)).sum / lens.length) ^ 2).sum / lens.length) ∧
    |(x : ℝ) - (lens.map fun (b : Nat) => (b : ℝ)).sum / lens.length| /
      Real.sqrt ((lens.map fun (b : Nat) =>
        ((b : ℝ) - (lens.map fun (b : Nat) => (b : ℝ)).sum / lens.length) ^ 2).sum / lens.length)
      > c

/-- The size rule of the specification in double arithmetic: `std > 0` and
`|x - mean| / std > 3`, where the mean and the population standard deviation are the doubles
`meanF64` and `stdF64`, and the difference, the absolute value, the quotient and the
comparison are those of doubles. -/
def SizeOutlierF64 (lens : List Nat) (x : Nat) : Prop :=
  (stdF64 lens).gt (F64.ofNat 0) = true ∧
    ((((F64.ofNat x).sub (meanF64 lens)).abs).div (stdF64 lens)).gt (F64.ofNat 3) = true

/-- The rule table of the specification with the size rule read in double arithmetic
(`SizeOutlierF64`), for the record `r` of `packets`: the condition of each rule, its text and
its weight in thousandths.  The other rows are those of `specRules`. -/
def specRulesF64 (packets : List Packet) (r : Packet) : List (Prop × String × Nat) :=
  [(SizeOutlierF64 (lengthsOf packets) (origLenOr0 r), REASON_TEXT.size_outlier, 250),
   (busiestCount packets > 5 ∧
      (sourceCount packets (r.src_ip.getD "") : ℚ) > 60 / 100 * (busiestCount packets : ℚ),
     REASON_TEXT.high_volume (sourceCount packets (r.src_ip.getD "")), 300),
   ((distinctPorts packets (r.src_ip.getD "")).length > 15,
     REASON_TEXT.port_scan (distinctPorts packets (r.src_ip.getD "")).length, 400),
   (halfOpenCount packets r > 10, REASON_TEXT.syn_flood, 350),
   (∃ port, r.dst_port = some port ∧ port ∈ SUSPICIOUS_PORTS,
     REASON_TEXT.bad_port (r.dst_port.getD 0), 300),
   (r.protocol = some "ICMP" ∧ origLenOr0 r > 512, REASON_TEXT.big_icmp, 200)]

/-- The first record of `tenBoundary`. -/
def tenFirst : Packet :=
  { orig_len := some 17, src_ip := some "10.0.0.1", dst_ip := some "10.0.0.2" }

/-- A record of `inheritedBurst`. -/
def inheritedRecord : Packet :=
  { orig_len := some 60, src_ip := some "constructor", dst_ip := some "10.0.0.2" }

/-- A frame of 1514 bytes from 10.0.0.1. -/
def fullFrame : Packet :=
  { orig_len := some 1514, incl_len := some 1514, protocol := some "TCP",
    src_ip := some "10.0.0.1", dst_ip := some "10.0.0.2", src_port := some 40000,
    dst_port := some 443, flags := some "ACK" }

/-- A frame of 60 bytes from 10.0.0.2. -/
def minFrame : Packet :=
  { orig_len := some 60, incl_len := some 60, protocol := some "TCP",
    src_ip := some "10.0.0.2", dst_ip := some "10.0.0.1", src_port := some 443,
    dst_port := some 40000, flags := some "ACK" }

/-- One frame of 1514 bytes followed by `k` frames of 60 bytes. -/
def framesCapture (k : Nat) : List Packet := fullFrame :: List.replicate k minFrame

/-! # Lemmas -/

/-! ## Total reads -/

theorem byteAt_lt (view : Buffer) (o : Nat) : byteAt view o < 256 := by
  unfold byteAt; split <;> omega

theorem getUint8_ok {view : Buffer} {o : Nat} (h : o < view.length) :
    getUint8 view o = .ok (byteAt view o) := by
  simp [getUint8, byteAt, List.getElem?_eq_getElem h]

theorem getUint8_error {view : Buffer} {o : Nat} (h : view.length ≤ o) :
    getUint8 view o = .error .rangeError := by
  simp [getUint8, List.getElem?_eq_none h]

theorem getUint16_ok {view : Buffer} {o : Nat} (le : Bool) (h : o + 2 ≤ view.length) :
    getUint16 view o le = .ok (u16 view o le) := by
  have h0 : o < view.length := by omega
  have h1 : o + 1 < view.length := by omega
  simp [getUint16, u16, getUint8_ok h0, getUint8_ok h1]
  rfl

theorem getUint32_ok {view : Buffer} {o : Nat} (le : Bool) (h : o + 4 ≤ view.length) :
    getUint32 view o le = .ok (u32 view o le) := by
  have h0 : o < view.length := by omega
  have h1 : o + 1 < view.length := by omega
  have h2 : o + 2 < view.length := by omega
  have h3 : o + 3 < view.length := by omega
  simp [getUint32, u32, getUint8_ok h0, getUint8_ok h1, getUint8_ok h2, getUint8_ok h3]
  rfl

theorem getUint32_error {view : Buffer} {o : Nat} (le : Bool) (h : view.length < o + 4) :
    getUint32 view o le = .error .rangeError := by
  unfold getUint32
  by_cases h0 : o < view.length
  · rw [getUint8_ok h0]
    by_cases h1 : o + 1 < view.length
    · rw [getUint8_ok h1]
      by_cases h2 : o + 2 < view.length
      · rw [getUint8_ok h2, getUint8_error (by omega : view.length ≤ o + 3)]; rfl
      · rw [getUint8_error (by omega : view.length ≤ o + 2)]; rfl
    · rw [getUint8_error (by omega : view.length ≤ o + 1)]; rfl
  · rw [getUint8_error (by omega : view.length ≤ o)]; rfl

/-! ## Reads that agree on a window -/

theorem Agree.shift {v1 v2 : Buffer} {o1 o2 n : Nat} (h : Agree v1 o1 v2 o2 n) (k m : Nat)
    (hkm : k + m ≤ n) : Agree v1 (o1 + k) v2 (o2 + k) m := by
  intro j hj
  have := h (k + j) (by omega)
  simpa [Nat.add_assoc] using this

theorem getUint8_congr {v1 v2 : Buffer} {o1 o2 n : Nat} (h : Agree v1 o1 v2 o2 n) (hn : 1 ≤ n) :
    getUint8 v1 o1 = getUint8 v2 o2 := by
  have := h 0 (by omega)
  simp only [Nat.add_zero] at this
  simp [getUint8, this]

theorem getUint16_congr {v1 v2 : Buffer} {o1 o2 n : Nat} (h : Agree v1 o1 v2 o2 n) (hn : 2 ≤ n)
    (le : Bool) : getUint16 v1 o1 le = getUint16 v2 o2 le := by
  unfold getUint16
  rw [getUint8_congr h (by omega),
    getUint8_congr (h.shift 1 1 (by omega)) (le_refl 1)]

theorem getUint32_congr {v1 v2 : Buffer} {o1 o2 n : Nat} (h : Agree v1 o1 v2 o2 n) (hn : 4 ≤ n)
    (le : Bool) : getUint32 v1 o1 le = getUint32 v2 o2 le := by
  unfold getUint32
  rw [getUint8_congr h (by omega),
    getUint8_congr (h.shift 1 1 (by omega)) (le_refl 1),
    getUint8_congr (h.shift 2 1 (by omega)) (le_refl 1),
    getUint8_congr (h.shift 3 1 (by omega)) (le_refl 1)]

theorem parseMAC_congr {v1 v2 : Buffer} {o1 o2 n : Nat} (h : Agree v1 o1 v2 o2 n) (hn : 6 ≤ n) :
    parseMAC v1 o1 = parseMAC v2 o2 := by
  unfold parseMAC
  simp only [List.mapM_cons, List.mapM_nil]
  rw [getUint8_congr (h.shift 0 1 (by omega)) (le_refl 1),
    getUint8_congr (h.shift 1 1 (by omega)) (le_refl 1),
    getUint8_congr (h.shift 2 1 (by omega)) (le_refl 1),
    getUint8_congr (h.shift 3 1 (by omega)) (le_refl 1),
    getUint8_congr (h.shift 4 1 (by omega)) (le_refl 1),
    getUint8_congr (h.shift 5 1 (by omega)) (le_refl 1)]

theorem parseIPv4_congr {v1 v2 : Buffer} {o1 o2 n : Nat} (h : Agree v1 o1 v2 o2 n) (hn : 4 ≤ n) :
    parseIPv4 v1 o1 = parseIPv4 v2 o2 := by
  unfold parseIPv4
  simp only [List.mapM_cons, List.mapM_nil]
  rw [getUint8_congr (h.shift 0 1 (by omega)) (le_refl 1),
    getUint8_congr (h.shift 1 1 (by omega)) (le_refl 1),
    getUint8_congr (h.shift 2 1 (by omega)) (le_refl 1),
    getUint8_congr (h.shift 3 1 (by omega)) (le_refl 1)]

theorem parseIPv6_congr {v1 v2 : Buffer} {o1 o2 n : Nat} (h : Agree v1 o1 v2 o2 n)
    (hn : 16 ≤ n) : parseIPv6 v1 o1 = parseIPv6 v2 o2 := by
  unfold parseIPv6
  simp only [List.mapM_cons, List.mapM_nil]
  rw [getUint8_congr (h.shift 0 1 (by omega)) (le_refl 1),
    getUint8_congr ((h.shift 0 2 (by omega)).shift 1 1 (by omega)) (le_refl 1),
    getUint8_congr (h.shift 2 1 (by omega)) (le_refl 1),
    getUint8_congr ((h.shift 2 2 (by omega)).shift 1 1 (by omega)) (le_refl 1),
    getUint8_congr (h.shift 4 1 (by omega)) (le_refl 1),
    getUint8_congr ((h.shift 4 2 (by omega)).shift 1 1 (by omega)) (le_refl 1),
    getUint8_congr (h.shift 6 1 (by omega)) (le_refl 1),
    getUint8_congr ((h.shift 6 2 (by omega)).shift 1 1 (by omega)) (le_refl 1),
    getUint8_congr (h.shift 8 1 (by omega)) (le_refl 1),
    getUint8_congr ((h.shift 8 2 (by omega)).shift 1 1 (by omega)) (le_refl 1),
    getUint8_congr (h.shift 10 1 (by omega)) (le_refl 1),
    getUint8_congr ((h.shift 10 2 (by omega)).shift 1 1 (by omega)) (le_refl 1),
    getUint8_congr (h.shift 12 1 (by omega)) (le_refl 1),
    getUint8_congr ((h.shift 12 2 (by omega)).shift 1 1 (by omega)) (le_refl 1),
    getUint8_congr (h.shift 14 1 (by omega)) (le_refl 1),
    getUint8_congr ((h.shift 14 2 (by omega)).shift 1 1 (by omega)) (le_refl 1)]

theorem parseEthernet_congr {v1 v2 : Buffer} {o1 o2 n : Nat} (h : Agree v1 o1 v2 o2 n) :
    parseEthernet v1 o1 n = parseEthernet v2 o2 n := by
  unfold parseEthernet
  by_cases h14 : n < 14
  · simp [h14]
  simp only [h14, if_false]
  rw [parseMAC_congr h (by omega), parseMAC_congr (h.shift 6 6 (by omega)) (le_refl 6),
    getUint16_congr (h.shift 12 2 (by omega)) (le_refl 2)]
  refine bind_congr fun dst => bind_congr fun src => bind_congr fun et => ?_
  by_cases c1 : et = 2048 ∧ n ≥ 34
  · rw [if_pos c1, if_pos c1]
    have hn : 34 ≤ n := c1.2
    rw [getUint8_congr (h.shift 14 1 (by omega)) (le_refl 1),
      getUint8_congr ((h.shift 14 20 (by omega)).shift 9 1 (by omega)) (le_refl 1),
      parseIPv4_congr ((h.shift 14 20 (by omega)).shift 12 4 (by omega)) (le_refl 4),
      parseIPv4_congr ((h.shift 14 20 (by omega)).shift 16 4 (by omega)) (le_refl 4),
      getUint8_congr ((h.shift 14 20 (by omega)).shift 8 1 (by omega)) (le_refl 1),
      getUint16_congr ((h.shift 14 20 (by omega)).shift 2 2 (by omega)) (le_refl 2)]
    refine bind_congr fun b0 => bind_congr fun proto => bind_congr fun srcIP =>
      bind_congr fun dstIP => bind_congr fun ttl => bind_congr fun ipLen => ?_
    generalize (b0 &&& 15) * 4 = ihl
    have e1 : o1 + 14 + ihl - o1 = 14 + ihl := by omega
    have e2 : o2 + 14 + ihl - o2 = 14 + ihl := by omega
    rw [e1, e2]
    by_cases c2 : proto = 6 ∧ n ≥ 14 + ihl + 20
    · rw [if_pos c2, if_pos c2]
      have hn2 : 14 + ihl + 20 ≤ n := c2.2
      have h2 := h.shift 14 (ihl + 20) (by omega)
      rw [getUint16_congr (h2.shift ihl 2 (by omega)) (le_refl 2),
        getUint16_congr ((h2.shift ihl 20 (by omega)).shift 2 2 (by omega)) (le_refl 2),
        getUint8_congr ((h2.shift ihl 20 (by omega)).shift 13 1 (by omega)) (le_refl 1),
        getUint8_congr ((h2.shift ihl 20 (by omega)).shift 12 1 (by omega)) (le_refl 1)]
    · rw [if_neg c2, if_neg c2]
      by_cases c3 : proto = 17 ∧ n ≥ 14 + ihl + 8
      · rw [if_pos c3, if_pos c3]
        have hn3 : 14 + ihl + 8 ≤ n := c3.2
        have h3 := h.shift 14 (ihl + 8) (by omega)
        rw [getUint16_congr (h3.shift ihl 2 (by omega)) (le_refl 2),
          getUint16_congr ((h3.shift ihl 8 (by omega)).shift 2 2 (by omega)) (le_refl 2),
          getUint16_congr ((h3.shift ihl 8 (by omega)).shift 4 2 (by omega)) (le_refl 2)]
      · rw [if_neg c3, if_neg c3]
  · rw [if_neg c1, if_neg c1]
    by_cases c4 : et = 34525 ∧ n ≥ 54
    · rw [if_pos c4, if_pos c4]
      have hn : 54 ≤ n := c4.2
      have h4 := h.shift 14 40 (by omega)
      rw [getUint8_congr (h4.shift 6 1 (by omega)) (le_refl 1),
        parseIPv6_congr (h4.shift 8 16 (by omega)) (le_refl 16),
        parseIPv6_congr (h4.shift 24 16 (by omega)) (le_refl 16),
        getUint16_congr (h4.shift 4 2 (by omega)) (le_refl 2)]
      refine bind_congr fun proto => bind_congr fun srcIP => bind_congr fun dstIP =>
        bind_congr fun plen => ?_
      have e1 : o1 + 14 + 40 - o1 = 54 := by omega
      have e2 : o2 + 14 + 40 - o2 = 54 := by omega
      rw [e1, e2]
      by_cases c5 : (proto = 6 ∨ proto = 17) ∧ n ≥ 54 + 4
      · rw [if_pos c5, if_pos c5]
        have hn5 : 58 ≤ n := c5.2
        have h5 := h.shift 14 44 (by omega)
        rw [getUint16_congr (h5.shift 40 2 (by omega)) (le_refl 2),
          getUint16_congr ((h5.shift 40 4 (by omega)).shift 2 2 (by omega)) (le_refl 2)]
      · rw [if_neg c5, if_neg c5]
    · rw [if_neg c4, if_neg c4]

/-! ## Reads inside the buffer succeed -/

theorem bind_ok_of {α β : Type} {x : Except Fault α} {f : α → Except Fault β}
    (hx : ∃ a, x = .ok a) (hf : ∀ a, ∃ b, f a = .ok b) : ∃ b, x >>= f = .ok b := by
  obtain ⟨a, rfl⟩ := hx
  exact hf a

theorem getUint8_isOk {view : Buffer} {o : Nat} (h : o < view.length) :
    ∃ a, getUint8 view o = .ok a := ⟨_, getUint8_ok h⟩

theorem getUint16_isOk {view : Buffer} {o : Nat} (le : Bool) (h : o + 2 ≤ view.length) :
    ∃ a, getUint16 view o le = .ok a := ⟨_, getUint16_ok le h⟩

theorem parseMAC_isOk {view : Buffer} {o : Nat} (h : o + 6 ≤ view.length) :
    ∃ s, parseMAC view o = .ok s := by
  unfold parseMAC
  simp only [List.mapM_cons, List.mapM_nil]
  rw [getUint8_ok (by omega : o + 0 < view.length), getUint8_ok (by omega : o + 1 < view.length),
    getUint8_ok (by omega : o + 2 < view.length), getUint8_ok (by omega : o + 3 < view.length),
    getUint8_ok (by omega : o + 4 < view.length), getUint8_ok (by omega : o + 5 < view.length)]
  exact ⟨_, rfl⟩

theorem parseIPv4_isOk {view : Buffer} {o : Nat} (h : o + 4 ≤ view.length) :
    ∃ s, parseIPv4 view o = .ok s := by
  unfold parseIPv4
  simp only [List.mapM_cons, List.mapM_nil]
  rw [getUint8_ok (by omega : o + 0 < view.length), getUint8_ok (by omega : o + 1 < view.length),
    getUint8_ok (by omega : o + 2 < view.length), getUint8_ok (by omega : o + 3 < view.length)]
  exact ⟨_, rfl⟩

theorem parseIPv6_isOk {view : Buffer} {o : Nat} (h : o + 16 ≤ view.length) :
    ∃ s, parseIPv6 view o = .ok s := by
  unfold parseIPv6
  simp only [List.mapM_cons, List.mapM_nil]
  rw [getUint8_ok (by omega : o + 0 < view.length),
    getUint8_ok (by omega : o + 0 + 1 < view.length),
    getUint8_ok (by omega : o + 2 < view.length),
    getUint8_ok (by omega : o + 2 + 1 < view.length),
    getUint8_ok (by omega : o + 4 < view.length),
    getUint8_ok (by omega : o + 4 + 1 < view.length),
    getUint8_ok (by omega : o + 6 < view.length),
    getUint8_ok (by omega : o + 6 + 1 < view.length),
    getUint8_ok (by omega : o + 8 < view.length),
    getUint8_ok (by omega : o + 8 + 1 < view.length),
    getUint8_ok (by omega : o + 10 < view.length),
    getUint8_ok (by omega : o + 10 + 1 < view.length),
    getUint8_ok (by omega : o + 12 < view.length),
    getUint8_ok (by omega : o + 12 + 1 < view.length),
    getUint8_ok (by omega : o + 14 < view.length),
    getUint8_ok (by omega : o + 14 + 1 < view.length)]
  exact ⟨_, rfl⟩

/-- Inside the buffer `parseEthernet` raises nothing. -/
theorem parseEthernet_isOk {view : Buffer} {o n : Nat} (h : o + n ≤ view.length) :
    ∃ r, parseEthernet view o n = .ok r := by
  unfold parseEthernet
  by_cases h14 : n < 14
  · simp only [h14, if_true]; exact ⟨_, rfl⟩
  rw [if_neg h14]
  refine bind_ok_of (parseMAC_isOk (by omega)) fun dst =>
    bind_ok_of (parseMAC_isOk (by omega)) fun src =>
    bind_ok_of (getUint16_isOk _ (by omega)) fun et => ?_
  by_cases c1 : et = 2048 ∧ n ≥ 34
  · rw [if_pos c1]
    have hn : 34 ≤ n := c1.2
    refine bind_ok_of (getUint8_isOk (by omega)) fun b0 =>
      bind_ok_of (getUint8_isOk (by omega)) fun proto =>
      bind_ok_of (parseIPv4_isOk (by omega)) fun srcIP =>
      bind_ok_of (parseIPv4_isOk (by omega)) fun dstIP =>
      bind_ok_of (getUint8_isOk (by omega)) fun ttl =>
      bind_ok_of (getUint16_isOk _ (by omega)) fun ipLen => ?_
    simp only []
    generalize (b0 &&& 15) * 4 = ihl
    have e1 : o + 14 + ihl - o = 14 + ihl := by omega
    rw [e1]
    by_cases c2 : proto = 6 ∧ n ≥ 14 + ihl + 20
    · rw [if_pos c2]
      have hn2 : 14 + ihl + 20 ≤ n := c2.2
      exact bind_ok_of (getUint16_isOk _ (by omega)) fun sp =>
        bind_ok_of (getUint16_isOk _ (by omega)) fun dp =>
        bind_ok_of (getUint8_isOk (by omega)) fun fB =>
        bind_ok_of (getUint8_isOk (by omega)) fun b12 => ⟨_, rfl⟩
    · rw [if_neg c2]
      by_cases c3 : proto = 17 ∧ n ≥ 14 + ihl + 8
      · rw [if_pos c3]
        have hn3 : 14 + ihl + 8 ≤ n := c3.2
        exact bind_ok_of (getUint16_isOk _ (by omega)) fun sp =>
          bind_ok_of (getUint16_isOk _ (by omega)) fun dp =>
          bind_ok_of (getUint16_isOk _ (by omega)) fun ul => ⟨_, rfl⟩
      · rw [if_neg c3]; exact ⟨_, rfl⟩
  · rw [if_neg c1]
    by_cases c4 : et = 34525 ∧ n ≥ 54
    · rw [if_pos c4]
      have hn : 54 ≤ n := c4.2
      refine bind_ok_of (getUint8_isOk (by omega)) fun proto =>
        bind_ok_of (parseIPv6_isOk (by omega)) fun srcIP =>
        bind_ok_of (parseIPv6_isOk (by omega)) fun dstIP =>
        bind_ok_of (getUint16_isOk _ (by omega)) fun plen => ?_
      simp only []
      have e1 : o + 14 + 40 - o = 54 := by omega
      rw [e1]
      by_cases c5 : (proto = 6 ∨ proto = 17) ∧ n ≥ 54 + 4
      · rw [if_pos c5]
        have hn5 : 58 ≤ n := c5.2
        exact bind_ok_of (getUint16_isOk _ (by omega)) fun sp =>
          bind_ok_of (getUint16_isOk _ (by omega)) fun dp => ⟨_, rfl⟩
      · rw [if_neg c5]; exact ⟨_, rfl⟩
    · rw [if_neg c4]
      by_cases c6 : et = 2054
      · rw [if_pos c6]; exact ⟨_, rfl⟩
      · rw [if_neg c6]; exact ⟨_, rfl⟩

/-! ## Keys of the decoded objects -/

theorem bind_eq_ok {α β : Type} {x : Except Fault α} {f : α → Except Fault β} {b : β}
    (h : x >>= f = .ok b) : ∃ a, x = .ok a ∧ f a = .ok b := by
  cases x with
  | error e => cases h
  | ok a => exact ⟨a, rfl, h⟩

theorem pure_eq_ok {α : Type} {a b : α} (h : (pure a : Except Fault α) = .ok b) : a = b := by
  cases h; rfl

/-- The object returned by `parseEthernet` has none of the keys `ts`, `orig_len`, `incl_len`. -/
theorem parseEthernet_keys {view : Buffer} {o n : Nat} {e : Packet}
    (h : parseEthernet view o n = .ok (some e)) :
    e.ts = none ∧ e.orig_len = none ∧ e.incl_len = none := by
  unfold parseEthernet at h
  split at h
  · cases h
  obtain ⟨dst, -, h⟩ := bind_eq_ok h
  obtain ⟨src, -, h⟩ := bind_eq_ok h
  obtain ⟨et, -, h⟩ := bind_eq_ok h
  split at h
  · obtain ⟨b0, -, h⟩ := bind_eq_ok h
    obtain ⟨proto, -, h⟩ := bind_eq_ok h
    obtain ⟨srcIP, -, h⟩ := bind_eq_ok h
    obtain ⟨dstIP, -, h⟩ := bind_eq_ok h
    obtain ⟨ttl, -, h⟩ := bind_eq_ok h
    obtain ⟨ipLen, -, h⟩ := bind_eq_ok h
    simp only [] at h
    split at h
    · obtain ⟨sp, -, h⟩ := bind_eq_ok h
      obtain ⟨dp, -, h⟩ := bind_eq_ok h
      obtain ⟨fB, -, h⟩ := bind_eq_ok h
      obtain ⟨b12, -, h⟩ := bind_eq_ok h
      cases pure_eq_ok h; exact ⟨rfl, rfl, rfl⟩
    · split at h
      · obtain ⟨sp, -, h⟩ := bind_eq_ok h
        obtain ⟨dp, -, h⟩ := bind_eq_ok h
        obtain ⟨ul, -, h⟩ := bind_eq_ok h
        cases pure_eq_ok h; exact ⟨rfl, rfl, rfl⟩
      · cases pure_eq_ok h; exact ⟨rfl, rfl, rfl⟩
  · split at h
    · obtain ⟨proto, -, h⟩ := bind_eq_ok h
      obtain ⟨srcIP, -, h⟩ := bind_eq_ok h
      obtain ⟨dstIP, -, h⟩ := bind_eq_ok h
      obtain ⟨plen, -, h⟩ := bind_eq_ok h
      simp only [] at h
      split at h
      · obtain ⟨sp, -, h⟩ := bind_eq_ok h
        obtain ⟨dp, -, h⟩ := bind_eq_ok h
        cases pure_eq_ok h; exact ⟨rfl, rfl, rfl⟩
      · cases pure_eq_ok h; exact ⟨rfl, rfl, rfl⟩
    · split at h
      · cases pure_eq_ok h; exact ⟨rfl, rfl, rfl⟩
      · cases pure_eq_ok h; exact ⟨rfl, rfl, rfl⟩

/-- The object built for a classic-PCAP record keeps the record's lengths. -/
theorem pcapRecord_keys {view : Buffer} {lt off s u incl orig : Nat} {p : Packet}
    (h : pcapRecord view lt off s u incl orig = .ok p) :
    p.incl_len = some incl ∧ p.orig_len = some orig ∧ p.ts = some (.pcap s u) := by
  unfold pcapRecord at h
  simp only [] at h
  split at h
  · obtain ⟨eth, he, h⟩ := bind_eq_ok h
    cases eth with
    | none => cases pure_eq_ok h; exact ⟨rfl, rfl, rfl⟩
    | some e =>
      obtain ⟨h1, h2, h3⟩ := parseEthernet_keys he
      cases pure_eq_ok h
      simp [Packet.spread, h1, h2, h3]
  · split at h
    · obtain ⟨proto, -, h⟩ := bind_eq_ok h
      obtain ⟨srcIP, -, h⟩ := bind_eq_ok h
      obtain ⟨dstIP, -, h⟩ := bind_eq_ok h
      cases pure_eq_ok h; exact ⟨rfl, rfl, rfl⟩
    · cases pure_eq_ok h; exact ⟨rfl, rfl, rfl⟩

/-- The object built for an Enhanced Packet Block keeps the block's lengths. -/
theorem epbRecord_keys {view : Buffer} {off hi lo capt orig : Nat} {p : Packet}
    (h : epbRecord view off hi lo capt orig = .ok p) :
    p.incl_len = some capt ∧ p.orig_len = some orig ∧ p.ts = some (.pcapng hi lo) := by
  unfold epbRecord at h
  obtain ⟨eth, he, h⟩ := bind_eq_ok h
  cases eth with
  | none => cases pure_eq_ok h; exact ⟨rfl, rfl, rfl⟩
  | some e =>
    obtain ⟨h1, h2, h3⟩ := parseEthernet_keys he
    cases pure_eq_ok h
    simp [Packet.spread, h1, h2, h3]

theorem pcapRecord_isOk {view : Buffer} {lt off s u incl orig : Nat}
    (h : off + incl ≤ view.length) : ∃ p, pcapRecord view lt off s u incl orig = .ok p := by
  unfold pcapRecord
  simp only []
  split
  · refine bind_ok_of (parseEthernet_isOk h) fun eth => ?_
    cases eth <;> exact ⟨_, rfl⟩
  · split
    · rename_i c
      have : 20 ≤ incl := c.2
      exact bind_ok_of (getUint8_isOk (by omega)) fun proto =>
        bind_ok_of (parseIPv4_isOk (by omega)) fun srcIP =>
        bind_ok_of (parseIPv4_isOk (by omega)) fun dstIP => ⟨_, rfl⟩
    · exact ⟨_, rfl⟩

theorem epbRecord_isOk {view : Buffer} {off hi lo capt orig : Nat}
    (h : off + capt ≤ view.length) : ∃ p, epbRecord view off hi lo capt orig = .ok p := by
  unfold epbRecord
  refine bind_ok_of (parseEthernet_isOk h) fun eth => ?_
  cases eth <;> exact ⟨_, rfl⟩

theorem pcapRecord_congr {v1 v2 : Buffer} {o1 o2 n : Nat} (h : Agree v1 o1 v2 o2 n)
    (lt s u orig : Nat) : pcapRecord v1 lt o1 s u n orig = pcapRecord v2 lt o2 s u n orig := by
  unfold pcapRecord
  simp only []
  rw [parseEthernet_congr h]
  by_cases c1 : lt = 1
  · rw [if_pos c1, if_pos c1]
  · rw [if_neg c1, if_neg c1]
    by_cases c2 : lt = 101 ∧ n ≥ 20
    · rw [if_pos c2, if_pos c2]
      have : 20 ≤ n := c2.2
      rw [getUint8_congr (h.shift 9 1 (by omega)) (le_refl 1),
        parseIPv4_congr (h.shift 12 4 (by omega)) (le_refl 4),
        parseIPv4_congr (h.shift 16 4 (by omega)) (le_refl 4)]
    · rw [if_neg c2, if_neg c2]

theorem epbRecord_congr {v1 v2 : Buffer} {o1 o2 n : Nat} (h : Agree v1 o1 v2 o2 n)
    (hi lo orig : Nat) : epbRecord v1 o1 hi lo n orig = epbRecord v2 o2 hi lo n orig := by
  unfold epbRecord
  rw [parseEthernet_congr h]

/-! ## The record walk of classic PCAP -/

theorem parsePCAP_loop_step (view : Buffer) (le : Bool) (lt fuel off : Nat)
    (acc : List Packet) :
    parsePCAP.loop view le lt (fuel + 1) off acc =
      if recordFits view le off then
        recordAt view le lt off >>= fun p =>
          parsePCAP.loop view le lt fuel (nextRecord view le off) (acc ++ [p])
      else pure acc := by
  rw [parsePCAP.loop]
  by_cases h16 : off + 16 ≤ view.length
  · rw [if_pos h16, getUint32_ok le (by omega : off + 4 ≤ view.length),
      getUint32_ok le (by omega : off + 4 + 4 ≤ view.length),
      getUint32_ok le (by omega : off + 8 + 4 ≤ view.length),
      getUint32_ok le (by omega : off + 12 + 4 ≤ view.length)]
    simp only [recordFits, h16, true_and, nextRecord, recordAt]
    by_cases hb : u32 view (off + 8) le > 65535 ∨ off + 16 + u32 view (off + 8) le > view.length
    · have hn : ¬(u32 view (off + 8) le ≤ 65535 ∧
          off + 16 + u32 view (off + 8) le ≤ view.length) := by omega
      rw [if_neg hn]
      show (if _ then _ else _) = _
      rw [if_pos hb]
    · have hp : u32 view (off + 8) le ≤ 65535 ∧
          off + 16 + u32 view (off + 8) le ≤ view.length := by omega
      rw [if_pos hp]
      show (if _ then _ else _) = _
      rw [if_neg hb]
  · have hn : ¬recordFits view le off := fun h => h16 h.1
    rw [if_neg h16, if_neg hn]

/-- With the bound the parser uses the loop never runs out of iterations. -/
theorem parsePCAP_loop_isOk (view : Buffer) (le : Bool) (lt : Nat) :
    ∀ (fuel off : Nat) (acc : List Packet), view.length < off + 16 * fuel → 0 < fuel →
      ∃ r, parsePCAP.loop view le lt fuel off acc = .ok r := by
  intro fuel
  induction fuel with
  | zero => intro off acc _ h; omega
  | succ fuel ih =>
    intro off acc hlen _
    rw [parsePCAP_loop_step]
    by_cases hf : recordFits view le off
    · rw [if_pos hf]
      obtain ⟨h1, h2, h3⟩ := hf
      refine bind_ok_of (pcapRecord_isOk (by omega)) fun p => ?_
      exact ih _ _ (by unfold nextRecord; omega) (by omega)
    · rw [if_neg hf]; exact ⟨_, rfl⟩

/-- What the loop returns: the objects of the records at the successive
positions, up to (and excluding) the first position whose record does not fit. -/
theorem parsePCAP_loop_spec (view : Buffer) (le : Bool) (lt : Nat) :
    ∀ (fuel off : Nat) (acc r : List Packet), parsePCAP.loop view le lt fuel off acc = .ok r →
      ∃ l : List Packet, r = acc ++ l ∧
        (∀ i, i < l.length → recordFits view le (recordOffset view le off i) ∧
            (recordAt view le lt (recordOffset view le off i)).toOption = l[i]?) ∧
        ¬recordFits view le (recordOffset view le off l.length) := by
  intro fuel
  induction fuel with
  | zero => intro off acc r h; cases h
  | succ fuel ih =>
    intro off acc r h
    rw [parsePCAP_loop_step] at h
    by_cases hf : recordFits view le off
    · rw [if_pos hf] at h
      obtain ⟨p, hp, h⟩ := bind_eq_ok h
      obtain ⟨l, hl, hrec, hstop⟩ := ih _ _ _ h
      refine ⟨p :: l, by simp [hl], ?_, ?_⟩
      · intro i hi
        cases i with
        | zero => exact ⟨hf, by simp [recordOffset, hp, Except.toOption]⟩
        | succ i =>
          have := hrec i (by simpa using hi)
          simpa [recordOffset] using this
      · simpa [recordOffset] using hstop
    · rw [if_neg hf] at h
      cases pure_eq_ok h
      exact ⟨[], by simp, by simp, by simpa [recordOffset] using hf⟩

theorem parsePCAP_eq_loop {buffer : Buffer} (h : 24 ≤ buffer.length) :
    parsePCAP buffer =
      parsePCAP.loop buffer (pcapLE buffer) (pcapLinkType buffer) (buffer.length + 1) 24 [] := by
  unfold parsePCAP
  rw [getUint32_ok false (by omega : 0 + 4 ≤ buffer.length)]
  show getUint32 buffer 20 (pcapLE buffer) >>= _ = _
  rw [getUint32_ok _ (by omega : 20 + 4 ≤ buffer.length)]
  rfl

theorem parsePCAP_isOk {buffer : Buffer} (h : 24 ≤ buffer.length) :
    ∃ l, parsePCAP buffer = .ok l := by
  rw [parsePCAP_eq_loop h]
  exact parsePCAP_loop_isOk _ _ _ _ _ _ (by omega) (by omega)

theorem parsePCAP_spec {buffer : Buffer} {l : List Packet} (h : parsePCAP buffer = .ok l) :
    (∀ i, i < l.length →
        recordFits buffer (pcapLE buffer) (recordOffset buffer (pcapLE buffer) 24 i) ∧
        (recordAt buffer (pcapLE buffer) (pcapLinkType buffer)
          (recordOffset buffer (pcapLE buffer) 24 i)).toOption = l[i]?) ∧
      ¬recordFits buffer (pcapLE buffer) (recordOffset buffer (pcapLE buffer) 24 l.length) := by
  by_cases h24 : 24 ≤ buffer.length
  · rw [parsePCAP_eq_loop h24] at h
    obtain ⟨l', hl, h1, h2⟩ := parsePCAP_loop_spec _ _ _ _ _ _ _ h
    simp only [List.nil_append] at hl
    subst hl
    exact ⟨h1, h2⟩
  · exfalso
    unfold parsePCAP at h
    obtain ⟨m, -, h⟩ := bind_eq_ok h
    obtain ⟨lt, hlt, -⟩ := bind_eq_ok h
    rw [getUint32_error _ (by omega)] at hlt
    cases hlt

theorem parsePCAP_short {buffer : Buffer} (h : buffer.length < 24) :
    parsePCAP buffer = .error .rangeError := by
  unfold parsePCAP
  by_cases h4 : 4 ≤ buffer.length
  · rw [getUint32_ok false (by omega : 0 + 4 ≤ buffer.length)]
    show getUint32 buffer 20 _ >>= _ = _
    rw [getUint32_error _ (by omega)]
    rfl
  · rw [getUint32_error _ (by omega)]
    rfl

theorem recordOffset_succ (view : Buffer) (le : Bool) (k : Nat) :
    ∀ off, recordOffset view le off (k + 1) = nextRecord view le (recordOffset view le off k) := by
  induction k with
  | zero => intro off; rfl
  | succ k ih => intro off; rw [recordOffset, ih]; rfl

/-- Two record walks, the first simulated by the second as long as the first goes on:
the first result is a prefix of the second. -/
theorem walk_prefix {v1 v2 : Buffer} {le1 le2 : Bool} {lt1 lt2 : Nat} {l1 l2 : List Packet}
    (hsim : ∀ off, recordFits v1 le1 off → recordFits v2 le2 off ∧
      nextRecord v1 le1 off = nextRecord v2 le2 off ∧
      recordAt v1 le1 lt1 off = recordAt v2 le2 lt2 off)
    (h1 : ∀ i, i < l1.length → recordFits v1 le1 (recordOffset v1 le1 24 i) ∧
      (recordAt v1 le1 lt1 (recordOffset v1 le1 24 i)).toOption = l1[i]?)
    (h2 : ∀ i, i < l2.length → recordFits v2 le2 (recordOffset v2 le2 24 i) ∧
      (recordAt v2 le2 lt2 (recordOffset v2 le2 24 i)).toOption = l2[i]?)
    (hstop : ¬recordFits v2 le2 (recordOffset v2 le2 24 l2.length)) : l1 <+: l2 := by
  have hoff : ∀ i, i ≤ l1.length → recordOffset v1 le1 24 i = recordOffset v2 le2 24 i := by
    intro i
    induction i with
    | zero => intro _; rfl
    | succ i ih =>
      intro hi
      rw [recordOffset_succ, recordOffset_succ, (hsim _ (h1 i (by omega)).1).2.1, ih (by omega)]
  have hlen : l1.length ≤ l2.length := by
    by_contra hc
    have hlt : l2.length < l1.length := by omega
    have := (hsim _ (h1 _ hlt).1).1
    rw [hoff _ (by omega)] at this
    exact hstop this
  have hget : ∀ i, i < l1.length → l1[i]? = l2[i]? := by
    intro i hi
    rw [← (h1 i hi).2, ← (h2 i (by omega)).2, (hsim _ (h1 i hi).1).2.2, hoff i (by omega)]
  have heq : l1 = l2.take l1.length := by
    apply List.ext_getElem?
    intro i
    by_cases hi : i < l1.length
    · rw [List.getElem?_take_of_lt hi, hget i hi]
    · rw [List.getElem?_eq_none (by omega), List.getElem?_eq_none]
      rw [List.length_take]; omega
  rw [heq]
  exact List.take_prefix _ _

/-! ## Truncated buffers -/

theorem byteAt_take {view : Buffer} {n o : Nat} (h : o < n) :
    byteAt (view.take n) o = byteAt view o := by
  unfold byteAt
  rw [List.getElem?_take_of_lt h]

theorem u32_take {view : Buffer} {n o : Nat} (le : Bool) (h : o + 4 ≤ n) :
    u32 (view.take n) o le = u32 view o le := by
  unfold u32
  rw [byteAt_take (by omega : o < n), byteAt_take (by omega : o + 1 < n),
    byteAt_take (by omega : o + 2 < n), byteAt_take (by omega : o + 3 < n)]

theorem agree_take {view : Buffer} {n o m : Nat} (h : o + m ≤ n) :
    Agree (view.take n) o view o m := by
  intro k hk
  rw [List.getElem?_take_of_lt (by omega)]

theorem take_sim {view : Buffer} {n : Nat} (hn : n ≤ view.length) (le : Bool) (lt off : Nat)
    (hf : recordFits (view.take n) le off) :
    recordFits view le off ∧ nextRecord (view.take n) le off = nextRecord view le off ∧
      recordAt (view.take n) le lt off = recordAt view le lt off := by
  obtain ⟨h1, h2, h3⟩ := hf
  have hl : (view.take n).length = n := by rw [List.length_take]; omega
  rw [hl] at h1 h3
  have e0 : u32 (view.take n) off le = u32 view off le := u32_take le (by omega)
  have e4 : u32 (view.take n) (off + 4) le = u32 view (off + 4) le := u32_take le (by omega)
  have e8 : u32 (view.take n) (off + 8) le = u32 view (off + 8) le := u32_take le (by omega)
  have e12 : u32 (view.take n) (off + 12) le = u32 view (off + 12) le := u32_take le (by omega)
  rw [e8] at h2 h3
  refine ⟨⟨by omega, h2, by omega⟩, ?_, ?_⟩
  · unfold nextRecord; rw [e8]
  · unfold recordAt
    rw [e0, e4, e8, e12]
    exact pcapRecord_congr (agree_take (by omega)) _ _ _ _

/-! ## Encoded captures -/

theorem encU32_length (le : Bool) (x : Nat) : (encU32 le x).length = 4 := by
  unfold encU32; split <;> rfl

theorem byteAt_append_right (pre xs : List Byte) (k : Nat) :
    byteAt (pre ++ xs) (pre.length + k) = byteAt xs k := by
  unfold byteAt
  rw [List.getElem?_append_right (by omega)]
  simp

theorem u32_append_right (pre xs : List Byte) (k : Nat) (le : Bool) :
    u32 (pre ++ xs) (pre.length + k) le = u32 xs k le := by
  unfold u32
  simp only [Nat.add_assoc, byteAt_append_right]

theorem u32_skip {w : List Byte} (hw : w.length = 4) (rest : List Byte) (k : Nat) (le : Bool) :
    u32 (w ++ rest) (k + 4) le = u32 rest k le := by
  have := u32_append_right w rest k le
  rw [hw, Nat.add_comm] at this
  exact this

theorem u32_encU32 (le : Bool) (x : Nat) (rest : List Byte) :
    u32 (encU32 le x ++ rest) 0 le = x % 4294967296 := by
  cases le <;> simp [u32, encU32, byteAt, Fin.ofNat] <;> omega

theorem getElem_mid (pre m post : List Byte) {k : Nat} (hk : k < m.length) :
    (pre ++ (m ++ post))[pre.length + k]? = m[k]? := by
  rw [List.getElem?_append_right (by omega)]
  simp only [Nat.add_sub_cancel_left]
  rw [List.getElem?_append_left hk]

theorem agree_append (pre1 pre2 m post1 post2 : List Byte) :
    Agree (pre1 ++ (m ++ post1)) pre1.length (pre2 ++ (m ++ post2)) pre2.length m.length := by
  intro k hk
  rw [getElem_mid _ _ _ hk, getElem_mid _ _ _ hk]

theorem u32_words (le : Bool) (a b c d : Nat) (rest : List Byte) :
    u32 (encU32 le a ++ (encU32 le b ++ (encU32 le c ++ (encU32 le d ++ rest)))) 0 le
        = a % 4294967296 ∧
    u32 (encU32 le a ++ (encU32 le b ++ (encU32 le c ++ (encU32 le d ++ rest)))) 4 le
        = b % 4294967296 ∧
    u32 (encU32 le a ++ (encU32 le b ++ (encU32 le c ++ (encU32 le d ++ rest)))) 8 le
        = c % 4294967296 ∧
    u32 (encU32 le a ++ (encU32 le b ++ (encU32 le c ++ (encU32 le d ++ rest)))) 12 le
        = d % 4294967296 := by
  refine ⟨u32_encU32 _ _ _, ?_, ?_, ?_⟩
  · rw [show (4 : Nat) = 0 + 4 from rfl, u32_skip (encU32_length _ _), u32_encU32]
  · rw [show (8 : Nat) = 0 + 4 + 4 from rfl, u32_skip (encU32_length _ _),
      u32_skip (encU32_length _ _), u32_encU32]
  · rw [show (12 : Nat) = 0 + 4 + 4 + 4 from rfl, u32_skip (encU32_length _ _),
      u32_skip (encU32_length _ _), u32_skip (encU32_length _ _), u32_encU32]

theorem encRecord_length (le : Bool) (r : PcapRecord) :
    (encRecord le r).length = 16 + r.frame.length := by
  simp only [encRecord, List.length_append, encU32_length]; omega

/-- Reading a complete record that sits at the end of `pre`. -/
theorem record_facts (le : Bool) (lt : Nat) (pre rest : List Byte) (r : PcapRecord)
    (hr : r.frame.length < 4294967296) :
    (recordFits (pre ++ (encRecord le r ++ rest)) le pre.length ↔ r.frame.length ≤ 65535) ∧
    nextRecord (pre ++ (encRecord le r ++ rest)) le pre.length = (pre ++ encRecord le r).length ∧
    recordAt (pre ++ (encRecord le r ++ rest)) le lt pre.length = decodeRecord lt r := by
  have hw := u32_words le r.tsSec r.tsUsec r.frame.length r.origLen (r.frame ++ rest)
  have hv : pre ++ (encRecord le r ++ rest) =
      pre ++ (encU32 le r.tsSec ++ (encU32 le r.tsUsec ++ (encU32 le r.frame.length ++
        (encU32 le r.origLen ++ (r.frame ++ rest))))) := by
    simp only [encRecord, List.append_assoc]
  have hlen : (pre ++ (encRecord le r ++ rest)).length
      = pre.length + 16 + r.frame.length + rest.length := by
    simp only [List.length_append, encRecord_length]; omega
  have h0 : u32 (pre ++ (encRecord le r ++ rest)) pre.length le = r.tsSec % 4294967296 := by
    rw [hv]; exact (u32_append_right pre _ 0 le).trans hw.1
  have h4 : u32 (pre ++ (encRecord le r ++ rest)) (pre.length + 4) le
      = r.tsUsec % 4294967296 := by
    rw [hv, u32_append_right]; exact hw.2.1
  have h8 : u32 (pre ++ (encRecord le r ++ rest)) (pre.length + 8) le = r.frame.length := by
    rw [hv, u32_append_right, hw.2.2.1]; exact Nat.mod_eq_of_lt hr
  have h12 : u32 (pre ++ (encRecord le r ++ rest)) (pre.length + 12) le
      = r.origLen % 4294967296 := by
    rw [hv, u32_append_right]; exact hw.2.2.2
  refine ⟨?_, ?_, ?_⟩
  · unfold recordFits
    rw [h8, hlen]
    omega
  · unfold nextRecord
    rw [h8, List.length_append, encRecord_length]; omega
  · unfold recordAt decodeRecord
    rw [h0, h4, h8, h12]
    apply pcapRecord_congr
    have hv2 : pre ++ (encRecord le r ++ rest) =
        (pre ++ (encU32 le r.tsSec ++ (encU32 le r.tsUsec ++ (encU32 le r.frame.length ++
          encU32 le r.origLen)))) ++ (r.frame ++ rest) := by
      simp only [encRecord, List.append_assoc]
    have hl2 : (pre ++ (encU32 le r.tsSec ++ (encU32 le r.tsUsec ++ (encU32 le r.frame.length ++
          encU32 le r.origLen)))).length = pre.length + 16 := by
      simp only [List.length_append, encU32_length]
    have := agree_append (pre ++ (encU32 le r.tsSec ++ (encU32 le r.tsUsec ++
      (encU32 le r.frame.length ++ encU32 le r.origLen)))) [] r.frame rest []
    rw [hl2, ← hv2] at this
    simpa using this

/-- On a buffer that ends with complete records the loop of `parsePCAP` does
what `walkRecords` does, in either byte order. -/
theorem parsePCAP_loop_enc (le : Bool) (lt : Nat) :
    ∀ (rs : List PcapRecord), (∀ r ∈ rs, r.frame.length < 4294967296) →
      ∀ (pre : List Byte) (fuel : Nat) (acc : List Packet),
        parsePCAP.loop (pre ++ encRecords le rs) le lt fuel pre.length acc
          = walkRecords lt fuel rs acc := by
  intro rs
  induction rs with
  | nil =>
    intro _ pre fuel acc
    cases fuel with
    | zero => rfl
    | succ fuel =>
      rw [parsePCAP_loop_step, walkRecords]
      have : ¬recordFits (pre ++ encRecords le []) le pre.length := by
        intro h
        have h1 := h.1
        simp only [encRecords, List.append_nil] at h1
        omega
      rw [if_neg this]
  | cons r rs ih =>
    intro hrs pre fuel acc
    cases fuel with
    | zero => rfl
    | succ fuel =>
      have hr : r.frame.length < 4294967296 := hrs r (List.mem_cons_self _ _)
      obtain ⟨hfit, hnext, hat⟩ := record_facts le lt pre (encRecords le rs) r hr
      rw [parsePCAP_loop_step, walkRecords]
      simp only [encRecords]
      by_cases hc : r.frame.length ≤ 65535
      · rw [if_pos (hfit.2 hc), if_pos hc, hat, hnext]
        refine bind_congr fun p => ?_
        have := ih (fun x hx => hrs x (List.mem_cons_of_mem _ hx)) (pre ++ encRecord le r) fuel
          (acc ++ [p])
        rw [List.append_assoc] at this
        exact this
      · rw [if_neg (fun h => hc (hfit.1 h)), if_neg hc]

theorem encPcap_length (le : Bool) (mid : List Byte) (lt : Nat) (rs : List PcapRecord)
    (hmid : mid.length = 16) :
    (encPcap le mid lt rs).length = 24 + (encRecords le rs).length := by
  simp only [encPcap, List.length_append, encU32_length, hmid]; omega

theorem encRecords_length (rs : List PcapRecord) :
    (encRecords true rs).length = (encRecords false rs).length := by
  induction rs with
  | nil => rfl
  | cons r rs ih => simp only [encRecords, List.length_append, encRecord_length, ih]

theorem encPcap_magic (le : Bool) (mid : List Byte) (lt : Nat) (rs : List PcapRecord) :
    u32 (encPcap le mid lt rs) 0 false = if le then 0xD4C3B2A1 else 0xA1B2C3D4 := by
  cases le <;> simp [encPcap, u32, encU32, byteAt, Fin.ofNat] <;> rfl

theorem encPcap_LE (le : Bool) (mid : List Byte) (lt : Nat) (rs : List PcapRecord) :
    pcapLE (encPcap le mid lt rs) = le := by
  unfold pcapLE
  rw [encPcap_magic]
  cases le <;> simp

theorem encPcap_linkType (le : Bool) (mid : List Byte) (lt : Nat) (rs : List PcapRecord)
    (hmid : mid.length = 16) :
    pcapLinkType (encPcap le mid lt rs) = lt % 4294967296 := by
  unfold pcapLinkType
  rw [encPcap_LE]
  have hv : encPcap le mid lt rs = (encU32 le 0xA1B2C3D4 ++ mid) ++
      (encU32 le lt ++ encRecords le rs) := by
    simp only [encPcap, List.append_assoc]
  have hl : (encU32 le 0xA1B2C3D4 ++ mid).length = 20 := by
    simp only [List.length_append, encU32_length, hmid]
  have := u32_append_right (encU32 le 0xA1B2C3D4 ++ mid) (encU32 le lt ++ encRecords le rs) 0 le
  rw [hl, ← hv] at this
  rw [this, u32_encU32]

/-- `parsePCAP` on a well-formed buffer, in either byte order. -/
theorem parsePCAP_enc (le : Bool) (mid : List Byte) (lt : Nat) (rs : List PcapRecord)
    (hmid : mid.length = 16) (hrs : ∀ r ∈ rs, r.frame.length < 4294967296) :
    parsePCAP (encPcap le mid lt rs) =
      walkRecords (lt % 4294967296) (24 + (encRecords le rs).length + 1) rs [] := by
  have hlen := encPcap_length le mid lt rs hmid
  rw [parsePCAP_eq_loop (by omega), encPcap_LE, encPcap_linkType le mid lt rs hmid, hlen]
  have hv : encPcap le mid lt rs = (encU32 le 0xA1B2C3D4 ++ (mid ++ encU32 le lt)) ++
      encRecords le rs := by
    simp only [encPcap, List.append_assoc]
  have hl : (encU32 le 0xA1B2C3D4 ++ (mid ++ encU32 le lt)).length = 24 := by
    simp only [List.length_append, encU32_length, hmid]
  have := parsePCAP_loop_enc le (lt % 4294967296) rs hrs
    (encU32 le 0xA1B2C3D4 ++ (mid ++ encU32 le lt)) (24 + (encRecords le rs).length + 1) []
  rw [hl, ← hv] at this
  exact this

/-- `parseFile` on a well-formed classic-PCAP buffer is `parsePCAP`. -/
theorem parseFile_enc (le : Bool) (mid : List Byte) (lt : Nat) (rs : List PcapRecord)
    (hmid : mid.length = 16) :
    parseFile (encPcap le mid lt rs) = (parsePCAP (encPcap le mid lt rs)).map some := by
  have hlen := encPcap_length le mid lt rs hmid
  have hm := encPcap_magic le mid lt rs
  unfold parseFile
  rw [if_neg (by omega), getUint32_ok false (by omega : 0 + 4 ≤ (encPcap le mid lt rs).length)]
  show (if _ then _ else _) = _
  rw [if_pos (by rw [hm]; cases le <;> simp)]
  cases parsePCAP (encPcap le mid lt rs) <;> rfl

/-! ## End-to-end decode of a TCP frame -/

theorem ok_bind {α β : Type} (a : α) (f : α → Except Fault β) :
    (Except.ok a : Except Fault α) >>= f = f a := rfl

/-- An Ethernet (0x0800) / IPv4 (header length nibble 5, protocol 6) / TCP frame
with flag byte `0x02`: what `parseEthernet` returns for the whole frame. -/
theorem parseEthernet_tcp_syn (frame : List Byte) (sp dp : Nat)
    (hlen : 54 ≤ frame.length)
    (het : u16 frame 12 false = 0x0800)
    (hihl : byteAt frame 14 &&& 0x0F = 5)
    (hproto : byteAt frame 23 = 6)
    (hsp : u16 frame 34 false = sp)
    (hdp : u16 frame 36 false = dp)
    (hfl : byteAt frame 47 = 0x02) :
    ∃ e : Packet, parseEthernet frame 0 frame.length = .ok (some e) ∧
      e.protocol = some "TCP" ∧ e.src_port = some sp ∧ e.dst_port = some dp ∧
      e.flags = some "SYN" := by
  obtain ⟨dst, hdst⟩ : ∃ s, parseMAC frame 0 = .ok s := parseMAC_isOk (by omega)
  obtain ⟨src, hsrc⟩ : ∃ s, parseMAC frame (0 + 6) = .ok s := parseMAC_isOk (by omega)
  obtain ⟨srcIP, hsrcIP⟩ : ∃ s, parseIPv4 frame (0 + 14 + 12) = .ok s :=
    parseIPv4_isOk (by omega)
  obtain ⟨dstIP, hdstIP⟩ : ∃ s, parseIPv4 frame (0 + 14 + 16) = .ok s :=
    parseIPv4_isOk (by omega)
  have hge : frame.length ≥ 34 := by omega
  unfold parseEthernet
  rw [if_neg (by omega), hdst, hsrc, hsrcIP, hdstIP,
    getUint16_ok false (by omega : 0 + 12 + 2 ≤ frame.length),
    getUint8_ok (by omega : 0 + 14 < frame.length),
    getUint8_ok (by omega : 0 + 14 + 9 < frame.length),
    getUint8_ok (by omega : 0 + 14 + 8 < frame.length),
    getUint16_ok false (by omega : 0 + 14 + 2 + 2 ≤ frame.length)]
  simp only [ok_bind, Nat.zero_add, Nat.reduceAdd, het, hihl, hproto, hge, true_and, if_true,
    and_self]
  simp only [Nat.reduceMul, Nat.reduceAdd, Nat.sub_zero]
  rw [if_pos (by omega), getUint16_ok false (by omega : 34 + 2 ≤ frame.length),
    getUint16_ok false (by omega : 36 + 2 ≤ frame.length),
    getUint8_ok (by omega : 47 < frame.length), getUint8_ok (by omega : 46 < frame.length)]
  simp only [ok_bind, hsp, hdp, hfl]
  have hp : protoName 6 = "TCP" := by decide
  have hf : tcpFlags 2 = "SYN" := by decide
  rw [hp, hf]
  exact ⟨_, rfl, rfl, rfl, rfl, rfl⟩

/-! ## The block walk of PCAPNG -/

theorem epbBlock_acc (view : Buffer) (off : Nat) (le : Bool) (acc : List Packet) :
    epbBlock view off le acc = epbBlock view off le [] >>= fun ps => pure (acc ++ ps) := by
  unfold epbBlock
  cases getUint32 view (off + 12) le with
  | error e => rfl
  | ok a =>
    cases getUint32 view (off + 16) le with
    | error e => rfl
    | ok b =>
      cases getUint32 view (off + 20) le with
      | error e => rfl
      | ok c =>
        cases getUint32 view (off + 24) le with
        | error e => rfl
        | ok d =>
          simp only [ok_bind]
          split
          · cases epbRecord view (off + 28) a b c d with
            | error e => rfl
            | ok p => rfl
          · simp [pure, Except.pure, bind, Except.bind]

theorem parsePCAPNG_loop_step (view : Buffer) (fuel off : Nat) (le : Bool)
    (acc : List Packet) :
    parsePCAPNG.loop view (fuel + 1) off le acc =
      if blockFits view le off then
        blockPackets view off le >>= fun ps =>
          parsePCAPNG.loop view fuel (nextBlock view off le).1 (nextBlock view off le).2
            (acc ++ ps)
      else pure acc := by
  rw [parsePCAPNG.loop]
  by_cases h8 : off + 8 ≤ view.length
  · rw [if_pos h8, getUint32_ok le (by omega : off + 4 ≤ view.length),
      getUint32_ok le (by omega : off + 4 + 4 ≤ view.length)]
    simp only [ok_bind]
    by_cases hb : u32 view (off + 4) le < 12 ∨ off + u32 view (off + 4) le > view.length
    · have hn : ¬blockFits view le off := by unfold blockFits; omega
      rw [if_pos hb, if_neg hn]
    · have hp : blockFits view le off := by unfold blockFits; omega
      rw [if_neg hb, if_pos hp]
      have h12 : off + 12 ≤ view.length := by
        have := hp.2.1; have := hp.2.2; omega
      unfold blockPackets nextBlock
      by_cases hs : u32 view off le = 0x0A0D0D0A
      · rw [if_pos hs, if_pos hs, if_neg (fun h => h.1 hs),
          getUint32_ok true (by omega : off + 8 + 4 ≤ view.length)]
        simp only [ok_bind]
        rw [getUint32_ok _ (by omega : off + 4 + 4 ≤ view.length)]
        simp only [ok_bind, pure, Except.pure, List.append_nil]
      · rw [if_neg hs, if_neg hs]
        by_cases he : u32 view off le = 0x00000006
        · rw [if_pos he, if_pos ⟨hs, he⟩, epbBlock_acc]
          cases epbBlock view off le [] <;> rfl
        · rw [if_neg he, if_neg (fun h => he h.2)]
          simp only [ok_bind, pure, Except.pure, List.append_nil]
  · have hn : ¬blockFits view le off := fun h => h8 h.1
    rw [if_neg h8, if_neg hn]

/-- What the loop of `parsePCAPNG` returns: the objects of the blocks at the
successive states, up to (and excluding) the first block that fails the check. -/
theorem parsePCAPNG_loop_spec (view : Buffer) :
    ∀ (fuel off : Nat) (le : Bool) (acc r : List Packet),
      parsePCAPNG.loop view fuel off le acc = .ok r →
      ∃ outs : List (List Packet), r = acc ++ outs.flatten ∧
        (∀ i, i < outs.length →
          blockFits view (blockState view i (off, le)).2 (blockState view i (off, le)).1 ∧
          (blockPackets view (blockState view i (off, le)).1
            (blockState view i (off, le)).2).toOption = outs[i]?) ∧
        ¬blockFits view (blockState view outs.length (off, le)).2
          (blockState view outs.length (off, le)).1 := by
  intro fuel
  induction fuel with
  | zero => intro off le acc r h; cases h
  | succ fuel ih =>
    intro off le acc r h
    rw [parsePCAPNG_loop_step] at h
    by_cases hf : blockFits view le off
    · rw [if_pos hf] at h
      obtain ⟨ps, hps, h⟩ := bind_eq_ok h
      obtain ⟨outs, hl, hrec, hstop⟩ := ih _ _ _ _ h
      refine ⟨ps :: outs, by simp [hl], ?_, ?_⟩
      · intro i hi
        cases i with
        | zero => exact ⟨hf, by simp [blockState, hps, Except.toOption]⟩
        | succ i =>
          have := hrec i (by simpa using hi)
          simpa [blockState] using this
      · simpa [blockState] using hstop
    · rw [if_neg hf] at h
      cases pure_eq_ok h
      exact ⟨[], by simp, by simp, by simpa [blockState] using hf⟩

/-- An Enhanced Packet Block adds at most one object: the one decoded from its
frame when the captured length is below 65535 and the frame is inside the
buffer, none otherwise (the block is then skipped). -/
theorem epbBlock_spec {view : Buffer} {off : Nat} {le : Bool} (h28 : off + 28 ≤ view.length) :
    epbBlock view off le [] =
      if off + 28 + u32 view (off + 20) le ≤ view.length ∧ u32 view (off + 20) le < 65535 then
        epbRecord view (off + 28) (u32 view (off + 12) le) (u32 view (off + 16) le)
          (u32 view (off + 20) le) (u32 view (off + 24) le) >>= fun p => pure [p]
      else pure [] := by
  unfold epbBlock
  rw [getUint32_ok le (by omega : off + 12 + 4 ≤ view.length),
    getUint32_ok le (by omega : off + 16 + 4 ≤ view.length),
    getUint32_ok le (by omega : off + 20 + 4 ≤ view.length),
    getUint32_ok le (by omega : off + 24 + 4 ≤ view.length)]
  simp only [ok_bind, List.nil_append]

/-- Every object an Enhanced Packet Block adds was decoded from a frame of
fewer than 65535 bytes that lies inside the buffer. -/
theorem epbBlock_mem {view : Buffer} {off : Nat} {le : Bool} {ps : List Packet}
    (h : epbBlock view off le [] = .ok ps) :
    ∀ p ∈ ps, ∃ hi lo capt orig : Nat, capt < 65535 ∧ off + 28 + capt ≤ view.length ∧
      epbRecord view (off + 28) hi lo capt orig = .ok p := by
  unfold epbBlock at h
  obtain ⟨hi, -, h⟩ := bind_eq_ok h
  obtain ⟨lo, -, h⟩ := bind_eq_ok h
  obtain ⟨capt, -, h⟩ := bind_eq_ok h
  obtain ⟨orig, -, h⟩ := bind_eq_ok h
  simp only [] at h
  split at h
  · rename_i hc
    obtain ⟨p, hp, h⟩ := bind_eq_ok h
    cases pure_eq_ok h
    intro q hq
    simp only [List.nil_append, List.mem_singleton] at hq
    subst hq
    exact ⟨hi, lo, capt, orig, hc.2, hc.1, hp⟩
  · cases pure_eq_ok h
    intro q hq
    cases hq

theorem blockPackets_mem {view : Buffer} {off : Nat} {le : Bool} {ps : List Packet}
    (h : blockPackets view off le = .ok ps) :
    ∀ p ∈ ps, ∃ hi lo capt orig : Nat, capt < 65535 ∧ off + 28 + capt ≤ view.length ∧
      epbRecord view (off + 28) hi lo capt orig = .ok p := by
  unfold blockPackets at h
  split at h
  · exact epbBlock_mem h
  · cases pure_eq_ok h
    intro q hq
    cases hq

theorem parsePCAPNG_spec {buffer : Buffer} {r : List Packet} (h : parsePCAPNG buffer = .ok r) :
    ∃ outs : List (List Packet), r = outs.flatten ∧
      (∀ i, i < outs.length →
        blockFits buffer (blockState buffer i (0, true)).2 (blockState buffer i (0, true)).1 ∧
        (blockPackets buffer (blockState buffer i (0, true)).1
          (blockState buffer i (0, true)).2).toOption = outs[i]?) ∧
      ¬blockFits buffer (blockState buffer outs.length (0, true)).2
        (blockState buffer outs.length (0, true)).1 := by
  obtain ⟨outs, h1, h2, h3⟩ := parsePCAPNG_loop_spec _ _ _ _ _ _ h
  exact ⟨outs, by simpa using h1, h2, h3⟩

theorem toOption_eq_some {α : Type} {x : Except Fault α} {a : α}
    (h : x.toOption = some a) : x = .ok a := by
  cases x with
  | error e => cases h
  | ok b => cases h; rfl

theorem parseFile_inv {buffer : Buffer} {l : List Packet} (h : parseFile buffer = .ok (some l)) :
    parsePCAP buffer = .ok l ∨ parsePCAPNG buffer = .ok l := by
  unfold parseFile at h
  split at h
  · cases h
  · obtain ⟨m, -, h⟩ := bind_eq_ok h
    split at h
    · obtain ⟨r, hr, h⟩ := bind_eq_ok h
      cases pure_eq_ok h
      exact Or.inl hr
    · split at h
      · obtain ⟨r, hr, h⟩ := bind_eq_ok h
        cases pure_eq_ok h
        exact Or.inr hr
      · cases h

/-! ## Encoded PCAPNG buffers -/

theorem byteAt_append_left {xs : List Byte} {k : Nat} (h : k < xs.length) (rest : List Byte) :
    byteAt (xs ++ rest) k = byteAt xs k := by
  unfold byteAt
  rw [List.getElem?_append_left h]

theorem u32_append_left {xs : List Byte} {k : Nat} (h : k + 4 ≤ xs.length) (rest : List Byte)
    (le : Bool) : u32 (xs ++ rest) k le = u32 xs k le := by
  unfold u32
  rw [byteAt_append_left (by omega : k < xs.length), byteAt_append_left (by omega : k + 1 < xs.length),
    byteAt_append_left (by omega : k + 2 < xs.length),
    byteAt_append_left (by omega : k + 3 < xs.length)]

theorem encBlock_length (b : NgBlock) : (encBlock b).length = 8 + b.body.length := by
  simp only [encBlock, List.length_append, encU32_length]; omega

/-- Reading a word of the body of a block that sits at the end of `pre`. -/
theorem u32_body (pre rest : List Byte) (b : NgBlock) (k : Nat) (hk : k + 4 ≤ b.body.length) :
    u32 (pre ++ (encBlock b ++ rest)) (pre.length + (k + 4 + 4)) true = u32 b.body k true := by
  have hv : pre ++ (encBlock b ++ rest) =
      pre ++ (encU32 true b.typ ++ (encU32 true (8 + b.body.length) ++ (b.body ++ rest))) := by
    simp only [encBlock, List.append_assoc]
  rw [hv, u32_append_right, u32_skip (encU32_length _ _), u32_skip (encU32_length _ _),
    u32_append_left hk]

/-- Reading a well-formed block that sits at the end of `pre`. -/
theorem block_facts (pre rest : List Byte) (b : NgBlock) (hb : b.WellFormed) :
    blockFits (pre ++ (encBlock b ++ rest)) true pre.length ∧
    nextBlock (pre ++ (encBlock b ++ rest)) pre.length true
      = ((pre ++ encBlock b).length, true) ∧
    blockPackets (pre ++ (encBlock b ++ rest)) pre.length true = ngBlockPackets b := by
  obtain ⟨w1, w2, w3, w4, w5⟩ := hb
  have hv : pre ++ (encBlock b ++ rest) =
      pre ++ (encU32 true b.typ ++ (encU32 true (8 + b.body.length) ++ (b.body ++ rest))) := by
    simp only [encBlock, List.append_assoc]
  have hlen : (pre ++ (encBlock b ++ rest)).length
      = pre.length + 8 + b.body.length + rest.length := by
    simp only [List.length_append, encBlock_length]; omega
  have h0 : u32 (pre ++ (encBlock b ++ rest)) pre.length true = b.typ := by
    rw [hv]
    exact ((u32_append_right pre _ 0 true).trans (u32_encU32 _ _ _)).trans (Nat.mod_eq_of_lt w1)
  have h4 : u32 (pre ++ (encBlock b ++ rest)) (pre.length + 4) true = 8 + b.body.length := by
    rw [hv, u32_append_right, show (4 : Nat) = 0 + 4 from rfl, u32_skip (encU32_length _ _),
      u32_encU32]
    exact Nat.mod_eq_of_lt w3
  have h8 : u32 (pre ++ (encBlock b ++ rest)) (pre.length + 8) true = u32 b.body 0 true :=
    u32_body pre rest b 0 (by omega)
  refine ⟨?_, ?_, ?_⟩
  · unfold blockFits
    rw [h4, hlen]; omega
  · unfold nextBlock
    rw [h0, h4, h8, List.length_append, encBlock_length]
    by_cases hs : b.typ = 0x0A0D0D0A
    · rw [if_pos hs, w4 hs]
      simp only [decide_True, h4]
    · rw [if_neg hs]
  · unfold blockPackets ngBlockPackets
    rw [h0]
    by_cases he : b.typ = 0x00000006
    · obtain ⟨e1, e2⟩ := w5 he
      have h12 : u32 (pre ++ (encBlock b ++ rest)) (pre.length + 12) true = u32 b.body 4 true :=
        u32_body pre rest b 4 (by omega)
      have h16 : u32 (pre ++ (encBlock b ++ rest)) (pre.length + 16) true = u32 b.body 8 true :=
        u32_body pre rest b 8 (by omega)
      have h20 : u32 (pre ++ (encBlock b ++ rest)) (pre.length + 20) true
          = u32 b.body 12 true := u32_body pre rest b 12 (by omega)
      have h24 : u32 (pre ++ (encBlock b ++ rest)) (pre.length + 24) true
          = u32 b.body 16 true := u32_body pre rest b 16 (by omega)
      rw [if_pos ⟨by omega, he⟩, epbBlock_spec (by rw [hlen]; omega), h12, h16, h20, h24, hlen]
      have hagree : Agree (pre ++ (encBlock b ++ rest)) (pre.length + 28) b.body 20
          (u32 b.body 12 true) := by
        intro j hj
        have hv2 : pre ++ (encBlock b ++ rest) =
            (pre ++ (encU32 true b.typ ++ encU32 true (8 + b.body.length))) ++
              (b.body ++ rest) := by
          simp only [encBlock, List.append_assoc]
        have hl2 : (pre ++ (encU32 true b.typ ++ encU32 true (8 + b.body.length))).length
            = pre.length + 8 := by
          simp only [List.length_append, encU32_length]
        have := getElem_mid (pre ++ (encU32 true b.typ ++ encU32 true (8 + b.body.length)))
          b.body rest (by omega : 20 + j < b.body.length)
        rw [hl2, ← hv2] at this
        rw [← this]
        congr 1
        omega
      rw [epbRecord_congr hagree]
      by_cases hc : u32 b.body 12 true < 65535
      · rw [if_pos ⟨by omega, hc⟩, if_pos ⟨he, hc⟩]
      · rw [if_neg (fun h => hc h.2), if_neg (fun h => hc h.2)]
    · rw [if_neg (fun h => he h.2), if_neg (fun h => he h.1)]

/-- On a buffer that ends with well-formed blocks the loop of `parsePCAPNG`
does what `walkBlocks` does. -/
theorem parsePCAPNG_loop_enc :
    ∀ (bs : List NgBlock), (∀ b ∈ bs, b.WellFormed) →
      ∀ (pre : List Byte) (fuel : Nat) (acc : List Packet), bs.length < fuel →
        parsePCAPNG.loop (pre ++ encBlocks bs) fuel pre.length true acc = walkBlocks bs acc := by
  intro bs
  induction bs with
  | nil =>
    intro _ pre fuel acc hfuel
    obtain ⟨f, rfl⟩ : ∃ f, fuel = f + 1 := ⟨fuel - 1, by omega⟩
    rw [parsePCAPNG_loop_step, walkBlocks]
    have : ¬blockFits (pre ++ encBlocks []) true pre.length := by
      intro h
      have h1 := h.1
      simp only [encBlocks, List.append_nil] at h1
      omega
    rw [if_neg this]
  | cons b bs ih =>
    intro hwf pre fuel acc hfuel
    obtain ⟨f, rfl⟩ : ∃ f, fuel = f + 1 := ⟨fuel - 1, by omega⟩
    obtain ⟨hfit, hnext, hpk⟩ :=
      block_facts pre (encBlocks bs) b (hwf b (List.mem_cons_self _ _))
    rw [parsePCAPNG_loop_step, walkBlocks]
    simp only [encBlocks]
    rw [if_pos hfit, hpk, hnext]
    refine bind_congr fun ps => ?_
    have := ih (fun x hx => hwf x (List.mem_cons_of_mem _ hx)) (pre ++ encBlock b) f
      (acc ++ ps) (by simpa using hfuel)
    rw [List.append_assoc] at this
    exact this

theorem encBlocks_length_ge (bs : List NgBlock) : bs.length ≤ (encBlocks bs).length := by
  induction bs with
  | nil => exact Nat.le_refl _
  | cons b bs ih =>
    simp only [encBlocks, List.length_cons, List.length_append, encBlock_length]; omega

theorem ngBlockPackets_isOk {b : NgBlock} (hb : b.WellFormed) :
    ∃ ps, ngBlockPackets b = .ok ps := by
  unfold ngBlockPackets
  split
  · rename_i hc
    have := (hb.2.2.2.2 hc.1).2
    exact bind_ok_of (epbRecord_isOk this) fun p => ⟨_, rfl⟩
  · exact ⟨_, rfl⟩

theorem walkBlocks_isOk :
    ∀ (bs : List NgBlock), (∀ b ∈ bs, b.WellFormed) → ∀ acc, ∃ l, walkBlocks bs acc = .ok l := by
  intro bs
  induction bs with
  | nil => intro _ acc; exact ⟨_, rfl⟩
  | cons b bs ih =>
    intro hwf acc
    rw [walkBlocks]
    exact bind_ok_of (ngBlockPackets_isOk (hwf b (List.mem_cons_self _ _))) fun ps =>
      ih (fun x hx => hwf x (List.mem_cons_of_mem _ hx)) _

/-- A block that adds nothing can be inserted anywhere without changing the walk. -/
theorem walkBlocks_insert (u : NgBlock) (hu : ngBlockPackets u = .ok []) (bs2 : List NgBlock) :
    ∀ (bs1 : List NgBlock) (acc : List Packet),
      walkBlocks (bs1 ++ u :: bs2) acc = walkBlocks (bs1 ++ bs2) acc := by
  intro bs1
  induction bs1 with
  | nil =>
    intro acc
    simp only [List.nil_append]
    rw [walkBlocks, hu, ok_bind, List.append_nil]
  | cons b bs1 ih =>
    intro acc
    simp only [List.cons_append]
    rw [walkBlocks, walkBlocks]
    exact bind_congr fun ps => ih _

/-- `parseFile` on a buffer of well-formed little-endian blocks that starts
with a Section Header Block. -/
theorem parseFile_encBlocks (shb : NgBlock) (bs : List NgBlock)
    (hshb : shb.typ = 0x0A0D0D0A) (hwf : ∀ b ∈ shb :: bs, b.WellFormed) :
    parseFile (encBlocks (shb :: bs)) = (walkBlocks (shb :: bs) []).map some := by
  have hlen : (shb :: bs).length ≤ (encBlocks (shb :: bs)).length := encBlocks_length_ge _
  have hlen8 : 8 ≤ (encBlocks (shb :: bs)).length := by
    simp only [encBlocks, List.length_append, encBlock_length]; omega
  have hm : u32 (encBlocks (shb :: bs)) 0 false = 0x0A0D0D0A := by
    simp [encBlocks, encBlock, hshb, u32, encU32, byteAt, Fin.ofNat]
    rfl
  have hloop := parsePCAPNG_loop_enc (shb :: bs) hwf [] ((encBlocks (shb :: bs)).length + 1) []
    (by omega)
  simp only [List.nil_append, List.length_nil] at hloop
  unfold parseFile
  rw [if_neg (by omega), getUint32_ok false (by omega : 0 + 4 ≤ (encBlocks (shb :: bs)).length)]
  show (if _ then _ else _) = _
  rw [hm, if_neg (by decide), if_pos rfl]
  unfold parsePCAPNG
  rw [hloop]
  cases walkBlocks (shb :: bs) [] <;> rfl

/-! ## The loop bound is never reached -/

theorem onlyRange_pure {α : Type} (a : α) : OnlyRange (pure a : Except Fault α) := by
  intro e h; cases h

theorem onlyRange_bind {α β : Type} {x : Except Fault α} {f : α → Except Fault β}
    (hx : OnlyRange x) (hf : ∀ a, OnlyRange (f a)) : OnlyRange (x >>= f) := by
  intro e h
  cases x with
  | error e' => cases h; exact hx _ rfl
  | ok a => exact hf a e h

theorem getUint8_onlyRange (view : Buffer) (o : Nat) : OnlyRange (getUint8 view o) := by
  intro e h
  unfold getUint8 at h
  split at h
  · cases h
  · cases h; rfl

theorem getUint16_onlyRange (view : Buffer) (o : Nat) (le : Bool) :
    OnlyRange (getUint16 view o le) :=
  onlyRange_bind (getUint8_onlyRange _ _) fun _ =>
    onlyRange_bind (getUint8_onlyRange _ _) fun _ => onlyRange_pure _

theorem getUint32_onlyRange (view : Buffer) (o : Nat) (le : Bool) :
    OnlyRange (getUint32 view o le) :=
  onlyRange_bind (getUint8_onlyRange _ _) fun _ =>
    onlyRange_bind (getUint8_onlyRange _ _) fun _ =>
    onlyRange_bind (getUint8_onlyRange _ _) fun _ =>
    onlyRange_bind (getUint8_onlyRange _ _) fun _ => onlyRange_pure _

theorem parseMAC_onlyRange (view : Buffer) (o : Nat) : OnlyRange (parseMAC view o) := by
  unfold parseMAC
  simp only [List.mapM_cons, List.mapM_nil]
  repeat' first
    | exact onlyRange_pure _
    | exact getUint8_onlyRange _ _
    | refine onlyRange_bind ?_ (fun _ => ?_)

theorem parseIPv4_onlyRange (view : Buffer) (o : Nat) : OnlyRange (parseIPv4 view o) := by
  unfold parseIPv4
  simp only [List.mapM_cons, List.mapM_nil]
  repeat' first
    | exact onlyRange_pure _
    | exact getUint8_onlyRange _ _
    | refine onlyRange_bind ?_ (fun _ => ?_)

theorem parseIPv6_onlyRange (view : Buffer) (o : Nat) : OnlyRange (parseIPv6 view o) := by
  unfold parseIPv6
  simp only [List.mapM_cons, List.mapM_nil]
  repeat' first
    | exact onlyRange_pure _
    | exact getUint8_onlyRange _ _
    | refine onlyRange_bind ?_ (fun _ => ?_)

theorem parseEthernet_onlyRange (view : Buffer) (o n : Nat) :
    OnlyRange (parseEthernet view o n) := by
  unfold parseEthernet
  split
  · exact onlyRange_pure _
  refine onlyRange_bind (parseMAC_onlyRange _ _) fun dst =>
    onlyRange_bind (parseMAC_onlyRange _ _) fun src =>
    onlyRange_bind (getUint16_onlyRange _ _ _) fun et => ?_
  dsimp only
  split
  · refine onlyRange_bind (getUint8_onlyRange _ _) fun b0 =>
      onlyRange_bind (getUint8_onlyRange _ _) fun proto =>
      onlyRange_bind (parseIPv4_onlyRange _ _) fun srcIP =>
      onlyRange_bind (parseIPv4_onlyRange _ _) fun dstIP =>
      onlyRange_bind (getUint8_onlyRange _ _) fun ttl =>
      onlyRange_bind (getUint16_onlyRange _ _ _) fun ipLen => ?_
    dsimp only
    split
    · exact onlyRange_bind (getUint16_onlyRange _ _ _) fun sp =>
        onlyRange_bind (getUint16_onlyRange _ _ _) fun dp =>
        onlyRange_bind (getUint8_onlyRange _ _) fun fB =>
        onlyRange_bind (getUint8_onlyRange _ _) fun b12 => onlyRange_pure _
    · split
      · exact onlyRange_bind (getUint16_onlyRange _ _ _) fun sp =>
          onlyRange_bind (getUint16_onlyRange _ _ _) fun dp =>
          onlyRange_bind (getUint16_onlyRange _ _ _) fun ul => onlyRange_pure _
      · exact onlyRange_pure _
  · split
    · refine onlyRange_bind (getUint8_onlyRange _ _) fun proto =>
        onlyRange_bind (parseIPv6_onlyRange _ _) fun srcIP =>
        onlyRange_bind (parseIPv6_onlyRange _ _) fun dstIP =>
        onlyRange_bind (getUint16_onlyRange _ _ _) fun plen => ?_
      dsimp only
      split
      · exact onlyRange_bind (getUint16_onlyRange _ _ _) fun sp =>
          onlyRange_bind (getUint16_onlyRange _ _ _) fun dp => onlyRange_pure _
      · exact onlyRange_pure _
    · split
      · exact onlyRange_pure _
      · exact onlyRange_pure _

theorem pcapRecord_onlyRange (view : Buffer) (lt off s u incl orig : Nat) :
    OnlyRange (pcapRecord view lt off s u incl orig) := by
  unfold pcapRecord
  dsimp only
  split
  · refine onlyRange_bind (parseEthernet_onlyRange _ _ _) fun eth => ?_
    cases eth <;> exact onlyRange_pure _
  · split
    · exact onlyRange_bind (getUint8_onlyRange _ _) fun proto =>
        onlyRange_bind (parseIPv4_onlyRange _ _) fun srcIP =>
        onlyRange_bind (parseIPv4_onlyRange _ _) fun dstIP => onlyRange_pure _
    · exact onlyRange_pure _

theorem epbRecord_onlyRange (view : Buffer) (off hi lo capt orig : Nat) :
    OnlyRange (epbRecord view off hi lo capt orig) := by
  unfold epbRecord
  refine onlyRange_bind (parseEthernet_onlyRange _ _ _) fun eth => ?_
  cases eth <;> exact onlyRange_pure _

theorem epbBlock_onlyRange (view : Buffer) (off : Nat) (le : Bool) (acc : List Packet) :
    OnlyRange (epbBlock view off le acc) := by
  unfold epbBlock
  refine onlyRange_bind (getUint32_onlyRange _ _ _) fun hi =>
    onlyRange_bind (getUint32_onlyRange _ _ _) fun lo =>
    onlyRange_bind (getUint32_onlyRange _ _ _) fun capt =>
    onlyRange_bind (getUint32_onlyRange _ _ _) fun orig => ?_
  dsimp only
  split
  · exact onlyRange_bind (epbRecord_onlyRange _ _ _ _ _ _) fun p => onlyRange_pure _
  · exact onlyRange_pure _

theorem blockPackets_onlyRange (view : Buffer) (off : Nat) (le : Bool) :
    OnlyRange (blockPackets view off le) := by
  unfold blockPackets
  split
  · exact epbBlock_onlyRange _ _ _ _
  · exact onlyRange_pure _

/-- A block length that is not zero in one byte order is not zero in the other. -/
theorem u32_pos (view : Buffer) (o : Nat) (le le' : Bool) (h : 0 < u32 view o le) :
    0 < u32 view o le' := by
  unfold u32 at *
  cases le <;> cases le' <;> simp only [if_true, Bool.false_eq_true, if_false] at * <;> omega

/-- Every block that passes the check moves the offset forward. -/
theorem nextBlock_gt {view : Buffer} {off : Nat} {le : Bool} (h : blockFits view le off) :
    off < (nextBlock view off le).1 := by
  obtain ⟨-, h12, -⟩ := h
  unfold nextBlock
  split
  · have := u32_pos view (off + 4) le (decide (u32 view (off + 8) true = 0x1A2B3C4D)) (by omega)
    show off < off + _
    omega
  · show off < off + _
    omega

/-- With the bound the parser uses, the loop of `parsePCAPNG` ends by itself. -/
theorem parsePCAPNG_loop_onlyRange (view : Buffer) :
    ∀ (fuel off : Nat) (le : Bool) (acc : List Packet), view.length < off + fuel → 0 < fuel →
      OnlyRange (parsePCAPNG.loop view fuel off le acc) := by
  intro fuel
  induction fuel with
  | zero => intro off le acc _ h; omega
  | succ fuel ih =>
    intro off le acc hlen _
    rw [parsePCAPNG_loop_step]
    split
    · rename_i hf
      have hgt := nextBlock_gt hf
      have h8 := hf.1
      exact onlyRange_bind (blockPackets_onlyRange _ _ _) fun ps =>
        ih _ _ _ (by omega) (by omega)
    · exact onlyRange_pure _

/-- `parsePCAPNG` returns a list or raises a `RangeError`; the loop bound is never reached. -/
theorem parsePCAPNG_onlyRange (buffer : Buffer) : OnlyRange (parsePCAPNG buffer) :=
  parsePCAPNG_loop_onlyRange _ _ _ _ _ (by omega) (by omega)

/-! ## The size summary -/

theorem foldl_add_eq_sum (l : List Nat) (a : Nat) : l.foldl (· + ·) a = a + l.sum := by
  induction l generalizing a with
  | nil => simp
  | cons x l ih => simp [List.foldl_cons, ih, Nat.add_assoc]

theorem foldl_max_ge (l : List Nat) (a : Nat) : a ≤ l.foldl max a := by
  induction l generalizing a with
  | nil => exact Nat.le_refl _
  | cons x l ih => exact Nat.le_trans (Nat.le_max_left a x) (ih _)

theorem foldl_max_ge_mem (l : List Nat) (a : Nat) : ∀ x ∈ l, x ≤ l.foldl max a := by
  induction l generalizing a with
  | nil => intro x hx; cases hx
  | cons y l ih =>
    intro x hx
    rcases List.mem_cons.1 hx with h | h
    · subst h; exact Nat.le_trans (Nat.le_max_right a x) (foldl_max_ge l _)
    · exact ih _ x h

theorem foldl_max_mem (l : List Nat) (a : Nat) : l.foldl max a = a ∨ l.foldl max a ∈ l := by
  induction l generalizing a with
  | nil => exact Or.inl rfl
  | cons y l ih =>
    rcases ih (max a y) with h | h
    · rw [List.foldl_cons, h]
      rcases Nat.le_total a y with hay | hay
      · rw [Nat.max_eq_right hay]; exact Or.inr (List.mem_cons_self _ _)
      · rw [Nat.max_eq_left hay]; exact Or.inl rfl
    · exact Or.inr (List.mem_cons_of_mem _ h)

/-- The ascending sort of the lengths is the only sorted arrangement of them. -/
theorem insertionSort_unique (lens s : List Nat) (hperm : s.Perm lens)
    (hsorted : s.Sorted (· ≤ ·)) : lens.insertionSort (· ≤ ·) = s :=
  List.eq_of_perm_of_sorted ((List.perm_insertionSort _ lens).trans hperm.symm)
    (List.sorted_insertionSort _ lens) hsorted

theorem computeStats_nonempty {packets : List Packet} (h : packets ≠ []) :
    computeStats packets =
      { mean := .meanFixed1 ((lengthsOf packets).foldl (· + ·) 0) (lengthsOf packets).length
        std := .stdFixed1 (lengthsOf packets)
        p95 := StatValue.ofElem
          (((lengthsOf packets).insertionSort (· ≤ ·))[(lengthsOf packets).length * 19 / 20]? <|>
            ((lengthsOf packets).insertionSort (· ≤ ·))[(lengthsOf packets).length - 1]?)
        median := StatValue.ofElem
          ((lengthsOf packets).insertionSort (· ≤ ·))[(lengthsOf packets).length / 2]?
        max := .num ((lengthsOf packets).foldl max 0)
        total_bytes := sumF64 (lengthsOf packets) } := by
  unfold computeStats
  rw [if_neg (by simpa using h)]
  rfl

/-! ## The filter predicate -/

theorem safeText_eq (lower : String → String) (v : Option String) :
    safeText lower v = (v.map lower).getD "" := by
  cases v <;> rfl

theorem safeNum_eq (lower : String → String) (v : Option Nat) :
    safeNum lower v = (v.map fun n => lower (toString n)).getD "" := by
  cases v <;> rfl

theorem matchesFilter_eq (trim lower : String → String) (p : Packet) (raw : String) :
    matchesFilter trim lower p raw =
      if lower (trim raw) = "" then true
      else (filterTexts lower p).any fun v => includes v (lower (trim raw)) := by
  unfold matchesFilter filterTexts
  simp only [safeText_eq, safeNum_eq]

theorem isWhitespace_toLower (c : Char) : c.toLower.isWhitespace = c.isWhitespace := by
  by_cases h : c.toNat ≥ 65 ∧ c.toNat ≤ 90
  · have hc : c = Char.ofNat c.toNat := (Char.ofNat_toNat c).symm
    obtain ⟨h1, h2⟩ := h
    generalize c.toNat = n at hc h1 h2
    subst hc
    interval_cases n <;> decide
  · have : c.toLower = c := by
      unfold Char.toLower
      simp only []
      rw [if_neg h]
    rw [this]

theorem dropWhile_map_toLower (l : List Char) :
    (l.map Char.toLower).dropWhile Char.isWhitespace
      = (l.dropWhile Char.isWhitespace).map Char.toLower := by
  induction l with
  | nil => rfl
  | cons c l ih =>
    simp only [List.map_cons, List.dropWhile_cons, isWhitespace_toLower]
    split
    · exact ih
    · rfl

theorem asciiTrim_lower (s : String) : asciiTrim (asciiLower s) = asciiLower (asciiTrim s) := by
  unfold asciiTrim asciiLower
  simp only [dropWhile_map_toLower, ← List.map_reverse]

/-! ## Dictionaries -/

theorem Dict.get_set {α : Type} (d : Dict α) (k k' : String) (v : α) :
    (d.set k v).get k' = if k = k' then some v else d.get k' := by
  induction d with
  | nil =>
    simp only [Dict.set, Dict.get]
  | cons e d ih =>
    obtain ⟨k0, v0⟩ := e
    simp only [Dict.set]
    by_cases h0 : k0 = k
    · rw [if_pos h0]
      simp only [Dict.get]
      subst h0
      by_cases h1 : k0 = k'
      · rw [if_pos h1, if_pos h1]
      · rw [if_neg h1, if_neg h1, if_neg h1]
    · rw [if_neg h0]
      simp only [Dict.get]
      by_cases h1 : k0 = k'
      · rw [if_pos h1]
        have : ¬k = k' := fun h => h0 (h1.trans h.symm)
        rw [if_neg this, if_pos h1]
      · rw [if_neg h1, ih, if_neg h1]

/-! ## The first pass of `detectAnomalies` -/

theorem proto_inherited : "__proto__" ∈ inheritedNames := by decide

theorem bumpCount_get_ne (d : Dict CountCell) {s k : String} (h : s ≠ k) :
    (bumpCount d s).get k = d.get k := by
  unfold bumpCount
  split
  · rw [Dict.get_set, if_neg h]
  · rw [Dict.get_set, if_neg h]
  · split
    · rfl
    · split
      · rw [Dict.get_set, if_neg h]
      · rw [Dict.get_set, if_neg h]

theorem bumpCount_get_self (d : Dict CountCell) {k : String} (hk : k ∉ inheritedNames)
    (ht : d.get k ≠ some .text) :
    (bumpCount d k).get k = some (.num (cellNum (d.get k) + 1)) := by
  have hp : k ≠ "__proto__" := fun h => hk (h ▸ proto_inherited)
  unfold bumpCount
  cases hget : d.get k with
  | none =>
    simp only [if_neg hp, if_neg hk, Dict.get_set, if_true, cellNum]
  | some c =>
    cases c with
    | num n => simp only [Dict.get_set, if_true, cellNum]
    | text => exact absurd hget ht

/-- The count kept for the source text `k`, a name that is not inherited. -/
theorem aggregate_ipCounts (a : Aggregates) (q : Packet) {k : String}
    (hk : k ∉ inheritedNames) (ht : a.ipCounts.get k ≠ some .text) :
    (aggregate a q).ipCounts.get k ≠ some .text ∧
    cellNum ((aggregate a q).ipCounts.get k) =
      cellNum (a.ipCounts.get k) + if q.src_ip = some k ∧ k ≠ "" then 1 else 0 := by
  unfold aggregate
  cases hs : q.src_ip with
  | none => simpa [isFalsy] using ht
  | some s =>
    by_cases he : s = ""
    · subst he
      simp only [isFalsy, decide_True, if_true]
      have : ¬(some "" = some k ∧ k ≠ "") := by
        rintro ⟨h1, h2⟩; exact h2 (Option.some.inj h1).symm
      rw [if_neg this]
      exact ⟨ht, rfl⟩
    · simp only [isFalsy, he, decide_False, Bool.false_eq_true, if_false, Option.getD_some]
      by_cases hk' : s = k
      · subst hk'
        rw [bumpCount_get_self _ hk ht]
        simp [he, cellNum]
      · have : ¬(some s = some k ∧ k ≠ "") := by
          rintro ⟨h1, -⟩; exact hk' (Option.some.inj h1)
        rw [bumpCount_get_ne _ hk', if_neg this]
        exact ⟨ht, rfl⟩

theorem foldl_ipCounts (ps : List Packet) (a : Aggregates) {k : String}
    (hk : k ∉ inheritedNames) (ht : a.ipCounts.get k ≠ some .text) :
    (ps.foldl aggregate a).ipCounts.get k ≠ some .text ∧
    cellNum ((ps.foldl aggregate a).ipCounts.get k) =
      cellNum (a.ipCounts.get k) +
        (ps.filter fun q => decide (q.src_ip = some k ∧ k ≠ "")).length := by
  induction ps generalizing a with
  | nil => exact ⟨ht, by simp⟩
  | cons q ps ih =>
    obtain ⟨h1, h2⟩ := aggregate_ipCounts a q hk ht
    obtain ⟨h3, h4⟩ := ih (aggregate a q) h1
    rw [List.foldl_cons]
    refine ⟨h3, ?_⟩
    rw [h4, h2, List.filter_cons]
    by_cases h : q.src_ip = some k ∧ k ≠ ""
    · simp only [h, and_self, if_true, decide_True, List.length_cons, ne_eq, not_false_eq_true]
      omega
    · simp only [h, if_false, decide_False, Bool.false_eq_true]
      omega

/-- The count kept for the template text `key`. -/
theorem aggregate_synPerDst (a : Aggregates) (q : Packet) (key : String) :
    ((aggregate a q).synPerDst.get key).getD 0 =
      (a.synPerDst.get key).getD 0 +
        if isFalsy q.src_ip = false ∧ synNoAck q = true ∧ synKey q = key then 1 else 0 := by
  unfold aggregate
  by_cases hf : isFalsy q.src_ip = true
  · simp [hf]
  · have hf' : isFalsy q.src_ip = false := by simpa using hf
    rw [if_neg hf]
    simp only [hf', true_and]
    by_cases hsyn : synNoAck q = true
    · simp only [hsyn, if_true, true_and, Dict.get_set]
      by_cases hk : synKey q = key
      · subst hk; simp
      · simp [hk]
    · simp [hsyn]

theorem foldl_synPerDst (ps : List Packet) (a : Aggregates) (key : String) :
    ((ps.foldl aggregate a).synPerDst.get key).getD 0 =
      (a.synPerDst.get key).getD 0 +
        (ps.filter fun q =>
          decide (isFalsy q.src_ip = false ∧ synNoAck q = true ∧ synKey q = key)).length := by
  induction ps generalizing a with
  | nil => simp
  | cons q ps ih =>
    rw [List.foldl_cons, ih, aggregate_synPerDst, List.filter_cons]
    by_cases h : isFalsy q.src_ip = false ∧ synNoAck q = true ∧ synKey q = key
    · rw [if_pos h, if_pos (by simpa using h), List.length_cons]
      omega
    · rw [if_neg h, if_neg (by simpa using h)]
      omega

/-! ## The rules as a table -/

theorem applyRules_eq_table (agg : Aggregates) (lens : List Nat) (maxIP : Option Nat) (p : Packet) :
    applyRules agg lens maxIP p =
      (((ruleTable agg lens maxIP p).filter fun r => r.1).map fun r => r.2.1,
        (((ruleTable agg lens maxIP p).filter fun r => r.1).map fun r => r.2.2).sum) := by
  unfold applyRules ruleTable
  simp only []
  generalize zAbove3 lens (origLenOr0 p) = c1
  generalize highVolume maxIP (agg.ipCounts.get (p.src_ip.getD "")) = c2
  generalize decide (((agg.ipPorts.get (p.src_ip.getD "")).map List.length).getD 0 > 15) = c3
  generalize decide ((agg.synPerDst.get (synKey p)).getD 0 > 10) = c4
  generalize decide (p.protocol = some "ICMP" ∧ origLenOr0 p > 512) = c6
  cases hd : p.dst_port with
  | none =>
    cases c1 <;> cases c2 <;> cases c3 <;> cases c4 <;> cases c6 <;> simp [addRule]
  | some port =>
    simp only [Option.getD_some]
    generalize decide (port ∈ SUSPICIOUS_PORTS) = c5
    cases c1 <;> cases c2 <;> cases c3 <;> cases c4 <;> cases c5 <;> cases c6 <;> simp [addRule]

/-! ## Findings -/

theorem evalPacket_eq_some {agg : Aggregates} {lens : List Nat} {maxIP : Option Nat} {p : Packet}
    {i : Nat} {f : Finding} (h : evalPacket agg lens maxIP p i = some f) :
    isFalsy p.src_ip = false ∧ f.packet = p ∧ f.idx = i ∧
      f.reasons = (applyRules agg lens maxIP p).1 ∧
      f.score = min (applyRules agg lens maxIP p).2 1000 ∧ f.score ≠ 0 ∧
      f.severity = severityOf f.score := by
  unfold evalPacket at h
  split at h
  · cases h
  · rename_i hf
    simp only [] at h
    split at h
    · cases h
    · rename_i hs
      cases h
      exact ⟨by simpa using hf, rfl, rfl, rfl, rfl, hs, rfl⟩

theorem evalPacket_isSome {agg : Aggregates} {lens : List Nat} {maxIP : Option Nat} {p : Packet}
    (i : Nat) (hsrc : isFalsy p.src_ip = false)
    (hscore : (applyRules agg lens maxIP p).2 ≠ 0) :
    ∃ f, evalPacket agg lens maxIP p i = some f := by
  unfold evalPacket
  rw [if_neg (by simp [hsrc])]
  simp only []
  rw [if_neg (by omega)]
  exact ⟨_, rfl⟩

theorem detectAnomalies_eq (packets : List Packet) :
    detectAnomalies packets = (candidates packets).insertionSort fun a b => a.score ≥ b.score := by
  unfold detectAnomalies
  split
  · rename_i h
    have : packets = [] := List.length_eq_zero.1 h
    subst this
    rfl
  · rfl

theorem mem_candidates {packets : List Packet} {f : Finding} :
    f ∈ candidates packets ↔ ∃ i p, packets[i]? = some p ∧ findingAt packets i p = some f := by
  unfold candidates
  rw [List.mem_filterMap]
  constructor
  · rintro ⟨⟨i, p⟩, hmem, hf⟩
    exact ⟨i, p, List.mem_enum_iff_getElem?.1 hmem, hf⟩
  · rintro ⟨i, p, hp, hf⟩
    exact ⟨(i, p), List.mem_enum_iff_getElem?.2 hp, hf⟩

theorem mem_detectAnomalies {packets : List Packet} {f : Finding} :
    f ∈ detectAnomalies packets ↔
      ∃ i p, packets[i]? = some p ∧ findingAt packets i p = some f := by
  rw [detectAnomalies_eq, (List.perm_insertionSort _ _).mem_iff, mem_candidates]

/-- The finding of index `i`, when there is one, is the one computed for the record at `i`. -/
theorem mem_detectAnomalies_idx {packets : List Packet} {i : Nat} {p : Packet}
    (hp : packets[i]? = some p) (f : Finding) :
    (f ∈ detectAnomalies packets ∧ f.idx = i) ↔ findingAt packets i p = some f := by
  rw [mem_detectAnomalies]
  constructor
  · rintro ⟨⟨j, q, hq, hf⟩, hidx⟩
    have hj : f.idx = j := (evalPacket_eq_some hf).2.2.1
    have : j = i := hj.symm.trans hidx
    subst this
    rw [hp] at hq
    cases hq
    exact hf
  · intro hf
    exact ⟨⟨i, p, hp, hf⟩, (evalPacket_eq_some hf).2.2.1⟩

/-! ## The reason texts are told apart by their first characters -/

theorem high_volume_data (n : Nat) :
    ∃ rest, (REASON_TEXT.high_volume n).data = 'T' :: 'h' :: rest := by
  unfold REASON_TEXT.high_volume
  rw [String.append_assoc]
  exact ⟨_, by rw [String.data_append]; rfl⟩

theorem port_scan_data (n : Nat) :
    ∃ rest, (REASON_TEXT.port_scan n).data = 'T' :: 'r' :: rest := by
  unfold REASON_TEXT.port_scan
  rw [String.append_assoc]
  exact ⟨_, by rw [String.data_append]; rfl⟩

theorem bad_port_data (n : Nat) :
    ∃ rest, (REASON_TEXT.bad_port n).data = 'C' :: rest := by
  unfold REASON_TEXT.bad_port
  rw [String.append_assoc]
  exact ⟨_, by rw [String.data_append]; rfl⟩

theorem syn_flood_ne_high_volume (n : Nat) : REASON_TEXT.syn_flood ≠ REASON_TEXT.high_volume n := by
  intro h
  obtain ⟨rest, hr⟩ := high_volume_data n
  rw [← h] at hr
  have : REASON_TEXT.syn_flood.data.head? = some 'T' := by rw [hr]; rfl
  exact absurd this (by decide)

theorem syn_flood_ne_port_scan (n : Nat) : REASON_TEXT.syn_flood ≠ REASON_TEXT.port_scan n := by
  intro h
  obtain ⟨rest, hr⟩ := port_scan_data n
  rw [← h] at hr
  have : REASON_TEXT.syn_flood.data.head? = some 'T' := by rw [hr]; rfl
  exact absurd this (by decide)

theorem syn_flood_ne_bad_port (n : Nat) : REASON_TEXT.syn_flood ≠ REASON_TEXT.bad_port n := by
  intro h
  obtain ⟨rest, hr⟩ := bad_port_data n
  rw [← h] at hr
  have : REASON_TEXT.syn_flood.data.head? = some 'C' := by rw [hr]; rfl
  exact absurd this (by decide)

theorem size_outlier_ne_syn_flood : REASON_TEXT.size_outlier ≠ REASON_TEXT.syn_flood := by
  decide

theorem big_icmp_ne_syn_flood : REASON_TEXT.big_icmp ≠ REASON_TEXT.syn_flood := by
  decide

/-- The half-open-flood text is among the reasons exactly when its rule fires. -/
theorem syn_flood_mem_reasons (agg : Aggregates) (lens : List Nat) (maxIP : Option Nat) (p : Packet) :
    REASON_TEXT.syn_flood ∈ (applyRules agg lens maxIP p).1 ↔
      (agg.synPerDst.get (synKey p)).getD 0 > 10 := by
  rw [applyRules_eq_table]
  simp only [List.mem_map, List.mem_filter, ruleTable, List.mem_cons, List.mem_singleton,
    List.not_mem_nil, or_false]
  constructor
  · rintro ⟨r, ⟨hr | hr | hr | hr | hr | hr, hfire⟩, htext⟩
    · subst hr
      exact (size_outlier_ne_syn_flood htext).elim
    · subst hr; exact absurd htext.symm (syn_flood_ne_high_volume _)
    · subst hr; exact absurd htext.symm (syn_flood_ne_port_scan _)
    · subst hr; simpa using hfire
    · subst hr; exact absurd htext.symm (syn_flood_ne_bad_port _)
    · subst hr
      exact (big_icmp_ne_syn_flood htext).elim
  · intro h
    exact ⟨_, ⟨Or.inr (Or.inr (Or.inr (Or.inl rfl))), by simpa using h⟩, rfl⟩

/-! ## The template text of a pair of addresses -/

theorem append_cons_inj {α : Type} {c : α} :
    ∀ {a a' b b' : List α}, c ∉ a → c ∉ a' → a ++ c :: b = a' ++ c :: b' → a = a' ∧ b = b' := by
  intro a
  induction a with
  | nil =>
    intro a' b b' _ ha' h
    cases a' with
    | nil => simp only [List.nil_append, List.cons.injEq, true_and] at h; exact ⟨rfl, h⟩
    | cons x a' =>
      simp only [List.nil_append, List.cons_append, List.cons.injEq] at h
      exact absurd (h.1 ▸ List.mem_cons_self _ _) ha'
  | cons x a ih =>
    intro a' b b' ha ha' h
    cases a' with
    | nil =>
      simp only [List.nil_append, List.cons_append, List.cons.injEq] at h
      exact absurd (h.1 ▸ List.mem_cons_self _ _) ha
    | cons y a' =>
      simp only [List.cons_append, List.cons.injEq] at h
      obtain ⟨h1, h2⟩ := ih (fun hm => ha (List.mem_cons_of_mem _ hm))
        (fun hm => ha' (List.mem_cons_of_mem _ hm)) h.2
      exact ⟨by rw [h.1, h1], h2⟩

theorem synKey_data (p : Packet) :
    (synKey p).data = (p.src_ip.getD "undefined").data ++ '→' :: (p.dst_ip.getD "undefined").data := by
  unfold synKey
  rw [String.data_append, String.data_append]
  simp

/-- On address texts the template text determines the pair (source, destination). -/
theorem synKey_eq_iff {p q : Packet} {s t : String} (hp : p.src_ip = some s)
    (hq : q.src_ip = some t) (hs : '→' ∉ s.data) (ht : '→' ∉ t.data)
    (hpd : p.dst_ip ≠ some "undefined") (hqd : q.dst_ip ≠ some "undefined") :
    synKey q = synKey p ↔ q.src_ip = p.src_ip ∧ q.dst_ip = p.dst_ip := by
  constructor
  · intro h
    have hd := congrArg String.data h
    rw [synKey_data, synKey_data, hp, hq] at hd
    simp only [Option.getD_some] at hd
    obtain ⟨h1, h2⟩ := append_cons_inj ht hs hd
    have e1 : t = s := String.ext h1
    have e2 : q.dst_ip.getD "undefined" = p.dst_ip.getD "undefined" := String.ext h2
    refine ⟨by rw [hp, hq, e1], ?_⟩
    cases hqv : q.dst_ip with
    | none =>
      cases hpv : p.dst_ip with
      | none => rfl
      | some d =>
        rw [hqv, hpv] at e2
        simp only [Option.getD_none, Option.getD_some] at e2
        exact absurd (by rw [hpv, e2]) hpd
    | some d =>
      cases hpv : p.dst_ip with
      | none =>
        rw [hqv, hpv] at e2
        simp only [Option.getD_none, Option.getD_some] at e2
        exact absurd (by rw [hqv, e2]) hqd
      | some d' =>
        rw [hqv, hpv] at e2
        simp only [Option.getD_some] at e2
        rw [e2]
  · rintro ⟨h1, h2⟩
    unfold synKey
    rw [h1, h2]

theorem isFalsy_eq_false {v : Option String} (h : isFalsy v = false) :
    ∃ s, v = some s ∧ s ≠ "" := by
  cases v with
  | none => cases h
  | some s => exact ⟨s, rfl, by simpa [isFalsy] using h⟩

/-- The count the half-open-flood rule looks at: the records with the source and the
destination of `p` whose flags contain "SYN" and not "ACK". -/
theorem synPerDst_count {packets : List Packet} {p : Packet} (hmem : p ∈ packets)
    (hsrc : isFalsy p.src_ip = false) (hwf : AddressTexts packets) :
    ((aggOf packets).synPerDst.get (synKey p)).getD 0 =
      (packets.filter fun q =>
        decide (q.src_ip = p.src_ip ∧ q.dst_ip = p.dst_ip) && synNoAck q).length := by
  unfold aggOf
  rw [foldl_synPerDst]
  simp only [Dict.get, Option.getD_none, Nat.zero_add]
  congr 1
  apply List.filter_congr
  intro q hq
  obtain ⟨s, hs, hne⟩ := isFalsy_eq_false hsrc
  by_cases hqf : isFalsy q.src_ip = false
  · obtain ⟨t, ht, -⟩ := isFalsy_eq_false hqf
    have key := synKey_eq_iff hs ht ((hwf p hmem).1 s hs) ((hwf q hq).1 t ht) (hwf p hmem).2
      (hwf q hq).2
    by_cases hsyn : synNoAck q = true
    · simp [hqf, hsyn, key]
    · simp [hsyn]
  · have hq1 : isFalsy q.src_ip = true := by simpa using hqf
    have : ¬(q.src_ip = p.src_ip ∧ q.dst_ip = p.dst_ip) := by
      rintro ⟨h1, -⟩
      rw [h1, hsrc] at hq1
      cases hq1
    simp [hq1, this]
theorem addressTexts_synBurst (n : Nat) : AddressTexts (synBurst n) := by
  intro q hq
  rw [List.eq_of_mem_replicate hq]
  refine ⟨fun s hs => ?_, by decide⟩
  have : s = "192.168.1.10" := by
    have h : some "192.168.1.10" = some s := hs
    exact (Option.some.inj h).symm
  rw [this]
  decide

/-- When the six rules fire the table gives six reasons and the weights add up to 1800. -/
theorem applyRules_all {agg : Aggregates} {lens : List Nat} {maxIP : Option Nat} {p : Packet}
    (h : ∀ r ∈ ruleTable agg lens maxIP p, r.1 = true) :
    (applyRules agg lens maxIP p).1.length = 6 ∧ (applyRules agg lens maxIP p).2 = 1800 := by
  rw [applyRules_eq_table]
  have hall : (ruleTable agg lens maxIP p).filter (fun r => r.1) = ruleTable agg lens maxIP p :=
    List.filter_eq_self.2 h
  rw [hall]
  simp [ruleTable]

theorem severityOf_spec (score : Nat) :
    (severityOf score = "critical" ↔ 700 ≤ score) ∧
    (severityOf score = "high" ↔ 500 ≤ score ∧ score < 700) ∧
    (severityOf score = "medium" ↔ 300 ≤ score ∧ score < 500) ∧
    (severityOf score = "low" ↔ score < 300) := by
  unfold severityOf
  by_cases h1 : score ≥ 700
  · rw [if_pos h1]
    refine ⟨by simp [h1], ?_, ?_, ?_⟩
    · constructor
      · intro h; exact absurd h (by decide)
      · intro h; omega
    · constructor
      · intro h; exact absurd h (by decide)
      · intro h; omega
    · constructor
      · intro h; exact absurd h (by decide)
      · intro h; omega
  · rw [if_neg h1]
    by_cases h2 : score ≥ 500
    · rw [if_pos h2]
      refine ⟨?_, ?_, ?_, ?_⟩
      · constructor
        · intro h; exact absurd h (by decide)
        · intro h; omega
      · constructor
        · intro _; omega
        · intro _; rfl
      · constructor
        · intro h; exact absurd h (by decide)
        · intro h; omega
      · constructor
        · intro h; exact absurd h (by decide)
        · intro h; omega
    · rw [if_neg h2]
      by_cases h3 : score ≥ 300
      · rw [if_pos h3]
        refine ⟨?_, ?_, ?_, ?_⟩
        · constructor
          · intro h; exact absurd h (by decide)
          · intro h; omega
        · constructor
          · intro h; exact absurd h (by decide)
          · intro h; omega
        · constructor
          · intro _; omega
          · intro _; rfl
        · constructor
          · intro h; exact absurd h (by decide)
          · intro h; omega
      · rw [if_neg h3]
        refine ⟨?_, ?_, ?_, ?_⟩
        · constructor
          · intro h; exact absurd h (by decide)
          · intro h; omega
        · constructor
          · intro h; exact absurd h (by decide)
          · intro h; omega
        · constructor
          · intro h; exact absurd h (by decide)
          · intro h; omega
        · constructor
          · intro _; omega
          · intro _; rfl

theorem severityRank_mono {a b : Nat} (h : a ≤ b) :
    severityRank (severityOf a) ≤ severityRank (severityOf b) := by
  unfold severityOf
  by_cases a1 : a ≥ 700 <;> by_cases a2 : a ≥ 500 <;> by_cases a3 : a ≥ 300 <;>
    by_cases b1 : b ≥ 700 <;> by_cases b2 : b ≥ 500 <;> by_cases b3 : b ≥ 300 <;>
    simp only [a1, a2, a3, b1, b2, b3, if_true, if_false] <;>
    first
      | decide
      | omega

/-! ## The ranking -/

theorem enumFrom_pairwise {α : Type} (l : List α) (n : Nat) :
    (l.enumFrom n).Pairwise (fun a b => a.1 < b.1) ∧ ∀ a ∈ l.enumFrom n, n ≤ a.1 := by
  induction l generalizing n with
  | nil => simp
  | cons x l ih =>
    obtain ⟨h1, h2⟩ := ih (n + 1)
    simp only [List.enumFrom_cons, List.pairwise_cons, List.mem_cons]
    refine ⟨⟨fun a ha => ?_, h1⟩, fun a ha => ?_⟩
    · have := h2 a ha
      show n < a.1
      omega
    · rcases ha with ha | ha
      · rw [ha]
      · have := h2 a ha
        omega

/-- Before they are sorted the findings are in the order of the records. -/
theorem candidates_pairwise (packets : List Packet) :
    (candidates packets).Pairwise fun a b => a.idx < b.idx := by
  unfold candidates
  refine List.Pairwise.filterMap _ ?_ (enumFrom_pairwise packets 0).1
  intro a a' hlt b hb b' hb'
  have e1 : b.idx = a.1 := (evalPacket_eq_some (Option.mem_def.1 hb)).2.2.1
  have e2 : b'.idx = a'.1 := (evalPacket_eq_some (Option.mem_def.1 hb')).2.2.1
  rw [e1, e2]
  exact hlt

theorem orderedInsert_ranked (a : Finding) (s : List Finding) (hs : s.Pairwise RankedBefore)
    (ha : ∀ b ∈ s, a.idx < b.idx) :
    (s.orderedInsert (fun a b => a.score ≥ b.score) a).Pairwise RankedBefore := by
  induction s with
  | nil => simp
  | cons b s ih =>
    rw [List.pairwise_cons] at hs
    obtain ⟨hb, hs⟩ := hs
    rw [List.orderedInsert]
    split
    · rename_i hge
      rw [List.pairwise_cons]
      refine ⟨fun x hx => ?_, List.pairwise_cons.2 ⟨hb, hs⟩⟩
      have hidx := ha x hx
      have hbx : b.score ≥ x.score := by
        rcases List.mem_cons.1 hx with hx | hx
        · rw [hx]
        · rcases hb x hx with h | h
          · exact Nat.le_of_lt h
          · exact Nat.le_of_eq h.1.symm
      unfold RankedBefore
      have hge' : a.score ≥ b.score := hge
      omega
    · rename_i hlt
      rw [List.pairwise_cons]
      refine ⟨fun x hx => ?_, ih hs fun c hc => ha c (List.mem_cons_of_mem _ hc)⟩
      rcases (List.mem_orderedInsert _).1 hx with hx | hx
      · rw [hx]
        left
        have hlt' : ¬ a.score ≥ b.score := hlt
        omega
      · exact hb x hx

theorem insertionSort_ranked (l : List Finding) (h : l.Pairwise fun a b => a.idx < b.idx) :
    (l.insertionSort fun a b => a.score ≥ b.score).Pairwise RankedBefore := by
  induction l with
  | nil => simp
  | cons a l ih =>
    rw [List.pairwise_cons] at h
    rw [List.insertionSort]
    refine orderedInsert_ranked a _ (ih h.2) fun b hb => ?_
    exact h.1 b (((List.perm_insertionSort _ l).mem_iff).1 hb)

/-! ## Which records become findings -/

theorem table_sum_ne_zero (t : List (Bool × String × Nat)) (hw : ∀ r ∈ t, 0 < r.2.2) :
    ((t.filter fun r => r.1).map fun r => r.2.2).sum ≠ 0 ↔ ∃ r ∈ t, r.1 = true := by
  induction t with
  | nil => simp
  | cons r t ih =>
    have ih := ih fun x hx => hw x (List.mem_cons_of_mem _ hx)
    have hr := hw r (List.mem_cons_self _ _)
    rw [List.filter_cons]
    by_cases h : r.1 = true
    · rw [if_pos h, List.map_cons, List.sum_cons]
      exact ⟨fun _ => ⟨r, List.mem_cons_self _ _, h⟩, fun _ => by omega⟩
    · rw [if_neg h, ih]
      constructor
      · rintro ⟨x, hx, hfire⟩
        exact ⟨x, List.mem_cons_of_mem _ hx, hfire⟩
      · rintro ⟨x, hx, hfire⟩
        rcases List.mem_cons.1 hx with hx | hx
        · rw [hx] at hfire; exact absurd hfire h
        · exact ⟨x, hx, hfire⟩

theorem table_reasons_ne_nil (t : List (Bool × String × Nat)) :
    ((t.filter fun r => r.1).map fun r => r.2.1) ≠ [] ↔ ∃ r ∈ t, r.1 = true := by
  rw [Ne, List.map_eq_nil_iff, List.filter_eq_nil_iff]
  constructor
  · intro h
    by_contra hc
    exact h fun r hr hfire => hc ⟨r, hr, hfire⟩
  · rintro ⟨r, hr, hfire⟩ h
    exact h r hr hfire

theorem ruleTable_weights (agg : Aggregates) (lens : List Nat) (maxIP : Option Nat) (p : Packet) :
    ∀ r ∈ ruleTable agg lens maxIP p, 0 < r.2.2 := by
  intro r hr
  simp only [ruleTable, List.mem_cons, List.mem_singleton, List.not_mem_nil, or_false] at hr
  rcases hr with hr | hr | hr | hr | hr | hr <;> rw [hr] <;> simp only [] <;> omega

/-- The score of a record is not 0 exactly when one of the six rules fires. -/
theorem applyRules_score_ne_zero (agg : Aggregates) (lens : List Nat) (maxIP : Option Nat) (p : Packet) :
    (applyRules agg lens maxIP p).2 ≠ 0 ↔ ∃ r ∈ ruleTable agg lens maxIP p, r.1 = true := by
  rw [applyRules_eq_table]
  exact table_sum_ne_zero _ (ruleTable_weights agg lens maxIP p)

theorem applyRules_reasons_ne_nil (agg : Aggregates) (lens : List Nat) (maxIP : Option Nat)
    (p : Packet) :
    (applyRules agg lens maxIP p).1 ≠ [] ↔ ∃ r ∈ ruleTable agg lens maxIP p, r.1 = true := by
  rw [applyRules_eq_table]
  exact table_reasons_ne_nil _

theorem min_1000_ne_zero {s : Nat} (h : min s 1000 ≠ 0) : s ≠ 0 := by
  intro h0
  rw [h0] at h
  exact h rfl

/-! ## Records without a source address -/

theorem aggregate_sourceless {a : Aggregates} {q : Packet} (h : hasSource q = false) :
    aggregate a q = a := by
  unfold aggregate
  have : isFalsy q.src_ip = true := by simpa [hasSource] using h
  rw [if_pos this]

theorem foldl_aggregate_filter (ps : List Packet) (a : Aggregates) :
    (ps.filter hasSource).foldl aggregate a = ps.foldl aggregate a := by
  induction ps generalizing a with
  | nil => rfl
  | cons q ps ih =>
    rw [List.filter_cons]
    by_cases h : hasSource q = true
    · rw [if_pos h, List.foldl_cons, List.foldl_cons, ih]
    · rw [if_neg h, List.foldl_cons, aggregate_sourceless (by simpa using h), ih]

theorem aggOf_filter (ps : List Packet) : aggOf (ps.filter hasSource) = aggOf ps :=
  foldl_aggregate_filter ps {}

theorem maxIPOf_filter (ps : List Packet) : maxIPOf (ps.filter hasSource) = maxIPOf ps := by
  unfold maxIPOf
  rw [aggOf_filter]

theorem evalPacket_content (agg : Aggregates) (lens : List Nat) (maxIP : Option Nat) (p : Packet)
    (i : Nat) :
    (evalPacket agg lens maxIP p i).map Finding.content =
      (evalPacket agg lens maxIP p 0).map Finding.content := by
  unfold evalPacket
  split
  · rfl
  · simp only []
    split
    · rfl
    · rfl

theorem evalPacket_sourceless {agg : Aggregates} {lens : List Nat} {maxIP : Option Nat} {p : Packet}
    (i : Nat) (h : hasSource p = false) : evalPacket agg lens maxIP p i = none := by
  unfold evalPacket
  have : isFalsy p.src_ip = true := by simpa [hasSource] using h
  rw [if_pos this]

/-- The contents of the findings, in the order of the records, do not need the indices. -/
theorem enum_filterMap_content (agg : Aggregates) (lens : List Nat) (maxIP : Option Nat)
    (ps : List Packet) :
    (ps.enum.filterMap fun ip => evalPacket agg lens maxIP ip.2 ip.1).map Finding.content =
      ps.filterMap fun p => (evalPacket agg lens maxIP p 0).map Finding.content := by
  rw [List.map_filterMap]
  have : (fun ip : Nat × Packet => (evalPacket agg lens maxIP ip.2 ip.1).map Finding.content) =
      (fun p => (evalPacket agg lens maxIP p 0).map Finding.content) ∘ Prod.snd := by
    funext ip
    exact evalPacket_content agg lens maxIP ip.2 ip.1
  rw [this, ← List.filterMap_map, List.enum_map_snd]

theorem detectWith_content (lens : List Nat) (ps : List Packet) :
    (detectWith lens ps).map Finding.content =
      (ps.filterMap fun p =>
          (evalPacket (aggOf ps) lens (maxIPOf ps) p 0).map Finding.content).insertionSort
        fun a b => a.2.1 ≥ b.2.1 := by
  unfold detectWith
  rw [List.map_insertionSort (fun a b : Finding => a.score ≥ b.score)
    (fun a b : Packet × Nat × List String × String => a.2.1 ≥ b.2.1) Finding.content _
    (fun a _ b _ => Iff.rfl), enum_filterMap_content]

theorem detectWith_lengthsOf (ps : List Packet) :
    detectWith (lengthsOf ps) ps = detectAnomalies ps := by
  rw [detectAnomalies_eq]
  rfl

theorem applyRules_congr_lens {agg : Aggregates} {lens lens' : List Nat} {maxIP : Option Nat}
    {p : Packet} (h : zAbove3 lens (origLenOr0 p) = zAbove3 lens' (origLenOr0 p)) :
    applyRules agg lens maxIP p = applyRules agg lens' maxIP p := by
  unfold applyRules
  rw [h]

theorem evalPacket_congr_lens {agg : Aggregates} {lens lens' : List Nat} {maxIP : Option Nat}
    {p : Packet} (i : Nat) (h : zAbove3 lens (origLenOr0 p) = zAbove3 lens' (origLenOr0 p)) :
    evalPacket agg lens maxIP p i = evalPacket agg lens' maxIP p i := by
  unfold evalPacket
  rw [applyRules_congr_lens h]

theorem detectWith_content_congr {lens lens' : List Nat} {ps : List Packet}
    (h : ∀ p ∈ ps, zAbove3 lens (origLenOr0 p) = zAbove3 lens' (origLenOr0 p)) :
    (detectWith lens ps).map Finding.content = (detectWith lens' ps).map Finding.content := by
  rw [detectWith_content, detectWith_content]
  congr 1
  apply List.filterMap_congr
  intro p hp
  rw [evalPacket_congr_lens 0 (h p hp)]

/-! ## The ports of a source -/

theorem setAdd_nodup {s : List Nat} (x : Nat) (h : s.Nodup) : (setAdd s x).Nodup := by
  unfold setAdd
  split
  · exact h
  · rename_i hx
    exact List.Nodup.append h (List.nodup_singleton x) (by simpa using hx)

theorem mem_setAdd {s : List Nat} {x y : Nat} : y ∈ setAdd s x ↔ y ∈ s ∨ y = x := by
  unfold setAdd
  split
  · rename_i hx
    constructor
    · exact Or.inl
    · rintro (h | h)
      · exact h
      · rw [h]; exact hx
  · simp

theorem aggregate_ipPorts (a : Aggregates) (q : Packet) (k : String) :
    ((aggregate a q).ipPorts.get k).getD [] =
      if q.src_ip = some k ∧ k ≠ "" then
        match q.dst_port with
        | some port => setAdd ((a.ipPorts.get k).getD []) port
        | none => (a.ipPorts.get k).getD []
      else (a.ipPorts.get k).getD [] := by
  unfold aggregate
  cases hs : q.src_ip with
  | none => simp [isFalsy]
  | some s =>
    by_cases he : s = ""
    · subst he
      simp only [isFalsy, decide_True, if_true]
      have : ¬(some "" = some k ∧ k ≠ "") := by
        rintro ⟨h1, h2⟩; exact h2 (Option.some.inj h1).symm
      rw [if_neg this]
    · simp only [isFalsy, he, decide_False, Bool.false_eq_true, if_false, Option.getD_some]
      cases hd : q.dst_port with
      | none =>
        simp only []
        split <;> rfl
      | some port =>
        simp only [Dict.get_set]
        by_cases hk : s = k
        · subst hk
          simp [he]
        · have : ¬(some s = some k ∧ k ≠ "") := by
            rintro ⟨h1, -⟩; exact hk (Option.some.inj h1)
          rw [if_neg hk, if_neg this]

theorem foldl_ipPorts_nodup (ps : List Packet) (a : Aggregates) (k : String)
    (h : ((a.ipPorts.get k).getD []).Nodup) :
    (((ps.foldl aggregate a).ipPorts.get k).getD []).Nodup := by
  induction ps generalizing a with
  | nil => exact h
  | cons q ps ih =>
    rw [List.foldl_cons]
    apply ih
    rw [aggregate_ipPorts]
    split
    · split
      · exact setAdd_nodup _ h
      · exact h
    · exact h

theorem foldl_ipPorts_mem (ps : List Packet) (a : Aggregates) (k : String) (x : Nat) :
    x ∈ ((ps.foldl aggregate a).ipPorts.get k).getD [] ↔
      x ∈ (a.ipPorts.get k).getD [] ∨
        ∃ q ∈ ps, (q.src_ip = some k ∧ k ≠ "") ∧ q.dst_port = some x := by
  induction ps generalizing a with
  | nil => simp
  | cons q ps ih =>
    rw [List.foldl_cons, ih, aggregate_ipPorts]
    by_cases hq : q.src_ip = some k ∧ k ≠ ""
    · rw [if_pos hq]
      cases hd : q.dst_port with
      | none =>
        simp only [List.mem_cons, exists_eq_or_imp, hd]
        constructor
        · rintro (h | h)
          · exact Or.inl h
          · exact Or.inr (Or.inr h)
        · rintro (h | h | h)
          · exact Or.inl h
          · exact absurd h.2 (by simp)
          · exact Or.inr h
      | some port =>
        simp only [List.mem_cons, exists_eq_or_imp, hd, mem_setAdd, Option.some.injEq]
        constructor
        · rintro ((h | h) | h)
          · exact Or.inl h
          · exact Or.inr (Or.inl ⟨hq, h.symm⟩)
          · exact Or.inr (Or.inr h)
        · rintro (h | h | h)
          · exact Or.inl (Or.inl h)
          · exact Or.inl (Or.inr h.2.symm)
          · exact Or.inr h
    · rw [if_neg hq]
      simp only [List.mem_cons, exists_eq_or_imp]
      constructor
      · rintro (h | h)
        · exact Or.inl h
        · exact Or.inr (Or.inr h)
      · rintro (h | h | h)
        · exact Or.inl h
        · exact absurd h.1 hq
        · exact Or.inr h

theorem map_length_getD (o : Option (List Nat)) : (o.map List.length).getD 0 = (o.getD []).length := by
  cases o <;> rfl

/-- The size of the set of ports of a source is the number of distinct destination ports of
its records. -/
theorem ipPorts_count (packets : List Packet) {s : String} (hs : s ≠ "") :
    (((aggOf packets).ipPorts.get s).map List.length).getD 0 = (distinctPorts packets s).length := by
  rw [map_length_getD]
  apply List.Perm.length_eq
  unfold aggOf distinctPorts
  refine (List.perm_ext_iff_of_nodup (foldl_ipPorts_nodup packets {} s List.nodup_nil)
    (List.nodup_dedup _)).2 fun x => ?_
  rw [foldl_ipPorts_mem, List.mem_dedup, List.mem_filterMap]
  simp only [Dict.get, Option.getD_none, List.not_mem_nil, false_or, List.mem_filter,
    decide_eq_true_eq]
  constructor
  · rintro ⟨q, hq, ⟨h1, -⟩, h2⟩
    exact ⟨q, ⟨hq, h1⟩, h2⟩
  · rintro ⟨q, ⟨hq, h1⟩, h2⟩
    exact ⟨q, hq, ⟨h1, hs⟩, h2⟩
/-! ## The busiest source -/

theorem Dict.get_mem {α : Type} {d : Dict α} {k : String} {v : α} (h : d.get k = some v) :
    (k, v) ∈ d := by
  induction d with
  | nil => cases h
  | cons e d ih =>
    obtain ⟨k0, v0⟩ := e
    simp only [Dict.get] at h
    by_cases h0 : k0 = k
    · rw [if_pos h0] at h
      rw [h0, Option.some.inj h]
      exact List.mem_cons_self _ _
    · rw [if_neg h0] at h
      exact List.mem_cons_of_mem _ (ih h)

theorem Dict.get_of_mem {α : Type} {d : Dict α} {k : String} {v : α}
    (hn : (d.map Prod.fst).Nodup) (h : (k, v) ∈ d) : d.get k = some v := by
  induction d with
  | nil => cases h
  | cons e d ih =>
    obtain ⟨k0, v0⟩ := e
    rw [List.map_cons, List.nodup_cons] at hn
    simp only [Dict.get]
    rcases List.mem_cons.1 h with h | h
    · have h1 : k = k0 := congrArg Prod.fst h
      have h2 : v = v0 := congrArg Prod.snd h
      rw [if_pos h1.symm, h2]
    · have : k0 ≠ k := by
        intro h0
        apply hn.1
        rw [h0]
        exact List.mem_map.2 ⟨(k, v), h, rfl⟩
      rw [if_neg this]
      exact ih hn.2 h

theorem Dict.mem_keys_set {α : Type} (d : Dict α) (k k' : String) (v : α) :
    k' ∈ (d.set k v).map Prod.fst ↔ k' = k ∨ k' ∈ d.map Prod.fst := by
  induction d with
  | nil => simp [Dict.set]
  | cons e d ih =>
    obtain ⟨k0, v0⟩ := e
    simp only [Dict.set]
    by_cases h0 : k0 = k
    · rw [if_pos h0]
      simp only [List.map_cons, List.mem_cons, h0]
      constructor
      · rintro (h | h)
        · exact Or.inl h
        · exact Or.inr (Or.inr h)
      · rintro (h | h | h)
        · exact Or.inl h
        · exact Or.inl h
        · exact Or.inr h
    · rw [if_neg h0]
      simp only [List.map_cons, List.mem_cons, ih]
      constructor
      · rintro (h | h | h)
        · exact Or.inr (Or.inl h)
        · exact Or.inl h
        · exact Or.inr (Or.inr h)
      · rintro (h | h | h)
        · exact Or.inr (Or.inl h)
        · exact Or.inl h
        · exact Or.inr (Or.inr h)

theorem Dict.set_nodup {α : Type} {d : Dict α} (k : String) (v : α)
    (hn : (d.map Prod.fst).Nodup) : ((d.set k v).map Prod.fst).Nodup := by
  induction d with
  | nil => simp [Dict.set]
  | cons e d ih =>
    obtain ⟨k0, v0⟩ := e
    rw [List.map_cons, List.nodup_cons] at hn
    simp only [Dict.set]
    by_cases h0 : k0 = k
    · rw [if_pos h0, List.map_cons, List.nodup_cons]
      exact ⟨by rw [← h0]; exact hn.1, hn.2⟩
    · rw [if_neg h0, List.map_cons, List.nodup_cons]
      refine ⟨fun hm => ?_, ih hn.2⟩
      rcases (Dict.mem_keys_set d k k0 v).1 hm with h | h
      · exact h0 h
      · exact hn.1 h

theorem Dict.mem_set {α : Type} {d : Dict α} {k : String} {v : α} {e : String × α}
    (h : e ∈ d.set k v) : e = (k, v) ∨ e ∈ d := by
  induction d with
  | nil =>
    simp only [Dict.set, List.mem_singleton] at h
    exact Or.inl h
  | cons e0 d ih =>
    obtain ⟨k0, v0⟩ := e0
    simp only [Dict.set] at h
    by_cases h0 : k0 = k
    · rw [if_pos h0] at h
      rcases List.mem_cons.1 h with h | h
      · exact Or.inl h
      · exact Or.inr (List.mem_cons_of_mem _ h)
    · rw [if_neg h0] at h
      rcases List.mem_cons.1 h with h | h
      · exact Or.inr (h ▸ List.mem_cons_self _ _)
      · rcases ih h with h | h
        · exact Or.inl h
        · exact Or.inr (List.mem_cons_of_mem _ h)

theorem bumpCount_nodup {d : Dict CountCell} (s : String) (hn : (d.map Prod.fst).Nodup) :
    ((bumpCount d s).map Prod.fst).Nodup := by
  unfold bumpCount
  split
  · exact Dict.set_nodup _ _ hn
  · exact Dict.set_nodup _ _ hn
  · split
    · exact hn
    · split
      · exact Dict.set_nodup _ _ hn
      · exact Dict.set_nodup _ _ hn

/-- A name that is not inherited gets a count. -/
theorem bumpCount_num {d : Dict CountCell} {s : String} (hs : s ∉ inheritedNames)
    (hd : ∀ e ∈ d, e.2 ≠ CountCell.text) : ∀ e ∈ bumpCount d s, e.2 ≠ CountCell.text := by
  have hp : s ≠ "__proto__" := fun h => hs (h ▸ proto_inherited)
  intro e he
  unfold bumpCount at he
  cases hget : d.get s with
  | none =>
    simp only [hget, if_neg hp, if_neg hs] at he
    rcases Dict.mem_set he with h | h
    · rw [h]; exact fun h => CountCell.noConfusion h
    · exact hd e h
  | some c =>
    cases c with
    | num n =>
      simp only [hget] at he
      rcases Dict.mem_set he with h | h
      · rw [h]; exact fun h => CountCell.noConfusion h
      · exact hd e h
    | text => exact absurd rfl (hd _ (Dict.get_mem hget))

theorem aggregate_ipCounts_nodup {a : Aggregates} (q : Packet)
    (hn : (a.ipCounts.map Prod.fst).Nodup) : ((aggregate a q).ipCounts.map Prod.fst).Nodup := by
  unfold aggregate
  split
  · exact hn
  · exact bumpCount_nodup _ hn

theorem foldl_ipCounts_nodup (ps : List Packet) (a : Aggregates)
    (hn : (a.ipCounts.map Prod.fst).Nodup) :
    (((ps.foldl aggregate a).ipCounts).map Prod.fst).Nodup := by
  induction ps generalizing a with
  | nil => exact hn
  | cons q ps ih =>
    rw [List.foldl_cons]
    exact ih _ (aggregate_ipCounts_nodup q hn)

theorem aggregate_ipCounts_num {a : Aggregates} {q : Packet}
    (hq : q.src_ip.getD "" ∉ inheritedNames) (hd : ∀ e ∈ a.ipCounts, e.2 ≠ CountCell.text) :
    ∀ e ∈ (aggregate a q).ipCounts, e.2 ≠ CountCell.text := by
  unfold aggregate
  split
  · exact hd
  · exact bumpCount_num hq hd

/-- When no source text is an inherited name, `ipCounts` holds counts only. -/
theorem foldl_ipCounts_num (ps : List Packet) (a : Aggregates) (hps : OwnNames ps)
    (hd : ∀ e ∈ a.ipCounts, e.2 ≠ CountCell.text) :
    ∀ e ∈ (ps.foldl aggregate a).ipCounts, e.2 ≠ CountCell.text := by
  induction ps generalizing a with
  | nil => exact hd
  | cons q ps ih =>
    rw [List.foldl_cons]
    exact ih _ (fun p hp => hps p (List.mem_cons_of_mem _ hp))
      (aggregate_ipCounts_num (hps q (List.mem_cons_self _ _)) hd)

/-- What `ipCounts` holds for a source whose text is not an inherited name: the number of
records with that source. -/
theorem ipCounts_count (packets : List Packet) {s : String} (hs : s ≠ "")
    (hown : s ∉ inheritedNames) :
    (aggOf packets).ipCounts.get s ≠ some .text ∧
      cellNum ((aggOf packets).ipCounts.get s) = sourceCount packets s := by
  unfold aggOf sourceCount
  obtain ⟨h1, h2⟩ := foldl_ipCounts packets {} hown (by simp [Dict.get])
  refine ⟨h1, ?_⟩
  rw [h2]
  simp only [Dict.get, cellNum, Nat.zero_add]
  congr 1
  apply List.filter_congr
  intro q _
  simp [hs]

theorem ipCounts_count_any (packets : List Packet) {k : String} (hown : k ∉ inheritedNames) :
    cellNum ((aggOf packets).ipCounts.get k) =
      (packets.filter fun q => decide (q.src_ip = some k ∧ k ≠ "")).length := by
  unfold aggOf
  rw [(foldl_ipCounts packets {} hown (by simp [Dict.get])).2]
  simp only [Dict.get, cellNum, Nat.zero_add]

theorem foldl_maxCell (cs : List CountCell) (a : Nat) (h : ∀ c ∈ cs, c ≠ CountCell.text) :
    cs.foldl maxCell (some a) = some ((cs.map fun c => cellNum (some c)).foldl max a) := by
  induction cs generalizing a with
  | nil => rfl
  | cons c cs ih =>
    cases c with
    | num n =>
      rw [List.foldl_cons, List.map_cons, List.foldl_cons]
      exact ih _ fun c hc => h c (List.mem_cons_of_mem _ hc)
    | text => exact absurd rfl (h _ (List.mem_cons_self _ _))

/-- The keys of `ipCounts` are source texts of the records. -/
theorem aggregate_ipCounts_keys {a : Aggregates} {q : Packet} {k : String}
    (h : k ∈ (aggregate a q).ipCounts.map Prod.fst) :
    k ∈ a.ipCounts.map Prod.fst ∨ (q.src_ip = some k ∧ k ≠ "") := by
  unfold aggregate at h
  cases hs : q.src_ip with
  | none =>
    rw [hs] at h
    exact Or.inl (by simpa [isFalsy] using h)
  | some s =>
    rw [hs] at h
    by_cases he : s = ""
    · subst he
      exact Or.inl (by simpa [isFalsy] using h)
    · simp only [isFalsy, he, decide_False, Bool.false_eq_true, if_false,
        Option.getD_some] at h
      obtain ⟨e, he1, he2⟩ := List.mem_map.1 h
      unfold bumpCount at he1
      have key : ∀ v, e ∈ Dict.set a.ipCounts s v →
          k ∈ a.ipCounts.map Prod.fst ∨ (some s = some k ∧ k ≠ "") := by
        intro v hv
        rcases Dict.mem_set hv with h1 | h1
        · right
          rw [h1] at he2
          exact ⟨congrArg some he2, he2 ▸ he⟩
        · exact Or.inl (List.mem_map.2 ⟨e, h1, he2⟩)
      split at he1
      · exact key _ he1
      · exact key _ he1
      · split at he1
        · exact Or.inl (List.mem_map.2 ⟨e, he1, he2⟩)
        · split at he1
          · exact key _ he1
          · exact key _ he1

/-- `maxIP` is the count of the busiest source when no source text is an inherited name. -/
theorem maxIPOf_eq (packets : List Packet) (hown : OwnNames packets) :
    maxIPOf packets = some (busiestCount packets) := by
  have hnum : ∀ e ∈ (aggOf packets).ipCounts, e.2 ≠ CountCell.text :=
    foldl_ipCounts_num packets {} hown (fun e he => absurd he (List.not_mem_nil _))
  unfold maxIPOf
  rw [foldl_maxCell _ 0 (fun c hc => by
    obtain ⟨e, he, hce⟩ := List.mem_map.1 hc
    exact hce ▸ hnum e he), List.map_map]
  congr 1
  unfold busiestCount
  apply Nat.le_antisymm
  · rcases foldl_max_mem ((aggOf packets).ipCounts.map ((fun c => cellNum (some c)) ∘ Prod.snd)) 0
      with h | h
    · rw [h]; exact Nat.zero_le _
    · obtain ⟨⟨k, v⟩, hkv, hv⟩ := List.mem_map.1 h
      have hget := Dict.get_of_mem (foldl_ipCounts_nodup packets {} List.nodup_nil) hkv
      by_cases h0 : cellNum (some v) = 0
      · rw [← hv]
        show cellNum (some v) ≤ _
        rw [h0]; exact Nat.zero_le _
      · by_cases hin : k ∈ inheritedNames
        · exfalso
          have hkeys : ∀ (ps : List Packet) (a : Aggregates),
              k ∈ (ps.foldl aggregate a).ipCounts.map Prod.fst →
                k ∈ a.ipCounts.map Prod.fst ∨ ∃ q ∈ ps, q.src_ip = some k := by
            intro ps
            induction ps with
            | nil => intro a h; exact Or.inl h
            | cons q ps ih =>
              intro a h
              rw [List.foldl_cons] at h
              rcases ih _ h with h1 | ⟨q', hq', hs'⟩
              · rcases aggregate_ipCounts_keys h1 with h2 | h2
                · exact Or.inl h2
                · exact Or.inr ⟨q, List.mem_cons_self _ _, h2.1⟩
              · exact Or.inr ⟨q', List.mem_cons_of_mem _ hq', hs'⟩
          rcases hkeys packets {} (List.mem_map.2 ⟨(k, v), hkv, rfl⟩) with h1 | ⟨q, hq, hs⟩
          · exact absurd h1 (List.not_mem_nil _)
          · have := hown q hq
            rw [hs, Option.getD_some] at this
            exact this hin
        · have hcount := ipCounts_count_any packets hin
          rw [show aggOf packets = packets.foldl aggregate {} from rfl, hget] at hcount
          rw [← hv]
          show cellNum (some v) ≤ _
          have hpos : 0 < (packets.filter fun q =>
              decide (q.src_ip = some k ∧ k ≠ "")).length := by omega
          obtain ⟨q, hq⟩ := List.exists_mem_of_length_pos hpos
          rw [List.mem_filter] at hq
          obtain ⟨hq, hsrc⟩ := hq
          have hsrc : q.src_ip = some k ∧ k ≠ "" := by simpa using hsrc
          apply foldl_max_ge_mem
          refine List.mem_map.2 ⟨q, List.mem_filter.2 ⟨hq, ?_⟩, ?_⟩
          · simp [hasSource, isFalsy, hsrc.1, hsrc.2]
          · rw [hsrc.1, Option.getD_some, ← (ipCounts_count packets hsrc.2 hin).2,
              show aggOf packets = packets.foldl aggregate {} from rfl, hget]
  · rcases foldl_max_mem
      ((packets.filter hasSource).map fun q => sourceCount packets (q.src_ip.getD "")) 0 with h | h
    · rw [h]; exact Nat.zero_le _
    · obtain ⟨q, hq, hv⟩ := List.mem_map.1 h
      rw [List.mem_filter] at hq
      obtain ⟨hq, hsrc⟩ := hq
      obtain ⟨s, hs, hne⟩ := isFalsy_eq_false (by simpa [hasSource] using hsrc)
      rw [← hv, hs, Option.getD_some]
      have hin : s ∉ inheritedNames := by
        have := hown q hq
        rwa [hs, Option.getD_some] at this
      have hpos : 0 < sourceCount packets s := by
        unfold sourceCount
        exact List.length_pos_of_mem (List.mem_filter.2 ⟨hq, by simpa using hs⟩)
      obtain ⟨-, hcount⟩ := ipCounts_count packets hne hin
      cases hget : (aggOf packets).ipCounts.get s with
      | none =>
        rw [hget] at hcount
        simp only [cellNum] at hcount
        omega
      | some v =>
        rw [hget] at hcount
        rw [← hcount]
        apply foldl_max_ge_mem
        exact List.mem_map.2 ⟨(s, v), Dict.get_mem hget, rfl⟩

/-! ## The size rule -/

theorem coe_list_int (l : List Nat) : (l : List Int) = l.map fun (b : Nat) => (b : Int) := by
  induction l with
  | nil => rfl
  | cons b l ih =>
    show (b : Int) :: (l : List Int) = _
    rw [ih]; rfl

theorem foldl_int_sum (l : List Nat) :
    (l : List Int).foldl (· + ·) 0 = ((l.sum : Nat) : Int) := by
  rw [coe_list_int]
  have : ∀ a : Int,
      (l.map (fun (b : Nat) => (b : Int))).foldl (· + ·) a = a + ((l.sum : Nat) : Int) := by
    induction l with
    | nil => intro a; simp
    | cons b l ih =>
      intro a
      rw [List.map_cons, List.foldl_cons, ih, List.sum_cons]
      push_cast
      ring
  rw [this, zero_add]

theorem exactAbove3_int (lens : List Nat) (x : Nat) :
    exactAbove3 lens x = true ↔
      (0 : Int) < (lens.length : Int) * ((lens.map fun b => b * b).sum : Nat) -
        ((lens.sum : Nat) : Int) * ((lens.sum : Nat) : Int) ∧
      9 * ((lens.length : Int) * ((lens.map fun b => b * b).sum : Nat) -
        ((lens.sum : Nat) : Int) * ((lens.sum : Nat) : Int)) <
        ((lens.length : Int) * x - ((lens.sum : Nat) : Int)) *
          ((lens.length : Int) * x - ((lens.sum : Nat) : Int)) := by
  unfold exactAbove3
  simp only [decide_eq_true_eq, foldl_int_sum]

theorem sum_sq_dev (l : List Nat) (m : ℝ) :
    (l.map fun (b : Nat) => ((b : ℝ) - m) ^ 2).sum =
      (((l.map fun b => b * b).sum : Nat) : ℝ) - 2 * m * ((l.sum : Nat) : ℝ) +
        l.length * m ^ 2 := by
  induction l with
  | nil => simp
  | cons b l ih =>
    simp only [List.map_cons, List.sum_cons, List.length_cons, ih]
    push_cast
    ring

theorem sum_cast (l : List Nat) :
    (l.map fun (b : Nat) => (b : ℝ)).sum = ((l.sum : Nat) : ℝ) := by
  induction l with
  | nil => simp
  | cons b l ih => simp only [List.map_cons, List.sum_cons, ih]; push_cast; ring

theorem int_test_real (n q s x : Nat) :
    ((0 : Int) < (n : Int) * q - (s : Int) * s ∧
        9 * ((n : Int) * q - (s : Int) * s) < ((n : Int) * x - s) * ((n : Int) * x - s)) ↔
      ((0 : ℝ) < (n : ℝ) * q - (s : ℝ) ^ 2 ∧
        9 * ((n : ℝ) * q - (s : ℝ) ^ 2) < ((n : ℝ) * x - s) ^ 2) := by
  rw [sq, sq]
  constructor
  · rintro ⟨h1, h2⟩
    exact ⟨by exact_mod_cast h1, by exact_mod_cast h2⟩
  · rintro ⟨h1, h2⟩
    exact ⟨by exact_mod_cast h1, by exact_mod_cast h2⟩

/-- The integer test of `exactAbove3` over the reals. -/
theorem exactAbove3_real (lens : List Nat) (x : Nat) :
    exactAbove3 lens x = true ↔
      0 < (lens.length : ℝ) * ((lens.map fun b => b * b).sum : Nat) - ((lens.sum : Nat) : ℝ) ^ 2 ∧
      9 * ((lens.length : ℝ) * ((lens.map fun b => b * b).sum : Nat) - ((lens.sum : Nat) : ℝ) ^ 2) <
        ((lens.length : ℝ) * x - ((lens.sum : Nat) : ℝ)) ^ 2 := by
  rw [exactAbove3_int]
  exact int_test_real _ _ _ _

/-- The test of `exactAbove3` is the size rule of the specification. -/
theorem exactAbove3_iff (lens : List Nat) (x : Nat) : exactAbove3 lens x = true ↔ SizeOutlier lens x := by
  rw [exactAbove3_real]
  unfold SizeOutlier
  rw [sum_sq_dev, sum_cast]
  generalize hS : ((lens.sum : Nat) : ℝ) = S
  generalize hQ : (((lens.map fun b => b * b).sum : Nat) : ℝ) = Q
  generalize hX : (x : ℝ) = X
  rcases Nat.eq_zero_or_pos lens.length with h0 | hpos
  · have hl : lens = [] := List.length_eq_zero.1 h0
    subst hl
    simp only [List.length_nil, Nat.cast_zero, zero_mul, div_zero, Real.sqrt_zero, lt_self_iff_false,
      false_and, iff_false, not_and]
    simp only [List.sum_nil, Nat.cast_zero] at hS
    intro h
    rw [← hS] at h
    simp at h
  · have hn : (0 : ℝ) < (lens.length : ℝ) := Nat.cast_pos.2 hpos
    generalize (lens.length : ℝ) = n at hn
    have hvar : (Q - 2 * (S / n) * S + n * (S / n) ^ 2) / n = (n * Q - S ^ 2) / n ^ 2 := by
      field_simp
      ring
    have hdev : X - S / n = (n * X - S) / n := by
      field_simp
      ring
    rw [hvar, hdev, Real.sqrt_pos]
    have hn2 : (0 : ℝ) < n ^ 2 := by positivity
    constructor
    · rintro ⟨h1, h2⟩
      have hv : 0 < (n * Q - S ^ 2) / n ^ 2 := div_pos h1 hn2
      refine ⟨hv, ?_⟩
      have hs : 0 < Real.sqrt ((n * Q - S ^ 2) / n ^ 2) := Real.sqrt_pos.2 hv
      rw [gt_iff_lt, lt_div_iff₀ hs]
      have hsq : (3 * Real.sqrt ((n * Q - S ^ 2) / n ^ 2)) ^ 2 < (|(n * X - S) / n|) ^ 2 := by
        rw [mul_pow, Real.sq_sqrt hv.le, sq_abs, div_pow]
        rw [show (3 : ℝ) ^ 2 * ((n * Q - S ^ 2) / n ^ 2) = (9 * (n * Q - S ^ 2)) / n ^ 2 by ring]
        exact div_lt_div_of_pos_right h2 hn2
      exact lt_of_pow_lt_pow_left₀ 2 (abs_nonneg _) hsq
    · rintro ⟨hv, h2⟩
      have h1 : 0 < n * Q - S ^ 2 := by
        have := mul_pos hv hn2
        rwa [div_mul_cancel₀ _ hn2.ne'] at this
      refine ⟨h1, ?_⟩
      have hs : 0 < Real.sqrt ((n * Q - S ^ 2) / n ^ 2) := Real.sqrt_pos.2 hv
      rw [gt_iff_lt, lt_div_iff₀ hs] at h2
      have hsq : (3 * Real.sqrt ((n * Q - S ^ 2) / n ^ 2)) ^ 2 < (|(n * X - S) / n|) ^ 2 :=
        pow_lt_pow_left₀ h2 (by positivity) (by decide)
      rw [mul_pow, Real.sq_sqrt hv.le, sq_abs, div_pow] at hsq
      rw [show (3 : ℝ) ^ 2 * ((n * Q - S ^ 2) / n ^ 2) = (9 * (n * Q - S ^ 2)) / n ^ 2 by ring]
        at hsq
      exact (div_lt_div_iff_of_pos_right hn2).1 hsq
/-! ## The rule table of the specification -/

theorem addressTexts_of_check {packets : List Packet} (h : addressTextsCheck packets = true) :
    AddressTexts packets := by
  intro q hq
  unfold addressTextsCheck at h
  rw [List.all_eq_true] at h
  have hq := h q hq
  rw [Bool.and_eq_true] at hq
  refine ⟨fun s hs => ?_, by simpa using hq.2⟩
  have h1 := hq.1
  rw [hs] at h1
  simpa using h1

theorem high_volume_iff (cnt maxIP : Nat) :
    (maxIP > 5 ∧ 10 * cnt > 6 * maxIP) ↔ (maxIP > 5 ∧ (cnt : ℚ) > 60 / 100 * (maxIP : ℚ)) := by
  constructor
  · rintro ⟨h1, h2⟩
    have h3 : (6 : ℚ) * maxIP < 10 * cnt := by exact_mod_cast h2
    exact ⟨h1, by linarith⟩
  · rintro ⟨h1, h2⟩
    have h3 : (6 : ℚ) * maxIP < 10 * cnt := by linarith
    exact ⟨h1, by exact_mod_cast h3⟩

theorem bad_port_iff (r : Packet) :
    (match r.dst_port with
      | some port => decide (port ∈ SUSPICIOUS_PORTS)
      | none => false) = true ↔ ∃ port, r.dst_port = some port ∧ port ∈ SUSPICIOUS_PORTS := by
  cases r.dst_port with
  | none => simp
  | some port => simp

theorem firedRows_map (t : List (Bool × String × Nat)) (u : List (Prop × String × Nat))
    (h : t.map (fun e => e.2) = u.map fun e => e.2) :
    (firedRows (t.map fun e => e.1) u).map (fun e => e.2) =
      (t.filter fun e => e.1).map fun e => e.2 := by
  unfold firedRows
  induction t generalizing u with
  | nil => simp
  | cons a t ih =>
    cases u with
    | nil => simp at h
    | cons b u =>
      simp only [List.map_cons, List.cons.injEq] at h
      simp only [List.map_cons, List.zip_cons_cons, List.filter_cons]
      by_cases ha : a.1 = true
      · simp only [ha, if_true, List.map_cons, List.cons.injEq]
        exact ⟨h.1.symm, ih u h.2⟩
      · simp only [ha, if_false, Bool.false_eq_true]
        exact ih u h.2
theorem firedRows_texts {t : List (Bool × String × Nat)} {u : List (Prop × String × Nat)}
    (h : t.map (fun e => e.2) = u.map fun e => e.2) :
    (firedRows (t.map fun e => e.1) u).map (fun e => e.2.1) =
        (t.filter fun e => e.1).map (fun e => e.2.1) ∧
      (firedRows (t.map fun e => e.1) u).map (fun e => e.2.2) =
        (t.filter fun e => e.1).map fun e => e.2.2 := by
  have key := firedRows_map t u h
  constructor
  · have := congrArg (List.map fun e : String × Nat => e.1) key
    simpa only [List.map_map] using this
  · have := congrArg (List.map fun e : String × Nat => e.2) key
    simpa only [List.map_map] using this

theorem addressTexts_sampleAllRules : AddressTexts sampleAllRules :=
  addressTexts_of_check (by decide)
theorem port_scan_ne_high_volume (n m : Nat) :
    REASON_TEXT.port_scan n ≠ REASON_TEXT.high_volume m := by
  intro h
  obtain ⟨rest, hr⟩ := port_scan_data n
  obtain ⟨rest', hr'⟩ := high_volume_data m
  rw [h, hr'] at hr
  have := (List.cons.inj (List.cons.inj hr).2).1
  exact absurd this (by decide)

theorem port_scan_ne_bad_port (n m : Nat) :
    REASON_TEXT.port_scan n ≠ REASON_TEXT.bad_port m := by
  intro h
  obtain ⟨rest, hr⟩ := port_scan_data n
  obtain ⟨rest', hr'⟩ := bad_port_data m
  rw [h, hr'] at hr
  exact absurd (List.cons.inj hr).1 (by decide)

theorem port_scan_ne_size_outlier (n : Nat) :
    REASON_TEXT.port_scan n ≠ REASON_TEXT.size_outlier := by
  intro h
  obtain ⟨rest, hr⟩ := port_scan_data n
  rw [h] at hr
  have : REASON_TEXT.size_outlier.data.head? = some 'T' := by rw [hr]; rfl
  exact absurd this (by decide)

theorem port_scan_ne_big_icmp (n : Nat) : REASON_TEXT.port_scan n ≠ REASON_TEXT.big_icmp := by
  intro h
  obtain ⟨rest, hr⟩ := port_scan_data n
  rw [h] at hr
  have : REASON_TEXT.big_icmp.data.head? = some 'T' := by rw [hr]; rfl
  exact absurd this (by decide)

/-- A port-scan text is among the reasons exactly when its rule fires. -/
theorem port_scan_mem_reasons (agg : Aggregates) (lens : List Nat) (maxIP : Option Nat) (p : Packet) :
    (∃ n, REASON_TEXT.port_scan n ∈ (applyRules agg lens maxIP p).1) ↔
      ((agg.ipPorts.get (p.src_ip.getD "")).map List.length).getD 0 > 15 := by
  rw [applyRules_eq_table]
  simp only [List.mem_map, List.mem_filter, ruleTable, List.mem_cons, List.mem_singleton,
    List.not_mem_nil, or_false]
  constructor
  · rintro ⟨n, r, ⟨hr | hr | hr | hr | hr | hr, hfire⟩, htext⟩
    · subst hr; exact absurd htext.symm (port_scan_ne_size_outlier _)
    · subst hr; exact absurd htext.symm (port_scan_ne_high_volume _ _)
    · subst hr; simpa using hfire
    · subst hr; exact absurd htext (syn_flood_ne_port_scan _)
    · subst hr; exact absurd htext.symm (port_scan_ne_bad_port _ _)
    · subst hr; exact absurd htext.symm (port_scan_ne_big_icmp _)
  · intro h
    exact ⟨_, _, ⟨Or.inr (Or.inr (Or.inl rfl)), by simpa using h⟩, rfl⟩

/-! ## The frame decoder on bytes that are all inside the buffer -/

theorem parseMAC_ok {view : Buffer} {o : Nat} (h : o + 6 ≤ view.length) :
    parseMAC view o = .ok (macText view o) := by
  unfold parseMAC
  simp only [List.mapM_cons, List.mapM_nil]
  rw [getUint8_ok (by omega : o + 0 < view.length), getUint8_ok (by omega : o + 1 < view.length),
    getUint8_ok (by omega : o + 2 < view.length), getUint8_ok (by omega : o + 3 < view.length),
    getUint8_ok (by omega : o + 4 < view.length), getUint8_ok (by omega : o + 5 < view.length)]
  rfl

theorem parseIPv4_ok {view : Buffer} {o : Nat} (h : o + 4 ≤ view.length) :
    parseIPv4 view o = .ok (ipv4Text view o) := by
  unfold parseIPv4
  simp only [List.mapM_cons, List.mapM_nil]
  rw [getUint8_ok (by omega : o + 0 < view.length), getUint8_ok (by omega : o + 1 < view.length),
    getUint8_ok (by omega : o + 2 < view.length), getUint8_ok (by omega : o + 3 < view.length)]
  rfl

theorem parseIPv6_ok {view : Buffer} {o : Nat} (h : o + 16 ≤ view.length) :
    parseIPv6 view o = .ok (ipv6Text view o) := by
  unfold parseIPv6
  simp only [List.mapM_cons, List.mapM_nil]
  rw [getUint8_ok (by omega : o + 0 < view.length),
    getUint8_ok (by omega : o + 0 + 1 < view.length),
    getUint8_ok (by omega : o + 2 < view.length),
    getUint8_ok (by omega : o + 2 + 1 < view.length),
    getUint8_ok (by omega : o + 4 < view.length),
    getUint8_ok (by omega : o + 4 + 1 < view.length),
    getUint8_ok (by omega : o + 6 < view.length),
    getUint8_ok (by omega : o + 6 + 1 < view.length),
    getUint8_ok (by omega : o + 8 < view.length),
    getUint8_ok (by omega : o + 8 + 1 < view.length),
    getUint8_ok (by omega : o + 10 < view.length),
    getUint8_ok (by omega : o + 10 + 1 < view.length),
    getUint8_ok (by omega : o + 12 < view.length),
    getUint8_ok (by omega : o + 12 + 1 < view.length),
    getUint8_ok (by omega : o + 14 < view.length),
    getUint8_ok (by omega : o + 14 + 1 < view.length)]
  rfl

theorem nibble_le (b : Nat) : (b &&& 0x0F) * 4 ≤ 60 := by
  have : b &&& 0x0F ≤ 0x0F := Nat.and_le_right
  omega

/-- When the `pktLen` bytes at `o` are inside the buffer, `parseEthernet` returns, and what
it returns is `ethFields`. -/
theorem parseEthernet_ok {view : Buffer} {o n : Nat} (h : o + n ≤ view.length) :
    parseEthernet view o n = .ok (ethFields view o n) := by
  unfold parseEthernet ethFields
  by_cases h14 : n < 14
  · rw [if_pos h14, if_pos h14]; rfl
  rw [if_neg h14, if_neg h14, parseMAC_ok (by omega), parseMAC_ok (by omega),
    getUint16_ok false (by omega : o + 12 + 2 ≤ view.length)]
  simp only [ok_bind]
  by_cases c1 : u16 view (o + 12) false = 2048 ∧ n ≥ 34
  · rw [if_pos c1, if_pos c1]
    have hn : 34 ≤ n := c1.2
    rw [getUint8_ok (by omega : o + 14 < view.length),
      getUint8_ok (by omega : o + 14 + 9 < view.length),
      parseIPv4_ok (by omega : o + 14 + 12 + 4 ≤ view.length),
      parseIPv4_ok (by omega : o + 14 + 16 + 4 ≤ view.length),
      getUint8_ok (by omega : o + 14 + 8 < view.length),
      getUint16_ok false (by omega : o + 14 + 2 + 2 ≤ view.length)]
    simp only [ok_bind]
    by_cases c2 : byteAt view (o + 14 + 9) = 6 ∧
        n ≥ o + 14 + (byteAt view (o + 14) &&& 15) * 4 - o + 20
    · rw [if_pos c2, if_pos c2]
      have hk := c2.2
      rw [getUint16_ok false (by omega), getUint16_ok false (by omega), getUint8_ok (by omega),
        getUint8_ok (by omega)]
      rfl
    · rw [if_neg c2, if_neg c2]
      by_cases c3 : byteAt view (o + 14 + 9) = 17 ∧
          n ≥ o + 14 + (byteAt view (o + 14) &&& 15) * 4 - o + 8
      · rw [if_pos c3, if_pos c3]
        have hk := c3.2
        rw [getUint16_ok false (by omega), getUint16_ok false (by omega),
          getUint16_ok false (by omega)]
        rfl
      · rw [if_neg c3, if_neg c3]
        rfl
  · rw [if_neg c1, if_neg c1]
    by_cases c4 : u16 view (o + 12) false = 34525 ∧ n ≥ 54
    · rw [if_pos c4, if_pos c4]
      have hn : 54 ≤ n := c4.2
      rw [getUint8_ok (by omega : o + 14 + 6 < view.length),
        parseIPv6_ok (by omega : o + 14 + 8 + 16 ≤ view.length),
        parseIPv6_ok (by omega : o + 14 + 24 + 16 ≤ view.length),
        getUint16_ok false (by omega : o + 14 + 4 + 2 ≤ view.length)]
      simp only [ok_bind]
      by_cases c5 : (byteAt view (o + 14 + 6) = 6 ∨ byteAt view (o + 14 + 6) = 17) ∧
          n ≥ o + 14 + 40 - o + 4
      · rw [if_pos c5, if_pos c5]
        have hk := c5.2
        rw [getUint16_ok false (by omega), getUint16_ok false (by omega)]
        rfl
      · rw [if_neg c5, if_neg c5]
        rfl
    · rw [if_neg c4, if_neg c4]
      by_cases c6 : u16 view (o + 12) false = 2054
      · rw [if_pos c6, if_pos c6]; rfl
      · rw [if_neg c6, if_neg c6]; rfl
theorem pcapRecord_ok {view : Buffer} {lt off s u incl orig : Nat}
    (h : off + incl ≤ view.length) :
    pcapRecord view lt off s u incl orig = .ok (pcapFields view lt off s u incl orig) := by
  unfold pcapRecord pcapFields
  simp only []
  by_cases c1 : lt = 1
  · rw [if_pos c1, if_pos c1, parseEthernet_ok h, ok_bind]
    cases ethFields view off incl <;> rfl
  · rw [if_neg c1, if_neg c1]
    by_cases c2 : lt = 101 ∧ incl ≥ 20
    · have : 20 ≤ incl := c2.2
      rw [if_pos c2, if_pos c2, getUint8_ok (by omega), parseIPv4_ok (by omega),
        parseIPv4_ok (by omega)]
      rfl
    · rw [if_neg c2, if_neg c2]
      rfl

theorem epbRecord_ok {view : Buffer} {off hi lo capt orig : Nat}
    (h : off + capt ≤ view.length) :
    epbRecord view off hi lo capt orig = .ok (epbFields view off hi lo capt orig) := by
  unfold epbRecord epbFields
  rw [parseEthernet_ok h, ok_bind]
  cases ethFields view off capt <;> rfl

/-- Every object returned by `parseFile` was decoded from `incl` frame bytes inside the
buffer, by the classic-PCAP record decoder or by the Enhanced Packet Block decoder. -/
theorem parseFile_records {buffer : Buffer} {l : List Packet}
    (h : parseFile buffer = .ok (some l)) :
    ∀ p ∈ l, ∃ incl off : Nat, off + incl ≤ buffer.length ∧
      ((∃ lt s u o : Nat, p = pcapFields buffer lt off s u incl o) ∨
        (∃ hi lo o : Nat, p = epbFields buffer off hi lo incl o)) := by
  intro p hp
  rcases parseFile_inv h with h | h
  · obtain ⟨hrec, -⟩ := parsePCAP_spec h
    obtain ⟨i, hi⟩ := List.mem_iff_getElem?.1 hp
    have hlt : i < l.length := (List.getElem?_eq_some_iff.1 hi).1
    obtain ⟨hfit, hat⟩ := hrec i hlt
    rw [hi] at hat
    have hat := toOption_eq_some hat
    unfold recordAt at hat
    obtain ⟨-, f2, f3⟩ := hfit
    rw [pcapRecord_ok (by omega)] at hat
    exact ⟨_, _, by omega, Or.inl ⟨_, _, _, _, (Except.ok.inj hat).symm⟩⟩
  · obtain ⟨outs, hr, hrec, -⟩ := parsePCAPNG_spec h
    rw [hr] at hp
    obtain ⟨ps, hps, hp⟩ := List.mem_flatten.1 hp
    obtain ⟨i, hi⟩ := List.mem_iff_getElem?.1 hps
    have hlt : i < outs.length := (List.getElem?_eq_some_iff.1 hi).1
    obtain ⟨-, hat⟩ := hrec i hlt
    rw [hi] at hat
    obtain ⟨hi', lo, capt, orig, c1, c2, c3⟩ := blockPackets_mem (toOption_eq_some hat) p hp
    rw [epbRecord_ok c2] at c3
    exact ⟨capt, _, c2, Or.inr ⟨_, _, _, (Except.ok.inj c3).symm⟩⟩

/-- What the keys of an object returned by the frame decoder imply. -/
theorem ethFields_depth {view : Buffer} {o n : Nat} {e : Packet}
    (h : ethFields view o n = some e) :
    e.ts = none ∧ e.orig_len = none ∧ e.incl_len = none ∧ 14 ≤ n ∧
    (e.flags ≠ none →
      e.protocol = some "TCP" ∧ e.src_port ≠ none ∧ e.dst_port ≠ none ∧ e.payload_len ≠ none) ∧
    (e.payload_len ≠ none → e.src_port ≠ none ∧ e.dst_port ≠ none) ∧
    (e.src_port ≠ none ∨ e.dst_port ≠ none → e.src_ip ≠ none ∧ e.dst_ip ≠ none) ∧
    (e.ttl ≠ none → e.src_ip ≠ none) := by
  unfold ethFields at h
  split at h
  · cases h
  rename_i h14
  simp only [] at h
  have hP : protoName 6 = "TCP" := by decide
  split at h
  · split at h
    · rename_i c
      cases h
      simp [c.1, hP]
      omega
    · split at h
      · cases h
        simp
        omega
      · cases h
        simp
        omega
  · split at h
    · split at h
      · cases h
        simp
        omega
      · cases h
        simp
        omega
    · split at h
      · cases h
        simp
        omega
      · cases h
        simp
        omega
theorem spread_depth {base e : Packet} {n : Nat} (hb : base.incl_len = some n)
    (hbase : base.src_mac = none ∧ base.dst_mac = none ∧ base.src_ip = none ∧
      base.dst_ip = none ∧ base.ttl = none ∧ base.src_port = none ∧ base.dst_port = none ∧
      base.flags = none ∧ base.payload_len = none)
    (he : e.ts = none ∧ e.orig_len = none ∧ e.incl_len = none ∧ 14 ≤ n ∧
      (e.flags ≠ none →
        e.protocol = some "TCP" ∧ e.src_port ≠ none ∧ e.dst_port ≠ none ∧
          e.payload_len ≠ none) ∧
      (e.payload_len ≠ none → e.src_port ≠ none ∧ e.dst_port ≠ none) ∧
      (e.src_port ≠ none ∨ e.dst_port ≠ none → e.src_ip ≠ none ∧ e.dst_ip ≠ none) ∧
      (e.ttl ≠ none → e.src_ip ≠ none)) :
    DepthInvariant (base.spread e) := by
  obtain ⟨b1, b2, b3, b4, b5, b6, b7, b8, b9⟩ := hbase
  obtain ⟨e1, e2, e3, e4, e5, e6, e7, e8⟩ := he
  unfold DepthInvariant
  simp only [Packet.spread, b1, b2, b3, b4, b5, b6, b7, b8, b9, e3, hb, Option.orElse_none,
    Option.none_orElse, Option.some.injEq]
  refine ⟨fun hf => ?_, e6, e7, e8, fun incl hi hlt => ?_⟩
  · obtain ⟨f1, f2, f3, f4⟩ := e5 hf
    exact ⟨by rw [f1]; rfl, f2, f3, f4⟩
  · omega

theorem base_depth {p : Packet}
    (hbase : p.protocol = some "RAW" ∧ p.src_mac = none ∧ p.dst_mac = none ∧ p.src_ip = none ∧
      p.dst_ip = none ∧ p.ttl = none ∧ p.src_port = none ∧ p.dst_port = none ∧
      p.flags = none ∧ p.payload_len = none) :
    DepthInvariant p := by
  obtain ⟨b0, b1, b2, b3, b4, b5, b6, b7, b8, b9⟩ := hbase
  unfold DepthInvariant
  simp [b0, b1, b2, b3, b4, b5, b6, b7, b8, b9]

theorem pcapFields_depth (view : Buffer) (lt off s u incl orig : Nat) :
    DepthInvariant (pcapFields view lt off s u incl orig) := by
  unfold pcapFields
  simp only []
  split
  · cases he : ethFields view off incl with
    | none => exact base_depth ⟨rfl, rfl, rfl, rfl, rfl, rfl, rfl, rfl, rfl, rfl⟩
    | some e =>
      exact spread_depth rfl ⟨rfl, rfl, rfl, rfl, rfl, rfl, rfl, rfl, rfl⟩ (ethFields_depth he)
  · split
    · rename_i c
      have : 20 ≤ incl := c.2
      unfold DepthInvariant
      simp [Packet.spread]
      omega
    · exact base_depth ⟨rfl, rfl, rfl, rfl, rfl, rfl, rfl, rfl, rfl, rfl⟩

theorem epbFields_depth (view : Buffer) (off hi lo capt orig : Nat) :
    DepthInvariant (epbFields view off hi lo capt orig) := by
  unfold epbFields
  simp only []
  cases he : ethFields view off capt with
  | none => exact base_depth ⟨rfl, rfl, rfl, rfl, rfl, rfl, rfl, rfl, rfl, rfl⟩
  | some e =>
    exact spread_depth rfl ⟨rfl, rfl, rfl, rfl, rfl, rfl, rfl, rfl, rfl⟩ (ethFields_depth he)

/-! ## The two refusals of `parseFile` -/

theorem parseFile_tooSmall {buffer : Buffer} (h : buffer.length < 4) :
    parseFile buffer = .ok none := by
  unfold parseFile
  rw [if_pos h]
  rfl

theorem parseFile_unknown {buffer : Buffer} (h4 : 4 ≤ buffer.length)
    (h1 : u32 buffer 0 false ≠ 0xA1B2C3D4) (h2 : u32 buffer 0 false ≠ 0xD4C3B2A1)
    (h3 : u32 buffer 0 false ≠ 0x0A0D0D0A) : parseFile buffer = .ok none := by
  unfold parseFile
  rw [if_neg (by omega), getUint32_ok false (by omega : 0 + 4 ≤ buffer.length)]
  show (if _ then _ else _) = _
  rw [if_neg (by omega), if_neg h3]
  rfl

/-! ## The transport header of an IPv4 frame -/

theorem and_15 (b : Nat) : b &&& 0x0F = b % 16 := Nat.and_pow_two_sub_one_eq_mod b 4

theorem and_shift_ne_zero (b i : Nat) : b &&& (1 <<< i) ≠ 0 ↔ b.testBit i = true := by
  rw [Nat.one_shiftLeft]
  constructor
  · intro h
    by_contra hb
    apply h
    apply Nat.eq_of_testBit_eq
    intro j
    rw [Nat.testBit_and, Nat.testBit_two_pow, Nat.zero_testBit]
    by_cases hij : i = j
    · subst hij
      simp at hb
      simp [hb]
    · simp [hij]
  · intro hb h
    have := congrArg (fun x => x.testBit i) h
    simp only [Nat.testBit_and, Nat.testBit_two_pow_self, Nat.zero_testBit, hb] at this
    cases this

/-- The flags text of the code is the list of the names of the set bits, joined by "+". -/
theorem tcpFlags_eq (b : Nat) : tcpFlags b = "+".intercalate (flagNames b) := by
  unfold tcpFlags flagNames join
  have henum : TCP_FLAGS_LIST.enum =
      [(0, "FIN"), (1, "SYN"), (2, "RST"), (3, "PSH"), (4, "ACK"), (5, "URG")] := rfl
  rw [henum]
  congr 1
  generalize [(0, "FIN"), (1, "SYN"), (2, "RST"), (3, "PSH"), (4, "ACK"), (5, "URG")] = l
  induction l with
  | nil => rfl
  | cons e l ih =>
    rw [List.filter_cons, List.filterMap_cons]
    by_cases hb : b.testBit e.1 = true
    · have : decide (b &&& (1 <<< e.1) ≠ 0) = true := by
        rw [decide_eq_true_eq]; exact (and_shift_ne_zero b e.1).2 hb
      rw [this, hb]
      simp only [if_true, List.map_cons, ih]
    · have : decide (b &&& (1 <<< e.1) ≠ 0) = false := by
        rw [decide_eq_false_iff_not]; exact fun h => hb ((and_shift_ne_zero b e.1).1 h)
      rw [this]
      simp only [hb, Bool.false_eq_true, if_false, ih]

theorem flagNames_mod (b : Nat) : flagNames (b % 64) = flagNames b := by
  unfold flagNames
  have h : ∀ i, i < 6 → (b % 64).testBit i = b.testBit i := by
    intro i hi
    rw [show (64 : Nat) = 2 ^ 6 from rfl, Nat.testBit_mod_two_pow]
    simp [hi]
  simp only [List.filterMap_cons, List.filterMap_nil, h 0 (by decide), h 1 (by decide),
    h 2 (by decide), h 3 (by decide), h 4 (by decide), h 5 (by decide)]

/-- What the frame decoder returns for a frame decoded as TCP. -/
theorem ethFields_tcp {view : Buffer} {o n : Nat} (h : IsTcpFrame view o n) :
    ∃ e, ethFields view o n = some e ∧ e.protocol = some "TCP" ∧
      e.src_port = some (u16 view (transportBase view o) false) ∧
      e.dst_port = some (u16 view (transportBase view o + 2) false) ∧
      e.flags = some (tcpFlags (byteAt view (transportBase view o + 13))) ∧
      e.payload_len = some (max 0 ((u16 view (o + 16) false : Int) - ipHeaderLen view o -
        ((byteAt view (transportBase view o + 12) / 16) * 4 : Nat))) := by
  obtain ⟨⟨hin, het, h34⟩, hproto, hlen⟩ := h
  unfold ethFields
  unfold transportBase ipHeaderLen at *
  have hP : protoName 6 = "TCP" := by decide
  rw [if_neg (by omega)]
  simp only []
  rw [if_pos ⟨het, h34⟩, and_15, show o + 14 + 9 = o + 23 from rfl, hproto,
    if_pos ⟨rfl, by omega⟩, hP, Nat.shiftRight_eq_div_pow]
  exact ⟨_, rfl, rfl, rfl, rfl, rfl, rfl⟩
/-- What the frame decoder returns for a frame decoded as UDP. -/
theorem ethFields_udp {view : Buffer} {o n : Nat} (h : IsUdpFrame view o n) :
    ∃ e, ethFields view o n = some e ∧ e.protocol = some "UDP" ∧
      e.src_port = some (u16 view (transportBase view o) false) ∧
      e.dst_port = some (u16 view (transportBase view o + 2) false) ∧
      e.flags = none ∧
      e.payload_len = some ((u16 view (transportBase view o + 4) false : Int) - 8) := by
  obtain ⟨⟨hin, het, h34⟩, hproto, hlen⟩ := h
  unfold ethFields
  unfold transportBase ipHeaderLen at *
  have hP : protoName 17 = "UDP" := by decide
  rw [if_neg (by omega)]
  simp only []
  rw [if_pos ⟨het, h34⟩, and_15, show o + 14 + 9 = o + 23 from rfl, hproto,
    if_neg (by omega), if_pos ⟨rfl, by omega⟩, hP]
  exact ⟨_, rfl, rfl, rfl, rfl, rfl, rfl⟩

/-- What the frame decoder returns for an IPv4 frame: the protocol and the addresses. -/
theorem ethFields_ipv4 {view : Buffer} {o n : Nat} (h : IsIPv4Frame view o n) :
    ∃ e, ethFields view o n = some e ∧
      e.protocol = some (protoName (byteAt view (o + 23))) ∧
      e.src_ip = some (ipv4Text view (o + 26)) ∧ e.dst_ip = some (ipv4Text view (o + 30)) := by
  obtain ⟨hin, het, h34⟩ := h
  unfold ethFields
  rw [if_neg (by omega)]
  simp only []
  rw [if_pos ⟨het, h34⟩]
  split
  · exact ⟨_, rfl, rfl, rfl, rfl⟩
  · split
    · exact ⟨_, rfl, rfl, rfl, rfl⟩
    · exact ⟨_, rfl, rfl, rfl, rfl⟩

/-- What the frame decoder returns for an IPv6 frame. -/
theorem ethFields_ipv6 {view : Buffer} {o n : Nat} (h : IsIPv6Frame view o n) :
    ∃ e, ethFields view o n = some e ∧
      e.protocol = some (protoName (byteAt view (o + 20))) ∧
      e.src_ip = some (ipv6Text view (o + 22)) ∧ e.dst_ip = some (ipv6Text view (o + 38)) ∧
      e.flags = none ∧ e.payload_len = none ∧
      (((byteAt view (o + 20) = 6 ∨ byteAt view (o + 20) = 17) ∧ 58 ≤ n) →
        e.src_port = some (u16 view (o + 54) false) ∧
          e.dst_port = some (u16 view (o + 56) false)) ∧
      (¬((byteAt view (o + 20) = 6 ∨ byteAt view (o + 20) = 17) ∧ 58 ≤ n) →
        e.src_port = none ∧ e.dst_port = none) := by
  obtain ⟨hin, het, h54⟩ := h
  unfold ethFields
  rw [if_neg (by omega)]
  simp only []
  rw [if_neg (by rw [het]; omega), if_pos ⟨het, h54⟩]
  by_cases c : (byteAt view (o + 14 + 6) = 6 ∨ byteAt view (o + 14 + 6) = 17) ∧
      n ≥ o + 14 + 40 - o + 4
  · rw [if_pos c]
    refine ⟨_, rfl, rfl, rfl, rfl, rfl, rfl, fun _ => ⟨rfl, rfl⟩, fun hc => ?_⟩
    exact absurd ⟨c.1, by have := c.2; omega⟩ hc
  · rw [if_neg c]
    refine ⟨_, rfl, rfl, rfl, rfl, rfl, rfl, fun hc => ?_, fun _ => ⟨rfl, rfl⟩⟩
    exact absurd ⟨hc.1, by have := hc.2; omega⟩ c

theorem protoName_eq (n : Nat) : protoName n = protocolText n := by
  unfold protoName protocolText
  by_cases h1 : n = 1
  · subst h1; rfl
  by_cases h2 : n = 2
  · subst h2; rfl
  by_cases h6 : n = 6
  · subst h6; rfl
  by_cases h17 : n = 17
  · subst h17; rfl
  by_cases h58 : n = 58
  · subst h58; rfl
  by_cases h89 : n = 89
  · subst h89; rfl
  by_cases h132 : n = 132
  · subst h132; rfl
  rw [if_neg h1, if_neg h2, if_neg h6, if_neg h17, if_neg h58, if_neg h89, if_neg h132]
  have : PROTO_MAP n = none := by
    unfold PROTO_MAP
    split <;> first | rfl | omega
  rw [this]
  rfl
/-! ## Hexadecimal numerals -/

theorem toDigitsCore_step (f n : Nat) (ds : List Char) :
    Nat.toDigitsCore 16 (f + 1) n ds =
      if n / 16 = 0 then Nat.digitChar (n % 16) :: ds
      else Nat.toDigitsCore 16 f (n / 16) (Nat.digitChar (n % 16) :: ds) := by
  simp only [Nat.toDigitsCore]

theorem toDigits16 (v : Nat) (hv : v < 65536) :
    Nat.toDigits 16 v =
      if v < 16 then [Nat.digitChar v]
      else if v < 256 then [Nat.digitChar (v / 16), Nat.digitChar (v % 16)]
      else if v < 4096 then
        [Nat.digitChar (v / 256), Nat.digitChar (v / 16 % 16), Nat.digitChar (v % 16)]
      else
        [Nat.digitChar (v / 4096), Nat.digitChar (v / 256 % 16), Nat.digitChar (v / 16 % 16),
          Nat.digitChar (v % 16)] := by
  unfold Nat.toDigits
  by_cases h1 : v < 16
  · rw [if_pos h1, toDigitsCore_step, if_pos (by omega), Nat.mod_eq_of_lt h1]
  rw [if_neg h1]
  by_cases h2 : v < 256
  · obtain ⟨f, hf⟩ : ∃ f, v + 1 = f + 1 + 1 := ⟨v - 1, by omega⟩
    rw [if_pos h2, hf, toDigitsCore_step, if_neg (by omega), toDigitsCore_step,
      if_pos (by omega), Nat.mod_eq_of_lt (by omega : v / 16 < 16)]
  rw [if_neg h2]
  by_cases h3 : v < 4096
  · obtain ⟨f, hf⟩ : ∃ f, v + 1 = f + 1 + 1 + 1 := ⟨v - 2, by omega⟩
    rw [if_pos h3, hf, toDigitsCore_step, if_neg (by omega), toDigitsCore_step,
      if_neg (by omega), toDigitsCore_step, if_pos (by omega),
      Nat.mod_eq_of_lt (by omega : v / 16 / 16 < 16), Nat.div_div_eq_div_mul]
  · obtain ⟨f, hf⟩ : ∃ f, v + 1 = f + 1 + 1 + 1 + 1 := ⟨v - 3, by omega⟩
    rw [if_neg h3, hf, toDigitsCore_step, if_neg (by omega), toDigitsCore_step,
      if_neg (by omega), toDigitsCore_step, if_neg (by omega), toDigitsCore_step,
      if_pos (by omega), Nat.mod_eq_of_lt (by omega : v / 16 / 16 / 16 < 16),
      Nat.div_div_eq_div_mul, Nat.div_div_eq_div_mul, Nat.div_div_eq_div_mul]

theorem digitChar_hex : ∀ d, d < 16 →
    Nat.digitChar d ∈ hexDigits ∧ hexDigits.indexOf (Nat.digitChar d) = d ∧
      (Nat.digitChar d = '0' → d = 0) := by
  decide

/-- The text `n.toString(16)` of a 16-bit value is its hexadecimal numeral. -/
theorem toString16_hex (v : Nat) (hv : v < 65536) : IsHexNumeral (toString16 v) v := by
  unfold IsHexNumeral toString16
  show Nat.toDigits 16 v ≠ [] ∧ (Nat.toDigits 16 v).length ≤ 4 ∧
    (∀ c ∈ Nat.toDigits 16 v, c ∈ hexDigits) ∧
    ((Nat.toDigits 16 v).head? = some '0' → Nat.toDigits 16 v = ['0']) ∧
    hexValue (Nat.toDigits 16 v) = v
  rw [toDigits16 v hv]
  by_cases h1 : v < 16
  · rw [if_pos h1]
    obtain ⟨a1, a2, a3⟩ := digitChar_hex v h1
    refine ⟨by simp, by simp, by simpa using a1, ?_, ?_⟩
    · intro h
      have : Nat.digitChar v = '0' := by simpa using h
      rw [this]
    · simp only [hexValue, List.foldl_cons, List.foldl_nil, a2]
      omega
  rw [if_neg h1]
  by_cases h2 : v < 256
  · rw [if_pos h2]
    obtain ⟨a1, a2, a3⟩ := digitChar_hex (v / 16) (by omega)
    obtain ⟨b1, b2, -⟩ := digitChar_hex (v % 16) (by omega)
    refine ⟨by simp, by simp, ?_, ?_, ?_⟩
    · intro c hc
      simp only [List.mem_cons, List.mem_singleton, List.not_mem_nil, or_false] at hc
      rcases hc with hc | hc <;> rw [hc] <;> assumption
    · intro h
      have : Nat.digitChar (v / 16) = '0' := by simpa using h
      have := a3 this
      omega
    · simp only [hexValue, List.foldl_cons, List.foldl_nil, a2, b2]
      omega
  rw [if_neg h2]
  by_cases h3 : v < 4096
  · rw [if_pos h3]
    obtain ⟨a1, a2, a3⟩ := digitChar_hex (v / 256) (by omega)
    obtain ⟨b1, b2, -⟩ := digitChar_hex (v / 16 % 16) (by omega)
    obtain ⟨c1, c2, -⟩ := digitChar_hex (v % 16) (by omega)
    refine ⟨by simp, by simp, ?_, ?_, ?_⟩
    · intro c hc
      simp only [List.mem_cons, List.mem_singleton, List.not_mem_nil, or_false] at hc
      rcases hc with hc | hc | hc <;> rw [hc] <;> assumption
    · intro h
      have : Nat.digitChar (v / 256) = '0' := by simpa using h
      have := a3 this
      omega
    · simp only [hexValue, List.foldl_cons, List.foldl_nil, a2, b2, c2]
      omega
  · rw [if_neg h3]
    obtain ⟨a1, a2, a3⟩ := digitChar_hex (v / 4096) (by omega)
    obtain ⟨b1, b2, -⟩ := digitChar_hex (v / 256 % 16) (by omega)
    obtain ⟨c1, c2, -⟩ := digitChar_hex (v / 16 % 16) (by omega)
    obtain ⟨d1, d2, -⟩ := digitChar_hex (v % 16) (by omega)
    refine ⟨by simp, by simp, ?_, ?_, ?_⟩
    · intro c hc
      simp only [List.mem_cons, List.mem_singleton, List.not_mem_nil, or_false] at hc
      rcases hc with hc | hc | hc | hc <;> rw [hc] <;> assumption
    · intro h
      have : Nat.digitChar (v / 4096) = '0' := by simpa using h
      have := a3 this
      omega
    · simp only [hexValue, List.foldl_cons, List.foldl_nil, a2, b2, c2, d2]
      omega
theorem shl8_or (hi lo : Nat) (h : lo < 256) : (hi <<< 8) ||| lo = hi * 256 + lo := by
  have h8 : lo < 2 ^ 8 := h
  rw [Nat.shiftLeft_eq, Nat.mul_comm hi, ← Nat.mul_add_lt_is_or h8 hi]

/-- The groups of the text of an IPv6 address are the numerals of the 16-bit groups. -/
theorem ipv6Text_groups (view : Buffer) (o : Nat) :
    ∃ gs : List String, ipv6Text view o = ":".intercalate gs ∧
      List.Forall₂ IsHexNumeral gs (ipv6Groups view o) := by
  refine ⟨[0, 2, 4, 6, 8, 10, 12, 14].map fun i =>
    toString16 ((byteAt view (o + i) <<< 8) ||| byteAt view (o + i + 1)), rfl, ?_⟩
  have hg : ∀ i, IsHexNumeral
      (toString16 ((byteAt view (o + 2 * i) <<< 8) ||| byteAt view (o + 2 * i + 1)))
      (byteAt view (o + 2 * i) * 256 + byteAt view (o + 2 * i + 1)) := by
    intro i
    have h1 := byteAt_lt view (o + 2 * i)
    have h2 := byteAt_lt view (o + 2 * i + 1)
    rw [shl8_or _ _ h2]
    exact toString16_hex _ (by omega)
  unfold ipv6Groups
  have hr : List.range 8 = [0, 1, 2, 3, 4, 5, 6, 7] := by decide
  rw [hr]
  simp only [List.map_cons, List.map_nil]
  exact List.Forall₂.cons (hg 0) (List.Forall₂.cons (hg 1) (List.Forall₂.cons (hg 2)
    (List.Forall₂.cons (hg 3) (List.Forall₂.cons (hg 4) (List.Forall₂.cons (hg 5)
    (List.Forall₂.cons (hg 6) (List.Forall₂.cons (hg 7) List.Forall₂.nil)))))))

theorem hex_no_colon {s : String} {v : Nat} (h : IsHexNumeral s v) : s.data.count ':' = 0 := by
  apply List.count_eq_zero.2
  intro hc
  have := h.2.2.1 ':' hc
  exact absurd this (by decide)

theorem intercalate8_data (a b c d e f g h : String) :
    (":".intercalate [a, b, c, d, e, f, g, h]).data =
      a.data ++ ':' :: (b.data ++ ':' :: (c.data ++ ':' :: (d.data ++ ':' :: (e.data ++ ':' ::
        (f.data ++ ':' :: (g.data ++ ':' :: h.data)))))) := by
  simp [String.intercalate, String.intercalate.go, String.data_append]

/-- Eight numerals joined by ":" hold exactly seven colons. -/
theorem colons_of_groups {gs : List String} {vs : List Nat} (h : List.Forall₂ IsHexNumeral gs vs)
    (hlen : vs.length = 8) : (":".intercalate gs).data.count ':' = 7 := by
  have hl := h.length_eq
  rw [hlen] at hl
  match gs, hl, h with
  | [a, b, c, d, e, f, g, k], _, h =>
    match vs, h with
    | [_, _, _, _, _, _, _, _], h =>
      simp only [List.forall₂_cons] at h
      obtain ⟨h0, h1, h2, h3, h4, h5, h6, h7, -⟩ := h
      rw [intercalate8_data]
      simp only [List.count_append, List.count_cons_self, hex_no_colon h0, hex_no_colon h1,
        hex_no_colon h2, hex_no_colon h3, hex_no_colon h4, hex_no_colon h5, hex_no_colon h6,
        hex_no_colon h7]

/-! ## The records of a classic-PCAP buffer -/

/-- The `i`-th object returned by `parsePCAP` is the total decoding of the record at the
`i`-th record offset, with the link type of the global header. -/
theorem parsePCAP_records {buffer : Buffer} {l : List Packet} (h : parsePCAP buffer = .ok l) :
    ∀ i, i < l.length →
      recordFits buffer (pcapLE buffer) (recordOffset buffer (pcapLE buffer) 24 i) ∧
      l[i]? = some (pcapFields buffer (pcapLinkType buffer)
        (recordOffset buffer (pcapLE buffer) 24 i + 16)
        (u32 buffer (recordOffset buffer (pcapLE buffer) 24 i) (pcapLE buffer))
        (u32 buffer (recordOffset buffer (pcapLE buffer) 24 i + 4) (pcapLE buffer))
        (u32 buffer (recordOffset buffer (pcapLE buffer) 24 i + 8) (pcapLE buffer))
        (u32 buffer (recordOffset buffer (pcapLE buffer) 24 i + 12) (pcapLE buffer))) := by
  intro i hi
  obtain ⟨hfit, hat⟩ := (parsePCAP_spec h).1 i hi
  refine ⟨hfit, ?_⟩
  unfold recordAt at hat
  rw [pcapRecord_ok (by have := hfit.2.2; omega)] at hat
  exact hat.symm

theorem ipv4Text_eq (view : Buffer) (o : Nat) :
    ipv4Text view o = dottedDecimal (byteAt view o) (byteAt view (o + 1)) (byteAt view (o + 2))
      (byteAt view (o + 3)) := rfl

theorem pcapFields_raw101 (view : Buffer) (off s u incl orig : Nat) (h20 : 20 ≤ incl) :
    pcapFields view 101 off s u incl orig =
      { ts := some (.pcap s u), orig_len := some orig, incl_len := some incl,
        protocol := some (protoName (byteAt view (off + 9))),
        src_ip := some (ipv4Text view (off + 12)), dst_ip := some (ipv4Text view (off + 16)) } := by
  unfold pcapFields
  simp only []
  rw [if_neg (by decide), if_pos ⟨trivial, h20⟩]
  rfl

theorem pcapFields_other (view : Buffer) (lt off s u incl orig : Nat)
    (h : (lt ≠ 1 ∧ lt ≠ 101) ∨ (lt = 101 ∧ incl < 20)) :
    pcapFields view lt off s u incl orig = rawRecord (.pcap s u) incl orig := by
  unfold pcapFields
  simp only []
  rcases h with ⟨h1, h2⟩ | ⟨h1, h2⟩
  · rw [if_neg h1, if_neg (fun c => h2 c.1)]
    rfl
  · rw [if_neg (by omega), if_neg (fun c => by have := c.2; omega)]
    rfl

/-! ## MAC addresses and the IPv4 header -/

/-- A byte padded to two hexadecimal digits. -/
theorem padStart_hex (v : Nat) (hv : v < 256) :
    padStart (toString16 v) 2 '0' = String.mk [Nat.digitChar (v / 16), Nat.digitChar (v % 16)] := by
  unfold padStart toString16
  rw [toDigits16 v (by omega)]
  by_cases h1 : v < 16
  · rw [if_pos h1]
    have h0 : v / 16 = 0 := by omega
    have hm : v % 16 = v := by omega
    rw [h0, hm]
    rfl
  · rw [if_neg h1, if_pos hv]
    rfl

theorem padStart_hexPair (v : Nat) (hv : v < 256) :
    IsHexPair (padStart (toString16 v) 2 '0') v := by
  rw [padStart_hex v hv]
  obtain ⟨a1, a2, -⟩ := digitChar_hex (v / 16) (by omega)
  obtain ⟨b1, b2, -⟩ := digitChar_hex (v % 16) (by omega)
  refine ⟨rfl, ?_, ?_⟩
  · intro c hc
    simp only [List.mem_cons, List.mem_singleton, List.not_mem_nil, or_false] at hc
    rcases hc with hc | hc <;> rw [hc] <;> assumption
  · simp only [hexValue, List.foldl_cons, List.foldl_nil, a2, b2]
    omega

/-- The text of a MAC address: six two-digit numerals of the six bytes, joined by ":". -/
theorem macText_groups (view : Buffer) (o : Nat) :
    ∃ gs : List String, macText view o = ":".intercalate gs ∧
      List.Forall₂ IsHexPair gs
        [byteAt view o, byteAt view (o + 1), byteAt view (o + 2), byteAt view (o + 3),
          byteAt view (o + 4), byteAt view (o + 5)] := by
  refine ⟨[0, 1, 2, 3, 4, 5].map fun i => padStart (toString16 (byteAt view (o + i))) 2 '0',
    by unfold macText join; rfl, ?_⟩
  simp only [List.map_cons, List.map_nil, Nat.add_zero]
  have hg : ∀ k, IsHexPair (padStart (toString16 (byteAt view k)) 2 '0') (byteAt view k) :=
    fun k => padStart_hexPair _ (byteAt_lt view k)
  exact List.Forall₂.cons (hg _) (List.Forall₂.cons (hg _) (List.Forall₂.cons (hg _)
    (List.Forall₂.cons (hg _) (List.Forall₂.cons (hg _) (List.Forall₂.cons (hg _)
      List.Forall₂.nil)))))

/-- What the frame decoder returns for an IPv4 frame: the keys of the two headers. -/
theorem ethFields_ipv4_header {view : Buffer} {o n : Nat} (h : IsIPv4Frame view o n) :
    ∃ e, ethFields view o n = some e ∧
      e.dst_mac = some (macText view o) ∧ e.src_mac = some (macText view (o + 6)) ∧
      e.ethertype = some 0x0800 ∧ e.ttl = some (byteAt view (o + 22)) ∧
      e.protocol = some (protoName (byteAt view (o + 23))) ∧
      e.ip_len = some (u16 view (o + 16) false) ∧
      e.src_ip = some (ipv4Text view (o + 26)) ∧ e.dst_ip = some (ipv4Text view (o + 30)) := by
  obtain ⟨hin, het, h34⟩ := h
  unfold ethFields
  rw [if_neg (by omega)]
  simp only []
  rw [if_pos ⟨het, h34⟩, het]
  split
  · exact ⟨_, rfl, rfl, rfl, rfl, rfl, rfl, rfl, rfl, rfl⟩
  · split
    · exact ⟨_, rfl, rfl, rfl, rfl, rfl, rfl, rfl, rfl, rfl⟩
    · exact ⟨_, rfl, rfl, rfl, rfl, rfl, rfl, rfl, rfl, rfl⟩

/-- An IPv4 ethertype on a frame of 14 to 33 bytes: only the Ethernet keys. -/
theorem ethFields_ipv4_short {view : Buffer} {o n : Nat}
    (het : u16 view (o + 12) false = 0x0800) (h14 : 14 ≤ n) (h34 : n < 34) :
    ethFields view o n =
      some { src_mac := some (macText view (o + 6)), dst_mac := some (macText view o),
             ethertype := some 0x0800 } := by
  unfold ethFields
  rw [if_neg (by omega)]
  simp only []
  rw [if_neg (fun c => by have := c.2; omega), het, if_neg (by omega), if_neg (by omega)]

/-! ## The bound on the captured length -/

/-- One iteration of the record loop on a record that fits. -/
theorem parsePCAP_loop_fits (view : Buffer) (le : Bool) (lt fuel off : Nat) (acc : List Packet)
    (h : recordFits view le off) :
    parsePCAP.loop view le lt (fuel + 1) off acc =
      parsePCAP.loop view le lt fuel (off + 16 + u32 view (off + 8) le)
        (acc ++ [pcapFields view lt (off + 16) (u32 view off le) (u32 view (off + 4) le)
          (u32 view (off + 8) le) (u32 view (off + 12) le)]) := by
  rw [parsePCAP_loop_step, if_pos h]
  unfold recordAt
  rw [pcapRecord_ok (by have := h.2.2; omega), ok_bind]
  rfl

/-- The Enhanced Packet Block branch when the 28-byte head of the block is inside the
buffer. -/
theorem epbBlock_ok {view : Buffer} {off : Nat} {le : Bool} (acc : List Packet)
    (h28 : off + 28 ≤ view.length) :
    epbBlock view off le acc =
      .ok (if off + 28 + u32 view (off + 20) le ≤ view.length ∧ u32 view (off + 20) le < 65535
        then acc ++ [epbFields view (off + 28) (u32 view (off + 12) le) (u32 view (off + 16) le)
          (u32 view (off + 20) le) (u32 view (off + 24) le)]
        else acc) := by
  unfold epbBlock
  rw [getUint32_ok le (by omega : off + 12 + 4 ≤ view.length),
    getUint32_ok le (by omega : off + 16 + 4 ≤ view.length),
    getUint32_ok le (by omega : off + 20 + 4 ≤ view.length),
    getUint32_ok le (by omega : off + 24 + 4 ≤ view.length)]
  simp only [ok_bind]
  split
  · rename_i hc
    rw [epbRecord_ok hc.1]
    rfl
  · rfl

/-! ## The loop bound is never the reason a parser stops -/

/-- Past the bound the block loop does not depend on the bound. -/
theorem parsePCAPNG_loop_fuel (view : Buffer) :
    ∀ (fuel off : Nat) (le : Bool) (acc : List Packet), view.length < off + fuel → 0 < fuel →
      parsePCAPNG.loop view (fuel + 1) off le acc = parsePCAPNG.loop view fuel off le acc := by
  intro fuel
  induction fuel with
  | zero => intro off le acc _ h; omega
  | succ fuel ih =>
    intro off le acc hlen _
    rw [parsePCAPNG_loop_step, parsePCAPNG_loop_step view fuel]
    by_cases hf : blockFits view le off
    · rw [if_pos hf, if_pos hf]
      have hgt := nextBlock_gt hf
      have h8 := hf.1
      congr 1
      funext ps
      exact ih _ _ _ (by omega) (by omega)
    · rw [if_neg hf, if_neg hf]

theorem parsePCAPNG_loop_fuel_add (view : Buffer) (fuel off : Nat) (le : Bool)
    (acc : List Packet) (hlen : view.length < off + fuel) (hpos : 0 < fuel) (k : Nat) :
    parsePCAPNG.loop view (fuel + k) off le acc = parsePCAPNG.loop view fuel off le acc := by
  induction k with
  | zero => rfl
  | succ k ih =>
    rw [← Nat.add_assoc, parsePCAPNG_loop_fuel view (fuel + k) off le acc (by omega) (by omega),
      ih]

/-- Past the bound the record loop does not depend on the bound. -/
theorem parsePCAP_loop_fuel (view : Buffer) (le : Bool) (lt : Nat) :
    ∀ (fuel off : Nat) (acc : List Packet), view.length < off + 16 * fuel → 0 < fuel →
      parsePCAP.loop view le lt (fuel + 1) off acc = parsePCAP.loop view le lt fuel off acc := by
  intro fuel
  induction fuel with
  | zero => intro off acc _ h; omega
  | succ fuel ih =>
    intro off acc hlen _
    rw [parsePCAP_loop_step, parsePCAP_loop_step view le lt fuel]
    by_cases hf : recordFits view le off
    · rw [if_pos hf, if_pos hf]
      obtain ⟨h1, h2, h3⟩ := hf
      congr 1
      funext p
      exact ih _ _ (by unfold nextRecord; omega) (by omega)
    · rw [if_neg hf, if_neg hf]

theorem parsePCAP_loop_fuel_add (view : Buffer) (le : Bool) (lt fuel off : Nat)
    (acc : List Packet) (hlen : view.length < off + 16 * fuel) (hpos : 0 < fuel) (k : Nat) :
    parsePCAP.loop view le lt (fuel + k) off acc = parsePCAP.loop view le lt fuel off acc := by
  induction k with
  | zero => rfl
  | succ k ih =>
    rw [← Nat.add_assoc, parsePCAP_loop_fuel view le lt (fuel + k) off acc (by omega) (by omega),
      ih]

theorem parsePCAP_loop_not_fuel (view : Buffer) (le : Bool) (lt : Nat) :
    ∀ (fuel off : Nat) (acc : List Packet), view.length < off + 16 * fuel → 0 < fuel →
      parsePCAP.loop view le lt fuel off acc ≠ .error .fuel := by
  intro fuel off acc h1 h2 h
  obtain ⟨r, hr⟩ := parsePCAP_loop_isOk view le lt fuel off acc h1 h2
  rw [hr] at h
  cases h

theorem parsePCAP_not_fuel (buffer : Buffer) : parsePCAP buffer ≠ .error .fuel := by
  intro h
  by_cases h24 : 24 ≤ buffer.length
  · obtain ⟨l, hl⟩ := parsePCAP_isOk h24
    rw [hl] at h
    cases h
  · rw [parsePCAP_short (by omega)] at h
    cases h

/-- A 32-bit word that is at least 12 in one byte order is not 0 in the other. -/
theorem u32_swap_ne_zero (view : Buffer) (o : Nat) (le : Bool) (h : 12 ≤ u32 view o le) :
    u32 view o (!le) ≠ 0 := by
  have := u32_pos view o le (!le) (by omega)
  omega

/-! ## The frame decoder reads the frame only -/

theorem agree_frameOf (view : Buffer) (o n : Nat) : Agree view o (frameOf view o n) 0 n := by
  intro k hk
  unfold frameOf
  rw [Nat.zero_add, List.getElem?_take_of_lt hk, List.getElem?_drop]

theorem frameOf_length {view : Buffer} {o n : Nat} (h : o + n ≤ view.length) :
    (frameOf view o n).length = n := by
  unfold frameOf
  rw [List.length_take, List.length_drop]
  omega

/-! ## The number of records of a classic-PCAP buffer -/

theorem recordOffset_ge (view : Buffer) (le : Bool) (off : Nat) :
    ∀ i, off + 16 * i ≤ recordOffset view le off i := by
  intro i
  induction i with
  | zero => exact Nat.le_refl _
  | succ i ih =>
    rw [recordOffset_succ]
    unfold nextRecord
    omega

theorem parseFile_classic {buffer : Buffer} (h4 : 4 ≤ buffer.length)
    (hm : u32 buffer 0 false = 0xA1B2C3D4 ∨ u32 buffer 0 false = 0xD4C3B2A1) :
    parseFile buffer = (parsePCAP buffer).map some := by
  unfold parseFile
  rw [if_neg (by omega), getUint32_ok false (by omega : 0 + 4 ≤ buffer.length)]
  show (if _ then _ else _) = _
  rw [if_pos hm]
  cases parsePCAP buffer <;> rfl

/-! ## The busiest source -/

theorem busiestCount_ge {packets : List Packet} {q : Packet} (hq : q ∈ packets)
    (hs : hasSource q = true) :
    sourceCount packets (q.src_ip.getD "") ≤ busiestCount packets := by
  unfold busiestCount
  apply foldl_max_ge_mem
  exact List.mem_map.2 ⟨q, List.mem_filter.2 ⟨hq, hs⟩, rfl⟩

theorem hasSource_iff {q : Packet} : hasSource q = true ↔ ∃ s, q.src_ip = some s ∧ s ≠ "" := by
  unfold hasSource
  constructor
  · intro h
    exact isFalsy_eq_false (by simpa using h)
  · rintro ⟨s, hs, hne⟩
    simp [hs, isFalsy, hne]

theorem busiestCount_gt {packets : List Packet} {s : String} (hne : s ≠ "")
    (h : 5 < sourceCount packets s) : 5 < busiestCount packets := by
  have hpos : 0 < (packets.filter fun q => decide (q.src_ip = some s)).length := by
    unfold sourceCount at h
    omega
  obtain ⟨q, hq⟩ := List.exists_mem_of_length_pos hpos
  rw [List.mem_filter] at hq
  have hsrc : q.src_ip = some s := by simpa using hq.2
  have := busiestCount_ge hq.1 (hasSource_iff.2 ⟨s, hsrc, hne⟩)
  rw [hsrc, Option.getD_some] at this
  omega

/-- The largest count is the count of some record with a source. -/
theorem busiestCount_attained {packets : List Packet} (h : 0 < busiestCount packets) :
    ∃ q ∈ packets, hasSource q = true ∧
      sourceCount packets (q.src_ip.getD "") = busiestCount packets := by
  rcases foldl_max_mem
    ((packets.filter hasSource).map fun q => sourceCount packets (q.src_ip.getD "")) 0
    with h0 | hmem
  · unfold busiestCount at h
    omega
  · obtain ⟨q, hq, hv⟩ := List.mem_map.1 hmem
    rw [List.mem_filter] at hq
    exact ⟨q, hq.1, hq.2, hv⟩

theorem fired_weight_le_sum (t : List (Bool × String × Nat)) {r : Bool × String × Nat}
    (hr : r ∈ t) (hfire : r.1 = true) :
    r.2.2 ≤ ((t.filter fun e => e.1).map fun e => e.2.2).sum :=
  List.single_le_sum (fun _ _ => Nat.zero_le _) _
    (List.mem_map.2 ⟨r, List.mem_filter.2 ⟨hr, hfire⟩, rfl⟩)

/-! ## The size rule on small captures -/

theorem sum_sq_lin (l : List Nat) (c t : Int) :
    (l.map fun (b : Nat) => (c * (b : Int) - t) ^ 2).sum =
      c ^ 2 * (((l.map fun b => b * b).sum : Nat) : Int) - 2 * c * t * ((l.sum : Nat) : Int) +
        (l.length : Int) * t ^ 2 := by
  induction l with
  | nil => simp
  | cons b l ih =>
    simp only [List.map_cons, List.sum_cons, List.length_cons, ih]
    push_cast
    ring

/-- The square of a sum is at most the number of terms times the sum of the squares. -/
theorem sq_sum_le (l : List Nat) :
    ((l.sum : Nat) : Int) ^ 2 ≤ (l.length : Int) * (((l.map fun b => b * b).sum : Nat) : Int) := by
  rcases Nat.eq_zero_or_pos l.length with h0 | hpos
  · have hl : l = [] := List.length_eq_zero.1 h0
    subst hl
    simp
  · have hsum : 0 ≤ (l.map fun (b : Nat) =>
        ((l.length : Int) * (b : Int) - ((l.sum : Nat) : Int)) ^ 2).sum := by
      apply List.sum_nonneg
      intro x hx
      obtain ⟨b, -, rfl⟩ := List.mem_map.1 hx
      exact sq_nonneg _
    rw [sum_sq_lin] at hsum
    have hm : (0 : Int) < (l.length : Int) := by exact_mod_cast hpos
    generalize (l.length : Int) = m at hsum hm
    generalize (((l.map fun b => b * b).sum : Nat) : Int) = Q at hsum
    generalize ((l.sum : Nat) : Int) = S at hsum
    have hprod : 0 ≤ m * (m * Q - S ^ 2) := by
      have : m ^ 2 * Q - 2 * m * S * S + m * S ^ 2 = m * (m * Q - S ^ 2) := by ring
      rw [← this]
      exact hsum
    have := nonneg_of_mul_nonneg_right hprod hm
    omega

/-- No length is further from the mean than `sqrt(n - 1)` standard deviations: in integers,
`(n x - S)² ≤ (n - 1) (n Q - S²)` for every `x` of the list. -/
theorem deviation_bound (l : List Nat) (x : Nat) (hx : x ∈ l) :
    ((l.length : Int) * (x : Int) - ((l.sum : Nat) : Int)) ^ 2 ≤
      ((l.length : Int) - 1) *
        ((l.length : Int) * (((l.map fun b => b * b).sum : Nat) : Int) -
          ((l.sum : Nat) : Int) ^ 2) := by
  have hperm := List.perm_cons_erase hx
  have h1 : l.length = (l.erase x).length + 1 := by rw [hperm.length_eq]; rfl
  have h2 : l.sum = x + (l.erase x).sum := by rw [hperm.sum_eq]; rfl
  have h3 : (l.map fun b => b * b).sum = x * x + ((l.erase x).map fun b => b * b).sum := by
    rw [(hperm.map fun b => b * b).sum_eq]; rfl
  have hcs := sq_sum_le (l.erase x)
  rw [h1, h2, h3]
  generalize (l.erase x).length = m at hcs ⊢
  generalize ((l.erase x).map fun b => b * b).sum = Q at hcs ⊢
  generalize (l.erase x).sum = S at hcs ⊢
  push_cast
  have hm : (0 : Int) ≤ (m : Int) := Int.natCast_nonneg _
  have hprod : 0 ≤ ((m : Int) + 1) * ((m : Int) * (Q : Int) - (S : Int) ^ 2) :=
    mul_nonneg (by omega) (by omega)
  nlinarith [hprod]

/-- With at most 10 lengths the test of the size rule fails for every one of them. -/
theorem exactAbove3_small (lens : List Nat) (x : Nat) (hx : x ∈ lens) (h : lens.length ≤ 10) :
    exactAbove3 lens x = false := by
  rw [Bool.eq_false_iff]
  intro hz
  obtain ⟨h1, h2⟩ := (exactAbove3_int lens x).1 hz
  have hb := deviation_bound lens x hx
  have hn : (lens.length : Int) ≤ 10 := by exact_mod_cast h
  generalize (lens.length : Int) = n at h1 h2 hb hn
  generalize (((lens.map fun b => b * b).sum : Nat) : Int) = Q at h1 h2 hb
  generalize ((lens.sum : Nat) : Int) = S at h1 h2 hb
  generalize (x : Int) = X at h2 hb
  nlinarith [mul_nonneg (by omega : (0 : Int) ≤ 10 - n) (by omega : (0 : Int) ≤ n * Q - S * S)]

theorem size_outlier_ne_high_volume (n : Nat) :
    REASON_TEXT.size_outlier ≠ REASON_TEXT.high_volume n := by
  intro h
  obtain ⟨rest, hr⟩ := high_volume_data n
  rw [← h] at hr
  have : REASON_TEXT.size_outlier.data.head? = some 'T' := by rw [hr]; rfl
  exact absurd this (by decide)

theorem size_outlier_ne_bad_port (n : Nat) :
    REASON_TEXT.size_outlier ≠ REASON_TEXT.bad_port n := by
  intro h
  obtain ⟨rest, hr⟩ := bad_port_data n
  rw [← h] at hr
  have : REASON_TEXT.size_outlier.data.head? = some 'C' := by rw [hr]; rfl
  exact absurd this (by decide)

theorem size_outlier_ne_big_icmp : REASON_TEXT.size_outlier ≠ REASON_TEXT.big_icmp := by
  decide

/-- The size-outlier text is among the reasons exactly when its rule fires. -/
theorem size_outlier_mem_reasons (agg : Aggregates) (lens : List Nat) (maxIP : Option Nat)
    (p : Packet) :
    REASON_TEXT.size_outlier ∈ (applyRules agg lens maxIP p).1 ↔
      zAbove3 lens (origLenOr0 p) = true := by
  rw [applyRules_eq_table]
  simp only [List.mem_map, List.mem_filter, ruleTable, List.mem_cons, List.mem_singleton,
    List.not_mem_nil, or_false]
  constructor
  · rintro ⟨r, ⟨hr | hr | hr | hr | hr | hr, hfire⟩, htext⟩
    · subst hr; exact hfire
    · subst hr; exact absurd htext.symm (size_outlier_ne_high_volume _)
    · subst hr; exact absurd htext (port_scan_ne_size_outlier _)
    · subst hr; exact absurd htext.symm size_outlier_ne_syn_flood
    · subst hr; exact absurd htext.symm (size_outlier_ne_bad_port _)
    · subst hr; exact absurd htext.symm size_outlier_ne_big_icmp
  · intro h
    exact ⟨_, ⟨Or.inl rfl, h⟩, rfl⟩

/-! ## The order of the size summary -/

theorem floor_95 (n : Nat) : ⌊(95 / 100 : ℚ) * n⌋₊ = n * 19 / 20 := by
  rw [show (95 / 100 : ℚ) * n = ((n * 19 : ℕ) : ℚ) / ((20 : ℕ) : ℚ) by push_cast; ring]
  exact Nat.floor_div_eq_div _ _

theorem sorted_getElem_le {s : List Nat} (hs : s.Sorted (· ≤ ·)) {i j : Nat} (hij : i ≤ j)
    (hj : j < s.length) : s.get ⟨i, by omega⟩ ≤ s.get ⟨j, hj⟩ := by
  rcases Nat.eq_or_lt_of_le hij with h | h
  · subst h
    exact Nat.le_refl _
  · exact List.pairwise_iff_get.1 hs ⟨i, by omega⟩ ⟨j, hj⟩ h

/-! ## Rounding to 53 binary digits -/

theorem log2Loop_spec (fuel : Nat) : ∀ n acc, n ≤ fuel → n ≠ 0 →
    ∃ e, log2Loop fuel n acc = acc + e ∧ 2 ^ e ≤ n ∧ n < 2 ^ (e + 1) := by
  induction fuel with
  | zero => intro n acc h h0; omega
  | succ fuel ih =>
    intro n acc h h0
    unfold log2Loop
    by_cases h64 : 2 ^ 64 ≤ n
    · rw [if_pos h64]
      have hpos : n / 2 ^ 64 ≠ 0 := by
        have := Nat.div_pos h64 (by positivity : 0 < 2 ^ 64)
        omega
      have hlt : n / 2 ^ 64 ≤ fuel := by
        have : n / 2 ^ 64 < n := Nat.div_lt_self (by omega) (by norm_num)
        omega
      obtain ⟨e, he, h1, h2⟩ := ih (n / 2 ^ 64) (acc + 64) hlt hpos
      refine ⟨e + 64, by rw [he]; omega, ?_, ?_⟩
      · rw [pow_add]
        exact (Nat.le_div_iff_mul_le (by positivity)).1 h1
      · rw [show e + 64 + 1 = (e + 1) + 64 by omega, pow_add]
        exact (Nat.div_lt_iff_lt_mul (by positivity)).1 h2
    · rw [if_neg h64]
      by_cases h2 : 2 ≤ n
      · rw [if_pos h2]
        have hpos : n / 2 ≠ 0 := by omega
        have hlt : n / 2 ≤ fuel := by omega
        obtain ⟨e, he, h1, h3⟩ := ih (n / 2) (acc + 1) hlt hpos
        refine ⟨e + 1, by rw [he]; omega, ?_, ?_⟩
        · rw [pow_succ]
          exact (Nat.le_div_iff_mul_le (by norm_num)).1 h1
        · rw [pow_succ]
          exact (Nat.div_lt_iff_lt_mul (by norm_num)).1 h3
      · rw [if_neg h2]
        exact ⟨0, rfl, by simp; omega, by simp; omega⟩

theorem ilog2_spec {n : Nat} (h : n ≠ 0) : 2 ^ ilog2 n ≤ n ∧ n < 2 ^ (ilog2 n + 1) := by
  obtain ⟨e, he, h1, h2⟩ := log2Loop_spec n n 0 (Nat.le_refl _) h
  unfold ilog2
  rw [he, Nat.zero_add]
  exact ⟨h1, h2⟩

theorem ilog2_zero : ilog2 0 = 0 := by
  unfold ilog2 log2Loop
  rfl

theorem ilog2_lt {n k : Nat} (h : n < 2 ^ (k + 1)) : ilog2 n ≤ k := by
  by_cases h0 : n = 0
  · rw [h0, ilog2_zero]; exact Nat.zero_le _
  · have h1 := (ilog2_spec h0).1
    have : 2 ^ ilog2 n < 2 ^ (k + 1) := Nat.lt_of_le_of_lt h1 h
    have := (Nat.pow_lt_pow_iff_right (by norm_num : 1 < 2)).1 this
    omega

/-- The shift of `roundRat`: the quotient has at most 53 digits once the divisor is
multiplied by 2 to this power. -/
theorem shift_spec (f : Nat) : 2 ^ (ilog2 f - 52) * 2 ^ 52 ≤ f ∨ ilog2 f - 52 = 0 := by
  by_cases h0 : f = 0
  · right; rw [h0, ilog2_zero]
  · by_cases h : ilog2 f ≤ 52
    · right; omega
    · left
      rw [← pow_add, show ilog2 f - 52 + 52 = ilog2 f by omega]
      exact (ilog2_spec h0).1

theorem shift_upper (f : Nat) : f < 2 ^ (ilog2 f - 52) * 2 ^ 53 := by
  by_cases h0 : f = 0
  · rw [h0]; positivity
  · have h := (ilog2_spec h0).2
    rw [← pow_add]
    exact Nat.lt_of_lt_of_le h (Nat.pow_le_pow_right (by norm_num) (by omega))

/-- The result of `roundRat` is a multiple `m · 2 ^ sh` within half of `2 ^ sh` of `p / q`. -/
theorem roundRat_near (p : Nat) {q : Nat} (hq0 : 0 < q) :
    ∃ m, roundRat p q = m * 2 ^ (ilog2 (p / q) - 52) ∧
      2 * (m * (q * 2 ^ (ilog2 (p / q) - 52))) ≤ 2 * p + q * 2 ^ (ilog2 (p / q) - 52) ∧
      2 * p ≤ 2 * (m * (q * 2 ^ (ilog2 (p / q) - 52))) + q * 2 ^ (ilog2 (p / q) - 52) ∧
      (p % (q * 2 ^ (ilog2 (p / q) - 52)) = 0 → m = p / (q * 2 ^ (ilog2 (p / q) - 52))) ∧
      p / (q * 2 ^ (ilog2 (p / q) - 52)) ≤ m ∧ m ≤ p / (q * 2 ^ (ilog2 (p / q) - 52)) + 1 := by
  unfold roundRat
  simp only []
  generalize hq' : q * 2 ^ (ilog2 (p / q) - 52) = q'
  have hdiv := Nat.div_add_mod p q'
  have hmul : p / q' * q' = q' * (p / q') := Nat.mul_comm _ _
  have hq : q' ≠ 0 := by
    rw [← hq']
    exact Nat.ne_of_gt (Nat.mul_pos hq0 (by positivity))
  have hlt : p % q' < q' := Nat.mod_lt _ (Nat.pos_of_ne_zero hq)
  by_cases h1 : 2 * (p % q') < q'
  · rw [if_pos h1]
    refine ⟨p / q', rfl, ?_, ?_, fun _ => rfl, Nat.le_refl _, Nat.le_succ _⟩
    · rw [hmul]; omega
    · rw [hmul]; omega
  · rw [if_neg h1]
    by_cases h2 : q' < 2 * (p % q')
    · rw [if_pos h2]
      refine ⟨p / q' + 1, rfl, ?_, ?_, fun h => by omega, Nat.le_succ _, Nat.le_refl _⟩
      · rw [Nat.add_mul, hmul]; omega
      · rw [Nat.add_mul, hmul]; omega
    · rw [if_neg h2]
      refine ⟨p / q' + p / q' % 2, rfl, ?_, ?_, fun h => by omega, by omega, by omega⟩
      · rw [Nat.add_mul, hmul]
        have : p / q' % 2 * q' ≤ q' := by
          have : p / q' % 2 ≤ 1 := by omega
          calc p / q' % 2 * q' ≤ 1 * q' := Nat.mul_le_mul_right _ this
            _ = q' := Nat.one_mul _
        omega
      · rw [Nat.add_mul, hmul]; omega

/-- The relative error of `roundRat` is at most 2⁻⁵³ from 2⁵² on. -/
theorem roundRat_bound {p q : Nat} (hq : 0 < q) (h : 2 ^ 52 * q ≤ p) :
    2 ^ 53 * (roundRat p q * q) ≤ (2 ^ 53 + 1) * p ∧
      (2 ^ 53 - 1) * p ≤ 2 ^ 53 * (roundRat p q * q) := by
  obtain ⟨m, hm, h1, h2, -, -, -⟩ := roundRat_near p hq
  have hq' : 2 ^ 52 * (q * 2 ^ (ilog2 (p / q) - 52)) ≤ p := by
    rcases shift_spec (p / q) with hs | hs
    · calc 2 ^ 52 * (q * 2 ^ (ilog2 (p / q) - 52))
          = 2 ^ (ilog2 (p / q) - 52) * 2 ^ 52 * q := by ring
        _ ≤ p / q * q := Nat.mul_le_mul_right _ hs
        _ ≤ p := Nat.div_mul_le_self _ _
    · rw [hs, pow_zero, Nat.mul_one]; exact h
  have hr : roundRat p q * q = m * (q * 2 ^ (ilog2 (p / q) - 52)) := by rw [hm]; ring
  rw [hr]
  generalize m * (q * 2 ^ (ilog2 (p / q) - 52)) = X at h1 h2 ⊢
  generalize q * 2 ^ (ilog2 (p / q) - 52) = Y at h1 h2 hq'
  norm_num at hq' ⊢
  omega

/-- A whole number below 2⁵³ is kept by `roundRat`. -/
theorem roundRat_small {p : Nat} (h : p < 2 ^ 53) : roundRat p 1 = p := by
  obtain ⟨m, hm, h1, h2, -, -, -⟩ := roundRat_near p (Nat.one_pos)
  have hs : ilog2 (p / 1) - 52 = 0 := by
    rw [Nat.div_one]
    have := ilog2_lt (show p < 2 ^ (52 + 1) from h)
    omega
  rw [hs, pow_zero, Nat.mul_one] at hm h1 h2
  rw [hm]
  omega

/-- The relative error of `roundRat` on a whole number is at most 2⁻⁵³. -/
theorem roundRat_int (p : Nat) :
    2 ^ 53 * roundRat p 1 ≤ (2 ^ 53 + 1) * p ∧ (2 ^ 53 - 1) * p ≤ 2 ^ 53 * roundRat p 1 := by
  by_cases h : p < 2 ^ 53
  · rw [roundRat_small h]
    norm_num at h ⊢
    omega
  · have := roundRat_bound (Nat.one_pos) (show 2 ^ 52 * 1 ≤ p by norm_num at h ⊢; omega)
    rwa [Nat.mul_one] at this

theorem two_pow_dvd_of_le {j t sh : Nat} (hj : j < 2 ^ 53) (h : 2 ^ (sh + 52) ≤ j * 2 ^ t) :
    2 ^ sh ∣ j * 2 ^ t := by
  have hlt : 2 ^ (sh + 52) < 2 ^ (53 + t) := by
    calc 2 ^ (sh + 52) ≤ j * 2 ^ t := h
      _ < 2 ^ 53 * 2 ^ t := Nat.mul_lt_mul_of_pos_right hj (by positivity)
      _ = 2 ^ (53 + t) := by rw [pow_add]
  have := (Nat.pow_lt_pow_iff_right (by norm_num : 1 < 2)).1 hlt
  exact Dvd.dvd.mul_left (pow_dvd_pow 2 (by omega)) _

/-- A number `j · 2 ^ t` with `j` below 2⁵³ is kept by `roundRat`. -/
theorem roundRat_exact {q j t : Nat} (hq : 0 < q) (hj : j < 2 ^ 53) :
    roundRat (j * 2 ^ t * q) q = j * 2 ^ t := by
  obtain ⟨m, hm, -, -, h3, -, -⟩ := roundRat_near (j * 2 ^ t * q) hq
  rw [Nat.mul_div_cancel _ hq] at hm h3
  have hdvd : 2 ^ (ilog2 (j * 2 ^ t) - 52) ∣ j * 2 ^ t := by
    rcases shift_spec (j * 2 ^ t) with hs | hs
    · apply two_pow_dvd_of_le hj
      rw [pow_add]; exact hs
    · rw [hs, pow_zero]; exact one_dvd _
  generalize ilog2 (j * 2 ^ t) - 52 = sh at hm h3 hdvd
  obtain ⟨c, hc⟩ := hdvd
  have hpos : 0 < q * 2 ^ sh := Nat.mul_pos hq (by positivity)
  have hp : j * 2 ^ t * q = c * (q * 2 ^ sh) := by
    rw [hc]; ring
  have hmod : j * 2 ^ t * q % (q * 2 ^ sh) = 0 := by
    rw [hp]; exact Nat.mul_mod_left _ _
  rw [hm, h3 hmod, hp, Nat.mul_div_cancel _ hpos, hc]
  ring

/-- `roundRat` does not go above a number it keeps. -/
theorem roundRat_le {p q j t : Nat} (hq : 0 < q) (hj : j < 2 ^ 53) (h : p ≤ j * 2 ^ t * q) :
    roundRat p q ≤ j * 2 ^ t := by
  obtain ⟨m, hm, h1, -, -, -, -⟩ := roundRat_near p hq
  have hf : p / q ≤ j * 2 ^ t := by
    calc p / q ≤ j * 2 ^ t * q / q := Nat.div_le_div_right h
      _ = j * 2 ^ t := Nat.mul_div_cancel _ hq
  have hdvd : 2 ^ (ilog2 (p / q) - 52) ∣ j * 2 ^ t := by
    rcases shift_spec (p / q) with hs | hs
    · apply two_pow_dvd_of_le hj
      rw [pow_add]; exact Nat.le_trans hs hf
    · rw [hs, pow_zero]; exact one_dvd _
  obtain ⟨c, hc⟩ := hdvd
  rw [hm, hc, Nat.mul_comm (2 ^ _) c]
  apply Nat.mul_le_mul_right
  have hpos : 0 < q * 2 ^ (ilog2 (p / q) - 52) := Nat.mul_pos hq (by positivity)
  have h2 : p ≤ c * (q * 2 ^ (ilog2 (p / q) - 52)) := by
    calc p ≤ j * 2 ^ t * q := h
      _ = c * (q * 2 ^ (ilog2 (p / q) - 52)) := by rw [hc]; ring
  by_contra hlt
  have hmc : c + 1 ≤ m := by omega
  have : (c + 1) * (q * 2 ^ (ilog2 (p / q) - 52)) ≤ m * (q * 2 ^ (ilog2 (p / q) - 52)) :=
    Nat.mul_le_mul_right _ hmc
  rw [Nat.add_mul, Nat.one_mul] at this
  generalize m * (q * 2 ^ (ilog2 (p / q) - 52)) = X at h1 this
  generalize c * (q * 2 ^ (ilog2 (p / q) - 52)) = Z at h2 this
  omega

/-- `roundRat` does not go below a number it keeps. -/
theorem roundRat_ge {p q j t : Nat} (hq : 0 < q) (hj : j < 2 ^ 53) (h : j * 2 ^ t * q ≤ p) :
    j * 2 ^ t ≤ roundRat p q := by
  obtain ⟨m, hm, -, h2, -, h4, -⟩ := roundRat_near p hq
  have hf : j * 2 ^ t ≤ p / q := (Nat.le_div_iff_mul_le hq).2 h
  have hpos : 0 < q * 2 ^ (ilog2 (p / q) - 52) := Nat.mul_pos hq (by positivity)
  by_cases hbig : 2 ^ (ilog2 (p / q) - 52 + 52) ≤ j * 2 ^ t
  · obtain ⟨c, hc⟩ := two_pow_dvd_of_le hj hbig
    rw [hm, hc, Nat.mul_comm (2 ^ _) c]
    apply Nat.mul_le_mul_right
    have h3 : c * (q * 2 ^ (ilog2 (p / q) - 52)) ≤ p := by
      calc c * (q * 2 ^ (ilog2 (p / q) - 52)) = j * 2 ^ t * q := by rw [hc]; ring
        _ ≤ p := h
    by_contra hlt
    have hmc : m + 1 ≤ c := by omega
    have : (m + 1) * (q * 2 ^ (ilog2 (p / q) - 52)) ≤ c * (q * 2 ^ (ilog2 (p / q) - 52)) :=
      Nat.mul_le_mul_right _ hmc
    rw [Nat.add_mul, Nat.one_mul] at this
    generalize m * (q * 2 ^ (ilog2 (p / q) - 52)) = X at h2 this
    generalize c * (q * 2 ^ (ilog2 (p / q) - 52)) = Z at h3 this
    omega
  · rcases shift_spec (p / q) with hs | hs
    · have hm52 : 2 ^ 52 ≤ m := by
        refine Nat.le_trans ?_ h4
        rw [← Nat.div_div_eq_div_mul]
        exact (Nat.le_div_iff_mul_le (by positivity)).2 (by rw [Nat.mul_comm]; exact hs)
      rw [hm]
      have : 2 ^ (ilog2 (p / q) - 52 + 52) ≤ m * 2 ^ (ilog2 (p / q) - 52) := by
        rw [pow_add, Nat.mul_comm]
        exact Nat.mul_le_mul_right _ hm52
      omega
    · rw [hs, Nat.zero_add] at hbig
      rw [hs, pow_zero, Nat.mul_one] at hm h2
      rw [hm]
      have : j * 2 ^ t * q ≤ p := h
      by_contra hlt
      have hmc : m + 1 ≤ j * 2 ^ t := by omega
      have := Nat.mul_le_mul_right q hmc
      rw [Nat.add_mul, Nat.one_mul] at this
      generalize m * q = X at h2 this
      generalize j * 2 ^ t * q = Z at h this
      omega

/-! ## The rounded square root -/

theorem newton_step_gt {n g : Nat} (hg : 0 < g) :
    n < ((g + n / g) / 2 + 1) * ((g + n / g) / 2 + 1) := by
  have h1 : n < (n / g + 1) * g := by
    have := Nat.lt_mul_div_succ n hg
    rwa [Nat.mul_comm] at this
  have h2 : g + n / g ≤ 2 * ((g + n / g) / 2) + 1 := by omega
  generalize n / g = a at h1 h2
  generalize (g + a) / 2 = k at h2
  have h3 : (g + a + 1) * (g + a + 1) ≤ 4 * ((k + 1) * (k + 1)) := by
    have : g + a + 1 ≤ 2 * (k + 1) := by omega
    calc (g + a + 1) * (g + a + 1) ≤ (2 * (k + 1)) * (2 * (k + 1)) := Nat.mul_le_mul this this
      _ = 4 * ((k + 1) * (k + 1)) := by ring
  have h4 : 4 * ((a + 1) * g) ≤ (g + a + 1) * (g + a + 1) := by
    have : (0 : Int) ≤ ((g : Int) - (a + 1)) * ((g : Int) - (a + 1)) := mul_self_nonneg _
    zify
    nlinarith
  omega

theorem sqrtLoop_spec (fuel : Nat) : ∀ n g, g ≤ fuel → n < (g + 1) * (g + 1) →
    sqrtLoop fuel n g * sqrtLoop fuel n g ≤ n ∧
      n < (sqrtLoop fuel n g + 1) * (sqrtLoop fuel n g + 1) := by
  induction fuel with
  | zero =>
    intro n g hg hn
    have hg0 : g = 0 := by omega
    subst hg0
    unfold sqrtLoop
    exact ⟨by omega, hn⟩
  | succ fuel ih =>
    intro n g hg hn
    unfold sqrtLoop
    simp only []
    by_cases hlt : (g + n / g) / 2 < g
    · rw [if_pos hlt]
      have hg0 : 0 < g := Nat.pos_of_ne_zero (by
        intro h0
        subst h0
        simp at hlt)
      exact ih n _ (Nat.le_of_lt_succ (Nat.lt_of_lt_of_le hlt hg)) (newton_step_gt hg0)
    · rw [if_neg hlt]
      refine ⟨?_, hn⟩
      by_cases hg0 : g = 0
      · subst hg0; exact Nat.zero_le _
      · have : g ≤ n / g := by omega
        exact (Nat.le_div_iff_mul_le (Nat.pos_of_ne_zero hg0)).1 this

theorem isqrt_spec (n : Nat) : isqrt n * isqrt n ≤ n ∧ n < (isqrt n + 1) * (isqrt n + 1) := by
  unfold isqrt
  apply sqrtLoop_spec _ _ _ (Nat.le_refl _)
  have h1 : n < 2 ^ (ilog2 n + 1) := by
    by_cases h0 : n = 0
    · rw [h0]; positivity
    · exact (ilog2_spec h0).2
  have h2 : 2 ^ (ilog2 n + 1) ≤ 2 ^ (ilog2 n / 2 + 1) * 2 ^ (ilog2 n / 2 + 1) := by
    rw [← pow_add]
    exact Nat.pow_le_pow_right (by norm_num) (by omega)
  have h3 : 2 ^ (ilog2 n / 2 + 1) * 2 ^ (ilog2 n / 2 + 1) <
      (2 ^ (ilog2 n / 2 + 1) + 1) * (2 ^ (ilog2 n / 2 + 1) + 1) := by
    generalize 2 ^ (ilog2 n / 2 + 1) = a
    nlinarith
  omega

/-- The result of `roundSqrt` is a multiple `r = m · h` of a power `h` of 2, within `h / 2`
of the root: `(2 r - h)² ≤ 4 n ≤ (2 r + h)²`; and `2⁵² · h ≤ r` when `n` is 2¹⁰⁴ or more. -/
theorem roundSqrt_near (n : Nat) :
    ∃ h : Nat, 0 < h ∧ h ≤ 2 * roundSqrt n + h ∧
      4 * n ≤ (2 * roundSqrt n + h) * (2 * roundSqrt n + h) ∧
      (0 < n → ((2 * roundSqrt n : Int) - h) * ((2 * roundSqrt n : Int) - h) ≤ 4 * n) ∧
      (2 ^ 104 ≤ n → 2 ^ 52 * h ≤ roundSqrt n) := by
  obtain ⟨hs1, hs2⟩ := isqrt_spec n
  unfold roundSqrt
  simp only []
  have hsh := shift_spec (isqrt n)
  generalize ilog2 (isqrt n) - 52 = sh at hsh
  have hhpos : 0 < 2 ^ sh := by positivity
  have hm1 : isqrt n / 2 ^ sh * 2 ^ sh ≤ isqrt n := Nat.div_mul_le_self _ _
  have hm2 : isqrt n < (isqrt n / 2 ^ sh + 1) * 2 ^ sh := by
    have := Nat.lt_mul_div_succ (isqrt n) hhpos
    rwa [Nat.mul_comm] at this
  have hbig : 2 ^ 104 ≤ n → 2 ^ 52 ≤ isqrt n / 2 ^ sh := by
    intro hn
    have hs52 : 2 ^ 52 ≤ isqrt n := by
      by_contra hlt
      have : isqrt n + 1 ≤ 2 ^ 52 := by omega
      have := Nat.mul_le_mul this this
      norm_num at this hn
      omega
    rcases hsh with h | h
    · exact (Nat.le_div_iff_mul_le hhpos).2 (by rw [Nat.mul_comm]; exact h)
    · rw [h, pow_zero, Nat.div_one]; exact hs52
  have hmpos : 0 < n → 1 ≤ isqrt n / 2 ^ sh := by
    intro hn
    have hs0 : 1 ≤ isqrt n := by
      by_contra hlt
      have : isqrt n = 0 := by omega
      rw [this] at hs2
      omega
    rcases hsh with h | h
    · refine (Nat.le_div_iff_mul_le hhpos).2 ?_
      have : 2 ^ sh * 1 ≤ 2 ^ sh * 2 ^ 52 := Nat.mul_le_mul_left _ (by norm_num)
      omega
    · rw [h, pow_zero, Nat.div_one]; exact hs0
  generalize isqrt n = s at hs1 hs2 hm1 hm2 hbig hmpos
  generalize hm : s / 2 ^ sh = m at hm1 hm2 hbig hmpos
  generalize 2 ^ sh = h at hhpos hm1 hm2
  refine ⟨h, hhpos, by omega, ?_⟩
  have hsq1 : (m * h) * (m * h) ≤ n := Nat.le_trans (Nat.mul_le_mul hm1 hm1) hs1
  have hsq2 : n < ((m + 1) * h) * ((m + 1) * h) := by
    have : s + 1 ≤ (m + 1) * h := hm2
    exact Nat.lt_of_lt_of_le hs2 (Nat.mul_le_mul this this)
  have hc : (2 * m + 1) * h = 2 * (m * h) + h := by ring
  have hc' : (2 * m + 1) * h = 2 * ((m + 1) * h) - h := by
    have : 2 * ((m + 1) * h) = (2 * m + 1) * h + h := by ring
    omega
  have key1 : ∀ r : Nat, r = m * h → 0 < n →
      ((2 * r : Int) - h) * ((2 * r : Int) - h) ≤ 4 * n := by
    intro r hr hn
    subst hr
    have h1 : (0 : Int) ≤ h := by positivity
    have h3 : ((m * h : Nat) : Int) * (m * h : Nat) ≤ n := by exact_mod_cast hsq1
    have hle : (h : Int) ≤ (m * h : Nat) := by
      have : 1 * h ≤ m * h := Nat.mul_le_mul_right _ (hmpos hn)
      rw [Nat.one_mul] at this
      exact_mod_cast this
    nlinarith
  have key2 : ∀ r : Nat, r = (m + 1) * h →
      4 * n ≤ (2 * r + h) * (2 * r + h) := by
    intro r hr
    subst hr
    nlinarith
  by_cases c1 : 4 * n < (2 * m + 1) * h * ((2 * m + 1) * h)
  · rw [if_pos c1]
    refine ⟨?_, key1 _ rfl, fun hn => Nat.mul_le_mul_right _ (hbig hn)⟩
    rw [← hc]; exact Nat.le_of_lt c1
  · rw [if_neg c1]
    have hup : ∀ r : Nat, r = (m + 1) * h → (2 ^ 104 ≤ n → 2 ^ 52 * h ≤ r) := by
      intro r hr hn
      subst hr
      have := hbig hn
      calc 2 ^ 52 * h ≤ m * h := Nat.mul_le_mul_right _ this
        _ ≤ (m + 1) * h := Nat.mul_le_mul_right _ (Nat.le_succ _)
    have hint : ((2 * ((m + 1) * h) : Nat) : Int) - h = ((2 * m + 1) * h : Nat) := by
      push_cast; ring
    by_cases c2 : (2 * m + 1) * h * ((2 * m + 1) * h) < 4 * n
    · rw [if_pos c2]
      refine ⟨key2 _ rfl, fun _ => ?_, hup _ rfl⟩
      have : (((2 * m + 1) * h : Nat) : Int) * ((2 * m + 1) * h : Nat) ≤ 4 * n := by
        exact_mod_cast Nat.le_of_lt c2
      rw [← hint] at this
      push_cast at this ⊢
      exact this
    · rw [if_neg c2]
      have heq : (2 * m + 1) * h * ((2 * m + 1) * h) = 4 * n := by omega
      rcases Nat.mod_two_eq_zero_or_one m with hpar | hpar
      · rw [hpar, Nat.add_zero]
        refine ⟨?_, key1 _ rfl, fun hn => by
          have := hbig hn
          exact Nat.mul_le_mul_right _ this⟩
        rw [← hc, heq]
      · rw [hpar]
        refine ⟨key2 _ rfl, fun _ => ?_, hup _ rfl⟩
        have : (((2 * m + 1) * h : Nat) : Int) * ((2 * m + 1) * h : Nat) ≤ 4 * n := by
          exact_mod_cast Nat.le_of_eq heq
        rw [← hint] at this
        push_cast at this ⊢
        exact this

theorem roundSqrt_zero : roundSqrt 0 = 0 := by decide!

/-! ## Doubles -/

theorem scale_eq : F64.scale = 2 ^ 1074 := by
  unfold F64.scale
  rfl

theorem scale_pos : 0 < F64.scale := by rw [scale_eq]; positivity

theorem F64.round_fin {neg : Bool} {p q : Nat} (h : roundRat p q < 2 ^ 2098) :
    F64.round neg p q = .fin (if neg then -(roundRat p q : Int) else (roundRat p q : Int)) := by
  unfold F64.round
  rw [if_neg (Nat.not_le.2 h)]

theorem F64.round_inf {neg : Bool} {p q : Nat} (h : 2 ^ 2098 ≤ roundRat p q) :
    F64.round neg p q = .inf neg := by
  unfold F64.round
  rw [if_pos h]

/-- A bound of the form `j · 2 ^ e` steps of 1, with `j` below 2⁵³, on the quotient is a bound
on `roundRat`. -/
theorem roundRat_le_scale {p q j e : Nat} (hq : 0 < q) (hj : j < 2 ^ 53)
    (h : p ≤ j * 2 ^ e * F64.scale * q) : roundRat p q ≤ j * 2 ^ e * F64.scale := by
  rw [scale_eq, Nat.mul_assoc j, ← pow_add] at h ⊢
  exact roundRat_le hq hj h

theorem roundRat_le_pow {p q e : Nat} (hq : 0 < q) (h : p ≤ 2 ^ e * F64.scale * q) :
    roundRat p q ≤ 2 ^ e * F64.scale := by
  have := @roundRat_le_scale p q 1 e hq (by norm_num) (by rwa [Nat.one_mul])
  rwa [Nat.one_mul] at this

theorem lt_huge {k r : Nat} (hk : k < 2 ^ 1024) (h : r ≤ k * F64.scale) : r < 2 ^ 2098 := by
  have h1 : k * F64.scale < 2 ^ 1024 * F64.scale := Nat.mul_lt_mul_of_pos_right hk scale_pos
  have h2 : 2 ^ 1024 * F64.scale ≤ 2 ^ 2098 := by
    rw [scale_eq]; norm_num
  omega

/-- A natural number below 2⁵³ is a double. -/
theorem F64.ofNat_eq {n : Nat} (h : n < 2 ^ 53) : F64.ofNat n = .fin ((n * F64.scale : Nat) : Int) := by
  have hr : roundRat (n * F64.scale) 1 = n * F64.scale := by
    have := @roundRat_exact 1 n 1074 Nat.one_pos h
    rwa [Nat.mul_one, ← scale_eq] at this
  unfold F64.ofNat
  rw [F64.round_fin (by
    rw [hr]
    exact lt_huge (Nat.lt_trans h (by norm_num)) (Nat.le_refl _)), hr]
  rfl

theorem F64.add_nat (a b : Nat) :
    (F64.fin (a : Int)).add (.fin (b : Int)) = F64.round false (a + b) 1 := by
  unfold F64.add
  have h1 : ¬((a : Int) + (b : Int) < 0) := by omega
  have h2 : ((a : Int) + (b : Int)).natAbs = a + b := by omega
  simp only [h1, h2, decide_False]

theorem F64.sub_nat (a b : Nat) :
    (F64.fin (a : Int)).sub (.fin (b : Int)) =
      F64.round (decide ((a : Int) - b < 0)) ((a : Int) - b).natAbs 1 := by
  unfold F64.sub F64.neg F64.add
  simp only [Int.sub_eq_add_neg]

theorem F64.mul_self_fin (k : Int) :
    (F64.fin k).mul (.fin k) = F64.round false (k.natAbs * k.natAbs) F64.scale := by
  unfold F64.mul
  have h1 : ¬(k * k < 0) := not_lt.2 (mul_self_nonneg k)
  simp only [h1, decide_False, Int.natAbs_mul]

theorem F64.div_nat (k : Int) {b : Nat} (hb : 0 < b) :
    (F64.fin k).div (.fin (b : Int)) =
      F64.round (decide (k < 0)) (k.natAbs * F64.scale) b := by
  unfold F64.div
  have h1 : ¬((b : Int) = 0) := by omega
  have h2 : ¬((b : Int) < 0) := by omega
  simp only [h1, h2, if_false, decide_False, Int.natAbs_ofNat, Bool.bne_false]

theorem F64.abs_round (neg : Bool) (p q : Nat) :
    (F64.round neg p q).abs = F64.round false p q := by
  unfold F64.round
  split
  · rfl
  · cases neg <;> simp [F64.abs]

theorem F64.gt_round_nat (p q c : Nat) (hc : c < 2 ^ 2098) :
    (F64.round false p q).gt (.fin (c : Int)) = decide (c < roundRat p q) := by
  unfold F64.round
  split
  · next h =>
    simp only [F64.gt, Bool.not_false]
    symm
    rw [decide_eq_true_eq]
    omega
  · simp only [F64.gt, Bool.false_eq_true, if_false, Nat.cast_lt]

theorem F64.ofNat_zero : F64.ofNat 0 = .fin 0 := by
  rw [F64.ofNat_eq (by norm_num)]
  simp

/-- The sum of natural numbers that stays below 2⁵³ is exact. -/
theorem foldl_add_exact (bs : List Nat) (a : Nat) (h : a + bs.sum < 2 ^ 53) :
    bs.foldl (fun (a : F64) (b : Nat) => a.add (F64.ofNat b))
        (F64.fin ((a * F64.scale : Nat) : Int)) =
      F64.fin (((a + bs.sum) * F64.scale : Nat) : Int) := by
  induction bs generalizing a with
  | nil => simp
  | cons b bs ih =>
    rw [List.sum_cons] at h
    rw [List.foldl_cons, List.sum_cons, F64.ofNat_eq (by omega), F64.add_nat]
    have hr : roundRat (a * F64.scale + b * F64.scale) 1 = (a + b) * F64.scale := by
      have := @roundRat_exact 1 (a + b) 1074 Nat.one_pos (by omega)
      rw [Nat.mul_one, ← scale_eq] at this
      rw [← Nat.add_mul]
      exact this
    rw [F64.round_fin (by
      rw [hr]
      exact lt_huge (Nat.lt_trans (show a + b < 2 ^ 53 by omega) (by norm_num)) (Nat.le_refl _)),
      hr]
    simp only [Bool.false_eq_true, if_false]
    rw [ih (a + b) (by omega), Nat.add_assoc]

theorem sumF64_exact {lens : List Nat} (h : lens.sum < 2 ^ 53) :
    sumF64 lens = .fin ((lens.sum * F64.scale : Nat) : Int) := by
  unfold sumF64
  have := foldl_add_exact lens 0 (by omega)
  rw [Nat.zero_add, Nat.zero_mul] at this
  rw [F64.ofNat_zero]
  exact this

/-! ## The size statistics in steps of 2⁻¹⁰⁷⁴ -/

theorem sum_le_of_small {lens : List Nat} (h : ∀ b ∈ lens, b < 2 ^ 32) :
    lens.sum ≤ lens.length * 2 ^ 32 := by
  induction lens with
  | nil => simp
  | cons b l ih =>
    rw [List.sum_cons, List.length_cons, Nat.add_mul, Nat.one_mul]
    have h1 := h b (List.mem_cons_self _ _)
    have h2 := ih fun c hc => h c (List.mem_cons_of_mem _ hc)
    omega

theorem small_sum {lens : List Nat} (h : SmallLengths lens) : lens.sum < 2 ^ 53 := by
  have h1 := sum_le_of_small h.2
  have h2 : lens.length * 2 ^ 32 ≤ 1024 * 2 ^ 32 := Nat.mul_le_mul_right _ h.1
  norm_num at h1 h2 ⊢
  omega

theorem meanUnits_le {lens : List Nat} (hne : lens ≠ []) (h : SmallLengths lens) :
    meanUnits lens ≤ 2 ^ 32 * F64.scale := by
  have hn : 0 < lens.length := List.length_pos.2 hne
  unfold meanUnits
  apply roundRat_le_pow (Nat.mul_pos hn scale_pos)
  have h1 := sum_le_of_small h.2
  calc lens.sum * F64.scale * F64.scale
      ≤ lens.length * 2 ^ 32 * F64.scale * F64.scale :=
        Nat.mul_le_mul_right _ (Nat.mul_le_mul_right _ h1)
    _ = 2 ^ 32 * F64.scale * (lens.length * F64.scale) := by ring

theorem meanF64_units {lens : List Nat} (hne : lens ≠ []) (h : SmallLengths lens) :
    meanF64 lens = .fin (meanUnits lens : Int) := by
  have hn : 0 < lens.length := List.length_pos.2 hne
  unfold meanF64
  rw [sumF64_exact (small_sum h), F64.ofNat_eq (show lens.length < 2 ^ 53 by
    have := h.1; norm_num; omega), F64.div_nat _ (Nat.mul_pos hn scale_pos)]
  have h1 : ¬(((lens.sum * F64.scale : Nat) : Int) < 0) := by omega
  rw [decide_eq_false h1, Int.natAbs_ofNat,
    F64.round_fin (lt_huge (by norm_num : 2 ^ 32 < 2 ^ 1024) (meanUnits_le hne h))]
  rfl

/-- The difference `b - mean` in steps of 2⁻¹⁰⁷⁴, with its sign. -/
theorem devUnits_le {lens : List Nat} (hne : lens ≠ []) (h : SmallLengths lens) {b : Nat}
    (hb : b < 2 ^ 32) : devUnits lens b ≤ 2 ^ 32 * F64.scale := by
  unfold devUnits
  apply roundRat_le_pow Nat.one_pos
  rw [Nat.mul_one]
  have h1 := meanUnits_le hne h
  have h2 : b * F64.scale ≤ 2 ^ 32 * F64.scale := Nat.mul_le_mul_right _ (Nat.le_of_lt hb)
  omega

theorem subF64_units {lens : List Nat} (hne : lens ≠ []) (h : SmallLengths lens) {b : Nat}
    (hb : b < 2 ^ 32) :
    ∃ k : Int, (F64.ofNat b).sub (meanF64 lens) = .fin k ∧ k.natAbs = devUnits lens b := by
  rw [meanF64_units hne h, F64.ofNat_eq (by norm_num at hb ⊢; omega), F64.sub_nat,
    F64.round_fin (lt_huge (by norm_num : 2 ^ 32 < 2 ^ 1024) (devUnits_le hne h hb))]
  refine ⟨_, rfl, ?_⟩
  split
  · rw [Int.natAbs_neg, Int.natAbs_ofNat]; rfl
  · rw [Int.natAbs_ofNat]; rfl

theorem sqUnits_le {lens : List Nat} (hne : lens ≠ []) (h : SmallLengths lens) {b : Nat}
    (hb : b < 2 ^ 32) : sqUnits lens b ≤ 2 ^ 64 * F64.scale := by
  unfold sqUnits
  apply roundRat_le_pow scale_pos
  have h1 := devUnits_le hne h hb
  calc devUnits lens b * devUnits lens b ≤ (2 ^ 32 * F64.scale) * (2 ^ 32 * F64.scale) :=
        Nat.mul_le_mul h1 h1
    _ = 2 ^ 64 * F64.scale * F64.scale := by ring

theorem sqF64_units {lens : List Nat} (hne : lens ≠ []) (h : SmallLengths lens) {b : Nat}
    (hb : b < 2 ^ 32) :
    ((F64.ofNat b).sub (meanF64 lens)).mul ((F64.ofNat b).sub (meanF64 lens)) =
      .fin (sqUnits lens b : Int) := by
  obtain ⟨k, hk, hab⟩ := subF64_units hne h hb
  rw [hk, F64.mul_self_fin, hab,
    F64.round_fin (lt_huge (by norm_num : 2 ^ 64 < 2 ^ 1024) (sqUnits_le hne h hb))]
  rfl

theorem fold_acc_le (lens : List Nat) (hne : lens ≠ []) (h : SmallLengths lens) :
    ∀ (bs : List Nat) (a k : Nat), a ≤ k * 2 ^ 64 * F64.scale → (∀ b ∈ bs, b < 2 ^ 32) →
      k + bs.length < 2 ^ 53 →
      bs.foldl (fun a b => roundRat (a + sqUnits lens b) 1) a ≤
        (k + bs.length) * 2 ^ 64 * F64.scale := by
  intro bs
  induction bs with
  | nil => intro a k ha _ _; simpa using ha
  | cons b bs ih =>
    intro a k ha hbs hk
    rw [List.length_cons] at hk
    rw [List.foldl_cons, List.length_cons, show k + (bs.length + 1) = (k + 1) + bs.length by omega]
    apply ih _ (k + 1) _ (fun c hc => hbs c (List.mem_cons_of_mem _ hc)) (by omega)
    apply roundRat_le_scale Nat.one_pos (show k + 1 < 2 ^ 53 by omega)
    have h1 := sqUnits_le hne h (hbs b (List.mem_cons_self _ _))
    rw [Nat.mul_one]
    calc a + sqUnits lens b ≤ k * 2 ^ 64 * F64.scale + 2 ^ 64 * F64.scale := Nat.add_le_add ha h1
      _ = (k + 1) * 2 ^ 64 * F64.scale := by ring

theorem accUnits_le {lens : List Nat} (hne : lens ≠ []) (h : SmallLengths lens) :
    accUnits lens lens ≤ lens.length * 2 ^ 64 * F64.scale := by
  have := fold_acc_le lens hne h lens 0 0 (by simp) h.2 (by
    have := h.1
    norm_num
    omega)
  rwa [Nat.zero_add] at this

theorem accF64_units (lens : List Nat) (hne : lens ≠ []) (h : SmallLengths lens) :
    ∀ (bs : List Nat) (a k : Nat), a ≤ k * 2 ^ 64 * F64.scale → (∀ b ∈ bs, b < 2 ^ 32) →
      k + bs.length ≤ 1024 →
      bs.foldl (fun (acc : F64) (b : Nat) =>
          acc.add (((F64.ofNat b).sub (meanF64 lens)).mul ((F64.ofNat b).sub (meanF64 lens))))
        (F64.fin (a : Int)) =
      F64.fin ((bs.foldl (fun a b => roundRat (a + sqUnits lens b) 1) a : Nat) : Int) := by
  intro bs
  induction bs with
  | nil => intro a k _ _ _; rfl
  | cons b bs ih =>
    intro a k ha hbs hk
    rw [List.length_cons] at hk
    have hb := hbs b (List.mem_cons_self _ _)
    have h1 := sqUnits_le hne h hb
    have hle : roundRat (a + sqUnits lens b) 1 ≤ (k + 1) * 2 ^ 64 * F64.scale := by
      apply roundRat_le_scale Nat.one_pos (show k + 1 < 2 ^ 53 by norm_num; omega)
      rw [Nat.mul_one]
      calc a + sqUnits lens b ≤ k * 2 ^ 64 * F64.scale + 2 ^ 64 * F64.scale :=
            Nat.add_le_add ha h1
        _ = (k + 1) * 2 ^ 64 * F64.scale := by ring
    have hfin : roundRat (a + sqUnits lens b) 1 < 2 ^ 2098 := by
      apply lt_huge (show (k + 1) * 2 ^ 64 < 2 ^ 1024 by norm_num; omega)
      exact hle
    rw [List.foldl_cons, List.foldl_cons, sqF64_units hne h hb, F64.add_nat, F64.round_fin hfin]
    exact ih _ (k + 1) hle (fun c hc => hbs c (List.mem_cons_of_mem _ hc)) (by omega)

theorem varUnits_le {lens : List Nat} (hne : lens ≠ []) (h : SmallLengths lens) :
    varUnits lens ≤ 2 ^ 64 * F64.scale := by
  have hn : 0 < lens.length := List.length_pos.2 hne
  unfold varUnits
  apply roundRat_le_pow (Nat.mul_pos hn scale_pos)
  calc accUnits lens lens * F64.scale ≤ lens.length * 2 ^ 64 * F64.scale * F64.scale :=
        Nat.mul_le_mul_right _ (accUnits_le hne h)
    _ = 2 ^ 64 * F64.scale * (lens.length * F64.scale) := by ring

theorem stdF64_units {lens : List Nat} (hne : lens ≠ []) (h : SmallLengths lens) :
    stdF64 lens = .fin (stdUnits lens : Int) := by
  have hn : 0 < lens.length := List.length_pos.2 hne
  unfold stdF64
  rw [F64.ofNat_zero, show (0 : Int) = ((0 : Nat) : Int) from rfl,
    accF64_units lens hne h lens 0 0 (by simp) h.2 (by have := h.1; omega),
    F64.ofNat_eq (show lens.length < 2 ^ 53 by have := h.1; norm_num; omega),
    F64.div_nat _ (Nat.mul_pos hn scale_pos)]
  have h1 : ¬(((accUnits lens lens : Nat) : Int) < 0) := by omega
  have h2 : ¬(((varUnits lens : Nat) : Int) < 0) := by omega
  show (F64.round (decide (((accUnits lens lens : Nat) : Int) < 0))
    (((accUnits lens lens : Nat) : Int).natAbs * F64.scale) (lens.length * F64.scale)).sqrt = _
  rw [decide_eq_false h1, Int.natAbs_ofNat,
    F64.round_fin (lt_huge (by norm_num : 2 ^ 64 < 2 ^ 1024) (varUnits_le hne h))]
  simp only [Bool.false_eq_true, if_false]
  show (F64.fin ((varUnits lens : Nat) : Int)).sqrt = _
  unfold F64.sqrt
  simp only [h2, if_false, Int.natAbs_ofNat]
  rfl

/-- The size test in steps of 2⁻¹⁰⁷⁴, for at most 1024 lengths below 2³²: the standard
deviation is not 0 and the rounded quotient of the distance from the mean by the standard
deviation is above 3. -/
theorem zAbove3_units {lens : List Nat} (hne : lens ≠ []) (h : SmallLengths lens) {x : Nat}
    (hx : x < 2 ^ 32) :
    zAbove3 lens x = decide (0 < stdUnits lens ∧
      3 * F64.scale < roundRat (devUnits lens x * F64.scale) (stdUnits lens)) := by
  have h3 : F64.ofNat 3 = .fin ((3 * F64.scale : Nat) : Int) := F64.ofNat_eq (by norm_num)
  have h3lt : 3 * F64.scale < 2 ^ 2098 := lt_huge (by norm_num : 3 < 2 ^ 1024) (Nat.le_refl _)
  unfold zAbove3 zScore
  rw [stdF64_units hne h, F64.ofNat_zero, h3]
  by_cases hs : 0 < stdUnits lens
  · have hgt : (F64.fin (stdUnits lens : Int)).gt (.fin 0) = true := by
      simp only [F64.gt, decide_eq_true_eq]
      exact_mod_cast hs
    obtain ⟨k, hk, hab⟩ := subF64_units hne h hx
    rw [if_pos hgt, hk, F64.div_nat _ hs, F64.abs_round, hab, F64.gt_round_nat _ _ _ h3lt,
      decide_eq_decide]
    exact (and_iff_right hs).symm
  · have hs0 : stdUnits lens = 0 := by omega
    have hgt : (F64.fin (stdUnits lens : Int)).gt (.fin 0) = false := by
      rw [hs0]
      simp [F64.gt]
    rw [if_neg (by rw [hgt]; exact Bool.false_ne_true)]
    simp only [F64.gt, hs, false_and, decide_False, decide_eq_false_iff_not, not_lt]
    exact Int.natCast_nonneg _

/-! ## The sum `total_bytes` -/

theorem lengthsOf_replicate (n : Nat) (p : Packet) :
    lengthsOf (List.replicate n p) = List.replicate n (origLenOr0 p) := by
  unfold lengthsOf
  rw [List.map_replicate]

theorem sumF64_append (l : List Nat) (b : Nat) :
    sumF64 (l ++ [b]) = (sumF64 l).add (F64.ofNat b) := by
  unfold sumF64
  rw [List.foldl_append]
  rfl

theorem sumF64_fullLengths :
    sumF64 (List.replicate 2097153 4294967295) =
      F64.fin ((9007203547611136 * F64.scale : Nat) : Int) := by
  have hrep : List.replicate 2097153 4294967295 = List.replicate 2097152 4294967295 ++ [4294967295] := by
    rw [show 2097153 = 2097152 + 1 from rfl, List.replicate_succ']
  have hsum : (List.replicate 2097152 4294967295).sum = 9007199252643840 := by
    rw [List.sum_replicate, smul_eq_mul]
  rw [hrep, sumF64_append, sumF64_exact (by rw [hsum]; norm_num), hsum,
    F64.ofNat_eq (by norm_num), F64.add_nat]
  decide!

theorem computeStats_total_bytes {packets : List Packet} (hne : packets ≠ []) :
    (computeStats packets).total_bytes = sumF64 (lengthsOf packets) := by
  rw [computeStats_nonempty hne]

/-! ## The busiest source when no name is inherited -/

theorem highVolume_some {m : Nat} {cnt : Option CountCell} (h : cnt ≠ some .text) :
    highVolume (some m) cnt = decide (m > 5 ∧ 10 * cellNum cnt > 6 * m) := by
  cases cnt with
  | none =>
    simp only [highVolume, cellNum]
    symm
    rw [decide_eq_false_iff_not]
    omega
  | some c =>
    cases c with
    | num n => rfl
    | text => exact absurd rfl h

/-- For a record whose source has the largest count, above 5, the high-volume rule fires,
when no source text is an inherited name. -/
theorem high_volume_fires {packets : List Packet} {p : Packet} (hown : OwnNames packets)
    (hp : p ∈ packets) (hs : hasSource p = true)
    (hmax : sourceCount packets (p.src_ip.getD "") = busiestCount packets)
    (h5 : 5 < busiestCount packets) :
    REASON_TEXT.high_volume (busiestCount packets) ∈
        (applyRules (aggOf packets) (lengthsOf packets) (maxIPOf packets) p).1 ∧
      300 ≤ (applyRules (aggOf packets) (lengthsOf packets) (maxIPOf packets) p).2 := by
  obtain ⟨s, hsrc, hne⟩ := hasSource_iff.1 hs
  have hin : s ∉ inheritedNames := by
    have := hown p hp
    rwa [hsrc, Option.getD_some] at this
  obtain ⟨hnt, hcnt⟩ := ipCounts_count packets hne hin
  rw [hsrc, Option.getD_some] at hmax
  have hrow : (highVolume (maxIPOf packets) ((aggOf packets).ipCounts.get (p.src_ip.getD "")),
      REASON_TEXT.high_volume (cellNum ((aggOf packets).ipCounts.get (p.src_ip.getD ""))), 300) ∈
      ruleTable (aggOf packets) (lengthsOf packets) (maxIPOf packets) p := by
    unfold ruleTable
    exact List.mem_cons_of_mem _ (List.mem_cons_self _ _)
  have hfire : highVolume (maxIPOf packets)
      ((aggOf packets).ipCounts.get (p.src_ip.getD "")) = true := by
    rw [hsrc, Option.getD_some, maxIPOf_eq packets hown, highVolume_some hnt,
      decide_eq_true_eq, hcnt, hmax]
    omega
  have htext : REASON_TEXT.high_volume
      (cellNum ((aggOf packets).ipCounts.get (p.src_ip.getD ""))) =
      REASON_TEXT.high_volume (busiestCount packets) := by
    rw [hsrc, Option.getD_some, hcnt, hmax]
  rw [applyRules_eq_table]
  constructor
  · rw [← htext]
    exact List.mem_map.2 ⟨_, List.mem_filter.2 ⟨hrow, hfire⟩, rfl⟩
  · exact fired_weight_le_sum _ hrow hfire

/-! ## Numbers within a factor of each other -/

theorem Within.zero (c : ℝ) : Within c 0 0 := by
  unfold Within
  simp

theorem Within.symm {c x y : ℝ} (h : Within c x y) : Within c y x := ⟨h.2, h.1⟩

theorem Within.trans {c d x y z : ℝ} (hc : 0 ≤ c) (hd : 0 ≤ d) (h1 : Within c x y)
    (h2 : Within d y z) : Within (c * d) x z := by
  unfold Within at *
  constructor
  · calc x ≤ c * y := h1.1
      _ ≤ c * (d * z) := mul_le_mul_of_nonneg_left h2.1 hc
      _ = c * d * z := by ring
  · calc z ≤ d * y := h2.2
      _ ≤ d * (c * x) := mul_le_mul_of_nonneg_left h1.2 hd
      _ = c * d * x := by ring

theorem Within.mono {c d x y : ℝ} (hx : 0 ≤ x) (hy : 0 ≤ y) (hcd : c ≤ d) (h : Within c x y) :
    Within d x y := by
  unfold Within at *
  exact ⟨h.1.trans (mul_le_mul_of_nonneg_right hcd hy),
    h.2.trans (mul_le_mul_of_nonneg_right hcd hx)⟩

theorem Within.add {c x y x' y' : ℝ} (h1 : Within c x y) (h2 : Within c x' y') :
    Within c (x + x') (y + y') := by
  unfold Within at *
  constructor
  · rw [mul_add]; exact add_le_add h1.1 h2.1
  · rw [mul_add]; exact add_le_add h1.2 h2.2

theorem Within.mul {c d x y x' y' : ℝ} (hc : 0 ≤ c) (hx : 0 ≤ x) (hy : 0 ≤ y)
    (hx' : 0 ≤ x') (hy' : 0 ≤ y') (h1 : Within c x y) (h2 : Within d x' y') :
    Within (c * d) (x * x') (y * y') := by
  unfold Within at *
  constructor
  · calc x * x' ≤ (c * y) * (d * y') :=
        mul_le_mul h1.1 h2.1 hx' (mul_nonneg hc hy)
      _ = c * d * (y * y') := by ring
  · calc y * y' ≤ (c * x) * (d * x') :=
        mul_le_mul h1.2 h2.2 hy' (mul_nonneg hc hx)
      _ = c * d * (x * x') := by ring

theorem Within.div_right {c x y : ℝ} (k : ℝ) (hk : 0 < k) (h : Within c x y) :
    Within c (x / k) (y / k) := by
  unfold Within at *
  constructor
  · rw [← mul_div_assoc]; exact div_le_div_of_nonneg_right h.1 hk.le
  · rw [← mul_div_assoc]; exact div_le_div_of_nonneg_right h.2 hk.le

theorem Within.mul_left {c x y : ℝ} (k : ℝ) (hk : 0 ≤ k) (h : Within c x y) :
    Within c (k * x) (k * y) := by
  unfold Within at *
  constructor
  · calc k * x ≤ k * (c * y) := mul_le_mul_of_nonneg_left h.1 hk
      _ = c * (k * y) := by ring
  · calc k * y ≤ k * (c * x) := mul_le_mul_of_nonneg_left h.2 hk
      _ = c * (k * x) := by ring

/-- Of two numbers within a factor of each other one is 0 when the other is. -/
theorem Within.eq_zero {c x y : ℝ} (hx : 0 ≤ x) (h : Within c x y) (hy : y = 0) : x = 0 := by
  unfold Within at h
  rw [hy, mul_zero] at h
  exact le_antisymm h.1 hx

/-- The factor of one rounding: 2⁵³ / (2⁵³ - 1). -/
theorem rho_pos : (0 : ℝ) < 2 ^ 53 / (2 ^ 53 - 1) := by norm_num

theorem rho_one_le : (1 : ℝ) ≤ 2 ^ 53 / (2 ^ 53 - 1) := by norm_num

theorem rho_pow_le (n : Nat) (hn : n ≤ 2048) :
    ((2 : ℝ) ^ 53 / (2 ^ 53 - 1)) ^ n ≤ 1 + 1 / 2 ^ 40 := by
  have key : ∀ k : Nat, k ≤ 2048 →
      ((2 : ℝ) ^ 53 / (2 ^ 53 - 1)) ^ k ≤ 1 + k * (1 / 2 ^ 51) := by
    intro k
    induction k with
    | zero => intro _; simp
    | succ k ih =>
      intro hk
      have h1 := ih (by omega)
      have hk' : (k : ℝ) ≤ 2048 := by exact_mod_cast (by omega : k ≤ 2048)
      have hk0 : (0 : ℝ) ≤ k := Nat.cast_nonneg k
      rw [pow_succ]
      have h2 : ((2 : ℝ) ^ 53 / (2 ^ 53 - 1)) = 1 + 1 / (2 ^ 53 - 1) := by norm_num
      have h3 : (0 : ℝ) ≤ 1 + 1 / (2 ^ 53 - 1) := by norm_num
      calc ((2 : ℝ) ^ 53 / (2 ^ 53 - 1)) ^ k * (2 ^ 53 / (2 ^ 53 - 1))
          ≤ (1 + k * (1 / 2 ^ 51)) * (2 ^ 53 / (2 ^ 53 - 1)) :=
            mul_le_mul_of_nonneg_right h1 rho_pos.le
        _ = (1 + k * (1 / 2 ^ 51)) * (1 + 1 / (2 ^ 53 - 1)) := by rw [h2]
        _ ≤ 1 + ((k + 1 : Nat) : ℝ) * (1 / 2 ^ 51) := by
            push_cast
            have h4 : (1 : ℝ) / (2 ^ 53 - 1) ≤ 1 / 2 ^ 52 := by norm_num
            have h5 : (0 : ℝ) ≤ 1 / (2 ^ 53 - 1) := by norm_num
            nlinarith [mul_nonneg hk0 h5]
  have h1 := key n hn
  have hn' : (n : ℝ) ≤ 2048 := by exact_mod_cast hn
  have : (n : ℝ) * (1 / 2 ^ 51) ≤ 1 / 2 ^ 40 := by
    calc (n : ℝ) * (1 / 2 ^ 51) ≤ 2048 * (1 / 2 ^ 51) :=
          mul_le_mul_of_nonneg_right hn' (by norm_num)
      _ = 1 / 2 ^ 40 := by norm_num
  linarith

/-! ## The roundings as factors -/

theorem roundRat_zero {q : Nat} (hq : 0 < q) : roundRat 0 q = 0 := by
  have := @roundRat_exact q 0 0 hq (by norm_num)
  simpa using this

/-- One rounding of a quotient that is 0 or at least 2⁵² keeps it within the factor
2⁵³ / (2⁵³ - 1). -/
theorem roundRat_within {p q : Nat} (hq : 0 < q) (h : p = 0 ∨ 2 ^ 52 * q ≤ p) :
    Within (2 ^ 53 / (2 ^ 53 - 1)) (roundRat p q : ℝ) ((p : ℝ) / q) := by
  rcases h with h | h
  · subst h
    rw [roundRat_zero hq]
    simp only [Nat.cast_zero, zero_div]
    exact Within.zero _
  · obtain ⟨h1, h2⟩ := roundRat_bound hq h
    norm_num at h1 h2
    have h1' : (9007199254740992 : ℝ) * ((roundRat p q : ℝ) * q) ≤ 9007199254740993 * p := by
      exact_mod_cast h1
    have h2' : (9007199254740991 : ℝ) * p ≤ 9007199254740992 * ((roundRat p q : ℝ) * q) := by
      exact_mod_cast h2
    have hq' : (0 : ℝ) < q := Nat.cast_pos.2 hq
    have hp' : (0 : ℝ) ≤ p := Nat.cast_nonneg p
    generalize (roundRat p q : ℝ) = r at h1' h2'
    generalize (p : ℝ) = P at h1' h2' hp'
    generalize (q : ℝ) = Q at h1' h2' hq'
    unfold Within
    constructor
    · rw [← mul_div_assoc, le_div_iff₀ hq']
      norm_num
      rw [div_mul_eq_mul_div, le_div_iff₀ (by norm_num)]
      linarith
    · rw [div_le_iff₀ hq']
      norm_num
      rw [div_mul_eq_mul_div, div_mul_eq_mul_div, le_div_iff₀ (by norm_num)]
      linarith

/-- One rounding of a whole number keeps it within the factor 2⁵³ / (2⁵³ - 1). -/
theorem roundInt_within (p : Nat) :
    Within (2 ^ 53 / (2 ^ 53 - 1)) (roundRat p 1 : ℝ) (p : ℝ) := by
  by_cases h : p < 2 ^ 53
  · rw [roundRat_small h]
    have hp : (0 : ℝ) ≤ p := Nat.cast_nonneg p
    unfold Within
    constructor <;> nlinarith [rho_one_le]
  · have := roundRat_within Nat.one_pos (Or.inr (show 2 ^ 52 * 1 ≤ p by
      norm_num at h ⊢; omega))
    simpa using this

/-- The rounded root of a number that is 0 or at least 2¹⁰⁴: its square is within the
square of the factor 2⁵³ / (2⁵³ - 1) of the number. -/
theorem roundSqrt_within {n : Nat} (h : n = 0 ∨ 2 ^ 104 ≤ n) :
    Within ((2 ^ 53 / (2 ^ 53 - 1)) ^ 2) ((roundSqrt n : ℝ) ^ 2) (n : ℝ) := by
  rcases h with h | h
  · subst h
    rw [roundSqrt_zero]
    simp only [Nat.cast_zero, ne_eq, OfNat.ofNat_ne_zero, not_false_eq_true, zero_pow]
    exact Within.zero _
  · obtain ⟨k, hk, -, h1, h2, h3⟩ := roundSqrt_near n
    have hn : 0 < n := Nat.lt_of_lt_of_le (by norm_num) h
    have h2 := h2 hn
    have h3 := h3 h
    have h1' : (4 : ℝ) * n ≤ (2 * (roundSqrt n : ℝ) + k) * (2 * (roundSqrt n : ℝ) + k) := by
      exact_mod_cast h1
    have h2' : (2 * (roundSqrt n : ℝ) - k) * (2 * (roundSqrt n : ℝ) - k) ≤ 4 * n := by
      exact_mod_cast h2
    have h3' : (2 : ℝ) ^ 52 * k ≤ (roundSqrt n : ℝ) := by exact_mod_cast h3
    have hk' : (0 : ℝ) < k := Nat.cast_pos.2 hk
    have hn' : (0 : ℝ) ≤ n := Nat.cast_nonneg n
    generalize (roundSqrt n : ℝ) = r at h1' h2' h3'
    generalize (n : ℝ) = N at h1' h2' hn'
    generalize (k : ℝ) = K at h1' h2' h3' hk'
    have hr : 0 ≤ r := le_trans (by positivity) h3'
    have hK : K ≤ r / 2 ^ 52 := by
      rw [le_div_iff₀ (by positivity)]
      linarith
    unfold Within
    constructor
    · have hlow : r * (2 - 1 / 2 ^ 52) ≤ 2 * r - K := by
        have : r * (2 - 1 / 2 ^ 52) = 2 * r - r / 2 ^ 52 := by ring
        linarith
      have hnn : 0 ≤ r * (2 - 1 / 2 ^ 52) := mul_nonneg hr (by norm_num)
      have hsq := mul_le_mul hlow hlow hnn (le_trans hnn hlow)
      have h4 : (r * (2 - 1 / 2 ^ 52)) * (r * (2 - 1 / 2 ^ 52)) ≤ 4 * N := le_trans hsq h2'
      have h5 : r ^ 2 * ((2 - 1 / 2 ^ 52) ^ 2 / 4) ≤ N := by
        generalize (2 - 1 / 2 ^ 52 : ℝ) = a at h4 ⊢
        have : r ^ 2 * (a ^ 2 / 4) = r * a * (r * a) / 4 := by ring
        rw [this]
        linarith
      have h6 : ((2 : ℝ) ^ 53 / (2 ^ 53 - 1)) ^ 2 * ((2 - 1 / 2 ^ 52) ^ 2 / 4) = 1 := by
        norm_num
      calc r ^ 2 = ((2 : ℝ) ^ 53 / (2 ^ 53 - 1)) ^ 2 * (r ^ 2 * ((2 - 1 / 2 ^ 52) ^ 2 / 4)) := by
            rw [mul_comm (r ^ 2), ← mul_assoc, h6, one_mul]
        _ ≤ ((2 : ℝ) ^ 53 / (2 ^ 53 - 1)) ^ 2 * N :=
            mul_le_mul_of_nonneg_left h5 (by positivity)
    · have hup : 2 * r + K ≤ r * (2 + 1 / 2 ^ 52) := by
        have : r * (2 + 1 / 2 ^ 52) = 2 * r + r / 2 ^ 52 := by ring
        linarith
      have hnn : 0 ≤ 2 * r + K := by linarith
      have hsq := mul_le_mul hup hup hnn (le_trans hnn hup)
      have h4 : 4 * N ≤ (r * (2 + 1 / 2 ^ 52)) * (r * (2 + 1 / 2 ^ 52)) := le_trans h1' hsq
      have h5 : N ≤ r ^ 2 * ((2 + 1 / 2 ^ 52) ^ 2 / 4) := by
        generalize (2 + 1 / 2 ^ 52 : ℝ) = a at h4 ⊢
        have : r ^ 2 * (a ^ 2 / 4) = r * a * (r * a) / 4 := by ring
        rw [this]
        linarith
      have h6 : ((2 : ℝ) + 1 / 2 ^ 52) ^ 2 / 4 ≤ ((2 : ℝ) ^ 53 / (2 ^ 53 - 1)) ^ 2 := by
        norm_num
      calc N ≤ r ^ 2 * ((2 + 1 / 2 ^ 52) ^ 2 / 4) := h5
        _ ≤ r ^ 2 * ((2 : ℝ) ^ 53 / (2 ^ 53 - 1)) ^ 2 :=
            mul_le_mul_of_nonneg_left h6 (by positivity)
        _ = ((2 : ℝ) ^ 53 / (2 ^ 53 - 1)) ^ 2 * r ^ 2 := mul_comm _ _

/-! ## The mean and the deviations, up to rounding -/

theorem scale_ge : 2 ^ 200 ≤ F64.scale := by
  rw [scale_eq]; norm_num

theorem scale_real_ge : (2 : ℝ) ^ 200 ≤ (F64.scale : ℝ) := by
  exact_mod_cast scale_ge

/-- The mean in steps of 2⁻¹⁰⁷⁴ is within one rounding of the exact mean. -/
theorem mean_within {lens : List Nat} (hne : lens ≠ []) (h : SmallLengths lens) :
    Within (2 ^ 53 / (2 ^ 53 - 1)) (meanUnits lens : ℝ)
      ((F64.scale : ℝ) * (((lens.sum : Nat) : ℝ) / lens.length)) := by
  have hn : 0 < lens.length := List.length_pos.2 hne
  have hq : 0 < lens.length * F64.scale := Nat.mul_pos hn scale_pos
  have hcond : lens.sum * F64.scale * F64.scale = 0 ∨
      2 ^ 52 * (lens.length * F64.scale) ≤ lens.sum * F64.scale * F64.scale := by
    rcases Nat.eq_zero_or_pos lens.sum with h0 | hpos
    · left; rw [h0]; simp
    · right
      have h1 : 2 ^ 52 * lens.length ≤ F64.scale := by
        have := h.1
        have := scale_ge
        calc 2 ^ 52 * lens.length ≤ 2 ^ 52 * 1024 := Nat.mul_le_mul_left _ h.1
          _ ≤ 2 ^ 200 := by norm_num
          _ ≤ F64.scale := scale_ge
      calc 2 ^ 52 * (lens.length * F64.scale) = (2 ^ 52 * lens.length) * F64.scale := by ring
        _ ≤ F64.scale * F64.scale := Nat.mul_le_mul_right _ h1
        _ = 1 * F64.scale * F64.scale := by ring
        _ ≤ lens.sum * F64.scale * F64.scale :=
            Nat.mul_le_mul_right _ (Nat.mul_le_mul_right _ hpos)
  have := roundRat_within hq hcond
  unfold meanUnits
  have hg : (0 : ℝ) < (F64.scale : ℝ) := Nat.cast_pos.2 scale_pos
  have hn' : (0 : ℝ) < (lens.length : ℝ) := Nat.cast_pos.2 hn
  have heq : ((lens.sum * F64.scale * F64.scale : Nat) : ℝ) / ((lens.length * F64.scale : Nat) : ℝ)
      = (F64.scale : ℝ) * (((lens.sum : Nat) : ℝ) / lens.length) := by
    push_cast
    field_simp
    ring
  rwa [heq] at this

/-- When the mean is a whole number it is computed exactly. -/
theorem mean_exact {lens : List Nat} (hne : lens ≠ []) (h : SmallLengths lens) {c : Nat}
    (hc : lens.sum = lens.length * c) : meanUnits lens = c * F64.scale := by
  have hn : 0 < lens.length := List.length_pos.2 hne
  have hq : 0 < lens.length * F64.scale := Nat.mul_pos hn scale_pos
  have hc53 : c < 2 ^ 53 := by
    have h1 := small_sum h
    have h2 : 1 * c ≤ lens.length * c := Nat.mul_le_mul_right _ hn
    omega
  have := @roundRat_exact (lens.length * F64.scale) c 1074 hq hc53
  unfold meanUnits
  rw [← scale_eq] at this
  rw [← this, hc]
  congr 1
  ring
theorem mean_le {lens : List Nat} (hne : lens ≠ []) (h : SmallLengths lens) :
    ((lens.sum : Nat) : ℝ) / lens.length ≤ 2 ^ 32 := by
  have hn : (0 : ℝ) < (lens.length : ℝ) := Nat.cast_pos.2 (List.length_pos.2 hne)
  rw [div_le_iff₀ hn]
  have := sum_le_of_small h.2
  have : ((lens.sum : Nat) : ℝ) ≤ (lens.length : ℝ) * 2 ^ 32 := by exact_mod_cast this
  linarith

/-- A length that is not the mean is at least 1 / 1024 away from it. -/
theorem dev_ge {lens : List Nat} (h : SmallLengths lens) {b : Nat}
    (hb : lens.length * b ≠ lens.sum) (hn : 0 < lens.length) :
    (1 : ℝ) / 1024 ≤ |(b : ℝ) - ((lens.sum : Nat) : ℝ) / lens.length| := by
  have hn' : (0 : ℝ) < (lens.length : ℝ) := Nat.cast_pos.2 hn
  have h3 : (lens.length : ℝ) ≤ 1024 := by exact_mod_cast h.1
  generalize lens.sum = S at hb ⊢
  generalize lens.length = n at hb hn' h3 ⊢
  have h1 : (1 : ℝ) ≤ |(n : ℝ) * b - S| := by
    have hz : ((n : Int) * b - (S : Int)) ≠ 0 := by
      intro h0
      apply hb
      have : (n : Int) * b = (S : Int) := by omega
      exact_mod_cast this
    have := Int.one_le_abs hz
    have h2 : ((1 : Int) : ℝ) ≤ ((|(n : Int) * b - (S : Int)| : Int) : ℝ) :=
      Int.cast_le.2 this
    rw [Int.cast_abs] at h2
    push_cast at h2
    exact h2
  have h2 : (b : ℝ) - (S : ℝ) / n = ((n : ℝ) * b - S) / n := by
    field_simp
    ring
  rw [h2, abs_div, abs_of_pos hn', le_div_iff₀ hn']
  linarith

/-- The rounded distance of a length from the rounded mean, in steps of 2⁻¹⁰⁷⁴, is within
1023 / 1022 of the exact distance. -/
theorem dev_zero {lens : List Nat} (hne : lens ≠ []) (h : SmallLengths lens) {b : Nat}
    (hmean : lens.length * b = lens.sum) : devUnits lens b = 0 := by
  have hM := mean_exact hne h hmean.symm
  unfold devUnits
  rw [hM]
  simp only [Nat.cast_mul, sub_self, Int.natAbs_zero]
  exact roundRat_zero Nat.one_pos

theorem dev_within {lens : List Nat} (hne : lens ≠ []) (h : SmallLengths lens) (b : Nat) :
    Within (1023 / 1022) (devUnits lens b : ℝ)
      ((F64.scale : ℝ) * |(b : ℝ) - ((lens.sum : Nat) : ℝ) / lens.length|) := by
  have hn : 0 < lens.length := List.length_pos.2 hne
  have hn' : (0 : ℝ) < (lens.length : ℝ) := Nat.cast_pos.2 hn
  have hg : (0 : ℝ) < (F64.scale : ℝ) := Nat.cast_pos.2 scale_pos
  by_cases hmean : lens.length * b = lens.sum
  · have hd : devUnits lens b = 0 := dev_zero hne h hmean
    have hz : (b : ℝ) - ((lens.sum : Nat) : ℝ) / lens.length = 0 := by
      rw [← hmean]
      push_cast
      field_simp
    rw [hd, hz]
    simp only [Nat.cast_zero, abs_zero, mul_zero]
    exact Within.zero _
  · have hA := mean_within hne h
    have hmu := mean_le hne h
    have hmu0 : (0 : ℝ) ≤ ((lens.sum : Nat) : ℝ) / lens.length := by positivity
    have hD := dev_ge h hmean hn
    have hdev := roundInt_within ((b * F64.scale : Nat) - (meanUnits lens : Int)).natAbs
    have hcast : ((((b * F64.scale : Nat) - (meanUnits lens : Int)).natAbs : Nat) : ℝ) =
        |(b : ℝ) * F64.scale - (meanUnits lens : ℝ)| := by
      rw [Nat.cast_natAbs]
      push_cast
      rfl
    rw [hcast] at hdev
    have hdev' : Within (2 ^ 53 / (2 ^ 53 - 1)) (devUnits lens b : ℝ)
        |(b : ℝ) * F64.scale - (meanUnits lens : ℝ)| := hdev
    have hd0 : (0 : ℝ) ≤ (devUnits lens b : ℝ) := Nat.cast_nonneg _
    generalize (devUnits lens b : ℝ) = d at hdev' hd0
    generalize (meanUnits lens : ℝ) = M at hA hdev'
    generalize ((lens.sum : Nat) : ℝ) / lens.length = mu at hA hmu hmu0 hD
    generalize (F64.scale : ℝ) = g at hA hdev' hg
    generalize (b : ℝ) = B at hdev' hD
    unfold Within at hA
    have he : |M - g * mu| ≤ g / 2 ^ 20 := by
      rw [abs_le]
      have hgm : 0 ≤ g * mu := mul_nonneg hg.le hmu0
      have hgm' : g * mu ≤ g * 2 ^ 32 := mul_le_mul_of_nonneg_left hmu hg.le
      have hr1 : (2 : ℝ) ^ 53 / (2 ^ 53 - 1) = 1 + 1 / (2 ^ 53 - 1) := by norm_num
      rw [hr1] at hA
      have hM0 : 0 ≤ M := by nlinarith [hA.2]
      have hd1 : (1 : ℝ) / (2 ^ 53 - 1) ≤ 1 / 2 ^ 52 := by norm_num
      have hd0 : (0 : ℝ) ≤ 1 / (2 ^ 53 - 1) := by norm_num
      generalize (1 : ℝ) / (2 ^ 53 - 1) = dl at hA hd1 hd0
      have hM2 : M ≤ 2 * (g * 2 ^ 32) := by
        have : dl ≤ 1 := le_trans hd1 (by norm_num)
        nlinarith [hA.1]
      have h52 : g / 2 ^ 20 = (1 / 2 ^ 52) * (g * 2 ^ 32) := by
        field_simp
        ring
      constructor
      · have : dl * M ≤ (1 / 2 ^ 52) * (2 * (g * 2 ^ 32)) :=
          mul_le_mul hd1 hM2 hM0 (by norm_num)
        have h20 : (1 / 2 ^ 52 : ℝ) * (2 * (g * 2 ^ 32)) = g / 2 ^ 20 * 2 := by
          field_simp
          ring
        nlinarith [hA.2]
      · have : dl * (g * mu) ≤ (1 / 2 ^ 52) * (g * 2 ^ 32) :=
          mul_le_mul hd1 hgm' hgm (by norm_num)
        nlinarith [hA.1]
    have hy : g * |B - mu| = |g * (B - mu)| := by
      rw [abs_mul, abs_of_pos hg]
    have hxy : abs (abs (B * g - M) - g * abs (B - mu)) ≤ g / 2 ^ 20 := by
      rw [hy]
      refine le_trans (abs_abs_sub_abs_le_abs_sub _ _) ?_
      have : B * g - M - g * (B - mu) = -(M - g * mu) := by ring
      rw [this, abs_neg]
      exact he
    have hy0 : g / 2 ^ 20 ≤ g * |B - mu| / 1024 := by
      have : g * (1 / 1024) ≤ g * |B - mu| := mul_le_mul_of_nonneg_left hD hg.le
      have h20 : g / 2 ^ 20 = g * (1 / 1024) / 1024 := by ring
      rw [h20]
      exact div_le_div_of_nonneg_right this (by norm_num)
    have hynn : 0 ≤ g * |B - mu| := mul_nonneg hg.le (abs_nonneg _)
    generalize g * |B - mu| = y at hxy hy0 hynn ⊢
    generalize |B * g - M| = x at hxy hdev'
    rw [abs_le] at hxy
    have hw : Within (1024 / 1023) x y := by
      unfold Within
      constructor <;> linarith [hxy.1, hxy.2]
    have := Within.trans rho_pos.le (by norm_num) hdev' hw
    exact Within.mono hd0 hynn (by norm_num) this
/-- The rounded square of the distance, in steps of 2⁻¹⁰⁷⁴, is within 1.002 of the exact
square. -/
theorem sq_within {lens : List Nat} (hne : lens ≠ []) (h : SmallLengths lens) (b : Nat) :
    Within (1002 / 1000) (sqUnits lens b : ℝ)
      ((F64.scale : ℝ) * ((b : ℝ) - ((lens.sum : Nat) : ℝ) / lens.length) ^ 2) := by
  have hn : 0 < lens.length := List.length_pos.2 hne
  have hg : (0 : ℝ) < (F64.scale : ℝ) := Nat.cast_pos.2 scale_pos
  have hg100 := scale_real_ge
  have hd := dev_within hne h b
  have hd0 : (0 : ℝ) ≤ (devUnits lens b : ℝ) := Nat.cast_nonneg _
  have hcond : devUnits lens b * devUnits lens b = 0 ∨
      2 ^ 52 * F64.scale ≤ devUnits lens b * devUnits lens b := by
    by_cases hz : devUnits lens b = 0
    · left; rw [hz]
    · right
      have hmean : lens.length * b ≠ lens.sum := fun hm => hz (dev_zero hne h hm)
      have hD := dev_ge h hmean hn
      have : (2 : ℝ) ^ 52 * (F64.scale : ℝ) ≤ (devUnits lens b : ℝ) * (devUnits lens b : ℝ) := by
        generalize (devUnits lens b : ℝ) = d at hd hd0
        generalize |(b : ℝ) - ((lens.sum : Nat) : ℝ) / lens.length| = D at hd hD
        generalize (F64.scale : ℝ) = g at hd hg hg100
        unfold Within at hd
        have h1 : g / 2048 ≤ d := by
          have : g * (1 / 1024) ≤ g * D := mul_le_mul_of_nonneg_left hD hg.le
          linarith [hd.2]
        have h2 : 0 ≤ g / 2048 := by positivity
        have h3 : g / 2048 * (g / 2048) ≤ d * d := mul_le_mul h1 h1 h2 hd0
        have h4 : 2 ^ 52 * g ≤ g / 2048 * (g / 2048) := by
          have : g / 2048 * (g / 2048) = g * (g / 2 ^ 22) := by ring
          rw [this, mul_comm]
          apply mul_le_mul_of_nonneg_left _ hg.le
          rw [le_div_iff₀ (by norm_num)]
          calc (2 : ℝ) ^ 52 * 2 ^ 22 ≤ 2 ^ 200 := by norm_num
            _ ≤ g := hg100
        linarith
      exact_mod_cast this
  have hr := roundRat_within scale_pos hcond
  have hsq : Within (1023 / 1022 * (1023 / 1022))
      ((devUnits lens b : ℝ) * (devUnits lens b : ℝ) / F64.scale)
      ((F64.scale : ℝ) * ((b : ℝ) - ((lens.sum : Nat) : ℝ) / lens.length) ^ 2) := by
    have hm := Within.mul (by norm_num) hd0
      (mul_nonneg hg.le (abs_nonneg ((b : ℝ) - ((lens.sum : Nat) : ℝ) / lens.length))) hd0
      (mul_nonneg hg.le (abs_nonneg ((b : ℝ) - ((lens.sum : Nat) : ℝ) / lens.length))) hd hd
    have := Within.div_right (F64.scale : ℝ) hg hm
    have heq : (F64.scale : ℝ) * |(b : ℝ) - ((lens.sum : Nat) : ℝ) / lens.length| *
        ((F64.scale : ℝ) * |(b : ℝ) - ((lens.sum : Nat) : ℝ) / lens.length|) / F64.scale =
        (F64.scale : ℝ) * ((b : ℝ) - ((lens.sum : Nat) : ℝ) / lens.length) ^ 2 := by
      generalize (b : ℝ) - ((lens.sum : Nat) : ℝ) / lens.length = D
      generalize (F64.scale : ℝ) = g at hg
      have h2 : |D| * |D| = D ^ 2 := by rw [← sq, sq_abs]
      calc g * |D| * (g * |D|) / g = g * (|D| * |D|) * g / g := by ring
        _ = g * (|D| * |D|) := mul_div_cancel_right₀ _ hg.ne'
        _ = g * D ^ 2 := by rw [h2]
    rwa [heq] at this
  unfold sqUnits
  have hcast : ((devUnits lens b * devUnits lens b : Nat) : ℝ) / (F64.scale : ℝ) =
      (devUnits lens b : ℝ) * (devUnits lens b : ℝ) / F64.scale := by
    push_cast
    rfl
  rw [hcast] at hr
  have := Within.trans rho_pos.le (by norm_num) hr hsq
  exact Within.mono (Nat.cast_nonneg _) (mul_nonneg hg.le (sq_nonneg _)) (by norm_num) this
/-! ## The standard deviation, up to rounding -/

theorem acc_fold_within {lens : List Nat} (hne : lens ≠ []) (h : SmallLengths lens) :
    ∀ (bs : List Nat) (a : Nat) (A : ℝ) (j : Nat),
      Within ((2 ^ 53 / (2 ^ 53 - 1)) ^ j * (1002 / 1000)) (a : ℝ) ((F64.scale : ℝ) * A) →
      Within ((2 ^ 53 / (2 ^ 53 - 1)) ^ (j + bs.length) * (1002 / 1000))
        ((bs.foldl (fun a b => roundRat (a + sqUnits lens b) 1) a : Nat) : ℝ)
        ((F64.scale : ℝ) * (A + (bs.map fun (b : Nat) =>
          ((b : ℝ) - ((lens.sum : Nat) : ℝ) / lens.length) ^ 2).sum)) := by
  intro bs
  induction bs with
  | nil =>
    intro a A j ha
    simpa using ha
  | cons b bs ih =>
    intro a A j ha
    rw [List.foldl_cons, List.map_cons, List.sum_cons, List.length_cons,
      show j + (bs.length + 1) = (j + 1) + bs.length by omega, ← add_assoc]
    apply ih
    have h1 := roundInt_within (a + sqUnits lens b)
    have hsq := sq_within hne h b
    have hg : (0 : ℝ) ≤ (F64.scale : ℝ) := Nat.cast_nonneg _
    have hpow : (1 : ℝ) ≤ (2 ^ 53 / (2 ^ 53 - 1)) ^ j := one_le_pow₀ rho_one_le
    have hsq' : Within ((2 ^ 53 / (2 ^ 53 - 1)) ^ j * (1002 / 1000)) (sqUnits lens b : ℝ)
        ((F64.scale : ℝ) * ((b : ℝ) - ((lens.sum : Nat) : ℝ) / lens.length) ^ 2) := by
      apply Within.mono (Nat.cast_nonneg _) (mul_nonneg hg (sq_nonneg _)) _ hsq
      have : (1002 / 1000 : ℝ) = 1 * (1002 / 1000) := by ring
      calc (1002 / 1000 : ℝ) = 1 * (1002 / 1000) := this
        _ ≤ (2 ^ 53 / (2 ^ 53 - 1)) ^ j * (1002 / 1000) :=
            mul_le_mul_of_nonneg_right hpow (by norm_num)
    have h2 := Within.add ha hsq'
    rw [← mul_add] at h2
    have h2' : Within ((2 ^ 53 / (2 ^ 53 - 1)) ^ j * (1002 / 1000))
        ((a + sqUnits lens b : Nat) : ℝ)
        ((F64.scale : ℝ) * (A + ((b : ℝ) - ((lens.sum : Nat) : ℝ) / lens.length) ^ 2)) := by
      rw [Nat.cast_add]
      exact h2
    have hnn : (0 : ℝ) ≤ (2 ^ 53 / (2 ^ 53 - 1)) ^ j * (1002 / 1000) :=
      mul_nonneg (le_trans (by norm_num) hpow) (by norm_num)
    have h3 := Within.trans rho_pos.le hnn h1 h2'
    rw [pow_succ, mul_comm ((2 ^ 53 / (2 ^ 53 - 1)) ^ j) (2 ^ 53 / (2 ^ 53 - 1)), mul_assoc]
    exact h3

/-- The sum of the rounded squares is within 1.0021 of the exact sum of the squared
distances. -/
theorem acc_within {lens : List Nat} (hne : lens ≠ []) (h : SmallLengths lens) :
    Within (10021 / 10000) (accUnits lens lens : ℝ)
      ((F64.scale : ℝ) * (lens.map fun (b : Nat) =>
        ((b : ℝ) - ((lens.sum : Nat) : ℝ) / lens.length) ^ 2).sum) := by
  have h0 : Within ((2 ^ 53 / (2 ^ 53 - 1)) ^ 0 * (1002 / 1000)) ((0 : Nat) : ℝ)
      ((F64.scale : ℝ) * 0) := by
    simp only [Nat.cast_zero, mul_zero]
    exact Within.zero _
  have := acc_fold_within hne h lens 0 0 0 h0
  simp only [zero_add] at this
  have hsum : (0 : ℝ) ≤ (lens.map fun (b : Nat) =>
      ((b : ℝ) - ((lens.sum : Nat) : ℝ) / lens.length) ^ 2).sum :=
    List.sum_nonneg fun x hx => by
      obtain ⟨b, -, rfl⟩ := List.mem_map.1 hx
      exact sq_nonneg _
  apply Within.mono (Nat.cast_nonneg _) (mul_nonneg (Nat.cast_nonneg _) hsum) _ this
  have hp := rho_pow_le lens.length (le_trans h.1 (by norm_num))
  calc ((2 : ℝ) ^ 53 / (2 ^ 53 - 1)) ^ lens.length * (1002 / 1000)
      ≤ (1 + 1 / 2 ^ 40) * (1002 / 1000) := mul_le_mul_of_nonneg_right hp (by norm_num)
    _ ≤ 10021 / 10000 := by norm_num
theorem sumsq_nonneg (lens : List Nat) :
    (0 : ℝ) ≤ (lens.map fun (b : Nat) =>
      ((b : ℝ) - ((lens.sum : Nat) : ℝ) / lens.length) ^ 2).sum :=
  List.sum_nonneg fun x hx => by
    obtain ⟨b, -, rfl⟩ := List.mem_map.1 hx
    exact sq_nonneg _

/-- When the sum of the rounded squares is not 0 it is at least 2⁵² times the number of
lengths. -/
theorem acc_big {lens : List Nat} (hne : lens ≠ []) (h : SmallLengths lens)
    (hacc : accUnits lens lens ≠ 0) : 2 ^ 52 * lens.length ≤ accUnits lens lens := by
  have hn : 0 < lens.length := List.length_pos.2 hne
  have hacc_w := acc_within hne h
  have hg : (0 : ℝ) < (F64.scale : ℝ) := Nat.cast_pos.2 scale_pos
  have hex : ∃ b ∈ lens, lens.length * b ≠ lens.sum := by
    by_contra hall
    push_neg at hall
    apply hacc
    have hz : (lens.map fun (b : Nat) =>
        ((b : ℝ) - ((lens.sum : Nat) : ℝ) / lens.length) ^ 2).sum = 0 := by
      apply List.sum_eq_zero
      intro x hx
      obtain ⟨b, hb, rfl⟩ := List.mem_map.1 hx
      have hn' : (lens.length : ℝ) ≠ 0 := Nat.cast_ne_zero.2 (Nat.pos_iff_ne_zero.1 hn)
      rw [← hall b hb]
      rw [Nat.cast_mul]
      field_simp
    have := Within.eq_zero (Nat.cast_nonneg _) hacc_w (by rw [hz, mul_zero])
    exact_mod_cast this
  obtain ⟨b, hb, hmean⟩ := hex
  have hD := dev_ge h hmean hn
  have hterm : (1 : ℝ) / 2 ^ 20 ≤ ((b : ℝ) - ((lens.sum : Nat) : ℝ) / lens.length) ^ 2 := by
    rw [← sq_abs]
    have h0 : (0 : ℝ) ≤ 1 / 1024 := by norm_num
    have := mul_le_mul hD hD h0 (le_trans h0 hD)
    calc (1 : ℝ) / 2 ^ 20 = 1 / 1024 * (1 / 1024) := by norm_num
      _ ≤ _ := this
      _ = _ := (sq _).symm
  have hsum : ((b : ℝ) - ((lens.sum : Nat) : ℝ) / lens.length) ^ 2 ≤
      (lens.map fun (b : Nat) => ((b : ℝ) - ((lens.sum : Nat) : ℝ) / lens.length) ^ 2).sum :=
    List.single_le_sum (fun x hx => by
      obtain ⟨c, -, rfl⟩ := List.mem_map.1 hx
      exact sq_nonneg _) _ (List.mem_map.2 ⟨b, hb, rfl⟩)
  have hreal : (2 : ℝ) ^ 52 * (lens.length : ℝ) ≤ (accUnits lens lens : ℝ) := by
    have hn1024 : (lens.length : ℝ) ≤ 1024 := by exact_mod_cast h.1
    have hg200 := scale_real_ge
    generalize (lens.map fun (b : Nat) =>
      ((b : ℝ) - ((lens.sum : Nat) : ℝ) / lens.length) ^ 2).sum = Sg at hacc_w hsum
    generalize (accUnits lens lens : ℝ) = a at hacc_w
    generalize (F64.scale : ℝ) = g at hacc_w hg hg200
    unfold Within at hacc_w
    have h1 : g * (1 / 2 ^ 20) ≤ g * Sg :=
      mul_le_mul_of_nonneg_left (le_trans hterm hsum) hg.le
    have h2 : (2 : ℝ) ^ 52 * 1024 * 2 ^ 21 ≤ g := le_trans (by norm_num) hg200
    have h3 : (2 : ℝ) ^ 52 * (lens.length : ℝ) ≤ 2 ^ 52 * 1024 :=
      mul_le_mul_of_nonneg_left hn1024 (by norm_num)
    have h4 : g * (1 / 2 ^ 20) = g / 2 ^ 21 * 2 := by ring
    have h5 : (2 : ℝ) ^ 52 * 1024 ≤ g / 2 ^ 21 := by
      rw [le_div_iff₀ (by norm_num)]
      exact h2
    linarith [hacc_w.2]
  exact_mod_cast hreal

/-- The variance in steps of 2⁻¹⁰⁷⁴ is within 1.0022 of the exact variance. -/
theorem var_within {lens : List Nat} (hne : lens ≠ []) (h : SmallLengths lens) :
    Within (10022 / 10000) (varUnits lens : ℝ)
      ((F64.scale : ℝ) * ((lens.map fun (b : Nat) =>
        ((b : ℝ) - ((lens.sum : Nat) : ℝ) / lens.length) ^ 2).sum / lens.length)) := by
  have hn : 0 < lens.length := List.length_pos.2 hne
  have hn' : (0 : ℝ) < (lens.length : ℝ) := Nat.cast_pos.2 hn
  have hg : (0 : ℝ) < (F64.scale : ℝ) := Nat.cast_pos.2 scale_pos
  have hq : 0 < lens.length * F64.scale := Nat.mul_pos hn scale_pos
  have hcond : accUnits lens lens * F64.scale = 0 ∨
      2 ^ 52 * (lens.length * F64.scale) ≤ accUnits lens lens * F64.scale := by
    by_cases hz : accUnits lens lens = 0
    · left; rw [hz, Nat.zero_mul]
    · right
      rw [← Nat.mul_assoc]
      exact Nat.mul_le_mul_right _ (acc_big hne h hz)
  have hr := roundRat_within hq hcond
  have hcast : ((accUnits lens lens * F64.scale : Nat) : ℝ) / ((lens.length * F64.scale : Nat) : ℝ)
      = (accUnits lens lens : ℝ) / lens.length := by
    rw [Nat.cast_mul, Nat.cast_mul]
    field_simp
    ring
  rw [hcast] at hr
  have hacc := Within.div_right (lens.length : ℝ) hn' (acc_within hne h)
  rw [mul_div_assoc] at hacc
  have := Within.trans rho_pos.le (by norm_num) hr hacc
  unfold varUnits
  exact Within.mono (Nat.cast_nonneg _)
    (mul_nonneg hg.le (div_nonneg (sumsq_nonneg lens) hn'.le)) (by norm_num) this

/-- The square of the standard deviation in steps of 2⁻¹⁰⁷⁴ is within 1.0023 of the exact
variance. -/
theorem std_within {lens : List Nat} (hne : lens ≠ []) (h : SmallLengths lens) :
    Within (10023 / 10000) ((stdUnits lens : ℝ) ^ 2)
      ((F64.scale : ℝ) * ((F64.scale : ℝ) * ((lens.map fun (b : Nat) =>
        ((b : ℝ) - ((lens.sum : Nat) : ℝ) / lens.length) ^ 2).sum / lens.length))) := by
  have hn : 0 < lens.length := List.length_pos.2 hne
  have hn' : (0 : ℝ) < (lens.length : ℝ) := Nat.cast_pos.2 hn
  have hg : (0 : ℝ) < (F64.scale : ℝ) := Nat.cast_pos.2 scale_pos
  have hcond : varUnits lens * F64.scale = 0 ∨ 2 ^ 104 ≤ varUnits lens * F64.scale := by
    by_cases hz : varUnits lens = 0
    · left; rw [hz, Nat.zero_mul]
    · right
      have h1 : 1 ≤ varUnits lens := Nat.pos_of_ne_zero hz
      calc 2 ^ 104 ≤ 2 ^ 200 := by norm_num
        _ ≤ F64.scale := scale_ge
        _ = 1 * F64.scale := (Nat.one_mul _).symm
        _ ≤ varUnits lens * F64.scale := Nat.mul_le_mul_right _ h1
  have hr := roundSqrt_within hcond
  rw [Nat.cast_mul] at hr
  have hv := Within.mul_left (F64.scale : ℝ) hg.le (var_within hne h)
  rw [mul_comm (F64.scale : ℝ) (varUnits lens : ℝ)] at hv
  have := Within.trans (by positivity) (by norm_num) hr hv
  unfold stdUnits
  exact Within.mono (sq_nonneg _)
    (mul_nonneg hg.le (mul_nonneg hg.le (div_nonneg (sumsq_nonneg lens) hn'.le)))
    (by norm_num) this
/-! ## The size rule in doubles and in exact arithmetic -/

theorem sizeOutlier_ratio (lens : List Nat) (x : Nat) :
    SizeOutlier lens x ↔ SizeRatioAbove 3 lens x := Iff.rfl

/-- The exact size rule with bound `c`, without the square root. -/
theorem sizeRatio_sq {c : ℝ} (hc : 0 ≤ c) (lens : List Nat) (x : Nat) :
    SizeRatioAbove c lens x ↔
      0 < (lens.map fun (b : Nat) =>
          ((b : ℝ) - ((lens.sum : Nat) : ℝ) / lens.length) ^ 2).sum / lens.length ∧
        c ^ 2 * ((lens.map fun (b : Nat) =>
          ((b : ℝ) - ((lens.sum : Nat) : ℝ) / lens.length) ^ 2).sum / lens.length) <
          ((x : ℝ) - ((lens.sum : Nat) : ℝ) / lens.length) ^ 2 := by
  unfold SizeRatioAbove
  rw [sum_cast]
  generalize (lens.map fun (b : Nat) =>
    ((b : ℝ) - ((lens.sum : Nat) : ℝ) / lens.length) ^ 2).sum / lens.length = V
  generalize (x : ℝ) - ((lens.sum : Nat) : ℝ) / lens.length = D
  rw [Real.sqrt_pos]
  constructor
  · rintro ⟨hv, h2⟩
    refine ⟨hv, ?_⟩
    have hs := Real.sqrt_pos.2 hv
    rw [gt_iff_lt, lt_div_iff₀ hs] at h2
    have := pow_lt_pow_left₀ h2 (mul_nonneg hc hs.le) (by decide : 2 ≠ 0)
    rw [mul_pow, Real.sq_sqrt hv.le, sq_abs] at this
    exact this
  · rintro ⟨hv, h2⟩
    refine ⟨hv, ?_⟩
    have hs := Real.sqrt_pos.2 hv
    rw [gt_iff_lt, lt_div_iff₀ hs]
    apply lt_of_pow_lt_pow_left₀ 2 (abs_nonneg _)
    rw [mul_pow, Real.sq_sqrt hv.le, sq_abs]
    exact h2

/-- The exact size rule with bound `c`, in the number, the sum and the sum of squares of the
lengths. -/
theorem sizeRatio_int {c : ℝ} (hc : 0 ≤ c) (lens : List Nat) (x : Nat) (hne : lens ≠ []) :
    SizeRatioAbove c lens x ↔
      0 < (lens.length : ℝ) * ((lens.map fun b => b * b).sum : Nat) - ((lens.sum : Nat) : ℝ) ^ 2 ∧
      c ^ 2 * ((lens.length : ℝ) * ((lens.map fun b => b * b).sum : Nat) -
          ((lens.sum : Nat) : ℝ) ^ 2) <
        ((lens.length : ℝ) * x - ((lens.sum : Nat) : ℝ)) ^ 2 := by
  rw [sizeRatio_sq hc, sum_sq_dev]
  have hn : (0 : ℝ) < (lens.length : ℝ) := Nat.cast_pos.2 (List.length_pos.2 hne)
  generalize ((lens.sum : Nat) : ℝ) = S
  generalize (((lens.map fun b => b * b).sum : Nat) : ℝ) = Q
  generalize (x : ℝ) = X
  generalize (lens.length : ℝ) = n at hn
  have hn2 : (0 : ℝ) < n ^ 2 := by positivity
  have hvar : (Q - 2 * (S / n) * S + n * (S / n) ^ 2) / n = (n * Q - S ^ 2) / n ^ 2 := by
    field_simp
    ring
  have hdev : (X - S / n) ^ 2 = (n * X - S) ^ 2 / n ^ 2 := by
    field_simp
    ring
  rw [hvar, hdev, ← mul_div_assoc, div_lt_div_iff_of_pos_right hn2]
  constructor
  · rintro ⟨h1, h2⟩
    refine ⟨?_, h2⟩
    have := mul_pos h1 hn2
    rwa [div_mul_cancel₀ _ hn2.ne'] at this
  · rintro ⟨h1, h2⟩
    exact ⟨div_pos h1 hn2, h2⟩

/-- When the size test of the code holds, the distance from the mean in steps of 2⁻¹⁰⁷⁴ is
above 3 times the standard deviation in these steps. -/
theorem zAbove3_dev {lens : List Nat} (hne : lens ≠ []) (h : SmallLengths lens) {x : Nat}
    (hx : x < 2 ^ 32) (hz : zAbove3 lens x = true) :
    0 < stdUnits lens ∧ 3 * stdUnits lens < devUnits lens x := by
  rw [zAbove3_units hne h hx, decide_eq_true_eq] at hz
  obtain ⟨hs, hr⟩ := hz
  refine ⟨hs, ?_⟩
  by_contra hle
  have hle : devUnits lens x ≤ 3 * stdUnits lens := Nat.le_of_not_lt hle
  have h1 : devUnits lens x * F64.scale ≤ 3 * 2 ^ 1074 * stdUnits lens := by
    calc devUnits lens x * F64.scale ≤ 3 * stdUnits lens * F64.scale :=
          Nat.mul_le_mul_right _ hle
      _ = 3 * F64.scale * stdUnits lens := Nat.mul_right_comm _ _ _
      _ = 3 * 2 ^ 1074 * stdUnits lens := by rw [scale_eq]
  have h2 := @roundRat_le (devUnits lens x * F64.scale) (stdUnits lens) 3 1074 hs
    (by norm_num) h1
  rw [← scale_eq] at h2
  exact absurd hr (Nat.not_lt.2 h2)

/-- When the distance from the mean in steps of 2⁻¹⁰⁷⁴ is at least 3 + 2⁻⁵¹ times the
standard deviation in these steps, and this is not 0, the size test of the code holds. -/
theorem zAbove3_of_dev {lens : List Nat} (hne : lens ≠ []) (h : SmallLengths lens) {x : Nat}
    (hx : x < 2 ^ 32) (hs : 0 < stdUnits lens)
    (hd : (3 * 2 ^ 51 + 1) * stdUnits lens ≤ 2 ^ 51 * devUnits lens x) :
    zAbove3 lens x = true := by
  rw [zAbove3_units hne h hx, decide_eq_true_eq]
  refine ⟨hs, ?_⟩
  have hg : F64.scale = 2 ^ 51 * 2 ^ 1023 := by rw [scale_eq, ← pow_add]
  have h1 : (3 * 2 ^ 51 + 1) * 2 ^ 1023 * stdUnits lens ≤ devUnits lens x * F64.scale := by
    calc (3 * 2 ^ 51 + 1) * 2 ^ 1023 * stdUnits lens
        = (3 * 2 ^ 51 + 1) * stdUnits lens * 2 ^ 1023 := Nat.mul_right_comm _ _ _
      _ ≤ 2 ^ 51 * devUnits lens x * 2 ^ 1023 := Nat.mul_le_mul_right _ hd
      _ = devUnits lens x * (2 ^ 51 * 2 ^ 1023) := by
          rw [Nat.mul_comm (2 ^ 51) (devUnits lens x), Nat.mul_assoc]
      _ = devUnits lens x * F64.scale := by rw [hg]
  have h2 := @roundRat_ge (devUnits lens x * F64.scale) (stdUnits lens) (3 * 2 ^ 51 + 1) 1023 hs
    (by norm_num) h1
  refine Nat.lt_of_lt_of_le ?_ h2
  rw [hg, Nat.add_mul, Nat.one_mul, Nat.mul_assoc]
  exact Nat.lt_add_of_pos_right (by positivity)

/-- The size test of the code, for at most 1024 lengths below 2³², implies the exact size
rule with the bound 2.99. -/
theorem zAbove3_exact {lens : List Nat} (h : SmallLengths lens) {x : Nat} (hx : x ∈ lens)
    (hz : zAbove3 lens x = true) : SizeRatioAbove (299 / 100) lens x := by
  have hne : lens ≠ [] := List.ne_nil_of_mem hx
  have hn : (0 : ℝ) < (lens.length : ℝ) := Nat.cast_pos.2 (List.length_pos.2 hne)
  obtain ⟨hs, hd⟩ := zAbove3_dev hne h (h.2 x hx) hz
  rw [sizeRatio_sq (by norm_num)]
  have hdw := (dev_within hne h x).1
  have hsw := std_within hne h
  have hsn := sumsq_nonneg lens
  have hg : (0 : ℝ) < (F64.scale : ℝ) := Nat.cast_pos.2 scale_pos
  have hsR : (0 : ℝ) < (stdUnits lens : ℝ) := Nat.cast_pos.2 hs
  have hdR : 3 * (stdUnits lens : ℝ) < (devUnits lens x : ℝ) := by exact_mod_cast hd
  rw [← sq_abs ((x : ℝ) - ((lens.sum : Nat) : ℝ) / lens.length)]
  have hD : (0 : ℝ) ≤ |(x : ℝ) - ((lens.sum : Nat) : ℝ) / lens.length| := abs_nonneg _
  generalize |(x : ℝ) - ((lens.sum : Nat) : ℝ) / lens.length| = D at hdw hD ⊢
  generalize (lens.map fun (b : Nat) =>
    ((b : ℝ) - ((lens.sum : Nat) : ℝ) / lens.length) ^ 2).sum / lens.length = V at hsw ⊢
  generalize (stdUnits lens : ℝ) = s at hsw hsR hdR
  generalize (devUnits lens x : ℝ) = d at hdw hdR
  generalize (F64.scale : ℝ) = g at hdw hsw hg
  unfold Within at hsw
  obtain ⟨hs1, hs2⟩ := hsw
  have hs2pos : 0 < s ^ 2 := by positivity
  have hV : 0 < V := by
    by_contra hv
    have hv : V ≤ 0 := not_lt.1 hv
    have : g * (g * V) ≤ 0 := by
      have := mul_nonpos_of_nonneg_of_nonpos (mul_nonneg hg.le hg.le) hv
      linarith [mul_assoc g g V]
    linarith
  refine ⟨hV, ?_⟩
  have h9 : 9 * s ^ 2 < d ^ 2 := by nlinarith
  have hd2 : d ^ 2 ≤ (1023 / 1022) ^ 2 * (g * D) ^ 2 := by
    have hd0 : 0 ≤ d := by linarith
    have := mul_le_mul hdw hdw hd0 (le_trans hd0 hdw)
    calc d ^ 2 = d * d := sq d
      _ ≤ _ := this
      _ = _ := by ring
  have hkey : g ^ 2 * (9 * V) < g ^ 2 * (10023 / 10000 * (1023 / 1022) ^ 2 * D ^ 2) := by
    calc g ^ 2 * (9 * V) = 9 * (g * (g * V)) := by ring
      _ ≤ 9 * (10023 / 10000 * s ^ 2) := by linarith
      _ = 10023 / 10000 * (9 * s ^ 2) := by ring
      _ < 10023 / 10000 * d ^ 2 := by linarith
      _ ≤ 10023 / 10000 * ((1023 / 1022) ^ 2 * (g * D) ^ 2) := by linarith
      _ = _ := by ring
  have hlt := lt_of_mul_lt_mul_left hkey (sq_nonneg g)
  have hD2 : 0 ≤ D ^ 2 := sq_nonneg D
  norm_num at hlt ⊢
  linarith

/-- The exact size rule with the bound 3.01 implies the size test of the code, for at most
1024 lengths below 2³². -/
theorem zAbove3_of_exact {lens : List Nat} (h : SmallLengths lens) {x : Nat} (hx : x ∈ lens)
    (hz : SizeRatioAbove (301 / 100) lens x) : zAbove3 lens x = true := by
  have hne : lens ≠ [] := List.ne_nil_of_mem hx
  have hn : (0 : ℝ) < (lens.length : ℝ) := Nat.cast_pos.2 (List.length_pos.2 hne)
  rw [sizeRatio_sq (by norm_num)] at hz
  obtain ⟨hV, hz⟩ := hz
  have hdw := (dev_within hne h x).2
  have hsw := std_within hne h
  have hg : (0 : ℝ) < (F64.scale : ℝ) := Nat.cast_pos.2 scale_pos
  have hs0 : (0 : ℝ) ≤ (stdUnits lens : ℝ) := Nat.cast_nonneg _
  have hd0 : (0 : ℝ) ≤ (devUnits lens x : ℝ) := Nat.cast_nonneg _
  rw [← sq_abs ((x : ℝ) - ((lens.sum : Nat) : ℝ) / lens.length)] at hz
  have hD : (0 : ℝ) ≤ |(x : ℝ) - ((lens.sum : Nat) : ℝ) / lens.length| := abs_nonneg _
  have hreal : (0 : ℝ) < (stdUnits lens : ℝ) ∧
      ((3 * 2 ^ 51 + 1 : Nat) : ℝ) * (stdUnits lens : ℝ) ≤
        ((2 ^ 51 : Nat) : ℝ) * (devUnits lens x : ℝ) := by
    have hK : (1000 : ℝ) ≤ ((2 ^ 51 : Nat) : ℝ) := by norm_num
    have hK1 : ((3 * 2 ^ 51 + 1 : Nat) : ℝ) = 3 * ((2 ^ 51 : Nat) : ℝ) + 1 := by push_cast; ring
    rw [hK1]
    generalize ((2 ^ 51 : Nat) : ℝ) = K at hK
    generalize |(x : ℝ) - ((lens.sum : Nat) : ℝ) / lens.length| = D at hdw hD hz
    generalize (lens.map fun (b : Nat) =>
      ((b : ℝ) - ((lens.sum : Nat) : ℝ) / lens.length) ^ 2).sum / lens.length = V at hsw hz hV
    generalize (stdUnits lens : ℝ) = s at hsw hs0
    generalize (devUnits lens x : ℝ) = d at hdw hd0
    generalize (F64.scale : ℝ) = g at hdw hsw hg
    unfold Within at hsw
    obtain ⟨hs1, hs2⟩ := hsw
    have hgV : 0 < g * (g * V) := mul_pos hg (mul_pos hg hV)
    have hs2pos : 0 < s ^ 2 := by
      by_contra hneg
      have : s ^ 2 ≤ 0 := not_lt.1 hneg
      linarith
    have hspos : 0 < s := by
      rcases hs0.lt_or_eq with h1 | h1
      · exact h1
      · rw [← h1] at hs2pos; norm_num at hs2pos
    refine ⟨hspos, ?_⟩
    have hgD : (g * D) ^ 2 ≤ (1023 / 1022) ^ 2 * d ^ 2 := by
      have h0 : 0 ≤ g * D := mul_nonneg hg.le hD
      have := mul_le_mul hdw hdw h0 (le_trans h0 hdw)
      calc (g * D) ^ 2 = g * D * (g * D) := sq _
        _ ≤ _ := this
        _ = _ := by ring
    have hz2 : g ^ 2 * ((301 / 100) ^ 2 * V) < g ^ 2 * D ^ 2 :=
      mul_lt_mul_of_pos_left hz (by positivity)
    have hchain : (301 / 100) ^ 2 * s ^ 2 < 10023 / 10000 * ((1023 / 1022) ^ 2 * d ^ 2) := by
      calc (301 / 100) ^ 2 * s ^ 2 ≤ (301 / 100) ^ 2 * (10023 / 10000 * (g * (g * V))) := by
            apply mul_le_mul_of_nonneg_left hs1 (by norm_num)
        _ = 10023 / 10000 * (g ^ 2 * ((301 / 100) ^ 2 * V)) := by ring
        _ < 10023 / 10000 * (g ^ 2 * D ^ 2) := by linarith
        _ = 10023 / 10000 * (g * D) ^ 2 := by ring
        _ ≤ 10023 / 10000 * ((1023 / 1022) ^ 2 * d ^ 2) := by linarith
    have h3 : (3001 / 1000 * s) ^ 2 ≤ d ^ 2 := by
      norm_num at hchain ⊢
      nlinarith
    have h4 : 3001 / 1000 * s ≤ d := by
      have := sq_le_sq.1 h3
      rwa [abs_of_nonneg (by positivity), abs_of_nonneg hd0] at this
    have h5 : (3 * K + 1) * s ≤ 3001 / 1000 * K * s := by
      apply mul_le_mul_of_nonneg_right _ hs0
      linarith
    calc (3 * K + 1) * s ≤ 3001 / 1000 * K * s := h5
      _ = K * (3001 / 1000 * s) := by ring
      _ ≤ K * d := mul_le_mul_of_nonneg_left h4 (by linarith)
  obtain ⟨h1, h2⟩ := hreal
  exact zAbove3_of_dev hne h (h.2 x hx) (by exact_mod_cast h1) (by exact_mod_cast h2)

/-- In doubles the absolute value of a quotient by a positive divisor is the quotient of the
absolute value. -/
theorem F64.abs_div (a b : F64) (hb : b.gt (F64.ofNat 0) = true) :
    (a.div b).abs = a.abs.div b := by
  rw [F64.ofNat_zero] at hb
  cases a with
  | fin x =>
    cases b with
    | fin y =>
      have hy : (0 : Int) < y := by simpa [F64.gt] using hb
      have h1 : ¬(y = 0) := by omega
      have h2 : ¬(y < 0) := by omega
      have h3 : ¬(((x.natAbs : Nat) : Int) < 0) := by omega
      have hl : (F64.fin x).div (F64.fin y) =
          F64.round (decide (x < 0)) (x.natAbs * F64.scale) y.natAbs := by
        simp only [F64.div, h1, h2, if_false, decide_False, Bool.bne_false]
      have hr : (F64.fin ((x.natAbs : Nat) : Int)).div (F64.fin y) =
          F64.round false (x.natAbs * F64.scale) y.natAbs := by
        simp only [F64.div, h1, h2, h3, if_false, decide_False, Bool.bne_false,
          Int.natAbs_ofNat]
      rw [hl, F64.abs_round]
      exact hr.symm
    | inf t => rfl
    | nan => rfl
  | inf s =>
    cases b with
    | fin y =>
      have hy : (0 : Int) < y := by simpa [F64.gt] using hb
      have h2 : ¬(y < 0) := by omega
      simp only [F64.div, F64.abs, h2, decide_False, Bool.bne_false]
    | inf t => rfl
    | nan => rfl
  | nan => cases b <;> rfl

/-- The size test of the code is the size rule of the specification in double arithmetic. -/
theorem zAbove3_iff (lens : List Nat) (x : Nat) :
    zAbove3 lens x = true ↔ SizeOutlierF64 lens x := by
  unfold zAbove3 zScore SizeOutlierF64
  by_cases hs : (stdF64 lens).gt (F64.ofNat 0) = true
  · rw [if_pos hs, F64.abs_div _ _ hs]
    exact (and_iff_right hs).symm
  · rw [if_neg hs]
    constructor
    · intro h
      rw [F64.ofNat_zero, F64.ofNat_eq (by norm_num)] at h
      simp only [F64.gt, decide_eq_true_eq] at h
      have := scale_pos
      omega
    · intro h
      exact absurd h.1 hs

/-! ## The rule table of the code and of the specification -/

/-- The table of the code, for a record with a source, is the table of the specification with
the size rule in double arithmetic. -/
theorem ruleTable_spec {packets : List Packet} {r : Packet} (hmem : r ∈ packets)
    (hsrc : isFalsy r.src_ip = false) (hwf : AddressTexts packets) (hown : OwnNames packets) :
    List.Forall₂ (fun b e => b = true ↔ e.1)
        ((ruleTable (aggOf packets) (lengthsOf packets) (maxIPOf packets) r).map fun e => e.1)
        (specRulesF64 packets r) ∧
      (ruleTable (aggOf packets) (lengthsOf packets) (maxIPOf packets) r).map (fun e => e.2) =
        (specRulesF64 packets r).map fun e => e.2 := by
  obtain ⟨s, hs, hne⟩ := isFalsy_eq_false hsrc
  have hin : s ∉ inheritedNames := by
    have := hown r hmem
    rwa [hs, Option.getD_some] at this
  obtain ⟨hnt, hcnt⟩ := ipCounts_count packets hne hin
  have hports := ipPorts_count packets hne
  have hsyn := synPerDst_count hmem hsrc hwf
  have hmax := maxIPOf_eq packets hown
  unfold ruleTable specRulesF64
  rw [hs, Option.getD_some, hmax, highVolume_some hnt, hcnt, hports, hsyn]
  refine ⟨?_, rfl⟩
  simp only [List.map_cons, List.map_nil]
  refine List.Forall₂.cons (zAbove3_iff _ _) (List.Forall₂.cons ?_ (List.Forall₂.cons ?_
    (List.Forall₂.cons ?_ (List.Forall₂.cons (bad_port_iff r) (List.Forall₂.cons ?_
      List.Forall₂.nil)))))
  · rw [decide_eq_true_eq]
    exact high_volume_iff _ _
  · rw [decide_eq_true_eq]
  · rw [decide_eq_true_eq]
    rfl
  · rw [decide_eq_true_eq]

theorem origLenOr0_mem {packets : List Packet} {p : Packet} (hp : p ∈ packets) :
    origLenOr0 p ∈ lengthsOf packets :=
  List.mem_map.2 ⟨p, hp, rfl⟩

/-- With at most 9 lengths, all below 2³², the size test of the code fails for every one of
them. -/
theorem zAbove3_small {lens : List Nat} (h9 : lens.length ≤ 9) (h : SmallLengths lens) {x : Nat}
    (hx : x ∈ lens) : zAbove3 lens x = false := by
  rw [Bool.eq_false_iff]
  intro hz
  have hne : lens ≠ [] := List.ne_nil_of_mem hx
  obtain ⟨h1, h2⟩ := (sizeRatio_int (by norm_num) lens x hne).1 (zAbove3_exact h hx hz)
  have hb := deviation_bound lens x hx
  have hn : (lens.length : ℝ) ≤ 9 := by exact_mod_cast h9
  have hbR : ((lens.length : ℝ) * (x : ℝ) - ((lens.sum : Nat) : ℝ)) ^ 2 ≤
      ((lens.length : ℝ) - 1) *
        ((lens.length : ℝ) * (((lens.map fun b => b * b).sum : Nat) : ℝ) -
          ((lens.sum : Nat) : ℝ) ^ 2) := by
    exact_mod_cast hb
  generalize (lens.length : ℝ) = n at h1 h2 hbR hn
  generalize (((lens.map fun b => b * b).sum : Nat) : ℝ) = Q at h1 h2 hbR
  generalize ((lens.sum : Nat) : ℝ) = S at h1 h2 hbR
  generalize (x : ℝ) = X at h2 hbR
  have h3 : (n - 1) * (n * Q - S ^ 2) ≤ 8 * (n * Q - S ^ 2) :=
    mul_le_mul_of_nonneg_right (by linarith) h1.le
  norm_num at h2
  linarith

/-- A record whose length passes the size test of the code has a finding with the size-outlier
reason. -/
theorem size_finding {packets : List Packet} {i : Nat} {p : Packet} (hp : packets[i]? = some p)
    (hsrc : isFalsy p.src_ip = false)
    (hz : zAbove3 (lengthsOf packets) (origLenOr0 p) = true) :
    ∃ f ∈ detectAnomalies packets, f.idx = i ∧ REASON_TEXT.size_outlier ∈ f.reasons := by
  have hfire := (size_outlier_mem_reasons (aggOf packets) (lengthsOf packets)
    (maxIPOf packets) p).2 hz
  have hne : (applyRules (aggOf packets) (lengthsOf packets) (maxIPOf packets) p).2 ≠ 0 :=
    (applyRules_score_ne_zero _ _ _ _).2
      ((applyRules_reasons_ne_nil _ _ _ _).1 (List.ne_nil_of_mem hfire))
  obtain ⟨f, hf⟩ := evalPacket_isSome i hsrc hne
  have hfa : findingAt packets i p = some f := hf
  obtain ⟨hin, hidx⟩ := (mem_detectAnomalies_idx hp f).2 hfa
  refine ⟨f, hin, hidx, ?_⟩
  rw [(evalPacket_eq_some hfa).2.2.2.1]
  exact hfire

theorem addressTexts_tenBoundary : AddressTexts tenBoundary :=
  addressTexts_of_check (by decide)

/-! # Theorems about the specification -/

/-- C1. `parseFile` returns `null` if and only if the buffer is shorter than 4
bytes or its first four bytes, read big-endian, are none of `0xA1B2C3D4`,
`0xD4C3B2A1` and `0x0A0D0D0A`; for the first two magics it returns what
`parsePCAP` returns and for the third what `parsePCAPNG` returns. -/
theorem parseFile_dispatch (buffer : Buffer) :
    (parseFile buffer = .ok none ↔
      (buffer.length < 4 ∨ (u32 buffer 0 false ≠ 0xA1B2C3D4 ∧ u32 buffer 0 false ≠ 0xD4C3B2A1 ∧
        u32 buffer 0 false ≠ 0x0A0D0D0A))) ∧
    (4 ≤ buffer.length → (u32 buffer 0 false = 0xA1B2C3D4 ∨ u32 buffer 0 false = 0xD4C3B2A1) →
      parseFile buffer = (parsePCAP buffer).map some) ∧
    (4 ≤ buffer.length → u32 buffer 0 false = 0x0A0D0D0A →
      parseFile buffer = (parsePCAPNG buffer).map some) := by
  have hmap : ∀ x : Except Fault (List Packet),
      (x >>= fun r => pure (some r)) = x.map some := by
    intro x; cases x <;> rfl
  have hne : ∀ x : Except Fault (List Packet), x.map some ≠ .ok none := by
    intro x h; cases x <;> cases h
  by_cases h4 : buffer.length < 4
  · refine ⟨?_, fun h => ?_, fun h => ?_⟩
    · unfold parseFile; rw [if_pos h4]; exact ⟨fun _ => Or.inl h4, fun _ => rfl⟩
    · omega
    · omega
  have hp : (u32 buffer 0 false = 0xA1B2C3D4 ∨ u32 buffer 0 false = 0xD4C3B2A1) →
      parseFile buffer = (parsePCAP buffer).map some := by
    intro hm
    unfold parseFile
    rw [if_neg h4, getUint32_ok false (by omega : 0 + 4 ≤ buffer.length)]
    show (if _ then _ else _) = _
    rw [if_pos hm]
    exact hmap _
  have hg : u32 buffer 0 false = 0x0A0D0D0A →
      parseFile buffer = (parsePCAPNG buffer).map some := by
    intro hm
    unfold parseFile
    rw [if_neg h4, getUint32_ok false (by omega : 0 + 4 ≤ buffer.length)]
    show (if _ then _ else _) = _
    rw [if_neg (by omega), if_pos hm]
    exact hmap _
  refine ⟨⟨fun h => Or.inr ⟨fun hm => ?_, fun hm => ?_, fun hm => ?_⟩, fun h => ?_⟩,
    fun _ => hp, fun _ => hg⟩
  · rw [hp (Or.inl hm)] at h; exact hne _ h
  · rw [hp (Or.inr hm)] at h; exact hne _ h
  · rw [hg hm] at h; exact hne _ h
  · rcases h with h | ⟨h1, h2, h3⟩
    · omega
    · unfold parseFile
      rw [if_neg h4, getUint32_ok false (by omega : 0 + 4 ≤ buffer.length)]
      show (if _ then _ else _) = _
      rw [if_neg (by omega), if_neg h3]
      rfl

/-- C1 at the sample capture, whose magic is `0xA1B2C3D4`. -/
theorem parseFile_dispatch_witness :
    4 ≤ samplePcap.length ∧ u32 samplePcap 0 false = 0xA1B2C3D4 ∧
      parseFile samplePcap = (parsePCAP samplePcap).map some :=
  ⟨by decide, by decide, (parseFile_dispatch samplePcap).2.1 (by decide) (Or.inl (by decide))⟩

/-- C2. A buffer that holds the classic-PCAP magic and nothing else: `parseFile`
raises a `RangeError` (the link-type read at offset 20) instead of returning a list. -/
theorem parseFile_magicOnly : parseFile magicOnly = .error .rangeError := by
  decide

/-- C3. A PCAPNG buffer whose last block has type 6 and length 12: `parseFile`
raises a `RangeError` (the read of the Enhanced Packet Block field at block
offset 12) instead of returning a list. -/
theorem parseFile_shortEpb : parseFile shortEpb = .error .rangeError := by
  decide

/-- C4. Truncation tolerance of classic PCAP: for every buffer `B` and every
length `n` with `24 ≤ n ≤ |B|`, `parsePCAP` returns a list on the first `n`
bytes of `B` and on `B`, and the first list is a prefix of the second.  The
list returned for `B` consists of the objects of the records at the successive
record positions (starting at 24, each next position being 16 plus the captured
length further), and it ends exactly at the first position whose 16-byte header
does not fit, whose captured length exceeds 65535 or whose captured bytes do
not fit. -/
theorem parsePCAP_truncation (B : Buffer) (n : Nat) (h24 : 24 ≤ n) (hn : n ≤ B.length) :
    ∃ l1 l2 : List Packet, parsePCAP (B.take n) = .ok l1 ∧ parsePCAP B = .ok l2 ∧ l1 <+: l2 ∧
      (∀ i, i < l2.length →
        recordFits B (pcapLE B) (recordOffset B (pcapLE B) 24 i) ∧
        (recordAt B (pcapLE B) (pcapLinkType B) (recordOffset B (pcapLE B) 24 i)).toOption
          = l2[i]?) ∧
      ¬recordFits B (pcapLE B) (recordOffset B (pcapLE B) 24 l2.length) := by
  have hl : (B.take n).length = n := by rw [List.length_take]; omega
  obtain ⟨l1, h1⟩ : ∃ l, parsePCAP (B.take n) = .ok l := parsePCAP_isOk (by omega)
  obtain ⟨l2, h2⟩ : ∃ l, parsePCAP B = .ok l := parsePCAP_isOk (by omega)
  obtain ⟨s1, -⟩ := parsePCAP_spec h1
  obtain ⟨s2, t2⟩ := parsePCAP_spec h2
  have ele : pcapLE (B.take n) = pcapLE B := by
    unfold pcapLE; rw [u32_take false (by omega)]
  have elt : pcapLinkType (B.take n) = pcapLinkType B := by
    unfold pcapLinkType; rw [ele, u32_take _ (by omega)]
  rw [ele, elt] at s1
  exact ⟨l1, l2, h1, h2, walk_prefix (fun off => take_sim hn _ _ off) s1 s2 t2, s2, t2⟩

/-- C4 at the sample capture cut after 50 bytes (inside its only record). -/
theorem parsePCAP_truncation_witness :
    24 ≤ 50 ∧ 50 ≤ samplePcap.length ∧
    ∃ l1 l2 : List Packet, parsePCAP (samplePcap.take 50) = .ok l1 ∧
      parsePCAP samplePcap = .ok l2 ∧ l1 <+: l2 ∧
      (∀ i, i < l2.length →
        recordFits samplePcap (pcapLE samplePcap)
          (recordOffset samplePcap (pcapLE samplePcap) 24 i) ∧
        (recordAt samplePcap (pcapLE samplePcap) (pcapLinkType samplePcap)
          (recordOffset samplePcap (pcapLE samplePcap) 24 i)).toOption = l2[i]?) ∧
      ¬recordFits samplePcap (pcapLE samplePcap)
        (recordOffset samplePcap (pcapLE samplePcap) 24 l2.length) :=
  ⟨by decide, by decide, parsePCAP_truncation samplePcap 50 (by decide) (by decide)⟩

/-- C5. Endianness correctness: let `B` be a well-formed classic-PCAP buffer
with magic bytes `A1 B2 C3 D4` (24-byte global header followed by complete
records) and `B'` the buffer in which the magic word, the link-type word and
the four words of every record header are byte-reversed while all other bytes
(the frames included) are unchanged.  Then `parseFile` returns a list on both
and it is the same list: same number of records, equal field for field. -/
theorem parseFile_endianness (mid : List Byte) (linkType : Nat) (rs : List PcapRecord)
    (hmid : mid.length = 16) (hrs : ∀ r ∈ rs, r.frame.length < 4294967296) :
    ∃ l : List Packet, parseFile (encPcap false mid linkType rs) = .ok (some l) ∧
      parseFile (encPcap true mid linkType rs) = .ok (some l) := by
  obtain ⟨l, hl⟩ : ∃ l, parsePCAP (encPcap false mid linkType rs) = .ok l :=
    parsePCAP_isOk (by rw [encPcap_length _ _ _ _ hmid]; omega)
  refine ⟨l, ?_, ?_⟩
  · rw [parseFile_enc _ _ _ _ hmid, hl]; rfl
  · rw [parseFile_enc _ _ _ _ hmid, parsePCAP_enc _ _ _ _ hmid hrs, encRecords_length,
      ← parsePCAP_enc _ _ _ _ hmid hrs, hl]; rfl

/-- C5 at the sample capture: its bytes are the big-endian encoding of one record. -/
theorem parseFile_endianness_witness :
    encPcap false sampleMid 1 [sampleRecord] = samplePcap ∧
    ∃ l : List Packet, parseFile (encPcap false sampleMid 1 [sampleRecord]) = .ok (some l) ∧
      parseFile (encPcap true sampleMid 1 [sampleRecord]) = .ok (some l) :=
  ⟨by decide, parseFile_endianness sampleMid 1 [sampleRecord] (by decide) (by decide)⟩

/-- C6. End-to-end decode: a classic-PCAP buffer with magic `0xA1B2C3D4`, link
type 1 and exactly one record, whose frame is Ethernet (ethertype `0x0800`) /
IPv4 (header length nibble 5, protocol 6) / TCP with source port `sp`,
destination port `dp` and flag byte `0x02`, and whose original length is `L`,
decodes to exactly one object, with protocol "TCP", `src_port` `sp`,
`dst_port` `dp`, flags "SYN" and original length `L`.  The frame holds the
three headers (at least 54 bytes) and is at most 65535 bytes long. -/
theorem parseFile_tcp_syn (mid : List Byte) (tsSec tsUsec L : Nat) (frame : List Byte)
    (sp dp : Nat) (hmid : mid.length = 16) (hL : L < 4294967296)
    (hlen : 54 ≤ frame.length) (hmax : frame.length ≤ 65535)
    (het : u16 frame 12 false = 0x0800)
    (hihl : byteAt frame 14 &&& 0x0F = 5)
    (hproto : byteAt frame 23 = 6)
    (hsp : u16 frame 34 false = sp)
    (hdp : u16 frame 36 false = dp)
    (hfl : byteAt frame 47 = 0x02) :
    ∃ r : Packet,
      parseFile (encPcap false mid 1
        [{ tsSec := tsSec, tsUsec := tsUsec, origLen := L, frame := frame }]) = .ok (some [r]) ∧
      r.protocol = some "TCP" ∧ r.src_port = some sp ∧ r.dst_port = some dp ∧
      r.flags = some "SYN" ∧ r.orig_len = some L := by
  obtain ⟨e, he, h1, h2, h3, h4⟩ := parseEthernet_tcp_syn frame sp dp hlen het hihl hproto hsp hdp hfl
  obtain ⟨k1, k2, k3⟩ := parseEthernet_keys he
  have hrs : ∀ r ∈ [({ tsSec := tsSec, tsUsec := tsUsec, origLen := L, frame := frame } :
      PcapRecord)], r.frame.length < 4294967296 := by
    intro r hr
    rw [List.mem_singleton] at hr
    subst hr
    show frame.length < 4294967296
    omega
  rw [parseFile_enc _ _ _ _ hmid, parsePCAP_enc _ _ _ _ hmid hrs]
  have hfuel : ∀ n, 24 + n + 1 = (n + 23) + 1 + 1 := by intro n; omega
  rw [hfuel, walkRecords]
  show ∃ r, Except.map some (if frame.length ≤ 65535 then _ else _) = _ ∧ _
  rw [if_pos hmax]
  unfold decodeRecord pcapRecord
  simp only [if_true, Nat.mod_eq_of_lt hL]
  show ∃ r, Except.map some (((parseEthernet frame 0 frame.length) >>= _) >>= _) = _ ∧ _
  rw [he]
  refine ⟨_, rfl, ?_, ?_, ?_, ?_, ?_⟩
  · simp [Packet.spread, h1]
  · simp [Packet.spread, h2]
  · simp [Packet.spread, h3]
  · simp [Packet.spread, h4]
  · simp [Packet.spread, k2]

/-- C6 at the capture of the specification: source port 52341, destination
port 443, original length 74. -/
theorem parseFile_tcp_syn_witness :
    encPcap false sampleMid 1 [{ tsSec := 1, tsUsec := 2, origLen := 74, frame := sampleFrame }]
      = samplePcap ∧
    ∃ r : Packet,
      parseFile (encPcap false sampleMid 1
        [{ tsSec := 1, tsUsec := 2, origLen := 74, frame := sampleFrame }]) = .ok (some [r]) ∧
      r.protocol = some "TCP" ∧ r.src_port = some 52341 ∧ r.dst_port = some 443 ∧
      r.flags = some "SYN" ∧ r.orig_len = some 74 :=
  ⟨by decide, parseFile_tcp_syn sampleMid 1 2 74 sampleFrame 52341 443 (by decide) (by decide)
    (by decide) (by decide) (by decide) (by decide) (by decide) (by decide) (by decide)
    (by decide)⟩

/-- The little-endian buffer `sampleNgLE` decodes to one object. -/
theorem parseFile_sampleNgLE : parseFile sampleNgLE = .ok (some [arpPacket]) := by
  decide

/-- C7. On the big-endian buffer `sampleNgBE` (Section Header Block with
byte-order-magic bytes `1A 2B 3C 4D` followed by one Enhanced Packet Block that
wholly contains its frame) `parseFile` returns the empty list, not one object:
the block length of the Section Header Block is first read little-endian
(`0x1C000000`), fails the length check, and the loop stops before the
byte-order magic is looked at. -/
theorem parseFile_sampleNgBE :
    parseFile sampleNgBE = .ok (some []) ∧ u32 sampleNgBE 4 true = 0x1C000000 ∧
      u32 sampleNgBE 4 false = 28 ∧ ¬blockFits sampleNgBE true 0 := by
  decide

/-- C8, the claim as stated fails for PCAPNG: in `skipCapture` the block at 28
is an Enhanced Packet Block whose declared captured length, 70000, is above the
ceiling, and the result still holds the object decoded from the later block at
60 (frame at 88). -/
theorem skipCapture_continues :
    u32 skipCapture 28 true = 6 ∧ u32 skipCapture (28 + 20) true = 70000 ∧
      parseFile skipCapture = .ok (some [arpPacket]) ∧
      epbRecord skipCapture (60 + 28) 0 1 16 16 = .ok arpPacket := by
  decide

/-- C8, amended. Classic PCAP: decoding halts at the first record whose header
or captured bytes do not fit or whose captured length is above 65535; the
result is exactly the objects of the records before it.  PCAPNG: decoding halts
at the first block whose declared length is below 12 or which extends past the
buffer; the result is the concatenation of what the blocks before it add, and
an Enhanced Packet Block (28 header bytes inside the buffer) whose captured
length is 65535 or more or whose frame does not fit adds nothing: it is
skipped and does not stop the decoding.  `parsePCAP` returns a list on every
buffer of at least 24 bytes, and the loop of `parsePCAPNG` always ends. -/
theorem decoding_halts (buffer : Buffer) :
    (24 ≤ buffer.length → ∃ l : List Packet, parsePCAP buffer = .ok l) ∧
    (∀ l : List Packet, parsePCAP buffer = .ok l →
      (∀ i, i < l.length →
        recordFits buffer (pcapLE buffer) (recordOffset buffer (pcapLE buffer) 24 i) ∧
        (recordAt buffer (pcapLE buffer) (pcapLinkType buffer)
          (recordOffset buffer (pcapLE buffer) 24 i)).toOption = l[i]?) ∧
      ¬recordFits buffer (pcapLE buffer) (recordOffset buffer (pcapLE buffer) 24 l.length)) ∧
    parsePCAPNG buffer ≠ .error .fuel ∧
    (∀ r : List Packet, parsePCAPNG buffer = .ok r →
      ∃ outs : List (List Packet), r = outs.flatten ∧
        (∀ i, i < outs.length →
          blockFits buffer (blockState buffer i (0, true)).2 (blockState buffer i (0, true)).1 ∧
          (blockPackets buffer (blockState buffer i (0, true)).1
            (blockState buffer i (0, true)).2).toOption = outs[i]?) ∧
        ¬blockFits buffer (blockState buffer outs.length (0, true)).2
          (blockState buffer outs.length (0, true)).1) ∧
    (∀ (off : Nat) (le : Bool), off + 28 ≤ buffer.length → u32 buffer off le = 6 →
      ¬(off + 28 + u32 buffer (off + 20) le ≤ buffer.length ∧ u32 buffer (off + 20) le < 65535) →
      blockPackets buffer off le = .ok []) := by
  refine ⟨fun h => parsePCAP_isOk h, fun l h => parsePCAP_spec h, ?_,
    fun r h => parsePCAPNG_spec h, ?_⟩
  · intro h
    have := parsePCAPNG_onlyRange buffer _ h
    cases this
  · intro off le h28 h6 hno
    unfold blockPackets
    rw [if_pos ⟨by omega, h6⟩, epbBlock_spec h28, if_neg hno]
    rfl

/-- C8, amended, at `skipCapture`: three blocks are walked, the second adds nothing. -/
theorem decoding_halts_witness :
    parsePCAPNG skipCapture = .ok [arpPacket] ∧
    (∃ outs : List (List Packet), [arpPacket] = outs.flatten ∧
        (∀ i, i < outs.length →
          blockFits skipCapture (blockState skipCapture i (0, true)).2
            (blockState skipCapture i (0, true)).1 ∧
          (blockPackets skipCapture (blockState skipCapture i (0, true)).1
            (blockState skipCapture i (0, true)).2).toOption = outs[i]?) ∧
        ¬blockFits skipCapture (blockState skipCapture outs.length (0, true)).2
          (blockState skipCapture outs.length (0, true)).1) ∧
    blockPackets skipCapture 28 true = .ok [] :=
  ⟨by decide, (decoding_halts skipCapture).2.2.2.1 [arpPacket] (by decide),
    (decoding_halts skipCapture).2.2.2.2 28 true (by decide) (by decide) (by decide)⟩

/-- C9. Invariant of decoding: every object returned by `parseFile` has a
captured length `incl_len` of at most 65535, and it was decoded from `incl_len`
frame bytes that start at some offset `off` and lie entirely inside the buffer
(`off + incl_len ≤ byteLength`), by the classic-PCAP record decoder or by the
Enhanced Packet Block decoder. -/
theorem parseFile_invariant (buffer : Buffer) (l : List Packet)
    (h : parseFile buffer = .ok (some l)) :
    ∀ p ∈ l, ∃ incl off : Nat, p.incl_len = some incl ∧ incl ≤ 65535 ∧
      off + incl ≤ buffer.length ∧
      ((∃ lt s u o : Nat, pcapRecord buffer lt off s u incl o = .ok p) ∨
        (∃ hi lo o : Nat, epbRecord buffer off hi lo incl o = .ok p)) := by
  intro p hp
  rcases parseFile_inv h with h | h
  · obtain ⟨hrec, -⟩ := parsePCAP_spec h
    obtain ⟨i, hi⟩ := List.mem_iff_getElem?.1 hp
    have hlt : i < l.length := (List.getElem?_eq_some_iff.1 hi).1
    obtain ⟨hfit, hat⟩ := hrec i hlt
    rw [hi] at hat
    have hat := toOption_eq_some hat
    unfold recordAt at hat
    obtain ⟨k1, -, -⟩ := pcapRecord_keys hat
    obtain ⟨-, f2, f3⟩ := hfit
    exact ⟨_, _, k1, f2, by omega, Or.inl ⟨_, _, _, _, hat⟩⟩
  · obtain ⟨outs, hr, hrec, -⟩ := parsePCAPNG_spec h
    rw [hr] at hp
    obtain ⟨ps, hps, hp⟩ := List.mem_flatten.1 hp
    obtain ⟨i, hi⟩ := List.mem_iff_getElem?.1 hps
    have hlt : i < outs.length := (List.getElem?_eq_some_iff.1 hi).1
    obtain ⟨-, hat⟩ := hrec i hlt
    rw [hi] at hat
    obtain ⟨hi', lo, capt, orig, c1, c2, c3⟩ := blockPackets_mem (toOption_eq_some hat) p hp
    obtain ⟨k1, -, -⟩ := epbRecord_keys c3
    exact ⟨capt, _, k1, by omega, by omega, Or.inr ⟨_, _, _, c3⟩⟩

/-- C9 at the sample capture. -/
theorem parseFile_invariant_witness :
    parseFile samplePcap = .ok (some [samplePacket]) ∧
    ∀ p ∈ [samplePacket], ∃ incl off : Nat, p.incl_len = some incl ∧ incl ≤ 65535 ∧
      off + incl ≤ samplePcap.length ∧
      ((∃ lt s u o : Nat, pcapRecord samplePcap lt off s u incl o = .ok p) ∨
        (∃ hi lo o : Nat, epbRecord samplePcap off hi lo incl o = .ok p)) :=
  ⟨by decide, parseFile_invariant samplePcap [samplePacket] (by decide)⟩

/-- C10. Unknown PCAPNG blocks are transparent: take a little-endian PCAPNG
buffer made of well-formed blocks (a Section Header Block first; each declared
length equal to the block's real size; each Enhanced Packet Block wholly
containing its frame).  Inserting after any of its blocks a block whose type is
neither `0x0A0D0D0A` nor `0x00000006` and whose declared length is its real
size (at least 12) leaves the list returned by `parseFile` unchanged. -/
theorem unknown_block_transparent (shb : NgBlock) (bs1 bs2 : List NgBlock) (u : NgBlock)
    (hshb : shb.typ = 0x0A0D0D0A) (hwf : ∀ b ∈ shb :: (bs1 ++ bs2), b.WellFormed)
    (hu1 : u.typ ≠ 0x0A0D0D0A) (hu2 : u.typ ≠ 0x00000006) (hut : u.typ < 4294967296)
    (hub : 4 ≤ u.body.length) (hus : 8 + u.body.length < 4294967296) :
    ∃ l : List Packet, parseFile (encBlocks (shb :: (bs1 ++ bs2))) = .ok (some l) ∧
      parseFile (encBlocks (shb :: (bs1 ++ u :: bs2))) = .ok (some l) := by
  have hu : u.WellFormed := ⟨hut, hub, hus, fun h => absurd h hu1, fun h => absurd h hu2⟩
  have hwf2 : ∀ b ∈ shb :: (bs1 ++ u :: bs2), b.WellFormed := by
    intro b hb
    simp only [List.mem_cons, List.mem_append] at hb
    rcases hb with h | h | h | h
    · exact hwf b (by simp [h])
    · exact hwf b (by simp [h])
    · exact h ▸ hu
    · exact hwf b (by simp [h])
  have hnone : ngBlockPackets u = .ok [] := by
    unfold ngBlockPackets
    rw [if_neg (fun h => hu2 h.1)]
    rfl
  obtain ⟨l, hl⟩ := walkBlocks_isOk (shb :: (bs1 ++ bs2)) hwf []
  refine ⟨l, ?_, ?_⟩
  · rw [parseFile_encBlocks shb _ hshb hwf, hl]; rfl
  · rw [parseFile_encBlocks shb _ hshb hwf2]
    have := walkBlocks_insert u hnone bs2 (shb :: bs1) []
    simp only [List.cons_append] at this
    rw [this, hl]; rfl

/-- C10 at `sampleNgLE`: an Interface Description Block inserted after the
Section Header Block. -/
theorem unknown_block_transparent_witness :
    encBlocks (sampleShb :: ([] ++ [sampleEpb])) = sampleNgLE ∧
    ∃ l : List Packet, parseFile (encBlocks (sampleShb :: ([] ++ [sampleEpb]))) = .ok (some l) ∧
      parseFile (encBlocks (sampleShb :: ([] ++ sampleIdb :: [sampleEpb]))) = .ok (some l) :=
  ⟨by decide, unknown_block_transparent sampleShb [] [sampleEpb] sampleIdb (by decide)
    (by decide) (by decide) (by decide) (by decide) (by decide) (by decide)⟩

/-- C11, counterexample: the empty buffer (shorter than 4 bytes) and the four
bytes 00 00 00 00 (an unrecognised magic) give the same result, `null`. -/
theorem parseFile_same_refusal :
    ([] : Buffer).length < 4 ∧ 4 ≤ unknownMagic.length ∧
    parseFile [] = .ok none ∧ parseFile unknownMagic = .ok none ∧
    parseFile [] = parseFile unknownMagic := by
  decide

/-- C11, amended. The decoder reports one failure, not two: a buffer shorter
than 4 bytes and a buffer of at least 4 bytes whose magic is none of
`0xA1B2C3D4`, `0xD4C3B2A1`, `0x0A0D0D0A` both make `parseFile` return `null`,
so the two cases cannot be told apart from the result. -/
theorem parseFile_refusals (small other : Buffer) (hsmall : small.length < 4)
    (hother : 4 ≤ other.length) (h1 : u32 other 0 false ≠ 0xA1B2C3D4)
    (h2 : u32 other 0 false ≠ 0xD4C3B2A1) (h3 : u32 other 0 false ≠ 0x0A0D0D0A) :
    parseFile small = .ok none ∧ parseFile other = .ok none ∧
      parseFile small = parseFile other := by
  have e1 := parseFile_tooSmall hsmall
  have e2 := parseFile_unknown hother h1 h2 h3
  exact ⟨e1, e2, e1.trans e2.symm⟩

/-- C11, amended, at the empty buffer and at `unknownMagic`. -/
theorem parseFile_refusals_witness :
    ([] : Buffer).length < 4 ∧ 4 ≤ unknownMagic.length ∧
    u32 unknownMagic 0 false ≠ 0xA1B2C3D4 ∧ u32 unknownMagic 0 false ≠ 0xD4C3B2A1 ∧
    u32 unknownMagic 0 false ≠ 0x0A0D0D0A ∧
    parseFile [] = .ok none ∧ parseFile unknownMagic = .ok none ∧
      parseFile [] = parseFile unknownMagic :=
  ⟨by decide, by decide, by decide, by decide, by decide,
    parseFile_refusals [] unknownMagic (by decide) (by decide) (by decide) (by decide)
      (by decide)⟩

/-- C12. Fields are only present when the decode depth supports them: for
every buffer and every record returned by `parseFile`, flags present implies
protocol "TCP" and `src_port`, `dst_port`, `payload_len` present; `payload_len`
present implies both ports present; a port present implies `src_ip` and
`dst_ip` present; `ttl` present implies `src_ip` present; and the record of a
frame shorter than 14 bytes has protocol "RAW" and no MAC, address, port or
flags key (`DepthInvariant`). -/
theorem fields_by_depth (buffer : Buffer) (l : List Packet)
    (h : parseFile buffer = .ok (some l)) : ∀ p ∈ l, DepthInvariant p := by
  intro p hp
  obtain ⟨incl, off, -, hrec⟩ := parseFile_records h p hp
  rcases hrec with ⟨lt, s, u, o, rfl⟩ | ⟨hi, lo, o, rfl⟩
  · exact pcapFields_depth _ _ _ _ _ _ _
  · exact epbFields_depth _ _ _ _ _ _

/-- C12 at the sample capture, whose record has flags, and at a capture whose
only frame has ten bytes. -/
theorem fields_by_depth_witness :
    parseFile samplePcap = .ok (some [samplePacket]) ∧ samplePacket.flags ≠ none ∧
    parseFile shortFrameCapture = .ok (some [shortFramePacket]) ∧
    shortFramePacket.incl_len = some 10 ∧
    DepthInvariant samplePacket ∧ DepthInvariant shortFramePacket :=
  ⟨by decide, by decide, by decide, by decide,
    fields_by_depth samplePcap [samplePacket] (by decide) samplePacket (by decide),
    fields_by_depth shortFrameCapture [shortFramePacket] (by decide) shortFramePacket
      (by decide)⟩

/-- C13. TCP flag decoding: for every Ethernet/IPv4/TCP frame long enough to be
decoded as TCP, with flag byte `b` (byte 13 of the TCP header), `flags` is the
names among FIN, SYN, RST, PSH, ACK, URG whose bit (0 to 5) is set in `b`, in
that order, joined by "+"; bits 6 and 7 are ignored, and a byte with none of
the bits 0 to 5 set gives the empty text; `0x02` gives "SYN" and `0x12` gives
"SYN+ACK". -/
theorem tcp_flags_decoding (view : Buffer) (o n : Nat) (h : IsTcpFrame view o n) :
    (∃ e, parseEthernet view o n = .ok (some e) ∧
      e.flags = some ("+".intercalate (flagNames (byteAt view (transportBase view o + 13)))) ∧
      e.flags =
        some ("+".intercalate (flagNames (byteAt view (transportBase view o + 13) % 64))) ∧
      (byteAt view (transportBase view o + 13) % 64 = 0 → e.flags = some "")) ∧
    "+".intercalate (flagNames 0x02) = "SYN" ∧ "+".intercalate (flagNames 0x12) = "SYN+ACK" := by
  refine ⟨?_, by decide, by decide⟩
  obtain ⟨e, he, -, -, -, hflags, -⟩ := ethFields_tcp h
  refine ⟨e, ?_, ?_, ?_, ?_⟩
  · rw [parseEthernet_ok h.1.1, he]
  · rw [hflags, tcpFlags_eq]
  · rw [hflags, tcpFlags_eq, flagNames_mod]
  · intro h0
    rw [hflags, tcpFlags_eq, ← flagNames_mod, h0]
    rfl

/-- C13 at the frame of the sample capture, whose flag byte is `0x02`. -/
theorem tcp_flags_decoding_witness :
    IsTcpFrame sampleFrame 0 54 ∧ byteAt sampleFrame (transportBase sampleFrame 0 + 13) = 0x02 ∧
    ∃ e, parseEthernet sampleFrame 0 54 = .ok (some e) ∧
      e.flags =
        some ("+".intercalate (flagNames (byteAt sampleFrame (transportBase sampleFrame 0 + 13)))) ∧
      e.flags =
        some ("+".intercalate
          (flagNames (byteAt sampleFrame (transportBase sampleFrame 0 + 13) % 64))) ∧
      (byteAt sampleFrame (transportBase sampleFrame 0 + 13) % 64 = 0 → e.flags = some "") :=
  ⟨by decide, by decide, (tcp_flags_decoding sampleFrame 0 54 (by decide)).1⟩

/-- C14. TCP payload length is clamped: for every frame decoded as IPv4/TCP,
`payload_len` is `max(0, ip_total_length - ip_header_length - tcp_header_length)`
with `ip_header_length` 4 times the low nibble of the first IP byte and
`tcp_header_length` 4 times the high nibble of byte 12 of the TCP header; it is
never negative. -/
theorem tcp_payload_clamped (view : Buffer) (o n : Nat) (h : IsTcpFrame view o n) :
    ∃ e pl, parseEthernet view o n = .ok (some e) ∧ e.payload_len = some pl ∧
      pl = max 0 ((u16 view (o + 16) false : Int) - (byteAt view (o + 14) % 16 * 4 : Nat) -
        (byteAt view (o + 14 + byteAt view (o + 14) % 16 * 4 + 12) / 16 * 4 : Nat)) ∧
      0 ≤ pl := by
  obtain ⟨e, he, -, -, -, -, hpl⟩ := ethFields_tcp h
  refine ⟨e, _, ?_, hpl, rfl, le_max_left _ _⟩
  rw [parseEthernet_ok h.1.1, he]

/-- C14 at the frame of the sample capture (total length 40, headers 20 and 20:
payload 0) and at `clampFrame` (total length 20, headers 20 and 20: payload 0,
not -20). -/
theorem tcp_payload_clamped_witness :
    IsTcpFrame sampleFrame 0 54 ∧ IsTcpFrame clampFrame 0 54 ∧
    (∃ e pl, parseEthernet sampleFrame 0 54 = .ok (some e) ∧ e.payload_len = some pl ∧
      pl = max 0 ((u16 sampleFrame (0 + 16) false : Int) -
        (byteAt sampleFrame (0 + 14) % 16 * 4 : Nat) -
        (byteAt sampleFrame (0 + 14 + byteAt sampleFrame (0 + 14) % 16 * 4 + 12) / 16 * 4 : Nat)) ∧
      0 ≤ pl) ∧
    (∃ e pl, parseEthernet clampFrame 0 54 = .ok (some e) ∧ e.payload_len = some pl ∧
      pl = max 0 ((u16 clampFrame (0 + 16) false : Int) -
        (byteAt clampFrame (0 + 14) % 16 * 4 : Nat) -
        (byteAt clampFrame (0 + 14 + byteAt clampFrame (0 + 14) % 16 * 4 + 12) / 16 * 4 : Nat)) ∧
      0 ≤ pl) ∧
    (u16 clampFrame (0 + 16) false : Int) - (byteAt clampFrame (0 + 14) % 16 * 4 : Nat) -
        (byteAt clampFrame (0 + 14 + byteAt clampFrame (0 + 14) % 16 * 4 + 12) / 16 * 4 : Nat)
      = -20 :=
  ⟨by decide, by decide, tcp_payload_clamped sampleFrame 0 54 (by decide),
    tcp_payload_clamped clampFrame 0 54 (by decide), by decide⟩

/-- C15. UDP payload length is not clamped: for every frame decoded as
IPv4/UDP with UDP length field `u` (bytes 4 and 5 of the UDP header),
`payload_len` is `u - 8` exactly, so that it is negative when `u < 8`. -/
theorem udp_payload_unclamped (view : Buffer) (o n : Nat) (h : IsUdpFrame view o n) :
    ∃ e, parseEthernet view o n = .ok (some e) ∧
      e.payload_len = some ((u16 view (o + 14 + byteAt view (o + 14) % 16 * 4 + 4) false : Int) - 8) ∧
      (u16 view (o + 14 + byteAt view (o + 14) % 16 * 4 + 4) false < 8 →
        ∃ pl, e.payload_len = some pl ∧ pl < 0) := by
  obtain ⟨e, he, -, -, -, -, hpl⟩ := ethFields_udp h
  refine ⟨e, ?_, hpl, fun hu => ⟨_, hpl, ?_⟩⟩
  · rw [parseEthernet_ok h.1.1, he]
  · unfold transportBase ipHeaderLen
    omega

/-- C15 at `udpFrame`, whose UDP length field is 3: the payload length is -5. -/
theorem udp_payload_unclamped_witness :
    IsUdpFrame udpFrame 0 42 ∧
    u16 udpFrame (0 + 14 + byteAt udpFrame (0 + 14) % 16 * 4 + 4) false = 3 ∧
    ∃ e, parseEthernet udpFrame 0 42 = .ok (some e) ∧
      e.payload_len =
        some ((u16 udpFrame (0 + 14 + byteAt udpFrame (0 + 14) % 16 * 4 + 4) false : Int) - 8) ∧
      (u16 udpFrame (0 + 14 + byteAt udpFrame (0 + 14) % 16 * 4 + 4) false < 8 →
        ∃ pl, e.payload_len = some pl ∧ pl < 0) :=
  ⟨by decide, by decide, udp_payload_unclamped udpFrame 0 42 (by decide)⟩

/-- C16. IPv6 address rendering: for every 16 bytes inside the buffer,
`parseIPv6` returns 8 groups joined by ":" (seven colons in all), the `i`-th
group being the lowercase hexadecimal numeral, of 1 to 4 digits and without
leading zeros ("0" for zero), of the big-endian 16-bit value of the bytes `2i`
and `2i + 1`; every group is there, so a run of zero groups is never
compressed to "::". -/
theorem parseIPv6_rendering (view : Buffer) (o : Nat) (h : o + 16 ≤ view.length) :
    ∃ gs : List String, parseIPv6 view o = .ok (":".intercalate gs) ∧ gs.length = 8 ∧
      List.Forall₂ IsHexNumeral gs (ipv6Groups view o) ∧
      (":".intercalate gs).data.count ':' = 7 ∧
      ∀ i, i < 8 → ∃ g, gs[i]? = some g ∧ g ≠ "" ∧
        IsHexNumeral g (byteAt view (o + 2 * i) * 256 + byteAt view (o + 2 * i + 1)) := by
  obtain ⟨gs, htext, hgs⟩ := ipv6Text_groups view o
  have hlen : (ipv6Groups view o).length = 8 := by simp [ipv6Groups]
  have hl : gs.length = 8 := hgs.length_eq.trans hlen
  refine ⟨gs, by rw [parseIPv6_ok h, htext], hl, hgs, colons_of_groups hgs hlen, ?_⟩
  intro i hi
  have hi' : i < gs.length := by omega
  have hi2 : i < (ipv6Groups view o).length := by omega
  have hrel : IsHexNumeral (gs.get ⟨i, hi'⟩) ((ipv6Groups view o).get ⟨i, hi2⟩) :=
    (List.forall₂_iff_get.1 hgs).2 i hi' hi2
  have hv : (ipv6Groups view o).get ⟨i, hi2⟩ =
      byteAt view (o + 2 * i) * 256 + byteAt view (o + 2 * i + 1) := by
    simp [ipv6Groups]
  rw [hv] at hrel
  refine ⟨gs.get ⟨i, hi'⟩, List.getElem?_eq_getElem hi', fun he => ?_, hrel⟩
  have hne := hrel.1
  rw [he] at hne
  exact hne rfl

/-- C16 at `sampleV6`: the zero groups are printed as "0". -/
theorem parseIPv6_rendering_witness :
    0 + 16 ≤ sampleV6.length ∧ parseIPv6 sampleV6 0 = .ok "2001:db8:0:0:0:ff00:42:8329" ∧
    ∃ gs : List String, parseIPv6 sampleV6 0 = .ok (":".intercalate gs) ∧ gs.length = 8 ∧
      List.Forall₂ IsHexNumeral gs (ipv6Groups sampleV6 0) ∧
      (":".intercalate gs).data.count ':' = 7 ∧
      ∀ i, i < 8 → ∃ g, gs[i]? = some g ∧ g ≠ "" ∧
        IsHexNumeral g (byteAt sampleV6 (0 + 2 * i) * 256 + byteAt sampleV6 (0 + 2 * i + 1)) :=
  ⟨by decide, by decide, parseIPv6_rendering sampleV6 0 (by decide)⟩

/-- C17. IPv6 transport enrichment is ports only: for every Ethernet frame
with ethertype `0x86DD` and at least 54 bytes, the record has `src_port` and
`dst_port` (bytes 54-55 and 56-57, big-endian) when the next-header byte is 6
or 17 and the frame has at least 58 bytes, it has neither of them otherwise,
and it never has a `flags` or `payload_len` key. -/
theorem ipv6_ports_only (view : Buffer) (o n : Nat) (h : IsIPv6Frame view o n) :
    ∃ e, parseEthernet view o n = .ok (some e) ∧
      (((byteAt view (o + 20) = 6 ∨ byteAt view (o + 20) = 17) ∧ 58 ≤ n) →
        e.src_port = some (u16 view (o + 54) false) ∧
          e.dst_port = some (u16 view (o + 56) false)) ∧
      (¬((byteAt view (o + 20) = 6 ∨ byteAt view (o + 20) = 17) ∧ 58 ≤ n) →
        e.src_port = none ∧ e.dst_port = none) ∧
      e.flags = none ∧ e.payload_len = none := by
  obtain ⟨e, he, -, -, -, hflags, hpl, hyes, hno⟩ := ethFields_ipv6 h
  refine ⟨e, ?_, hyes, hno, hflags, hpl⟩
  rw [parseEthernet_ok h.1, he]

/-- C17 at `ipv6Frame` (next header 6): with its 58 bytes the ports are decoded,
with its first 57 bytes they are not. -/
theorem ipv6_ports_only_witness :
    IsIPv6Frame ipv6Frame 0 58 ∧ IsIPv6Frame ipv6Frame 0 57 ∧ byteAt ipv6Frame (0 + 20) = 6 ∧
    (∃ e, parseEthernet ipv6Frame 0 58 = .ok (some e) ∧
      e.src_port = some 443 ∧ e.dst_port = some 12345 ∧ e.flags = none ∧
      e.payload_len = none) ∧
    (∃ e, parseEthernet ipv6Frame 0 57 = .ok (some e) ∧
      e.src_port = none ∧ e.dst_port = none ∧ e.flags = none ∧ e.payload_len = none) := by
  refine ⟨by decide, by decide, by decide, ?_, ?_⟩
  · obtain ⟨e, he, hyes, -, hflags, hpl⟩ := ipv6_ports_only ipv6Frame 0 58 (by decide)
    obtain ⟨h1, h2⟩ := hyes (by decide)
    exact ⟨e, he, h1.trans (by decide), h2.trans (by decide), hflags, hpl⟩
  · obtain ⟨e, he, -, hno, hflags, hpl⟩ := ipv6_ports_only ipv6Frame 0 57 (by decide)
    obtain ⟨h1, h2⟩ := hno (by decide)
    exact ⟨e, he, h1, h2, hflags, hpl⟩

/-- C18. Protocol naming: the protocol number `n` read from an IPv4 header
(byte 9 of the header, in an Ethernet frame or, with link type 101, in a raw
record) or from an IPv6 header (byte 6) is in 0..255, and the record's
`protocol` is ICMP, IGMP, TCP, UDP, ICMPv6, OSPF, SCTP for 1, 2, 6, 17, 58, 89,
132 and the decimal numeral of `n` otherwise (`protocolText`), "0" for 0. -/
theorem protocol_naming (view : Buffer) (o n : Nat) :
    (IsIPv4Frame view o n → ∃ e, parseEthernet view o n = .ok (some e) ∧
      e.protocol = some (protocolText (byteAt view (o + 23)))) ∧
    (IsIPv6Frame view o n → ∃ e, parseEthernet view o n = .ok (some e) ∧
      e.protocol = some (protocolText (byteAt view (o + 20)))) ∧
    (o + n ≤ view.length → 20 ≤ n → ∀ s u orig, ∃ p,
      pcapRecord view 101 o s u n orig = .ok p ∧
        p.protocol = some (protocolText (byteAt view (o + 9)))) ∧
    (∀ k, byteAt view k < 256) ∧ protocolText 0 = "0" := by
  refine ⟨fun h => ?_, fun h => ?_, fun hin h20 s u orig => ?_, byteAt_lt view, by decide⟩
  · obtain ⟨e, he, hp, -, -⟩ := ethFields_ipv4 h
    exact ⟨e, by rw [parseEthernet_ok h.1, he], by rw [hp, protoName_eq]⟩
  · obtain ⟨e, he, hp, -⟩ := ethFields_ipv6 h
    exact ⟨e, by rw [parseEthernet_ok h.1, he], by rw [hp, protoName_eq]⟩
  · refine ⟨_, pcapRecord_ok hin, ?_⟩
    unfold pcapFields
    simp only []
    rw [if_neg (by decide), if_pos ⟨trivial, h20⟩, ← protoName_eq]
    rfl

/-- C18 at `udpFrame` (IPv4, protocol 17), at `ipv6Frame` (next header 6) and at
the IPv4 header of `udpFrame` read as a raw record. -/
theorem protocol_naming_witness :
    IsIPv4Frame udpFrame 0 42 ∧ IsIPv6Frame ipv6Frame 0 58 ∧
    (∃ e, parseEthernet udpFrame 0 42 = .ok (some e) ∧ e.protocol = some "UDP") ∧
    (∃ e, parseEthernet ipv6Frame 0 58 = .ok (some e) ∧ e.protocol = some "TCP") ∧
    (∃ p, pcapRecord udpFrame 101 14 1 2 28 28 = .ok p ∧ p.protocol = some "UDP") := by
  refine ⟨by decide, by decide, ?_, ?_, ?_⟩
  · obtain ⟨e, he, hp⟩ := (protocol_naming udpFrame 0 42).1 (by decide)
    exact ⟨e, he, hp.trans (by decide)⟩
  · obtain ⟨e, he, hp⟩ := (protocol_naming ipv6Frame 0 58).2.1 (by decide)
    exact ⟨e, he, hp.trans (by decide)⟩
  · obtain ⟨p, hp, hproto⟩ :=
      (protocol_naming udpFrame 14 28).2.2.1 (by decide) (by decide) 1 2 28
    exact ⟨p, hp, hproto.trans (by decide)⟩

/-- C19, counterexample. In `tenBoundary` (one record of 17 bytes with a source
and nine records of 0 bytes without one) no condition of the rule table holds
for the first record, the size ratio being exactly 3; yet the code, which
computes the ratio in doubles, finds it above 3 and returns for this record a
finding with the score 0.25 and the size-outlier reason.  In `inheritedBurst`
(six records with the source text "constructor") the high-volume condition holds
for every record, the source having 6 records, the largest count; yet
`detectAnomalies` returns no finding, the lookup of this name in `ipCounts`
finding a function inherited from `Object.prototype`. -/
theorem rule_table_exact_fails :
    (tenBoundary[0]? = some tenFirst ∧ isFalsy tenFirst.src_ip = false ∧
      AddressTexts tenBoundary ∧
      (∀ e ∈ specRules tenBoundary tenFirst, ¬e.1) ∧
      ∃ f ∈ detectAnomalies tenBoundary, f.idx = 0 ∧ f.score = 250 ∧
        f.reasons = [REASON_TEXT.size_outlier]) ∧
    (inheritedBurst[0]? = some inheritedRecord ∧ isFalsy inheritedRecord.src_ip = false ∧
      AddressTexts inheritedBurst ∧
      (busiestCount inheritedBurst > 5 ∧
        (sourceCount inheritedBurst (inheritedRecord.src_ip.getD "") : ℚ) >
          60 / 100 * (busiestCount inheritedBurst : ℚ)) ∧
      detectAnomalies inheritedBurst = []) := by
  refine ⟨⟨by decide, by decide, addressTexts_tenBoundary, ?_, ?_⟩,
    ⟨by decide, by decide, addressTexts_of_check (by decide), ?_, by decide!⟩⟩
  · intro e he
    unfold specRules at he
    simp only [List.mem_cons, List.mem_singleton, List.not_mem_nil, or_false] at he
    rcases he with rfl | rfl | rfl | rfl | rfl | rfl
    · intro hout
      have := (exactAbove3_iff _ _).2 hout
      rw [exactAbove3_small _ _ (origLenOr0_mem (by decide : tenFirst ∈ tenBoundary))
        (by decide)] at this
      cases this
    · intro h
      exact absurd h.1 (by decide)
    · show ¬((distinctPorts tenBoundary (tenFirst.src_ip.getD "")).length > 15)
      decide
    · show ¬(halfOpenCount tenBoundary tenFirst > 10)
      decide
    · rintro ⟨port, h, -⟩
      cases h
    · intro h
      exact absurd h.1 (by decide)
  · have hz : zAbove3 (lengthsOf tenBoundary) (origLenOr0 tenFirst) = true := by decide!
    obtain ⟨f, hf, hidx, -⟩ := size_finding (by decide : tenBoundary[0]? = some tenFirst)
      (by decide) hz
    have hfa := (mem_detectAnomalies_idx (by decide : tenBoundary[0]? = some tenFirst) f).1
      ⟨hf, hidx⟩
    obtain ⟨-, -, -, hreasons, hscore, -, -⟩ := evalPacket_eq_some hfa
    refine ⟨f, hf, hidx, ?_, ?_⟩
    · rw [hscore]; decide!
    · rw [hreasons]; decide!
  · have h1 : busiestCount inheritedBurst = 6 := by decide
    have h2 : sourceCount inheritedBurst (inheritedRecord.src_ip.getD "") = 6 := by decide
    rw [h1, h2]
    norm_num

/-- C19, amended. Anomaly score equals the rule table with the size rule in
double arithmetic: for every sequence of records with address texts, none of
which is a property name inherited from `Object.prototype`, and every record
`r` of it with a source, mark the rows of the rule table `specRulesF64` (size
outlier 0.25, high volume 0.3, port scan 0.4, half-open flood 0.35, suspicious
port 0.3, oversized ICMP 0.2, weights in thousandths) whose condition holds;
then the finding of `r` has the score min(1, sum of the marked weights) and as
reasons the marked texts in table order, and there is such a finding when the
sum is not 0.  The size condition is `std > 0` and `|size - mean| / std > 3`
computed in doubles; for at most 1024 records with lengths below 2³² it holds
when the exact ratio is above 3.01 and only when the exact ratio is above
2.99. -/
theorem score_rule_table (packets : List Packet) (i : Nat) (r : Packet)
    (hp : packets[i]? = some r) (hsrc : isFalsy r.src_ip = false)
    (hwf : AddressTexts packets) (hown : OwnNames packets) :
    (∃ fired : List Bool,
      List.Forall₂ (fun b e => b = true ↔ e.1) fired (specRulesF64 packets r) ∧
      (∀ f ∈ detectAnomalies packets, f.idx = i →
        f.score = min ((firedRows fired (specRulesF64 packets r)).map fun e => e.2.2).sum 1000 ∧
        f.reasons = (firedRows fired (specRulesF64 packets r)).map fun e => e.2.1) ∧
      (((firedRows fired (specRulesF64 packets r)).map fun e => e.2.2).sum ≠ 0 →
        ∃ f ∈ detectAnomalies packets, f.idx = i)) ∧
    (SmallLengths (lengthsOf packets) →
      (SizeRatioAbove (301 / 100) (lengthsOf packets) (origLenOr0 r) →
        SizeOutlierF64 (lengthsOf packets) (origLenOr0 r)) ∧
      (SizeOutlierF64 (lengthsOf packets) (origLenOr0 r) →
        SizeRatioAbove (299 / 100) (lengthsOf packets) (origLenOr0 r))) := by
  have hmem : r ∈ packets := List.mem_iff_getElem?.2 ⟨i, hp⟩
  obtain ⟨hfired, htexts⟩ := ruleTable_spec hmem hsrc hwf hown
  obtain ⟨h1, h2⟩ := firedRows_texts htexts
  refine ⟨⟨_, hfired, fun f hf hidx => ?_, fun hsum => ?_⟩, fun hsmall => ⟨fun h => ?_, fun h => ?_⟩⟩
  · have hfa := (mem_detectAnomalies_idx hp f).1 ⟨hf, hidx⟩
    obtain ⟨-, -, -, hreasons, hscore, -, -⟩ := evalPacket_eq_some hfa
    rw [h1, h2, hreasons, hscore, applyRules_eq_table]
    exact ⟨rfl, rfl⟩
  · rw [h2] at hsum
    have hne : (applyRules (aggOf packets) (lengthsOf packets) (maxIPOf packets) r).2 ≠ 0 := by
      rw [applyRules_eq_table]
      exact hsum
    obtain ⟨f, hf⟩ := evalPacket_isSome i hsrc hne
    have hfa : findingAt packets i r = some f := hf
    obtain ⟨hin, hidx⟩ := (mem_detectAnomalies_idx hp f).2 hfa
    exact ⟨f, hin, hidx⟩
  · exact (zAbove3_iff _ _).1 (zAbove3_of_exact hsmall (origLenOr0_mem hmem) h)
  · exact zAbove3_exact hsmall (origLenOr0_mem hmem) ((zAbove3_iff _ _).2 h)

/-- C19, amended, at `sampleAllRules`, for its last record. -/
theorem score_rule_table_witness :
    sampleAllRules[15]? = some sampleAllRulesLast ∧
    isFalsy sampleAllRulesLast.src_ip = false ∧ AddressTexts sampleAllRules ∧
    OwnNames sampleAllRules ∧
    (∃ fired : List Bool,
      List.Forall₂ (fun b e => b = true ↔ e.1) fired
        (specRulesF64 sampleAllRules sampleAllRulesLast) ∧
      (∀ f ∈ detectAnomalies sampleAllRules, f.idx = 15 →
        f.score = min ((firedRows fired
            (specRulesF64 sampleAllRules sampleAllRulesLast)).map fun e => e.2.2).sum 1000 ∧
        f.reasons = (firedRows fired
            (specRulesF64 sampleAllRules sampleAllRulesLast)).map fun e => e.2.1) ∧
      (((firedRows fired
          (specRulesF64 sampleAllRules sampleAllRulesLast)).map fun e => e.2.2).sum ≠ 0 →
        ∃ f ∈ detectAnomalies sampleAllRules, f.idx = 15)) ∧
    (SmallLengths (lengthsOf sampleAllRules) →
      (SizeRatioAbove (301 / 100) (lengthsOf sampleAllRules) (origLenOr0 sampleAllRulesLast) →
        SizeOutlierF64 (lengthsOf sampleAllRules) (origLenOr0 sampleAllRulesLast)) ∧
      (SizeOutlierF64 (lengthsOf sampleAllRules) (origLenOr0 sampleAllRulesLast) →
        SizeRatioAbove (299 / 100) (lengthsOf sampleAllRules)
          (origLenOr0 sampleAllRulesLast))) :=
  ⟨by decide, by decide, addressTexts_sampleAllRules, by decide,
    score_rule_table sampleAllRules 15 sampleAllRulesLast (by decide) (by decide)
      addressTexts_sampleAllRules (by decide)⟩
/-- C20. Port-scan threshold: for every packet sequence and every record `p`
at index `i` with source `s`, the finding of index `i` carries a port-scan
reason if and only if the records with source `s` have more than 15 distinct
destination ports (absent ones left out). -/
theorem port_scan_threshold (packets : List Packet) (i : Nat) (p : Packet) (s : String)
    (hp : packets[i]? = some p) (hs : p.src_ip = some s) (hne : s ≠ "") :
    (∃ f ∈ detectAnomalies packets, f.idx = i ∧ ∃ n, REASON_TEXT.port_scan n ∈ f.reasons) ↔
      15 < (distinctPorts packets s).length := by
  have hsrc : isFalsy p.src_ip = false := by simp [hs, isFalsy, hne]
  have hkey := port_scan_mem_reasons (aggOf packets) (lengthsOf packets) (maxIPOf packets) p
  rw [hs, Option.getD_some, ipPorts_count packets hne] at hkey
  constructor
  · rintro ⟨f, hf, hidx, hreason⟩
    have hfa := (mem_detectAnomalies_idx hp f).1 ⟨hf, hidx⟩
    rw [(evalPacket_eq_some hfa).2.2.2.1] at hreason
    exact hkey.1 hreason
  · intro h
    have hfire := hkey.2 h
    have hscore : (applyRules (aggOf packets) (lengthsOf packets) (maxIPOf packets) p).2 ≠ 0 := by
      intro h0
      have hnil : ¬(applyRules (aggOf packets) (lengthsOf packets) (maxIPOf packets) p).1 ≠ [] :=
        fun hn => (applyRules_score_ne_zero _ _ _ _).2
          ((applyRules_reasons_ne_nil _ _ _ _).1 hn) h0
      obtain ⟨n, hn⟩ := hfire
      exact hnil (List.ne_nil_of_mem hn)
    obtain ⟨f, hf⟩ := evalPacket_isSome i hsrc hscore
    have hfa : findingAt packets i p = some f := hf
    obtain ⟨hin, hidx⟩ := (mem_detectAnomalies_idx hp f).2 hfa
    refine ⟨f, hin, hidx, ?_⟩
    rw [(evalPacket_eq_some hfa).2.2.2.1]
    exact hfire

/-- C20 at `portSweep`: 16 distinct destination ports, one record each, give the
reason; 15 do not. -/
theorem port_scan_threshold_witness :
    (portSweep 16)[0]? = some portSweepFirst ∧ (portSweep 15)[0]? = some portSweepFirst ∧
    portSweepFirst.src_ip = some "10.0.0.1" ∧
    (distinctPorts (portSweep 16) "10.0.0.1").length = 16 ∧
    (distinctPorts (portSweep 15) "10.0.0.1").length = 15 ∧
    (∃ f ∈ detectAnomalies (portSweep 16), f.idx = 0 ∧
      ∃ n, REASON_TEXT.port_scan n ∈ f.reasons) ∧
    ¬(∃ f ∈ detectAnomalies (portSweep 15), f.idx = 0 ∧
      ∃ n, REASON_TEXT.port_scan n ∈ f.reasons) :=
  ⟨by decide, by decide, by decide, by decide, by decide,
    (port_scan_threshold (portSweep 16) 0 portSweepFirst "10.0.0.1" (by decide) (by decide)
      (by decide)).2 (by decide),
    fun h => absurd ((port_scan_threshold (portSweep 15) 0 portSweepFirst "10.0.0.1" (by decide)
      (by decide) (by decide)).1 h) (by decide)⟩

/-- C21. Half-open-flood threshold: for every packet sequence of address
texts (no source text contains "→", no destination text is "undefined") and
every record `p` at index `i` with a source, the finding of index `i` carries
the half-open-flood reason if and only if more than 10 records have the source
and the destination of `p` and flags that contain "SYN" and not "ACK". -/
theorem half_open_threshold (packets : List Packet) (i : Nat) (p : Packet)
    (hp : packets[i]? = some p) (hsrc : isFalsy p.src_ip = false)
    (hwf : AddressTexts packets) :
    (∃ f ∈ detectAnomalies packets, f.idx = i ∧ REASON_TEXT.syn_flood ∈ f.reasons) ↔
      10 < (packets.filter fun q =>
        decide (q.src_ip = p.src_ip ∧ q.dst_ip = p.dst_ip) && synNoAck q).length := by
  have hmem : p ∈ packets := List.mem_iff_getElem?.2 ⟨i, hp⟩
  rw [← synPerDst_count hmem hsrc hwf]
  constructor
  · rintro ⟨f, hf, hidx, hreason⟩
    have hfa := (mem_detectAnomalies_idx hp f).1 ⟨hf, hidx⟩
    rw [(evalPacket_eq_some hfa).2.2.2.1] at hreason
    exact (syn_flood_mem_reasons _ _ _ _).1 hreason
  · intro h
    have hfire := (syn_flood_mem_reasons (aggOf packets) (lengthsOf packets) (maxIPOf packets)
      p).2 h
    have hscore : (applyRules (aggOf packets) (lengthsOf packets) (maxIPOf packets) p).2 ≠ 0 := by
      rw [applyRules_eq_table] at hfire ⊢
      simp only [ruleTable, List.filter_cons, List.filter_nil]
      have h4 : decide ((Dict.get (aggOf packets).synPerDst (synKey p)).getD 0 > 10) = true := by
        simpa using h
      rw [h4]
      simp only [if_true]
      split <;> split <;> split <;> split <;> split <;> simp
    obtain ⟨f, hf⟩ := evalPacket_isSome i hsrc hscore
    have hfa : findingAt packets i p = some f := hf
    obtain ⟨hin, hidx⟩ := (mem_detectAnomalies_idx hp f).2 hfa
    refine ⟨f, hin, hidx, ?_⟩
    rw [(evalPacket_eq_some hfa).2.2.2.1]
    exact hfire

/-- C21 at bursts of `samplePacket`: 11 such SYN records give the reason, 10 do not. -/
theorem half_open_threshold_witness :
    (synBurst 11)[0]? = some samplePacket ∧ (synBurst 10)[0]? = some samplePacket ∧
    isFalsy samplePacket.src_ip = false ∧
    AddressTexts (synBurst 11) ∧ AddressTexts (synBurst 10) ∧
    (∃ f ∈ detectAnomalies (synBurst 11), f.idx = 0 ∧ REASON_TEXT.syn_flood ∈ f.reasons) ∧
    ¬(∃ f ∈ detectAnomalies (synBurst 10), f.idx = 0 ∧ REASON_TEXT.syn_flood ∈ f.reasons) :=
  ⟨by decide, by decide, by decide, addressTexts_synBurst 11, addressTexts_synBurst 10,
    (half_open_threshold (synBurst 11) 0 samplePacket (by decide) (by decide)
      (addressTexts_synBurst 11)).2 (by decide),
    fun h => absurd ((half_open_threshold (synBurst 10) 0 samplePacket (by decide) (by decide)
      (addressTexts_synBurst 10)).1 h) (by decide)⟩

/-- C22. Score bound: every finding returned by `detectAnomalies` has a score
above 0 and at most 1 (1000 thousandths); a record with a source for which the
six rules of the table fire, whose weights add up to 1.8, has a finding with six
reasons and score exactly 1. -/
theorem score_bound (packets : List Packet) :
    (∀ f ∈ detectAnomalies packets, 0 < f.score ∧ f.score ≤ 1000) ∧
    ∀ i p, packets[i]? = some p → isFalsy p.src_ip = false →
      (∀ r ∈ ruleTable (aggOf packets) (lengthsOf packets) (maxIPOf packets) p, r.1 = true) →
      ((ruleTable (aggOf packets) (lengthsOf packets) (maxIPOf packets) p).map
          fun r => r.2.2).sum = 1800 ∧
        ∃ f ∈ detectAnomalies packets, f.idx = i ∧ f.reasons.length = 6 ∧ f.score = 1000 := by
  constructor
  · intro f hf
    obtain ⟨i, p, -, hfa⟩ := mem_detectAnomalies.1 hf
    obtain ⟨-, -, -, -, hscore, hne, -⟩ := evalPacket_eq_some hfa
    exact ⟨Nat.pos_of_ne_zero hne, by rw [hscore]; exact Nat.min_le_right _ _⟩
  · intro i p hp hsrc hall
    obtain ⟨hlen, hsum⟩ := applyRules_all hall
    refine ⟨by simp [ruleTable], ?_⟩
    obtain ⟨f, hf⟩ := evalPacket_isSome i hsrc (by rw [hsum]; decide)
    have hfa : findingAt packets i p = some f := hf
    obtain ⟨hin, hidx⟩ := (mem_detectAnomalies_idx hp f).2 hfa
    obtain ⟨-, -, -, hreasons, hscore, -, -⟩ := evalPacket_eq_some hfa
    exact ⟨f, hin, hidx, by rw [hreasons]; exact hlen, by rw [hscore, hsum]; rfl⟩

/-- C22 at `sampleAllRules`: the last record triggers the six rules and scores 1. -/
theorem score_bound_witness :
    sampleAllRules[15]? = some sampleAllRulesLast ∧ isFalsy sampleAllRulesLast.src_ip = false ∧
    (∀ r ∈ ruleTable (aggOf sampleAllRules) (lengthsOf sampleAllRules) (maxIPOf sampleAllRules)
      sampleAllRulesLast, r.1 = true) ∧
    ∃ f ∈ detectAnomalies sampleAllRules, f.idx = 15 ∧ f.reasons.length = 6 ∧ f.score = 1000 :=
  ⟨by decide!, by decide!, by decide!,
    ((score_bound sampleAllRules).2 15 sampleAllRulesLast (by decide!) (by decide!)
      (by decide!)).2⟩

/-- C23. Severity buckets: for every finding returned by `detectAnomalies`
(scores in thousandths), the severity is "critical" iff score ≥ 0.7, "high" iff
0.5 ≤ score < 0.7, "medium" iff 0.3 ≤ score < 0.5 and "low" iff score < 0.3;
and of two findings the one with the higher score never has the lower severity. -/
theorem severity_buckets (packets : List Packet) :
    ∀ f ∈ detectAnomalies packets,
      (f.severity = "critical" ↔ 700 ≤ f.score) ∧
      (f.severity = "high" ↔ 500 ≤ f.score ∧ f.score < 700) ∧
      (f.severity = "medium" ↔ 300 ≤ f.score ∧ f.score < 500) ∧
      (f.severity = "low" ↔ f.score < 300) ∧
      ∀ g ∈ detectAnomalies packets, f.score ≤ g.score →
        severityRank f.severity ≤ severityRank g.severity := by
  intro f hf
  obtain ⟨i, p, -, hfa⟩ := mem_detectAnomalies.1 hf
  have hsev := (evalPacket_eq_some hfa).2.2.2.2.2.2
  rw [hsev]
  obtain ⟨h1, h2, h3, h4⟩ := severityOf_spec f.score
  refine ⟨h1, h2, h3, h4, ?_⟩
  intro g hg hle
  obtain ⟨j, q, -, hga⟩ := mem_detectAnomalies.1 hg
  rw [(evalPacket_eq_some hga).2.2.2.2.2.2]
  exact severityRank_mono hle

/-- C23 at `sampleAllRules`: the finding of the last record, of score 1, is
"critical", and no finding of a score up to its own has a higher severity. -/
theorem severity_buckets_witness :
    sampleFinding ∈ detectAnomalies sampleAllRules ∧
      (sampleFinding.severity = "critical" ↔ 700 ≤ sampleFinding.score) ∧
      (sampleFinding.severity = "high" ↔ 500 ≤ sampleFinding.score ∧ sampleFinding.score < 700) ∧
      (sampleFinding.severity = "medium" ↔
        300 ≤ sampleFinding.score ∧ sampleFinding.score < 500) ∧
      (sampleFinding.severity = "low" ↔ sampleFinding.score < 300) ∧
      ∀ g ∈ detectAnomalies sampleAllRules, sampleFinding.score ≤ g.score →
        severityRank sampleFinding.severity ≤ severityRank g.severity :=
  ⟨by decide!, severity_buckets sampleAllRules sampleFinding (by decide!)⟩

/-- C24. Ranking order: of any two findings returned by `detectAnomalies` the
one that comes first has the higher score, or the same score and the lower
index in the packet sequence; so the findings are in descending order of score
and those of equal score are in the order of their records. -/
theorem ranking_order (packets : List Packet) :
    (detectAnomalies packets).Pairwise RankedBefore ∧
    (detectAnomalies packets).Pairwise (fun a b => a.score ≥ b.score) ∧
    ∀ a b, [a, b].Sublist (detectAnomalies packets) → a.score = b.score → a.idx < b.idx := by
  have h : (detectAnomalies packets).Pairwise RankedBefore := by
    rw [detectAnomalies_eq]
    exact insertionSort_ranked _ (candidates_pairwise packets)
  refine ⟨h, h.imp fun {a b} hab => ?_, fun a b hsub heq => ?_⟩
  · rcases hab with hab | hab
    · exact Nat.le_of_lt hab
    · exact Nat.le_of_eq hab.1.symm
  · have := List.pairwise_iff_forall_sublist.1 h hsub
    rcases this with hgt | ⟨-, hlt⟩
    · omega
    · exact hlt

/-- C24 at `sampleAllRules`: the findings of the first and of the last record have
the same score, and the first record's comes first. -/
theorem ranking_order_witness :
    [sampleFindingFirst, sampleFinding].Sublist (detectAnomalies sampleAllRules) ∧
    sampleFindingFirst.score = sampleFinding.score ∧
    sampleFindingFirst.idx < sampleFinding.idx :=
  ⟨by decide!, by decide!,
    (ranking_order sampleAllRules).2.2 sampleFindingFirst sampleFinding (by decide!) (by decide!)⟩

/-- C25. Which records become findings: the record at index `i` has a finding
of index `i` exactly when it has a source and one of the six rules fires for
it; no two findings have the same index; every finding's index is a valid index
of the input, its record is the record at that index unchanged, and it has at
least one reason; and `detectAnomalies([])` is the empty sequence. -/
theorem findings_spec (packets : List Packet) :
    (∀ i p, packets[i]? = some p →
      ((∃ f ∈ detectAnomalies packets, f.idx = i) ↔
        isFalsy p.src_ip = false ∧
          ∃ r ∈ ruleTable (aggOf packets) (lengthsOf packets) (maxIPOf packets) p, r.1 = true)) ∧
    ((detectAnomalies packets).map fun f => f.idx).Nodup ∧
    (∀ f ∈ detectAnomalies packets,
      f.idx < packets.length ∧ packets[f.idx]? = some f.packet ∧ f.reasons ≠ []) ∧
    detectAnomalies [] = [] := by
  refine ⟨fun i p hp => ?_, ?_, fun f hf => ?_, rfl⟩
  · constructor
    · rintro ⟨f, hf, hidx⟩
      have hfa := (mem_detectAnomalies_idx hp f).1 ⟨hf, hidx⟩
      obtain ⟨hsrc, -, -, -, hscore, hne, -⟩ := evalPacket_eq_some hfa
      rw [hscore] at hne
      exact ⟨hsrc, (applyRules_score_ne_zero _ _ _ _).1 (min_1000_ne_zero hne)⟩
    · rintro ⟨hsrc, hfire⟩
      obtain ⟨f, hf⟩ := evalPacket_isSome i hsrc ((applyRules_score_ne_zero _ _ _ _).2 hfire)
      have hfa : findingAt packets i p = some f := hf
      obtain ⟨hin, hidx⟩ := (mem_detectAnomalies_idx hp f).2 hfa
      exact ⟨f, hin, hidx⟩
  · have hc : ((candidates packets).map fun f => f.idx).Nodup := by
      rw [List.Nodup, List.pairwise_map]
      exact (candidates_pairwise packets).imp fun {a b} h => Nat.ne_of_lt h
    rw [detectAnomalies_eq]
    exact ((List.perm_insertionSort _ _).map _).nodup_iff.2 hc
  · obtain ⟨i, p, hp, hfa⟩ := mem_detectAnomalies.1 hf
    obtain ⟨-, hpk, hidx, hreasons, hscore, hne, -⟩ := evalPacket_eq_some hfa
    have hlt : i < packets.length := by
      by_contra hge
      rw [List.getElem?_eq_none (by omega)] at hp
      cases hp
    rw [hscore] at hne
    refine ⟨by rw [hidx]; exact hlt, by rw [hidx, hpk]; exact hp, ?_⟩
    rw [hreasons]
    exact (applyRules_reasons_ne_nil _ _ _ _).2
      ((applyRules_score_ne_zero _ _ _ _).1 (min_1000_ne_zero hne))

/-- C25 at `sampleAllRules`: the last record, at index 15, has a source and
triggers a rule, and has a finding of index 15. -/
theorem findings_spec_witness :
    sampleAllRules[15]? = some sampleAllRulesLast ∧
    isFalsy sampleAllRulesLast.src_ip = false ∧
    (∃ r ∈ ruleTable (aggOf sampleAllRules) (lengthsOf sampleAllRules) (maxIPOf sampleAllRules)
      sampleAllRulesLast, r.1 = true) ∧
    (∃ f ∈ detectAnomalies sampleAllRules, f.idx = 15) ∧
    sampleFinding.idx < sampleAllRules.length ∧
    sampleAllRules[sampleFinding.idx]? = some sampleFinding.packet ∧
    sampleFinding.reasons ≠ [] :=
  ⟨by decide!, by decide!, by decide!,
    ((findings_spec sampleAllRules).1 15 sampleAllRulesLast (by decide!)).2
      ⟨by decide!, by decide!⟩,
    (findings_spec sampleAllRules).2.2.1 sampleFinding (by decide!)⟩

/-- C26, counterexample: in `mixedCapture` (one record of 1500 bytes with a
source, then ten ARP records of 16 bytes without one) the record with a source
is a size outlier and gives a finding; once the records without a source are
removed the same record gives none. -/
theorem sourceless_change_findings :
    (detectAnomalies mixedCapture).map Finding.content =
        [(bigPacket, 250, [REASON_TEXT.size_outlier], "low")] ∧
      mixedCapture.filter hasSource = [bigPacket] ∧
      detectAnomalies (mixedCapture.filter hasSource) = [] := by
  decide!

/-- C26, amended. Records without a source address are excluded from the three
aggregates (the counts per source, the ports per source, the half-open counts)
and from the findings, but not from the lengths that give the mean and the
standard deviation of the size rule: the findings of `detectAnomalies`, apart
from their indices and in their order, are those of the sequence without the
source-less records when the size rule still takes the lengths of the whole
sequence; they are those of `detectAnomalies` on the sequence without the
source-less records whenever removing these records changes the verdict of the
size rule for no record with a source. -/
theorem sourceless_excluded (packets : List Packet) :
    aggOf (packets.filter hasSource) = aggOf packets ∧
    maxIPOf (packets.filter hasSource) = maxIPOf packets ∧
    detectWith (lengthsOf packets) packets = detectAnomalies packets ∧
    (detectAnomalies packets).map Finding.content =
      (detectWith (lengthsOf packets) (packets.filter hasSource)).map Finding.content ∧
    ((∀ p ∈ packets, hasSource p = true →
        zAbove3 (lengthsOf packets) (origLenOr0 p) =
          zAbove3 (lengthsOf (packets.filter hasSource)) (origLenOr0 p)) →
      (detectAnomalies packets).map Finding.content =
        (detectAnomalies (packets.filter hasSource)).map Finding.content) := by
  have key : (detectAnomalies packets).map Finding.content =
      (detectWith (lengthsOf packets) (packets.filter hasSource)).map Finding.content := by
    rw [← detectWith_lengthsOf, detectWith_content, detectWith_content, aggOf_filter,
      maxIPOf_filter, List.filterMap_filter]
    congr 2
    funext p
    by_cases h : hasSource p = true
    · rw [if_pos h]
    · rw [if_neg h, evalPacket_sourceless 0 (by simpa using h)]
      rfl
  refine ⟨aggOf_filter packets, maxIPOf_filter packets, detectWith_lengthsOf packets, key, ?_⟩
  intro h
  rw [key, ← detectWith_lengthsOf (packets.filter hasSource)]
  exact detectWith_content_congr fun p hp =>
    h p (List.mem_filter.1 hp).1 (List.mem_filter.1 hp).2

/-- C26, amended, at `burstThenArp`: the ARP record changes the size verdict of
no record, and the findings are those of the eleven records with a source. -/
theorem sourceless_excluded_witness :
    (∀ p ∈ burstThenArp, hasSource p = true →
        zAbove3 (lengthsOf burstThenArp) (origLenOr0 p) =
          zAbove3 (lengthsOf (burstThenArp.filter hasSource)) (origLenOr0 p)) ∧
      burstThenArp.filter hasSource = synBurst 11 ∧
      (detectAnomalies burstThenArp).map Finding.content =
        (detectAnomalies (burstThenArp.filter hasSource)).map Finding.content :=
  ⟨by decide!, by decide!, (sourceless_excluded burstThenArp).2.2.2.2 (by decide!)⟩

/-- C27. `computeStats` on the empty sequence returns the "no data" summary
(mean, std, p95, median and max the placeholder "—", `total_bytes` 0) and
divides nothing; on every non-empty sequence the mean is the quotient of the sum
of the lengths by `n = packets.length`, and this divisor is at least 1. -/
theorem computeStats_empty_and_divisor :
    computeStats [] = noData ∧
    ∀ packets : List Packet, packets ≠ [] →
      (computeStats packets).mean =
          .meanFixed1 ((lengthsOf packets).sum) packets.length ∧
        (computeStats packets).std = .stdFixed1 (lengthsOf packets) ∧
        1 ≤ packets.length := by
  refine ⟨rfl, fun packets h => ?_⟩
  rw [computeStats_nonempty h]
  refine ⟨?_, rfl, ?_⟩
  · simp [foldl_add_eq_sum, lengthsOf]
  · cases packets with
    | nil => exact absurd rfl h
    | cons p ps => simp

/-- C27 at a sample of five records. -/
theorem computeStats_empty_and_divisor_witness :
    sampleStats ≠ [] ∧
      (computeStats sampleStats).mean = .meanFixed1 ((lengthsOf sampleStats).sum) sampleStats.length ∧
      (computeStats sampleStats).std = .stdFixed1 (lengthsOf sampleStats) ∧
      1 ≤ sampleStats.length :=
  ⟨by decide, computeStats_empty_and_divisor.2 sampleStats (by decide)⟩

/-- C28. 95th percentile: for a non-empty sequence of `n` records, `p95` is
the element at index `floor(0.95 * n)`, clamped to `n - 1`, of the original
lengths (an absent one counting as 0) sorted ascending. -/
theorem computeStats_p95 (packets : List Packet) (s : List Nat) (hne : packets ≠ [])
    (hperm : s.Perm (lengthsOf packets)) (hsorted : s.Sorted (· ≤ ·)) :
    ∃ v, s[min ⌊(95 / 100 : ℚ) * packets.length⌋₊ (packets.length - 1)]? = some v ∧
      (computeStats packets).p95 = .num v := by
  have hlen : s.length = packets.length := by simpa [lengthsOf] using hperm.length_eq
  have hpos : 0 < packets.length := List.length_pos.2 hne
  have hfloor : ⌊(95 / 100 : ℚ) * packets.length⌋₊ = packets.length * 19 / 20 := by
    rw [show (95 / 100 : ℚ) * packets.length = ((packets.length * 19 : ℕ) : ℚ) / ((20 : ℕ) : ℚ) by
      push_cast; ring]
    exact Nat.floor_div_eq_div _ _
  have hidx : packets.length * 19 / 20 ≤ packets.length - 1 := by omega
  rw [hfloor, Nat.min_eq_left hidx, computeStats_nonempty hne,
    insertionSort_unique _ s hperm hsorted]
  have hlt : packets.length * 19 / 20 < s.length := by omega
  refine ⟨s[packets.length * 19 / 20], List.getElem?_eq_getElem hlt, ?_⟩
  simp [lengthsOf, List.getElem?_eq_getElem hlt, StatValue.ofElem]

/-- C28 at a sample of five records: index `floor(4.75) = 4` of 0, 40, 60, 576, 1500. -/
theorem computeStats_p95_witness :
    sampleStats ≠ [] ∧ [0, 40, 60, 576, 1500].Perm (lengthsOf sampleStats) ∧
    ∃ v, [0, 40, 60, 576, 1500][min ⌊(95 / 100 : ℚ) * sampleStats.length⌋₊
        (sampleStats.length - 1)]? = some v ∧ (computeStats sampleStats).p95 = .num v :=
  ⟨by decide, by decide,
    computeStats_p95 sampleStats [0, 40, 60, 576, 1500] (by decide) (by decide) (by decide)⟩

/-- C29, counterexample: past 2⁵³ the sum `total_bytes`, an IEEE double, is not
the sum of the original lengths.  For the two records of `twoBig`, of 2⁵³ bytes
and 1 byte, it is 2⁵³; for the 2097153 records of `fullLengths`, each of
2³² - 1 bytes, it is 9007203547611136, one more than the sum of the lengths. -/
theorem total_bytes_rounded :
    (computeStats twoBig).total_bytes = F64.fin ((9007199254740992 * F64.scale : Nat) : Int) ∧
    (lengthsOf twoBig).sum = 9007199254740993 ∧
    (computeStats fullLengths).total_bytes =
      F64.fin ((9007203547611136 * F64.scale : Nat) : Int) ∧
    (lengthsOf fullLengths).sum = 9007203547611135 := by
  refine ⟨by decide!, by decide!, ?_, ?_⟩
  · have hne : fullLengths ≠ [] := by
      intro h
      have := congrArg List.length h
      rw [fullLengths, List.length_replicate] at this
      cases this
    rw [computeStats_total_bytes hne, fullLengths, lengthsOf_replicate]
    exact sumF64_fullLengths
  · rw [fullLengths, lengthsOf_replicate, List.sum_replicate, smul_eq_mul]
    rfl

/-- C29, amended. Size summary: for a non-empty sequence, `max` is the largest
original length and `median` the element at index `floor(n / 2)` of the
original lengths sorted ascending, a record without original length counting
as 0; `total_bytes` is the sum of the original lengths added one by one as IEEE
doubles, which is their sum when this is below 2⁵³. -/
theorem computeStats_summary (packets : List Packet) (s : List Nat) (hne : packets ≠ [])
    (hperm : s.Perm (lengthsOf packets)) (hsorted : s.Sorted (· ≤ ·)) :
    (∃ m, (computeStats packets).max = .num m ∧ m ∈ lengthsOf packets ∧
      ∀ x ∈ lengthsOf packets, x ≤ m) ∧
    (computeStats packets).total_bytes = sumF64 (lengthsOf packets) ∧
    ((lengthsOf packets).sum < 2 ^ 53 →
      (computeStats packets).total_bytes =
        F64.fin (((lengthsOf packets).sum * F64.scale : Nat) : Int)) ∧
    (∃ v, s[packets.length / 2]? = some v ∧ (computeStats packets).median = .num v) ∧
    lengthsOf packets = packets.map fun p => p.orig_len.getD 0 := by
  have hlen : s.length = packets.length := by simpa [lengthsOf] using hperm.length_eq
  have hpos : 0 < packets.length := List.length_pos.2 hne
  have hl : lengthsOf packets ≠ [] := by
    intro h; apply hne; simpa [lengthsOf] using h
  rw [computeStats_nonempty hne, insertionSort_unique _ s hperm hsorted]
  refine ⟨⟨_, rfl, ?_, foldl_max_ge_mem _ 0⟩, rfl, fun h => sumF64_exact h, ?_, rfl⟩
  · rcases foldl_max_mem (lengthsOf packets) 0 with h | h
    · rw [h]
      obtain ⟨x, hx⟩ := List.exists_mem_of_ne_nil _ hl
      have := foldl_max_ge_mem (lengthsOf packets) 0 x hx
      rw [h] at this
      have hx0 : x = 0 := by omega
      exact hx0 ▸ hx
    · exact h
  · have hlt : packets.length / 2 < s.length := by omega
    refine ⟨s[packets.length / 2], List.getElem?_eq_getElem hlt, ?_⟩
    simp [lengthsOf, List.getElem?_eq_getElem hlt, StatValue.ofElem]

/-- C29, amended, at a sample of five records, whose lengths add up to 2176. -/
theorem computeStats_summary_witness :
    sampleStats ≠ [] ∧ (lengthsOf sampleStats).sum < 2 ^ 53 ∧
    (∃ m, (computeStats sampleStats).max = .num m ∧ m ∈ lengthsOf sampleStats ∧
      ∀ x ∈ lengthsOf sampleStats, x ≤ m) ∧
    (computeStats sampleStats).total_bytes = sumF64 (lengthsOf sampleStats) ∧
    (computeStats sampleStats).total_bytes = F64.fin ((2176 * F64.scale : Nat) : Int) ∧
    (∃ v, [0, 40, 60, 576, 1500][sampleStats.length / 2]? = some v ∧
      (computeStats sampleStats).median = .num v) ∧
    lengthsOf sampleStats = sampleStats.map fun p => p.orig_len.getD 0 :=
  have h := computeStats_summary sampleStats [0, 40, 60, 576, 1500] (by decide) (by decide)
    (by decide)
  ⟨by decide, by decide, h.1, h.2.1, h.2.2.1 (by decide), h.2.2.2⟩

/-- C30. Filter predicate: whatever `trim` and `toLowerCase` do,
`matchesFilter(p, raw)` is true if and only if `raw`, trimmed and lower-cased,
is empty or occurs in the lower-cased text of at least one of `src_ip`,
`dst_ip`, `protocol`, `src_port`, `dst_port`, `flags`, `src_mac`, `dst_mac`
(an absent field being the empty text).  Hence, when lower-casing commutes
with trimming, two queries with the same lower-casing give the same result;
and when "443" and "192.168.99" are left as they are by `trim` and
`toLowerCase`, a record with `dst_port` 443 matches "443" and a record none of
whose eight texts contains "192.168.99" does not match "192.168.99". -/
theorem matchesFilter_spec (trim toLowerCase : String → String) (p : Packet) :
    (∀ raw : String, matchesFilter trim toLowerCase p raw = true ↔
      (toLowerCase (trim raw) = "" ∨
        ∃ v ∈ filterTexts toLowerCase p, (toLowerCase (trim raw)).data <:+: v.data)) ∧
    ((∀ s, trim (toLowerCase s) = toLowerCase (trim s)) →
      ∀ raw raw' : String, toLowerCase raw = toLowerCase raw' →
        matchesFilter trim toLowerCase p raw = matchesFilter trim toLowerCase p raw') ∧
    (toLowerCase (trim "443") = "443" → toLowerCase (toString 443) = "443" →
      p.dst_port = some 443 → matchesFilter trim toLowerCase p "443" = true) ∧
    (toLowerCase (trim "192.168.99") = "192.168.99" →
      (∀ v ∈ filterTexts toLowerCase p, ¬"192.168.99".data <:+: v.data) →
      matchesFilter trim toLowerCase p "192.168.99" = false) := by
  have hiff : ∀ raw : String, matchesFilter trim toLowerCase p raw = true ↔
      (toLowerCase (trim raw) = "" ∨
        ∃ v ∈ filterTexts toLowerCase p, (toLowerCase (trim raw)).data <:+: v.data) := by
    intro raw
    rw [matchesFilter_eq]
    by_cases hq : toLowerCase (trim raw) = ""
    · simp [hq]
    · rw [if_neg hq]
      simp only [List.any_eq_true, includes, decide_eq_true_eq, hq, false_or]
  refine ⟨hiff, ?_, ?_, ?_⟩
  · intro hcomm raw raw' h
    have e : toLowerCase (trim raw) = toLowerCase (trim raw') := by
      rw [← hcomm, ← hcomm, h]
    rw [matchesFilter_eq, matchesFilter_eq, e]
  · intro h1 h2 hp
    rw [hiff, h1]
    refine Or.inr ⟨"443", ?_, List.infix_refl _⟩
    simp [filterTexts, hp, h2]
  · intro h1 hno
    cases hm : matchesFilter trim toLowerCase p "192.168.99" with
    | false => rfl
    | true =>
      exfalso
      rcases (hiff _).1 hm with h | ⟨v, hv, hin⟩
      · rw [h1] at h; exact absurd h (by decide)
      · rw [h1] at hin; exact hno v hv hin

/-- C30 with ASCII lower-casing and trimming, at the record of the sample
capture: the queries " TCP " and "tcp" give the same result, "443" matches and
"192.168.99" does not. -/
theorem matchesFilter_spec_witness :
    matchesFilter asciiTrim asciiLower samplePacket " TCP "
        = matchesFilter asciiTrim asciiLower samplePacket " tcp " ∧
      matchesFilter asciiTrim asciiLower samplePacket "443" = true ∧
      matchesFilter asciiTrim asciiLower samplePacket "192.168.99" = false :=
  ⟨(matchesFilter_spec asciiTrim asciiLower samplePacket).2.1 asciiTrim_lower " TCP " " tcp "
      (by decide),
    (matchesFilter_spec asciiTrim asciiLower samplePacket).2.2.1 (by decide) (by decide)
      (by decide),
    (matchesFilter_spec asciiTrim asciiLower samplePacket).2.2.2 (by decide) (by decide)⟩

/-- C31. Link-type handling in classic PCAP: the `i`-th record `p` returned by
`parsePCAP` was decoded from `incl` captured bytes inside the buffer that start
at `off`, 16 bytes after the `i`-th record header; with link type 101 and at
least 20 captured bytes its protocol is the protocol text of frame byte 9,
`src_ip` the dotted decimal of the frame bytes 12-15, `dst_ip` that of the
bytes 16-19, and it has no MAC, port or flags key; with a link type other than
1 and 101, or with link type 101 and fewer than 20 bytes, the record has
protocol "RAW" and only the timestamp and the two lengths. -/
theorem link_type_handling (buffer : Buffer) (l : List Packet) (h : parsePCAP buffer = .ok l)
    (i : Nat) (p : Packet) (hp : l[i]? = some p) :
    ∃ off incl : Nat, off = recordOffset buffer (pcapLE buffer) 24 i + 16 ∧
      p.incl_len = some incl ∧ off + incl ≤ buffer.length ∧
      (pcapLinkType buffer = 101 → 20 ≤ incl →
        p.protocol = some (protocolText (byteAt buffer (off + 9))) ∧
        p.src_ip = some (dottedDecimal (byteAt buffer (off + 12)) (byteAt buffer (off + 13))
          (byteAt buffer (off + 14)) (byteAt buffer (off + 15))) ∧
        p.dst_ip = some (dottedDecimal (byteAt buffer (off + 16)) (byteAt buffer (off + 17))
          (byteAt buffer (off + 18)) (byteAt buffer (off + 19))) ∧
        p.src_mac = none ∧ p.dst_mac = none ∧ p.src_port = none ∧ p.dst_port = none ∧
        p.flags = none) ∧
      ((pcapLinkType buffer ≠ 1 ∧ pcapLinkType buffer ≠ 101) ∨
          (pcapLinkType buffer = 101 ∧ incl < 20) →
        ∃ ts orig, p = rawRecord ts incl orig) := by
  have hlt : i < l.length := (List.getElem?_eq_some_iff.1 hp).1
  obtain ⟨hfit, hrec⟩ := parsePCAP_records h i hlt
  rw [hp] at hrec
  have hp' := Option.some.inj hrec
  generalize recordOffset buffer (pcapLE buffer) 24 i = r at hfit hp'
  obtain ⟨-, -, f3⟩ := hfit
  refine ⟨r + 16, u32 buffer (r + 8) (pcapLE buffer), rfl, ?_, by omega, fun h101 h20 => ?_,
    fun hother => ?_⟩
  · rw [hp']
    exact (pcapRecord_keys (pcapRecord_ok (by omega))).1
  · rw [hp', h101, pcapFields_raw101 _ _ _ _ _ _ h20, protoName_eq]
    exact ⟨rfl, rfl, rfl, rfl, rfl, rfl, rfl, rfl⟩
  · rw [hp', pcapFields_other _ _ _ _ _ _ _ hother]
    exact ⟨_, _, rfl⟩

/-- C31 at `rawIpCapture` (link type 101: a record of 28 bytes, decoded as UDP
from 10.0.0.1 to 10.0.0.2, and one of 4 bytes, left "RAW") and at
`otherLinkCapture` (link type 147). -/
theorem link_type_handling_witness :
    parsePCAP rawIpCapture = .ok [rawIpPacket, rawRecord (.pcap 3 4) 4 4] ∧
    parsePCAP otherLinkCapture = .ok [rawRecord (.pcap 1 2) 28 28] ∧
    pcapLinkType rawIpCapture = 101 ∧ pcapLinkType otherLinkCapture = 147 ∧
    rawIpPacket.protocol = some (protocolText (byteAt rawIpCapture (40 + 9))) ∧
    (∃ off incl : Nat, off = recordOffset rawIpCapture (pcapLE rawIpCapture) 24 1 + 16 ∧
      (rawRecord (.pcap 3 4) 4 4).incl_len = some incl ∧ off + incl ≤ rawIpCapture.length ∧
      ((pcapLinkType rawIpCapture ≠ 1 ∧ pcapLinkType rawIpCapture ≠ 101) ∨
          (pcapLinkType rawIpCapture = 101 ∧ incl < 20) →
        ∃ ts orig, rawRecord (.pcap 3 4) 4 4 = rawRecord ts incl orig)) ∧
    (∃ off incl : Nat, off = recordOffset otherLinkCapture (pcapLE otherLinkCapture) 24 0 + 16 ∧
      (rawRecord (.pcap 1 2) 28 28).incl_len = some incl ∧
      ((pcapLinkType otherLinkCapture ≠ 1 ∧ pcapLinkType otherLinkCapture ≠ 101) ∨
          (pcapLinkType otherLinkCapture = 101 ∧ incl < 20) →
        ∃ ts orig, rawRecord (.pcap 1 2) 28 28 = rawRecord ts incl orig)) := by
  refine ⟨by decide, by decide, by decide, by decide, ?_, ?_, ?_⟩
  · obtain ⟨off, incl, hoff, hincl, -, h101, -⟩ :=
      link_type_handling rawIpCapture [rawIpPacket, rawRecord (.pcap 3 4) 4 4] (by decide) 0
        rawIpPacket (by decide)
    have h40 : off = 40 := hoff.trans (by decide)
    have h28 : incl = 28 := (Option.some.inj hincl).symm
    subst h40
    exact (h101 (by decide) (by omega)).1
  · obtain ⟨off, incl, hoff, hincl, hfit, -, hraw⟩ :=
      link_type_handling rawIpCapture [rawIpPacket, rawRecord (.pcap 3 4) 4 4] (by decide) 1
        (rawRecord (.pcap 3 4) 4 4) (by decide)
    exact ⟨off, incl, hoff, hincl, hfit, hraw⟩
  · obtain ⟨off, incl, hoff, hincl, -, -, hraw⟩ :=
      link_type_handling otherLinkCapture [rawRecord (.pcap 1 2) 28 28] (by decide) 0
        (rawRecord (.pcap 1 2) 28 28) (by decide)
    exact ⟨off, incl, hoff, hincl, hraw⟩

/-- C32. Ethernet/IPv4 header decode: for every Ethernet frame of at least 34
bytes with ethertype bytes 08 00, the record has `dst_mac` from the frame bytes
0-5 and `src_mac` from the bytes 6-11 (six two-digit lowercase hexadecimal
groups joined by colons), `ttl` = byte 22, `protocol` from byte 23, `ip_len` =
big-endian bytes 16-17, `src_ip` = dotted decimal of the bytes 26-29 and
`dst_ip` = dotted decimal of the bytes 30-33; with the same ethertype and 14 to
33 bytes only the MACs and the ethertype are decoded and the record's protocol
stays "RAW". -/
theorem ipv4_header_decode (view : Buffer) (o n : Nat) :
    (IsIPv4Frame view o n → ∃ e, parseEthernet view o n = .ok (some e) ∧
      e.dst_mac = some (macText view o) ∧ e.src_mac = some (macText view (o + 6)) ∧
      e.ttl = some (byteAt view (o + 22)) ∧
      e.protocol = some (protocolText (byteAt view (o + 23))) ∧
      e.ip_len = some (byteAt view (o + 16) * 256 + byteAt view (o + 17)) ∧
      e.src_ip = some (dottedDecimal (byteAt view (o + 26)) (byteAt view (o + 27))
        (byteAt view (o + 28)) (byteAt view (o + 29))) ∧
      e.dst_ip = some (dottedDecimal (byteAt view (o + 30)) (byteAt view (o + 31))
        (byteAt view (o + 32)) (byteAt view (o + 33)))) ∧
    (o + n ≤ view.length → u16 view (o + 12) false = 0x0800 → 14 ≤ n → n < 34 →
      parseEthernet view o n =
        .ok (some { src_mac := some (macText view (o + 6)), dst_mac := some (macText view o),
                    ethertype := some 0x0800 }) ∧
      (∀ s u orig, pcapRecord view 1 o s u n orig =
        .ok { ts := some (.pcap s u), orig_len := some orig, incl_len := some n,
              protocol := some "RAW", src_mac := some (macText view (o + 6)),
              dst_mac := some (macText view o), ethertype := some 0x0800 }) ∧
      ∀ hi lo orig, epbRecord view o hi lo n orig =
        .ok { ts := some (.pcapng hi lo), orig_len := some orig, incl_len := some n,
              protocol := some "RAW", src_mac := some (macText view (o + 6)),
              dst_mac := some (macText view o), ethertype := some 0x0800 }) ∧
    ∀ k, ∃ gs : List String, macText view k = ":".intercalate gs ∧
      List.Forall₂ IsHexPair gs
        [byteAt view k, byteAt view (k + 1), byteAt view (k + 2), byteAt view (k + 3),
          byteAt view (k + 4), byteAt view (k + 5)] := by
  refine ⟨fun h => ?_, fun hin het h14 h34 => ?_, macText_groups view⟩
  · obtain ⟨e, he, h1, h2, -, h4, h5, h6, h7, h8⟩ := ethFields_ipv4_header h
    refine ⟨e, by rw [parseEthernet_ok h.1, he], h1, h2, h4, by rw [h5, protoName_eq], h6,
      h7, h8⟩
  · have he : ethFields view o n =
        some { src_mac := some (macText view (o + 6)), dst_mac := some (macText view o),
               ethertype := some 0x0800 } := ethFields_ipv4_short het h14 h34
    refine ⟨by rw [parseEthernet_ok hin, he], fun s u orig => ?_, fun hi lo orig => ?_⟩
    · rw [pcapRecord_ok hin]
      unfold pcapFields
      simp only []
      rw [if_pos trivial, he]
      rfl
    · rw [epbRecord_ok hin]
      unfold epbFields
      simp only []
      rw [he]
      rfl

/-- C32 at the frame of the sample capture and at its first 20 bytes. -/
theorem ipv4_header_decode_witness :
    IsIPv4Frame sampleFrame 0 54 ∧
    (∃ e, parseEthernet sampleFrame 0 54 = .ok (some e) ∧
      e.dst_mac = some "01:02:03:04:05:06" ∧ e.src_mac = some "07:08:09:0a:0b:ab" ∧
      e.ttl = some 64 ∧ e.protocol = some "TCP" ∧ e.ip_len = some 40 ∧
      e.src_ip = some "192.168.1.10" ∧ e.dst_ip = some "142.250.80.46") ∧
    0 + 20 ≤ shortIPv4Frame.length ∧ u16 shortIPv4Frame (0 + 12) false = 0x0800 ∧
    pcapRecord shortIPv4Frame 1 0 1 2 20 20 =
      .ok { ts := some (.pcap 1 2), orig_len := some 20, incl_len := some 20,
            protocol := some "RAW", src_mac := some "07:08:09:0a:0b:ab",
            dst_mac := some "01:02:03:04:05:06", ethertype := some 0x0800 } := by
  refine ⟨by decide, ?_, by decide, by decide, ?_⟩
  · obtain ⟨e, he, h1, h2, h3, h4, h5, h6, h7⟩ :=
      (ipv4_header_decode sampleFrame 0 54).1 (by decide)
    exact ⟨e, he, h1.trans (by decide), h2.trans (by decide), h3.trans (by decide),
      h4.trans (by decide), h5.trans (by decide), h6.trans (by decide), h7.trans (by decide)⟩
  · exact (((ipv4_header_decode shortIPv4Frame 0 20).2.1 (by decide) (by decide) (by decide)
      (by decide)).2.1 1 2 20).trans (by decide)

/-- C33. Captured-length acceptance bound: in classic PCAP a record whose
captured length is exactly 65535 and whose bytes fit in the buffer is decoded
(the iteration of the loop appends its record and goes on after it); in PCAPNG
an Enhanced Packet Block whose captured length is exactly 65535 adds no record,
even when its bytes fit; an Enhanced Packet Block whose 28-byte head is inside
the buffer adds a record if and only if its captured length is below 65535 and
block offset + 28 + captured length is at most the buffer length. -/
theorem captured_length_bound (view : Buffer) (le : Bool) (off : Nat) :
    (∀ lt fuel acc, off + 16 ≤ view.length → u32 view (off + 8) le = 65535 →
      off + 16 + 65535 ≤ view.length →
      parsePCAP.loop view le lt (fuel + 1) off acc =
        parsePCAP.loop view le lt fuel (off + 16 + 65535)
          (acc ++ [pcapFields view lt (off + 16) (u32 view off le) (u32 view (off + 4) le)
            65535 (u32 view (off + 12) le)])) ∧
    (∀ acc, off + 28 ≤ view.length → u32 view (off + 20) le = 65535 →
      epbBlock view off le acc = .ok acc) ∧
    (∀ acc, off + 28 ≤ view.length →
      ((∃ p, epbBlock view off le acc = .ok (acc ++ [p])) ↔
        (u32 view (off + 20) le < 65535 ∧ off + 28 + u32 view (off + 20) le ≤ view.length)) ∧
      (¬(u32 view (off + 20) le < 65535 ∧ off + 28 + u32 view (off + 20) le ≤ view.length) →
        epbBlock view off le acc = .ok acc)) := by
  refine ⟨fun lt fuel acc h16 h65 hfit => ?_, fun acc h28 h65 => ?_, fun acc h28 => ⟨?_, ?_⟩⟩
  · have hf : recordFits view le off := ⟨h16, by omega, by omega⟩
    rw [parsePCAP_loop_fits view le lt fuel off acc hf, h65]
  · rw [epbBlock_ok acc h28, if_neg (by omega)]
  · rw [epbBlock_ok acc h28]
    constructor
    · rintro ⟨p, hp⟩
      by_contra hc
      rw [if_neg (fun c => hc ⟨c.2, c.1⟩)] at hp
      have := congrArg List.length (Except.ok.inj hp)
      simp at this
    · intro hc
      rw [if_pos ⟨hc.2, hc.1⟩]
      exact ⟨_, rfl⟩
  · intro hc
    rw [epbBlock_ok acc h28, if_neg (fun c => hc ⟨c.2, c.1⟩)]

/-- C33 at `fullRecordCapture` (the record at 24 declares 65535 bytes and is
decoded) and at `fullBlockCapture` (the block at 28 declares 65535 bytes and
adds nothing). -/
theorem captured_length_bound_witness :
    24 + 16 ≤ fullRecordCapture.length ∧ u32 fullRecordCapture (24 + 8) false = 65535 ∧
    24 + 16 + 65535 ≤ fullRecordCapture.length ∧
    parsePCAP.loop fullRecordCapture false 147 (0 + 1) 24 [] =
      parsePCAP.loop fullRecordCapture false 147 0 (24 + 16 + 65535)
        ([] ++ [pcapFields fullRecordCapture 147 (24 + 16) (u32 fullRecordCapture 24 false)
          (u32 fullRecordCapture (24 + 4) false) 65535 (u32 fullRecordCapture (24 + 12) false)]) ∧
    28 + 28 ≤ fullBlockCapture.length ∧ u32 fullBlockCapture (28 + 20) true = 65535 ∧
    28 + 28 + 65535 ≤ fullBlockCapture.length ∧
    epbBlock fullBlockCapture 28 true [] = .ok [] := by
  have h1 : fullRecordCapture.length = 65575 := by
    rw [fullRecordCapture, List.length_append, List.length_replicate]
    rfl
  have h2 : fullBlockCapture.length = 65596 := by
    rw [fullBlockCapture, List.length_append, List.length_append, List.length_replicate]
    rfl
  have h3 : u32 fullRecordCapture (24 + 8) false = 65535 :=
    (u32_append_left (by decide : 24 + 8 + 4 ≤ fullRecordHead.length) _ false).trans (by decide)
  have h4 : u32 fullBlockCapture (28 + 20) true = 65535 :=
    (u32_append_left (by decide : 28 + 20 + 4 ≤ fullBlockHead.length) _ true).trans (by decide)
  exact ⟨by omega, h3, by omega,
    (captured_length_bound fullRecordCapture false 24).1 147 0 [] (by omega) h3 (by omega),
    by omega, h4, by omega,
    (captured_length_bound fullBlockCapture true 28).2.1 [] (by omega) h4⟩

/-- C34. `parsePCAPNG` and `parsePCAP` terminate on every buffer: every
iteration of the block loop on a block that passes the check moves the offset
forward by at least 1, because a length that is at least 12 in one byte order
is not 0 in the other; every iteration of the record loop moves the offset
forward by at least 16; so neither loop reaches the bound of the embedding
(`buffer.length + 1` iterations), and any larger bound gives the same result. -/
theorem parsers_terminate (buffer : Buffer) :
    (∀ off le, blockFits buffer le off → off + 1 ≤ (nextBlock buffer off le).1) ∧
    (∀ o le, 12 ≤ u32 buffer o le → u32 buffer o (!le) ≠ 0) ∧
    (∀ off le, off + 16 ≤ nextRecord buffer le off) ∧
    parsePCAPNG buffer ≠ .error .fuel ∧ parsePCAP buffer ≠ .error .fuel ∧
    (∀ fuel, buffer.length + 1 ≤ fuel →
      parsePCAPNG.loop buffer fuel 0 true [] = parsePCAPNG buffer) ∧
    (∀ le lt fuel, buffer.length + 1 ≤ fuel →
      parsePCAP.loop buffer le lt fuel 24 [] =
        parsePCAP.loop buffer le lt (buffer.length + 1) 24 [] ∧
      parsePCAP.loop buffer le lt fuel 24 [] ≠ .error .fuel) := by
  refine ⟨fun off le h => nextBlock_gt h, u32_swap_ne_zero buffer,
    fun off le => by unfold nextRecord; omega, fun h => ?_, parsePCAP_not_fuel buffer,
    fun fuel hf => ?_, fun le lt fuel hf => ⟨?_, ?_⟩⟩
  · have := parsePCAPNG_onlyRange buffer _ h
    cases this
  · obtain ⟨k, rfl⟩ : ∃ k, fuel = buffer.length + 1 + k := ⟨fuel - (buffer.length + 1), by omega⟩
    exact parsePCAPNG_loop_fuel_add buffer (buffer.length + 1) 0 true [] (by omega) (by omega) k
  · obtain ⟨k, rfl⟩ : ∃ k, fuel = buffer.length + 1 + k := ⟨fuel - (buffer.length + 1), by omega⟩
    exact parsePCAP_loop_fuel_add buffer le lt (buffer.length + 1) 24 [] (by omega) (by omega) k
  · exact parsePCAP_loop_not_fuel buffer le lt fuel 24 [] (by omega) (by omega)

/-- C34 at `swapCapture`, whose Section Header Block switches the byte order
(the length 28 is read again as 469762048), at `skipCapture` and at
`samplePcap`. -/
theorem parsers_terminate_witness :
    blockFits swapCapture true 0 ∧ (nextBlock swapCapture 0 true).1 = 469762048 ∧
    0 + 1 ≤ (nextBlock swapCapture 0 true).1 ∧
    12 ≤ u32 swapCapture 4 true ∧ u32 swapCapture 4 (!true) ≠ 0 ∧
    parsePCAPNG swapCapture = .ok [] ∧
    skipCapture.length + 1 ≤ 1000 ∧
    parsePCAPNG.loop skipCapture 1000 0 true [] = parsePCAPNG skipCapture ∧
    samplePcap.length + 1 ≤ 1000 ∧
    parsePCAP.loop samplePcap false 1 1000 24 [] =
      parsePCAP.loop samplePcap false 1 (samplePcap.length + 1) 24 [] ∧
    parsePCAP.loop samplePcap false 1 1000 24 [] ≠ .error .fuel :=
  ⟨by decide, by decide, (parsers_terminate swapCapture).1 0 true (by decide), by decide,
    (parsers_terminate swapCapture).2.1 4 true (by decide), by decide, by decide,
    (parsers_terminate skipCapture).2.2.2.2.2.1 1000 (by decide), by decide,
    ((parsers_terminate samplePcap).2.2.2.2.2.2 false 1 1000 (by decide)).1,
    ((parsers_terminate samplePcap).2.2.2.2.2.2 false 1 1000 (by decide)).2⟩

/-- C35. `parseEthernet` stays inside the frame: when the `pktLen` bytes at `o`
are inside the buffer, `parseEthernet` raises no range error; it returns what
it returns on the buffer that holds these `pktLen` bytes and nothing else,
where a read outside the frame would be a range error; and it returns the same
for any other buffer and offset that hold the same `pktLen` bytes. -/
theorem parseEthernet_in_frame (view : Buffer) (o n : Nat) (h : o + n ≤ view.length) :
    (∃ r, parseEthernet view o n = .ok r) ∧
    (frameOf view o n).length = n ∧
    parseEthernet view o n = parseEthernet (frameOf view o n) 0 n ∧
    ∀ (other : Buffer) (o' : Nat), Agree view o other o' n →
      parseEthernet other o' n = parseEthernet view o n :=
  ⟨parseEthernet_isOk h, frameOf_length h, parseEthernet_congr (agree_frameOf view o n),
    fun _ _ hagree => (parseEthernet_congr hagree).symm⟩

/-- C35 at the frame of the sample capture: the 54 bytes at offset 40 of
`samplePcap` are those of `sampleFrame`. -/
theorem parseEthernet_in_frame_witness :
    40 + 54 ≤ samplePcap.length ∧ frameOf samplePcap 40 54 = sampleFrame ∧
    Agree samplePcap 40 sampleFrame 0 54 ∧
    (∃ r, parseEthernet samplePcap 40 54 = .ok r) ∧
    parseEthernet samplePcap 40 54 = parseEthernet (frameOf samplePcap 40 54) 0 54 ∧
    parseEthernet sampleFrame 0 54 = parseEthernet samplePcap 40 54 :=
  ⟨by decide, by decide, by decide, (parseEthernet_in_frame samplePcap 40 54 (by decide)).1,
    (parseEthernet_in_frame samplePcap 40 54 (by decide)).2.2.1,
    (parseEthernet_in_frame samplePcap 40 54 (by decide)).2.2.2 sampleFrame 0 (by decide)⟩

/-- C36. For every buffer of at least 24 bytes, `parsePCAP` performs every
read inside the buffer and returns a list of records without raising, and the
list has at most `floor((byteLength - 24) / 16)` records; when the buffer
begins with a classic-PCAP magic this list is what `parseFile` returns. -/
theorem parsePCAP_record_count (buffer : Buffer) (h24 : 24 ≤ buffer.length) :
    ∃ l, parsePCAP buffer = .ok l ∧ l.length ≤ (buffer.length - 24) / 16 ∧
      (u32 buffer 0 false = 0xA1B2C3D4 ∨ u32 buffer 0 false = 0xD4C3B2A1 →
        parseFile buffer = .ok (some l)) := by
  obtain ⟨l, hl⟩ := parsePCAP_isOk h24
  refine ⟨l, hl, ?_, fun hm => ?_⟩
  · rcases Nat.eq_zero_or_pos l.length with h0 | hpos
    · rw [h0]; exact Nat.zero_le _
    · obtain ⟨hfit, -⟩ := (parsePCAP_spec hl).1 (l.length - 1) (by omega)
      have hge := recordOffset_ge buffer (pcapLE buffer) 24 (l.length - 1)
      have h16 := hfit.1
      rw [Nat.le_div_iff_mul_le (by decide)]
      omega
  · rw [parseFile_classic (by omega) hm, hl]
    rfl

/-- C36 at the sample capture: 94 bytes, one record, at most 4. -/
theorem parsePCAP_record_count_witness :
    24 ≤ samplePcap.length ∧ (samplePcap.length - 24) / 16 = 4 ∧
    u32 samplePcap 0 false = 0xA1B2C3D4 ∧
    ∃ l, parsePCAP samplePcap = .ok l ∧ l.length ≤ (samplePcap.length - 24) / 16 ∧
      (u32 samplePcap 0 false = 0xA1B2C3D4 ∨ u32 samplePcap 0 false = 0xD4C3B2A1 →
        parseFile samplePcap = .ok (some l)) :=
  ⟨by decide, by decide, by decide, parsePCAP_record_count samplePcap (by decide)⟩

/-- C37, counterexample: the six records of `inheritedBurst` have the source
text "constructor", which occurs in more than 5 records and has the largest
count; for this name the lookup in `ipCounts` finds an inherited function, the
count becomes a text and `maxIP` is `NaN`, and `detectAnomalies` returns the
empty sequence. -/
theorem inherited_name_unflagged :
    ("constructor" ≠ "" ∧ 5 < sourceCount inheritedBurst "constructor") ∧
    sourceCount inheritedBurst "constructor" = busiestCount inheritedBurst ∧
    maxIPOf inheritedBurst = none ∧
    detectAnomalies inheritedBurst = [] := by
  decide!

/-- C37, amended. The busiest source is flagged when no source text is a
property name inherited from `Object.prototype` (as no address text is): for
every such packet sequence in which some source address occurs in more than 5
records, every record whose source has the largest record count has a finding
with the high-volume reason, a score of at least 0.3 and a severity of at least
"medium"; so the result of `detectAnomalies` is not empty. -/
theorem busiest_flagged (packets : List Packet) (hown : OwnNames packets)
    (hbusy : ∃ s, s ≠ "" ∧ 5 < sourceCount packets s) :
    (∀ i p, packets[i]? = some p → hasSource p = true →
      sourceCount packets (p.src_ip.getD "") = busiestCount packets →
      ∃ f ∈ detectAnomalies packets, f.idx = i ∧
        REASON_TEXT.high_volume (busiestCount packets) ∈ f.reasons ∧ 300 ≤ f.score ∧
        1 ≤ severityRank f.severity) ∧
    detectAnomalies packets ≠ [] := by
  obtain ⟨s, hne, hcount⟩ := hbusy
  have h5 := busiestCount_gt hne hcount
  have key : ∀ i p, packets[i]? = some p → hasSource p = true →
      sourceCount packets (p.src_ip.getD "") = busiestCount packets →
      ∃ f ∈ detectAnomalies packets, f.idx = i ∧
        REASON_TEXT.high_volume (busiestCount packets) ∈ f.reasons ∧ 300 ≤ f.score ∧
        1 ≤ severityRank f.severity := by
    intro i p hp hs hmax
    obtain ⟨hreason, hscore⟩ :=
      high_volume_fires hown (List.mem_iff_getElem?.2 ⟨i, hp⟩) hs hmax h5
    have hsrc : isFalsy p.src_ip = false := by simpa [hasSource] using hs
    have hne0 : (applyRules (aggOf packets) (lengthsOf packets) (maxIPOf packets) p).2 ≠ 0 := by
      omega
    obtain ⟨f, hf⟩ := evalPacket_isSome i hsrc hne0
    have hfa : findingAt packets i p = some f := hf
    obtain ⟨hin, hidx⟩ := (mem_detectAnomalies_idx hp f).2 hfa
    obtain ⟨-, -, -, hr, hsc, -, hsev⟩ := evalPacket_eq_some hfa
    have h300 : 300 ≤ f.score := by
      rw [hsc]
      exact Nat.le_min.2 ⟨hscore, by decide⟩
    refine ⟨f, hin, hidx, by rw [hr]; exact hreason, h300, ?_⟩
    rw [hsev]
    exact severityRank_mono h300
  refine ⟨key, ?_⟩
  have hpos : 0 < busiestCount packets := by omega
  obtain ⟨q, hq, hs, hmax⟩ := busiestCount_attained hpos
  obtain ⟨i, hi⟩ := List.mem_iff_getElem?.1 hq
  obtain ⟨f, hf, -⟩ := key i q hi hs hmax
  exact List.ne_nil_of_mem hf

/-- C37, amended, at six records of `samplePacket`: the first one is flagged as
high volume. -/
theorem busiest_flagged_witness :
    OwnNames (synBurst 6) ∧
    ("192.168.1.10" ≠ "" ∧ 5 < sourceCount (synBurst 6) "192.168.1.10") ∧
    (synBurst 6)[0]? = some samplePacket ∧ hasSource samplePacket = true ∧
    sourceCount (synBurst 6) (samplePacket.src_ip.getD "") = busiestCount (synBurst 6) ∧
    (∃ f ∈ detectAnomalies (synBurst 6), f.idx = 0 ∧
      REASON_TEXT.high_volume (busiestCount (synBurst 6)) ∈ f.reasons ∧ 300 ≤ f.score ∧
      1 ≤ severityRank f.severity) ∧
    detectAnomalies (synBurst 6) ≠ [] :=
  ⟨by decide, by decide, by decide, by decide, by decide,
    (busiest_flagged (synBurst 6) (by decide) ⟨"192.168.1.10", by decide, by decide⟩).1 0
      samplePacket (by decide) (by decide) (by decide),
    (busiest_flagged (synBurst 6) (by decide) ⟨"192.168.1.10", by decide, by decide⟩).2⟩

/-- C38, counterexample. The capture `framesCapture 9` has 10 records, one
frame of 1514 bytes and nine of 60 bytes; in exact arithmetic the large frame
is exactly 3 standard deviations from the mean and is not a size outlier, but
the code, which computes in doubles, finds the ratio above 3: its result has a
finding for this record with the size-outlier reason. -/
theorem ten_frames_flagged :
    (framesCapture 9).length = 10 ∧
    ¬SizeOutlier (lengthsOf (framesCapture 9)) (origLenOr0 fullFrame) ∧
    9 * (((lengthsOf (framesCapture 9)).length : Int) *
          ((((lengthsOf (framesCapture 9)).map fun b => b * b).sum : Nat) : Int) -
        (((lengthsOf (framesCapture 9)).sum : Nat) : Int) ^ 2) =
      (((lengthsOf (framesCapture 9)).length : Int) * 1514 -
        (((lengthsOf (framesCapture 9)).sum : Nat) : Int)) ^ 2 ∧
    zAbove3 (lengthsOf (framesCapture 9)) (origLenOr0 fullFrame) = true ∧
    ∃ f ∈ detectAnomalies (framesCapture 9), f.idx = 0 ∧ f.packet = fullFrame ∧
      REASON_TEXT.size_outlier ∈ f.reasons := by
  have hz : zAbove3 (lengthsOf (framesCapture 9)) (origLenOr0 fullFrame) = true := by decide!
  refine ⟨by decide, fun hout => ?_, by decide, hz, ?_⟩
  · have := (exactAbove3_iff _ _).2 hout
    rw [exactAbove3_small _ _
      (origLenOr0_mem (by decide : fullFrame ∈ framesCapture 9)) (by decide)] at this
    cases this
  · obtain ⟨f, hf, hidx, hreason⟩ :=
      size_finding (by decide : (framesCapture 9)[0]? = some fullFrame) (by decide) hz
    have hfa := (mem_detectAnomalies_idx
      (by decide : (framesCapture 9)[0]? = some fullFrame) f).1 ⟨hf, hidx⟩
    exact ⟨f, hf, hidx, (evalPacket_eq_some hfa).2.1, hreason⟩

/-- C38, amended. The size-outlier rule on small captures: for every packet
sequence of at most 10 records, in exact arithmetic no record satisfies
`std > 0` and `|size - mean| / std > 3` with the population standard deviation,
because, whatever the number `n` of records,
`(n · size - sum)² ≤ (n - 1) · (n · sumOfSquares - sum²)`, which is
`|size - mean| ≤ std · sqrt(n - 1)`.  The code computes the ratio in doubles:
when the sequence has at most 9 records, with lengths below 2³², no finding
carries the size-outlier reason (with 10 records the exact ratio can be 3 and
the computed one above 3).  The capture `mixedCapture` of 11 records has a
finding with the size-outlier reason. -/
theorem size_rule_small (packets : List Packet) (h : packets.length ≤ 10) :
    (∀ p ∈ packets, ¬SizeOutlier (lengthsOf packets) (origLenOr0 p)) ∧
    (packets.length ≤ 9 → SmallLengths (lengthsOf packets) →
      ∀ f ∈ detectAnomalies packets, REASON_TEXT.size_outlier ∉ f.reasons) ∧
    (∀ p ∈ packets,
      (((lengthsOf packets).length : Int) * (origLenOr0 p : Int) -
          (((lengthsOf packets).sum : Nat) : Int)) ^ 2 ≤
        (((lengthsOf packets).length : Int) - 1) *
          (((lengthsOf packets).length : Int) *
              ((((lengthsOf packets).map fun b => b * b).sum : Nat) : Int) -
            (((lengthsOf packets).sum : Nat) : Int) ^ 2)) ∧
    mixedCapture.length = 11 ∧
    ∃ f ∈ detectAnomalies mixedCapture, REASON_TEXT.size_outlier ∈ f.reasons := by
  have hlen : (lengthsOf packets).length = packets.length := by
    unfold lengthsOf
    rw [List.length_map]
  refine ⟨fun p hp hout => ?_, fun h9 hsmall f hf hreason => ?_, fun p hp => ?_, by decide, ?_⟩
  · have := (exactAbove3_iff _ _).2 hout
    rw [exactAbove3_small _ _ (origLenOr0_mem hp) (by rw [hlen]; exact h)] at this
    cases this
  · obtain ⟨i, p, hp, hfa⟩ := mem_detectAnomalies.1 hf
    rw [(evalPacket_eq_some hfa).2.2.2.1] at hreason
    have := (size_outlier_mem_reasons _ _ _ _).1 hreason
    rw [zAbove3_small (by rw [hlen]; exact h9) hsmall
      (origLenOr0_mem (List.mem_iff_getElem?.2 ⟨i, hp⟩))] at this
    cases this
  · exact deviation_bound _ _ (origLenOr0_mem hp)
  · have hz : zAbove3 (lengthsOf mixedCapture) (origLenOr0 bigPacket) = true := by decide!
    obtain ⟨f, hf, -, hreason⟩ :=
      size_finding (by decide : mixedCapture[0]? = some bigPacket) (by decide) hz
    exact ⟨f, hf, hreason⟩

/-- C38, amended, at `framesCapture 8`: the frame of 1514 bytes among eight
of 60 bytes is not a size outlier, and the capture has no finding with the
size-outlier reason. -/
theorem size_rule_small_witness :
    (framesCapture 8).length ≤ 10 ∧ fullFrame ∈ framesCapture 8 ∧
    ¬SizeOutlier (lengthsOf (framesCapture 8)) (origLenOr0 fullFrame) ∧
    (framesCapture 8).length ≤ 9 ∧ SmallLengths (lengthsOf (framesCapture 8)) ∧
    (∀ f ∈ detectAnomalies (framesCapture 8), REASON_TEXT.size_outlier ∉ f.reasons) :=
  ⟨by decide, by decide,
    (size_rule_small (framesCapture 8) (by decide)).1 fullFrame (by decide),
    by decide, by decide,
    (size_rule_small (framesCapture 8) (by decide)).2.1 (by decide) (by decide)⟩
/-- C39. Order of the size summary: for every non-empty packet sequence of `n`
records, with `s` the original lengths sorted ascending, `computeStats` returns
numbers `median ≤ p95 ≤ max`; the index `floor(0.95 · n)` is at most `n - 1`,
so `p95` is the element of `s` at that index and the fallback to the last
sorted element is never taken. -/
theorem summary_order (packets : List Packet) (s : List Nat) (hne : packets ≠ [])
    (hperm : s.Perm (lengthsOf packets)) (hsorted : s.Sorted (· ≤ ·)) :
    ∃ m p x : Nat, (computeStats packets).median = .num m ∧
      (computeStats packets).p95 = .num p ∧ (computeStats packets).max = .num x ∧
      m ≤ p ∧ p ≤ x ∧
      ⌊(95 / 100 : ℚ) * packets.length⌋₊ ≤ packets.length - 1 ∧
      s[⌊(95 / 100 : ℚ) * packets.length⌋₊]? = some p ∧ s[packets.length / 2]? = some m := by
  have hlen : s.length = packets.length := by simpa [lengthsOf] using hperm.length_eq
  have hlen' : (lengthsOf packets).length = packets.length := by simp [lengthsOf]
  have hpos : 0 < packets.length := List.length_pos.2 hne
  have h95 : packets.length * 19 / 20 < s.length := by omega
  have h50 : packets.length / 2 < s.length := by omega
  have hle : packets.length / 2 ≤ packets.length * 19 / 20 := by omega
  rw [floor_95, computeStats_nonempty hne, insertionSort_unique _ s hperm hsorted, hlen']
  refine ⟨s.get ⟨packets.length / 2, h50⟩, s.get ⟨packets.length * 19 / 20, h95⟩,
    (lengthsOf packets).foldl max 0, ?_, ?_, rfl, sorted_getElem_le hsorted hle h95, ?_,
    by omega, List.getElem?_eq_getElem h95, List.getElem?_eq_getElem h50⟩
  · show StatValue.ofElem s[packets.length / 2]? = _
    rw [List.getElem?_eq_getElem h50]
    rfl
  · show StatValue.ofElem (s[packets.length * 19 / 20]? <|> s[packets.length - 1]?) = _
    rw [List.getElem?_eq_getElem h95]
    rfl
  · apply foldl_max_ge_mem
    exact hperm.mem_iff.1 (List.get_mem s _ _)

/-- C39 at a sample of five records: median 60, p95 1500, max 1500. -/
theorem summary_order_witness :
    sampleStats ≠ [] ∧ [0, 40, 60, 576, 1500].Perm (lengthsOf sampleStats) ∧
    ∃ m p x : Nat, (computeStats sampleStats).median = .num m ∧
      (computeStats sampleStats).p95 = .num p ∧ (computeStats sampleStats).max = .num x ∧
      m ≤ p ∧ p ≤ x ∧
      ⌊(95 / 100 : ℚ) * sampleStats.length⌋₊ ≤ sampleStats.length - 1 ∧
      [0, 40, 60, 576, 1500][⌊(95 / 100 : ℚ) * sampleStats.length⌋₊]? = some p ∧
      [0, 40, 60, 576, 1500][sampleStats.length / 2]? = some m :=
  ⟨by decide, by decide,
    summary_order sampleStats [0, 40, 60, 576, 1500] (by decide) (by decide) (by decide)⟩

end LogParser
